import Mathlib

/-!
# Sphinx mining node: shallow embedding of the round / proof-confirmation core

The Go sources are embedded as pure functions over explicit state.  Hashes and
addresses are natural numbers, byte strings are lists of naturals, Go maps
(`sync.Map`, `map[..]`) are association lists, `set.Set` is a duplicate-free
list.  The cryptographic primitives and encoders the repository takes from its
`common/...` packages (keccak, sha3, RLP, ecrecover, the merkle tree) are the
fields of `Env`: every definition that uses one takes the environment as its
first argument.

Part I holds the definitions, Part II the theorems.
-/

set_option autoImplicit false

namespace Sphinx

/-! ## Part I: definitions -/

/-! ### Basic types -/

abbrev Hash := Nat
abbrev Address := Nat
abbrev Bytes := List Nat

/-- External primitives used by the embedded code (`common/crypto`, `common/rlp`,
`common/merkletree`, the signer installed by `Authorize`). -/
structure Env where
  /-- `sha3.NewKeccak256` over a byte string. -/
  keccak256 : Bytes → Hash
  /-- `sha3.Sum256` over a byte string. -/
  sha3_256 : Bytes → Hash
  /-- `rlp.Encode` of a `txdata` value (the only exported field is `Payload`). -/
  rlpTxdata : Bytes → Bytes
  /-- Root of `merkletree.NewTree` over the `CalculateHash` of each content. -/
  merkleRoot : List Hash → Hash
  /-- `types.EmptyRootHash`. -/
  emptyRootHash : Hash
  /-- Byte image of a hash (`Hash.Bytes`). -/
  hashBytes : Hash → Bytes
  /-- `crypto.Ecrecover` followed by `recoverpk2address`; `none` on error. -/
  ecrecover : Bytes → Bytes → Option Address
  /-- The `signFn` installed in the engine applied to a digest; `none` on error
  (also when no signer is set). -/
  signFn : Bytes → Option Bytes
  /-- `big.Int.Bytes`: big-endian bytes of the absolute value. -/
  bigBytes : Int → Bytes
  /-- Byte image of an address (`Address.Bytes`). -/
  addrBytes : Address → Bytes

/-! ### Go maps and sets -/

/-- `m.Load(k)` / `m[k]`: the value bound to `k`, if any. -/
def mapLoad {K V : Type} [DecidableEq K] : List (K × V) → K → Option V
  | [], _ => none
  | (k', v) :: rest, k => if k' = k then some v else mapLoad rest k

/-- `m.Delete(k)`. -/
def mapDelete {K V : Type} [DecidableEq K] : List (K × V) → K → List (K × V)
  | [], _ => []
  | (k', v) :: rest, k => if k' = k then mapDelete rest k else (k', v) :: mapDelete rest k

/-- `m.Store(k, v)`: rebinding keeps the position of the key, a new key goes last. -/
def mapStore {K V : Type} [DecidableEq K] : List (K × V) → K → V → List (K × V)
  | [], k, v => [(k, v)]
  | (k', v') :: rest, k, v =>
    if k' = k then (k, v) :: mapDelete rest k else (k', v') :: mapStore rest k v

/-- Keys of a map, in iteration order. -/
def mapKeys {K V : Type} (m : List (K × V)) : List K := m.map Prod.fst

/-- `set.Add`. -/
def setAdd {A : Type} [DecidableEq A] (s : List A) (a : A) : List A :=
  if a ∈ s then s else s ++ [a]

/-- `set.Size`. -/
def setSize {A : Type} (s : List A) : Int := (s.length : Int)

/-! ### `blockchain/types/transaction.go` -/

/-- `Transaction`: the payload (`data.Payload`), the `Forward` flag and the hash
cache (`hash atomic.Value`, `none` while nothing is stored). -/
structure Transaction where
  data : Bytes
  Forward : Bool
  hash : Option Hash
deriving DecidableEq, Repr

/-- `NewTransaction`. -/
def NewTransaction (data : Bytes) : Transaction :=
  { data := data, Forward := false, hash := none }

/-- `Transaction.SetForward`. -/
def Transaction.SetForward (tx : Transaction) (forward : Bool) : Transaction :=
  { tx with Forward := forward }

/-- `Transaction.IsForward`. -/
def Transaction.IsForward (tx : Transaction) : Bool := tx.Forward

/-- `Transaction.EncodeRLP`: encodes `&tx.data` only. -/
def Transaction.EncodeRLP (E : Env) (tx : Transaction) : Bytes := E.rlpTxdata tx.data

/-- `rlpHash` applied to a transaction: keccak of its RLP encoding. -/
def rlpHash (E : Env) (tx : Transaction) : Hash := E.keccak256 (tx.EncodeRLP E)

/-- `Transaction.Hash`: returns the hash and the transaction as the call leaves it
(flag restored, cache filled). -/
def Transaction.Hash (E : Env) (tx : Transaction) : Hash × Transaction :=
  match tx.hash with
  | some h => (h, tx)
  | none =>
    let temp := tx.IsForward
    let tx1 := tx.SetForward false
    let v := rlpHash E tx1
    let tx2 := tx1.SetForward temp
    (v, { tx2 with hash := some v })

/-! ### `blockchain/types/proof_state.go` -/

/-- `ProofSignature.Hash`: `sha3.Sum256` of the signature bytes. -/
def ProofSignature.Hash (E : Env) (p : Bytes) : Hash := E.sha3_256 p

/-- `ProofConfirm`. -/
structure ProofConfirm where
  Signature : Bytes
  Confirm : Bool
deriving DecidableEq, Repr

/-- `ProofConfirm.Data`. -/
def ProofConfirm.Data (pc : ProofConfirm) : Bytes :=
  pc.Signature ++ [if pc.Confirm then 1 else 0]

/-- `ProofState`. -/
structure ProofState where
  Addr : Address
  Root : Hash
  Num : Nat
deriving DecidableEq, Repr

/-- `WorkProof`; `Number` is a `big.Int`. -/
structure WorkProof where
  Number : Int
  Sign : Bytes
  Txs : List Transaction
  States : List ProofState
deriving DecidableEq, Repr

/-- `WorkProof.Data`. -/
def WorkProof.Data (E : Env) (wp : WorkProof) : Bytes := E.bigBytes wp.Number ++ wp.Sign

/-- `WorkProofMsg`. -/
structure WorkProofMsg where
  Proof : WorkProof
  Sign : Bytes
deriving DecidableEq, Repr

/-- `WorkProofMsg.Hash`. -/
def WorkProofMsg.Hash (E : Env) (wpm : WorkProofMsg) : Hash :=
  E.sha3_256 (wpm.Proof.Data E ++ wpm.Sign)

/-- `ConfirmMsg`. -/
structure ConfirmMsg where
  Confirm : ProofConfirm
  Sign : Bytes
deriving DecidableEq, Repr

/-- `ConfirmMsg.Hash`. -/
def ConfirmMsg.Hash (E : Env) (cfm : ConfirmMsg) : Hash :=
  E.sha3_256 (cfm.Confirm.Data ++ cfm.Sign)

/-- `QueryState`. -/
structure QueryState where
  Miner : Address
  Number : Int
deriving DecidableEq, Repr

/-- `QueryState.Data`. -/
def QueryState.Data (E : Env) (qs : QueryState) : Bytes :=
  E.bigBytes qs.Number ++ E.addrBytes qs.Miner

/-- `QueryStateMsg`. -/
structure QueryStateMsg where
  Qs : QueryState
  Sign : Bytes
deriving DecidableEq, Repr

/-- `QueryStateMsg.Hash`. -/
def QueryStateMsg.Hash (E : Env) (qsm : QueryStateMsg) : Hash :=
  E.sha3_256 (qsm.Qs.Data E ++ qsm.Sign)

/-- `ResponseState`. -/
structure ResponseState where
  Number : Int
  Root : Hash
  Querier : Address
deriving DecidableEq, Repr

/-- `ResponseState.Data`. -/
def ResponseState.Data (E : Env) (rs : ResponseState) : Bytes :=
  E.bigBytes rs.Number ++ E.hashBytes rs.Root ++ E.addrBytes rs.Querier

/-- `ResponseStateMsg`. -/
structure ResponseStateMsg where
  Rs : ResponseState
  Sign : Bytes
deriving DecidableEq, Repr

/-- `ResponseStateMsg.Hash`. -/
def ResponseStateMsg.Hash (E : Env) (rsm : ResponseStateMsg) : Hash :=
  E.sha3_256 (rsm.Rs.Data E ++ rsm.Sign)

/-- `big.Int.Uint64`: the low 64 bits of the absolute value. -/
def bigUint64 (x : Int) : Nat := x.natAbs % 2 ^ 64

/-- Conversion `int64(u)` of a `uint64`. -/
def toInt64 (u : Nat) : Int := if u % 2 ^ 64 < 2 ^ 63 then (u % 2 ^ 64 : Nat) else (u % 2 ^ 64 : Nat) - 2 ^ 64

/-- Conversion of an integer to `int64`: its value modulo 2^64, read as a signed word. -/
def wrapInt64 (x : Int) : Int := toInt64 (x % 2 ^ 64).toNat

/-- `big.Int.Int64`: the low 64 bits of the absolute value converted to `int64`, negated
for a negative number. -/
def bigInt64 (x : Int) : Int :=
  if x < 0 then wrapInt64 (-(toInt64 (bigUint64 x))) else toInt64 (bigUint64 x)

/-! ### `blockchain/types/block.go` -/

/-- `Header`; `Difficulty`, `Number` and `Time` are `big.Int`s. -/
structure Header where
  ParentHash : Hash
  Coinbase : Address
  ProofHash : Hash
  Root : Hash
  TxHash : Hash
  ReceiptHash : Hash
  ProofRoot : Hash
  Difficulty : Int
  Number : Int
  Time : Int
  Extra : Bytes
deriving DecidableEq, Repr

/-! ### `worker/worker.go`: the round -/

/-- `waitConfirmTimeout`, in seconds. -/
def waitConfirmTimeout : Int := 30

/-- `Work`: the fields of a round the embedded code reads or writes: the ticket `id`,
the header number, the transactions, the `confirmed` flag and the header of `Block`
(`none` while `Block` is nil; the generating goroutine of `NewMineRound` sets it before
it sends nil on `genCh`). -/
structure Work where
  id : Int
  number : Nat
  txs : List Transaction
  confirmed : Bool
  Block : Option Header := none
deriving DecidableEq, Repr

/-! ### `worker/unconfirmed.go` -/

/-- `proofInfo`; `time` is `time.Now().Unix()` at insertion. -/
structure proofInfo where
  threshold : Int
  work : Work
  confirmed : List Address
  confirmedUnpass : List Address
  time : Int
deriving DecidableEq, Repr

/-- `unconfirmedProofs`: the `proofs` map and the works sent on `confirmedCh`, oldest
first. -/
structure unconfirmedProofs where
  proofs : List (Hash × proofInfo)
  confirmedCh : List Work
deriving DecidableEq, Repr

/-- `newUnconfirmedProofs`. -/
def newUnconfirmedProofs : unconfirmedProofs := { proofs := [], confirmedCh := [] }

/-- `unconfirmedProofs.Insert`; `sign` is `proof.Sign`, `now` is `time.Now().Unix()`. -/
def unconfirmedProofs.Insert (E : Env) (u : unconfirmedProofs) (sign : Bytes) (work : Work)
    (threshold : Int) (now : Int) : unconfirmedProofs :=
  let sigHash := ProofSignature.Hash E sign
  match mapLoad u.proofs sigHash with
  | none =>
    let info : proofInfo :=
      { threshold := threshold, work := work, confirmed := [], confirmedUnpass := [], time := now }
    { u with proofs := mapStore u.proofs sigHash info }
  | some _ => u

/-- `unconfirmedProofs.Confirm`. -/
def unconfirmedProofs.Confirm (E : Env) (u : unconfirmedProofs) (addr : Address)
    (confirm : ProofConfirm) : unconfirmedProofs :=
  let sigHash := ProofSignature.Hash E confirm.Signature
  match mapLoad u.proofs sigHash with
  | some info =>
    let info1 : proofInfo :=
      if confirm.Confirm = true then { info with confirmed := setAdd info.confirmed addr }
      else { info with confirmedUnpass := setAdd info.confirmedUnpass addr }
    if setSize info1.confirmed ≥ info1.threshold ∨ setSize info1.confirmedUnpass ≥ info1.threshold then
      let work1 : Work :=
        if setSize info1.confirmedUnpass ≥ info1.threshold then { info1.work with confirmed := false }
        else { info1.work with confirmed := true }
      { proofs := mapDelete u.proofs sigHash, confirmedCh := u.confirmedCh ++ [work1] }
    else
      { u with proofs := mapStore u.proofs sigHash info1 }
  | none => u

/-- Body of the `Range` callback of `CheckTimeout` over the entries still to visit. -/
def checkTimeoutRange (now : Int) : List (Hash × proofInfo) → unconfirmedProofs → unconfirmedProofs
  | [], u => u
  | (k, info) :: rest, u =>
    if now - info.time > waitConfirmTimeout then
      checkTimeoutRange now rest
        { proofs := mapDelete u.proofs k, confirmedCh := u.confirmedCh ++ [info.work] }
    else checkTimeoutRange now rest u

/-- `unconfirmedProofs.CheckTimeout` at clock reading `now`. -/
def unconfirmedProofs.CheckTimeout (u : unconfirmedProofs) (now : Int) : unconfirmedProofs :=
  checkTimeoutRange now u.proofs u

/-- A call on the tracker after the insertion. -/
inductive TrackerCall where
  | confirm (addr : Address) (c : ProofConfirm)
  | checkTimeout (now : Int)
deriving DecidableEq, Repr

/-- One call applied to the tracker. -/
def TrackerCall.apply (E : Env) (u : unconfirmedProofs) : TrackerCall → unconfirmedProofs
  | .confirm addr c => u.Confirm E addr c
  | .checkTimeout now => u.CheckTimeout now

/-- A sequence of calls applied in order. -/
def runTracker (E : Env) (u : unconfirmedProofs) (calls : List TrackerCall) : unconfirmedProofs :=
  calls.foldl (TrackerCall.apply E) u

/-- State of a tracker after one insertion under key `k`: either the entry is still
tracked and nothing was sent, or the map is empty and exactly one work was sent. -/
def TrackedOnce (k : Hash) (threshold t0 : Int) (u : unconfirmedProofs) : Prop :=
  (u.confirmedCh = [] ∧ ∃ info : proofInfo, u.proofs = [(k, info)] ∧ info.threshold = threshold
      ∧ info.time = t0)
    ∨ (u.proofs = [] ∧ ∃ w, u.confirmedCh = [w])

/-! ### A concrete environment for evaluating the definitions on examples -/

/-- Polynomial fold of a byte string: stands in for the digests in examples. -/
def demoDigest (bs : Bytes) : Nat := bs.foldl (fun acc b => acc * 257 + b + 1) 7

/-- Example environment: digests are `demoDigest`, a signature by address `a` over the
digest bytes `d` is `a :: d`, the local signer is address `9`. -/
def demoEnv : Env where
  keccak256 := demoDigest
  sha3_256 := demoDigest
  rlpTxdata := fun p => p.length :: p
  merkleRoot := fun hs => demoDigest hs
  emptyRootHash := 0
  hashBytes := fun h => [h]
  ecrecover := fun d sig =>
    match sig with
    | [] => none
    | a :: d' => if d' = d then some a else none
  signFn := fun d => some (9 :: d)
  bigBytes := fun n => [n.natAbs]
  addrBytes := fun a => [a]

/-- Example round with ticket 1 at height 1, no transactions. -/
def demoWork : Work := { id := 1, number := 1, txs := [], confirmed := false }

/-- Tracker states reachable from `newUnconfirmedProofs` by `Insert`, `Confirm` and
`CheckTimeout` calls. -/
inductive TrackerReach (E : Env) : unconfirmedProofs → Prop where
  | new : TrackerReach E newUnconfirmedProofs
  | insert (u : unconfirmedProofs) (sign : Bytes) (work : Work) (threshold now : Int) :
      TrackerReach E u → TrackerReach E (u.Insert E sign work threshold now)
  | confirm (u : unconfirmedProofs) (addr : Address) (c : ProofConfirm) :
      TrackerReach E u → TrackerReach E (u.Confirm E addr c)
  | checkTimeout (u : unconfirmedProofs) (now : Int) :
      TrackerReach E u → TrackerReach E (u.CheckTimeout now)

/-- Every entry's two address sets are duplicate-free. -/
def SetsNodup (m : List (Hash × proofInfo)) : Prop :=
  ∀ k info, (k, info) ∈ m → info.confirmed.Nodup ∧ info.confirmedUnpass.Nodup

/-! ### `worker/work_pending.go` -/

/-- `WorkPending`: the `errored` word and the `Pending` slice. -/
structure WorkPending where
  errored : Int
  Pending : List Work
deriving DecidableEq, Repr

/-- `NewWorkPending`. -/
def NewWorkPending : WorkPending := { errored := 0, Pending := [] }

/-- `WorkPending.HaveErr`. -/
def WorkPending.HaveErr (p : WorkPending) : Bool := decide (p.errored > 0)

/-- `WorkPending.Add`: the new queue and the returned flag. -/
def WorkPending.Add (p : WorkPending) (w : Work) : WorkPending × Bool :=
  if p.HaveErr then (p, false) else ({ p with Pending := p.Pending ++ [w] }, true)

/-- `WorkPending.Top`. -/
def WorkPending.Top (p : WorkPending) : Option Work :=
  if !p.HaveErr && decide (p.Pending.length > 0) then p.Pending.getLast? else none

/-- `WorkPending.Head`. -/
def WorkPending.Head (p : WorkPending) : Option Work :=
  if !p.HaveErr && decide (p.Pending.length > 0) then p.Pending.head? else none

/-- `WorkPending.Empty`. -/
def WorkPending.Empty (p : WorkPending) : Bool := decide (p.Pending.length = 0)

/-- `WorkPending.SetNoError`. -/
def WorkPending.SetNoError (p : WorkPending) : WorkPending := { p with errored := 0 }

/-- `WorkPending.pop`: the new queue and the removed head (`none` for Go's `nil`). -/
def WorkPending.pop (p : WorkPending) : WorkPending × Option Work :=
  match p.Pending with
  | w :: rest => ({ p with Pending := rest }, some w)
  | [] => (p, none)

/-- What the writer does to the outside: a call of `chain.WriteBlockAndState` on a round
with its result (`ok = true` for a nil error), or a call of `WorkEnded` on a round. -/
inductive WriterEvent where
  | write (w : Work) (ok : Bool)
  | ended (w : Work) (succeed : Bool)
deriving DecidableEq, Repr

/-- The writer goroutine of `Run` between ticks: the queue, the number of
`WriteBlockAndState` calls made so far and the log of its events, oldest first. -/
structure WriterState where
  p : WorkPending
  writes : Nat
  log : List WriterEvent
deriving DecidableEq, Repr

/-- The first loop of a tick of `Run`, `for len(p.Pending) > 0 { w := p.pop(); w.WorkEnded(false) }`,
over the rounds still queued. -/
def drainLoop : List Work → WriterState → WriterState
  | [], s => s
  | _ :: rest, s =>
    match s.p.pop with
    | (p1, some w) => drainLoop rest { s with p := p1, log := s.log ++ [.ended w false] }
    | (_, none) => s

/-- The second loop of a tick of `Run`.  `outcome n` tells whether the `n`-th call of
`WriteBlockAndState` returns a nil error; `budget` is the number of iterations that pass
the `now - start > 2` test in this tick. -/
def writeLoop (outcome : Nat → Bool) : Nat → WriterState → WriterState
  | 0, s => s
  | budget + 1, s =>
    if !s.p.HaveErr && decide (s.p.Pending.length > 0) then
      match s.p.Head with
      | none => s
      | some w =>
        let ok := outcome s.writes
        let p1 : WorkPending := if ok then s.p else { s.p with errored := 1 }
        let s1 : WriterState :=
          { p := p1.pop.1, writes := s.writes + 1, log := s.log ++ [.write w ok, .ended w ok] }
        writeLoop outcome budget s1
    else s

/-- One firing of the timer in `WorkPending.Run`. -/
def runTick (outcome : Nat → Bool) (budget : Nat) (s : WriterState) : WriterState :=
  let s1 := if s.p.HaveErr then drainLoop s.p.Pending s else s
  writeLoop outcome budget s1

/-- Successive ticks of `Run`, one per budget. -/
def runTicks (outcome : Nat → Bool) (budgets : List Nat) (s : WriterState) : WriterState :=
  budgets.foldl (fun st b => runTick outcome b st) s

/-- Commit order as the specification words it: rounds are written in queue order, each
written round ends with `WorkEnded(true)`, until a write fails; the failing round and
every round behind it end with `WorkEnded(false)` and none behind it is written.  The
argument `n` is the index of the next `WriteBlockAndState` call. -/
def commitOrderSpec (outcome : Nat → Bool) : Nat → List Work → List WriterEvent
  | _, [] => []
  | n, w :: rest =>
    if outcome n then
      WriterEvent.write w true :: WriterEvent.ended w true :: commitOrderSpec outcome (n + 1) rest
    else
      WriterEvent.write w false :: WriterEvent.ended w false
        :: rest.map (fun w' => WriterEvent.ended w' false)

/-- What is left to happen from a writer state according to `commitOrderSpec`. -/
def writerRemaining (outcome : Nat → Bool) (s : WriterState) : List WriterEvent :=
  if s.p.HaveErr then s.p.Pending.map (fun w' => WriterEvent.ended w' false)
  else commitOrderSpec outcome s.writes s.p.Pending

/-- Rounds on which `WriteBlockAndState` was called, in log order. -/
def writtenRounds (log : List WriterEvent) : List Work :=
  log.filterMap (fun e => match e with | .write w _ => some w | .ended _ _ => none)

/-- Rounds on which `WorkEnded` was called, in log order. -/
def endedRounds (log : List WriterEvent) : List Work :=
  log.filterMap (fun e => match e with | .write _ _ => none | .ended w _ => some w)

/-! ### The LRU cache of `github.com/hashicorp/golang-lru` -/

/-- `Cache.Get`: a hit moves the entry to the front (most recently used). -/
def lruGet {V : Type} (c : List (Hash × V)) (k : Hash) : Option V × List (Hash × V) :=
  match mapLoad c k with
  | some v => (some v, (k, v) :: mapDelete c k)
  | none => (none, c)

/-- `Cache.Add` on a cache of capacity `size`: an existing key is updated and moved to the
front; a new key is pushed to the front and the oldest entry is evicted when the
capacity is exceeded. -/
def lruAdd {V : Type} (size : Nat) (c : List (Hash × V)) (k : Hash) (v : V) : List (Hash × V) :=
  match mapLoad c k with
  | some _ => (k, v) :: mapDelete c k
  | none => if ((k, v) :: c).length > size then ((k, v) :: c).dropLast else (k, v) :: c

/-! ### `synctrl/handlemessage.go` -/

/-- `defaultRoutCount`. -/
def defaultRoutCount : Int := 3

/-- Capacity given to `lru.New` for the four `handleKnown...` caches. -/
def routCacheSize : Nat := 100000

/-- A message posted on the event mux or handed to one of the `rout...` broadcasts. -/
inductive RoutMsg where
  | proof (m : WorkProofMsg)
  | confirm (m : ConfirmMsg)
  | query (m : QueryStateMsg)
  | response (m : ResponseStateMsg)
deriving DecidableEq, Repr

/-- Error returned by a message handler (`p2p.ErrResp(p2p.ErrDecode, ..)`). -/
inductive HandlerErr where
  | decode
deriving DecidableEq, Repr

/-- State the inbound handlers of `synctrl` touch: the sync gate `AcceptTxs`, the four
rebroadcast caches, the transactions sent on `poolTxsCh`, the hashes passed to the
sending peer's `KnownTxsAdd`, the messages posted on the mux and the messages passed to
`routProof` / `routProofConfirm` / `routQueryState` / `routResponseState`. -/
structure Router where
  AcceptTxs : Nat
  handleKnownProof : List (Hash × Int)
  handleKnownProofConfirm : List (Hash × Int)
  handleResponseState : List (Hash × Int)
  handleQueryState : List (Hash × Int)
  poolTxsCh : List Transaction
  peerKnownTxs : List Hash
  posted : List RoutMsg
  routed : List RoutMsg
deriving DecidableEq, Repr

/-- The router at start-up (`init`), with the sync gate closed. -/
def newRouter : Router :=
  { AcceptTxs := 0, handleKnownProof := [], handleKnownProofConfirm := [],
    handleResponseState := [], handleQueryState := [], poolTxsCh := [], peerKnownTxs := [],
    posted := [], routed := [] }

/-- The loop of `HandleTxMsg` over the decoded transactions (`none` is a nil pointer). -/
def handleTxLoop (E : Env) : List (Option Transaction) → Router → Router × Option HandlerErr
  | [], r => (r, none)
  | none :: _, r => (r, some .decode)
  | some tx :: rest, r =>
    let (h, tx1) := tx.Hash E
    let r1 := { r with peerKnownTxs := r.peerKnownTxs ++ [h] }
    let r2 := { r1 with poolTxsCh := r1.poolTxsCh ++ [tx1.SetForward true] }
    handleTxLoop E rest r2

/-- `HandleTxMsg`; `decoded` is the result of `msg.Decode(&txs)`, `none` on error. -/
def HandleTxMsg (E : Env) (r : Router) (decoded : Option (List (Option Transaction))) :
    Router × Option HandlerErr :=
  if r.AcceptTxs = 0 then (r, none)
  else
    match decoded with
    | none => (r, some .decode)
    | some txs => handleTxLoop E txs r

/-- `HandleWorkProofMsg`; `decoded` is the result of `msg.Decode(&proof)`. -/
def HandleWorkProofMsg (E : Env) (r : Router) (decoded : Option WorkProofMsg) :
    Router × Option HandlerErr :=
  match decoded with
  | none => (r, some .decode)
  | some proof =>
    let (hit, cache1) := lruGet r.handleKnownProof (proof.Hash E)
    let r1 := { r with handleKnownProof := cache1 }
    let (count, r2) :=
      match hit with
      | some c => (c, r1)
      | none => (defaultRoutCount, { r1 with posted := r1.posted ++ [RoutMsg.proof proof] })
    if count > 0 then
      ({ r2 with routed := r2.routed ++ [RoutMsg.proof proof],
                 handleKnownProof := lruAdd routCacheSize r2.handleKnownProof (proof.Hash E) (count - 1) },
        none)
    else (r2, none)

/-- `HandleProofConfirmMsg`. -/
def HandleProofConfirmMsg (E : Env) (r : Router) (decoded : Option ConfirmMsg) :
    Router × Option HandlerErr :=
  match decoded with
  | none => (r, some .decode)
  | some confirm =>
    let (hit, cache1) := lruGet r.handleKnownProofConfirm (confirm.Hash E)
    let r1 := { r with handleKnownProofConfirm := cache1 }
    let (count, r2) :=
      match hit with
      | some c => (c, r1)
      | none => (defaultRoutCount, { r1 with posted := r1.posted ++ [RoutMsg.confirm confirm] })
    if count > 0 then
      ({ r2 with routed := r2.routed ++ [RoutMsg.confirm confirm],
                 handleKnownProofConfirm :=
                   lruAdd routCacheSize r2.handleKnownProofConfirm (confirm.Hash E) (count - 1) },
        none)
    else (r2, none)

/-- `HandleResStateMsg`. -/
def HandleResStateMsg (E : Env) (r : Router) (decoded : Option ResponseStateMsg) :
    Router × Option HandlerErr :=
  match decoded with
  | none => (r, some .decode)
  | some response =>
    let (hit, cache1) := lruGet r.handleResponseState (response.Hash E)
    let r1 := { r with handleResponseState := cache1 }
    let (count, r2) :=
      match hit with
      | some c => (c, r1)
      | none => (defaultRoutCount, { r1 with posted := r1.posted ++ [RoutMsg.response response] })
    if count > 0 then
      ({ r2 with routed := r2.routed ++ [RoutMsg.response response],
                 handleResponseState :=
                   lruAdd routCacheSize r2.handleResponseState (response.Hash E) (count - 1) },
        none)
    else (r2, none)

/-- `HandleGetStateMsg`. -/
def HandleGetStateMsg (E : Env) (r : Router) (decoded : Option QueryStateMsg) :
    Router × Option HandlerErr :=
  match decoded with
  | none => (r, some .decode)
  | some query =>
    let (hit, cache1) := lruGet r.handleQueryState (query.Hash E)
    let r1 := { r with handleQueryState := cache1 }
    let (count, r2) :=
      match hit with
      | some c => (c, r1)
      | none => (defaultRoutCount, { r1 with posted := r1.posted ++ [RoutMsg.query query] })
    if count > 0 then
      ({ r2 with routed := r2.routed ++ [RoutMsg.query query],
                 handleQueryState :=
                   lruAdd routCacheSize r2.handleQueryState (query.Hash E) (count - 1) },
        none)
    else (r2, none)

/-- The hash under which a message is kept in its rebroadcast cache. -/
def RoutMsg.Hash (E : Env) : RoutMsg → Hash
  | .proof m => m.Hash E
  | .confirm m => m.Hash E
  | .query m => m.Hash E
  | .response m => m.Hash E

/-- The rebroadcast cache that serves the message code of `x`. -/
def Router.cacheOf (r : Router) : RoutMsg → List (Hash × Int)
  | .proof _ => r.handleKnownProof
  | .confirm _ => r.handleKnownProofConfirm
  | .query _ => r.handleQueryState
  | .response _ => r.handleResponseState

/-- Whether two messages have the same message code. -/
def RoutMsg.sameCode : RoutMsg → RoutMsg → Bool
  | .proof _, .proof _ => true
  | .confirm _, .confirm _ => true
  | .query _, .query _ => true
  | .response _, .response _ => true
  | _, _ => false

/-- Dispatch of a decoded inbound message to the handler registered for its code with
`RegMsgProcess` in `newSynCtrl`. -/
def Router.inbound (E : Env) (r : Router) : RoutMsg → Router
  | .proof m => (HandleWorkProofMsg E r (some m)).1
  | .confirm m => (HandleProofConfirmMsg E r (some m)).1
  | .query m => (HandleGetStateMsg E r (some m)).1
  | .response m => (HandleResStateMsg E r (some m)).1

/-- A sequence of inbound messages handled in order. -/
def Router.inbounds (E : Env) (r : Router) (tr : List RoutMsg) : Router :=
  tr.foldl (Router.inbound E) r

/-- Broadcasts left for a message whose cache entry is `cm`. -/
def routLeft : Option Int → Nat
  | none => 3
  | some c => c.toNat

/-- Posts left for a message whose cache entry is `cm`. -/
def postLeft : Option Int → Nat
  | none => 1
  | some _ => 0

/-- The cache part of the four handlers on a message with hash `h`: the new cache,
whether the message is posted and whether it is broadcast. -/
def knownStep (cache : List (Hash × Int)) (h : Hash) : List (Hash × Int) × Bool × Bool :=
  match mapLoad cache h with
  | some c =>
    if c > 0 then (lruAdd routCacheSize ((h, c) :: mapDelete cache h) h (c - 1), false, true)
    else ((h, c) :: mapDelete cache h, false, false)
  | none => (lruAdd routCacheSize cache h (defaultRoutCount - 1), true, true)

/-- `k` arrivals of a message with hash `h`: the cache, the number of posts and the number
of broadcasts. -/
def knownSteps (h : Hash) : Nat → List (Hash × Int) × Nat × Nat → List (Hash × Int) × Nat × Nat
  | 0, st => st
  | k + 1, st =>
    let r := knownStep st.1 h
    knownSteps h k (r.1, st.2.1 + (if r.2.1 then 1 else 0), st.2.2 + (if r.2.2 then 1 else 0))

/-! ### `blockchain/types/derive_sha.go`, `consensus/prometheus` -/

/-- `types.DeriveSha` over transactions; the merkle content hash of a transaction is its
`Hash()`. -/
def DeriveSha (E : Env) (txs : List Transaction) : Hash :=
  if txs.length = 0 then E.emptyRootHash
  else E.merkleRoot (txs.map (fun tx => (tx.Hash E).1))

/-- `Prometheus.MixHash`: keccak of the two hashes side by side. -/
def MixHash (E : Env) (first second : Hash) : Hash :=
  E.keccak256 (E.hashBytes first ++ E.hashBytes second)

/-- `Prometheus.SignData`. -/
def SignData (E : Env) (data : Bytes) : Option Bytes :=
  E.signFn (E.hashBytes (E.sha3_256 data))

/-- `Prometheus.RecoverSender`. -/
def RecoverSender (E : Env) (data signature : Bytes) : Option Address :=
  E.ecrecover (E.hashBytes (E.sha3_256 data)) signature

/-- `Prometheus.verifyProof`: the new proof hash, `none` for the `invalid proof` error. -/
def verifyProof (E : Env) (lHash : Hash) (address : Address) (proof : WorkProof) : Option Hash :=
  let txroot := DeriveSha E proof.Txs
  let proofHash := MixHash E lHash txroot
  match E.ecrecover (E.hashBytes proofHash) proof.Sign with
  | some addr => if addr ≠ address then none else some proofHash
  | none => none

/-- `Prometheus.VerifyProof`. -/
def VerifyProof (E : Env) (addr : Address) (lastHash : Hash) (proof : WorkProof) : Option Hash :=
  verifyProof E lastHash addr proof

/-- `Prometheus.VerifyState`: the body starts with `return true`; the loop behind it is
never reached. -/
def VerifyState (_coinbase : Address) (_history : List Hash) (_proof : WorkProof) : Bool := true

/-- `Prometheus.GenerateProof` on a non-nil `parent` (the first statement of the body
dereferences `parent`, so the nil test behind it is only reached with a parent): the
header as the call leaves it and the returned proof, `none` when `signFn` returns an
error.  The slice `txs` is handed on as it is. -/
def GenerateProof (E : Env) (header parent : Header) (txs : List Transaction)
    (proofs : List ProofState) : Header × Option WorkProof :=
  let number := bigUint64 header.Number
  let lastHash := parent.ProofHash
  let txroot := DeriveSha E txs
  let proofHash := MixHash E lastHash txroot
  match E.signFn (E.hashBytes proofHash) with
  | none => (header, none)
  | some sighash =>
    ({ header with TxHash := txroot, ProofHash := proofHash },
      some { Number := toInt64 number, Sign := sighash, Txs := txs, States := proofs })

/-! ### `worker/worker_verify.go` -/

/-- State of the `worker` that the inbound event handlers read or write.  `peerProofs`
is the `peer/<addr>` family of `chainDb`, `peerWrites` the `WritePeerProof` calls made so
far (oldest first), `peerLockMap` holds `true` for a live channel and `false` for a nil
one, `posted` the events posted on the mux, `addTxsCalls` the lists handed to
`TxPool.AddTxs`. -/
structure WorkerState where
  coinbase : Address
  mining : Int
  currentProofHash : Option Hash
  history : List Hash
  genesisProofHash : Hash
  peerProofs : List (Address × ProofState)
  peerWrites : List ProofState
  queryCache : List (Hash × QueryStateMsg)
  peerLockMap : List (Address × Bool)
  posted : List RoutMsg
  addTxsCalls : List (List Transaction)
  txConfirmPool : List (Hash × Nat)
deriving DecidableEq, Repr

/-- Capacity given to `lru.New` for `queryCache`. -/
def queryCacheSize : Nat := 100000

/-- Modelled from the spec: `bc.GetPeerProof` (package `blockchain`, not part of the
sources at hand) reads the one entry persisted per peer under key `peer‖addr`. -/
def GetPeerProof (w : WorkerState) (addr : Address) : Option ProofState :=
  mapLoad w.peerProofs addr

/-- Modelled from the spec: `bc.WritePeerProof` (package `blockchain`, not part of the
sources at hand) overwrites the entry of the peer, last write wins. -/
def WritePeerProof (w : WorkerState) (addr : Address) (st : ProofState) : WorkerState :=
  { w with peerProofs := mapStore w.peerProofs addr st, peerWrites := w.peerWrites ++ [st] }

/-- `worker.dealResponseState`: the new state and whether a token was sent on the
sender's peer lock. -/
def dealResponseState (w : WorkerState) (ev : ResponseStateMsg) (sender : Address) :
    WorkerState × Bool :=
  if ev.Rs.Querier ≠ w.coinbase then (w, false)
  else
    match lruGet w.queryCache sender with
    | (none, _) => (w, false)
    | (some qs, cache1) =>
      let w1 := { w with queryCache := cache1 }
      if bigUint64 ev.Rs.Number ≠ bigUint64 qs.Qs.Number then (w1, false)
      else
        let peerstate : ProofState :=
          { Addr := sender, Num := bigUint64 ev.Rs.Number, Root := ev.Rs.Root }
        let w2 := WritePeerProof w1 sender peerstate
        match mapLoad w2.peerLockMap sender with
        | some true => (w2, true)
        | _ => (w2, false)

/-- The `select` at the end of `queryRemoteState`: the `ResponseState` events (with their
recovered senders) that the event loop handles while the caller waits on the lock of
`miner`.  The wait ends with `true` at the first token sent on that lock and with
`false` (the timer fired, the lock is set to nil) when the events run out. -/
def awaitPeerLock (miner : Address) :
    List (ResponseStateMsg × Address) → WorkerState → WorkerState × Bool
  | [], w => ({ w with peerLockMap := mapStore w.peerLockMap miner false }, false)
  | (ev, sender) :: rest, w =>
    let (w1, sent) := dealResponseState w ev sender
    if sent && decide (sender = miner) then (w1, true) else awaitPeerLock miner rest w1

/-- `worker.queryRemoteState`: the new state and `true` for a nil error.  `resps` are the
responses handled while the call waits. -/
def queryRemoteState (E : Env) (w : WorkerState) (miner : Address) (number : Int)
    (resps : List (ResponseStateMsg × Address)) : WorkerState × Bool :=
  let qs : QueryState := { Miner := miner, Number := number }
  match SignData E (qs.Data E) with
  | none => (w, false)
  | some sig =>
    let msg : QueryStateMsg := { Qs := qs, Sign := sig }
    let w1 := { w with queryCache := lruAdd queryCacheSize w.queryCache miner msg }
    let w2 := { w1 with posted := w1.posted ++ [RoutMsg.query msg] }
    let w3 :=
      match mapLoad w2.peerLockMap miner with
      | none => { w2 with peerLockMap := mapStore w2.peerLockMap miner true }
      | some _ => w2
    awaitPeerLock miner resps w3

/-- The recurring block of `dealProofEvent` that signs the confirm and posts it; nothing
is posted when signing fails. -/
def postConfirm (E : Env) (w : WorkerState) (c : ProofConfirm) : WorkerState :=
  match SignData E c.Data with
  | none => w
  | some sig => { w with posted := w.posted ++ [RoutMsg.confirm { Confirm := c, Sign := sig }] }

/-- How the re-verify loop of `dealProofEvent` is left. -/
inductive LoopExit where
  /-- `return` inside the loop (the rejecting confirm was handled there). -/
  | returned
  /-- `break`, with the value of `routEv.ConfirmMsg.Confirm.Confirm`. -/
  | broke (confirm : Bool)
  /-- Nil `peerProofState` dereferenced. -/
  | crashed
deriving DecidableEq, Repr

/-- The `for` loop of `dealProofEvent`.  Each in-loop query takes the next element of
`waits` as the responses handled during its wait; when none is left the wait times out,
which is the first equation. -/
def proofLoop (E : Env) (ev : WorkProofMsg) (sender : Address) :
    List (List (ResponseStateMsg × Address)) → WorkerState → ProofState → WorkerState × LoopExit
  | [], w, peerProofState =>
    match VerifyProof E sender peerProofState.Root ev.Proof with
    | none =>
      if (peerProofState.Num + 1) % 2 ^ 64 = bigUint64 ev.Proof.Number then
        (postConfirm E w { Signature := ev.Proof.Sign, Confirm := false }, .returned)
      else
        ((queryRemoteState E w sender
            (toInt64 ((bigUint64 ev.Proof.Number + 2 ^ 64 - 1) % 2 ^ 64)) []).1, .broke false)
    | some newroot =>
      (WritePeerProof w sender
        { Addr := sender, Num := bigUint64 ev.Proof.Number, Root := newroot }, .broke true)
  | resps :: rest, w, peerProofState =>
    match VerifyProof E sender peerProofState.Root ev.Proof with
    | none =>
      if (peerProofState.Num + 1) % 2 ^ 64 = bigUint64 ev.Proof.Number then
        (postConfirm E w { Signature := ev.Proof.Sign, Confirm := false }, .returned)
      else
        match queryRemoteState E w sender
            (toInt64 ((bigUint64 ev.Proof.Number + 2 ^ 64 - 1) % 2 ^ 64)) resps with
        | (w1, false) => (w1, .broke false)
        | (w1, true) =>
          match GetPeerProof w1 sender with
          | none => (w1, .crashed)
          | some ps => proofLoop E ev sender rest w1 ps
    | some newroot =>
      (WritePeerProof w sender
        { Addr := sender, Num := bigUint64 ev.Proof.Number, Root := newroot }, .broke true)

/-- The tail of `dealProofEvent` on an accepted proof: the transaction-confirm counters. -/
def bumpTxConfirm (E : Env) : List Transaction → List (Hash × Nat) → List (Hash × Nat)
  | [], pool => pool
  | tx :: rest, pool =>
    match mapLoad pool (tx.Hash E).1 with
    | some v => bumpTxConfirm E rest (mapStore pool (tx.Hash E).1 ((v + 1) % 2 ^ 64))
    | none => bumpTxConfirm E rest (mapStore pool (tx.Hash E).1 1)

/-- `worker.dealProofEvent` from the re-verify loop on (source lines 147 to 205): the
loop, the signing and posting of the confirm and, for an accepted proof, the hand-over
of its transactions to the pool and the confirm counters. -/
def dealProofTail (E : Env) (ev : WorkProofMsg) (sender : Address) (w1 : WorkerState)
    (ps : ProofState) (rest : List (List (ResponseStateMsg × Address))) : WorkerState :=
  match proofLoop E ev sender rest w1 ps with
  | (w2, .returned) => w2
  | (w2, .crashed) => w2
  | (w2, .broke confirm) =>
    match SignData E ({ Signature := ev.Proof.Sign, Confirm := confirm } : ProofConfirm).Data with
    | none => w2
    | some sig =>
      let w3 := { w2 with posted := w2.posted ++
        [RoutMsg.confirm { Confirm := { Signature := ev.Proof.Sign, Confirm := confirm },
                           Sign := sig }] }
      if confirm = false then w3
      else
        { w3 with addTxsCalls := w3.addTxsCalls ++ [ev.Proof.Txs],
                  txConfirmPool := bumpTxConfirm E ev.Proof.Txs w3.txConfirmPool }

/-- `worker.dealProofEvent`.  `waits` gives, for each `queryRemoteState` call made, the
responses handled during its wait. -/
def dealProofEvent (E : Env) (w : WorkerState) (ev : WorkProofMsg) (sender : Address)
    (waits : List (List (ResponseStateMsg × Address))) : WorkerState :=
  if sender = w.coinbase then w
  else
    let pastLocalRoot :=
      if w.mining = 1 then
        match w.currentProofHash with
        | some h => setAdd w.history h
        | none => w.history
      else w.history
    let reject : ProofConfirm := { Signature := ev.Proof.Sign, Confirm := false }
    if !VerifyState w.coinbase pastLocalRoot ev.Proof then postConfirm E w reject
    else
      match GetPeerProof w sender with
      | some ps => dealProofTail E ev sender w ps waits
      | none =>
        if bigUint64 ev.Proof.Number = 1 then
          dealProofTail E ev sender w
            { Addr := sender, Num := 0, Root := w.genesisProofHash } waits
        else
          match queryRemoteState E w sender (ev.Proof.Number - 1) (waits.headD []) with
          | (w1, true) =>
            match GetPeerProof w1 sender with
            | some ps => dealProofTail E ev sender w1 ps waits.tail
            | none => w1
          | (w1, false) => postConfirm E w1 reject

/-- The worker at start-up with the given identity and genesis proof hash. -/
def newWorkerState (coinbase : Address) (genesis : Hash) : WorkerState :=
  { coinbase := coinbase, mining := 0, currentProofHash := none, history := [genesis],
    genesisProofHash := genesis, peerProofs := [], peerWrites := [], queryCache := [],
    peerLockMap := [], posted := [], addTxsCalls := [], txConfirmPool := [] }

/-- The `Num` fields written for peer `p` in a list of `WritePeerProof` calls. -/
def numsWritten (p : Address) (log : List ProofState) : List Nat :=
  (log.filter (fun st => decide (st.Addr = p))).map (fun st => st.Num)

/-- An inbound event with its recovered sender, as the worker's event loop hands it to
`dealProofEvent` or `dealResponseState`. -/
inductive InEvent where
  | workProof (ev : WorkProofMsg) (sender : Address)
      (waits : List (List (ResponseStateMsg × Address)))
  | responseState (ev : ResponseStateMsg) (sender : Address)
deriving DecidableEq, Repr

/-- One inbound event handled. -/
def handleEvent (E : Env) (w : WorkerState) : InEvent → WorkerState
  | .workProof ev sender waits => dealProofEvent E w ev sender waits
  | .responseState ev sender => (dealResponseState w ev sender).1

/-- A sequence of inbound events handled in order. -/
def handleEvents (E : Env) (w : WorkerState) (evs : List InEvent) : WorkerState :=
  evs.foldl (handleEvent E) w

/-- The `WorkProofMsg` case of `worker.eventListener`: the sender is recovered from the
message signature and the proof handled on the sender's queue. -/
def eventListenerWorkProof (E : Env) (w : WorkerState) (ev : WorkProofMsg)
    (waits : List (List (ResponseStateMsg × Address))) : WorkerState :=
  match RecoverSender E (ev.Proof.Data E) ev.Sign with
  | none => w
  | some sender => dealProofEvent E w ev sender waits

/-- The router and the worker of one node; they share the event mux. -/
structure Node where
  router : Router
  worker : WorkerState
deriving DecidableEq, Repr

/-- An inbound `WorkProofMsg` from a peer: `HandleWorkProofMsg`, and, when the handler
posted the proof on the mux, the worker's event loop. -/
def Node.inboundWorkProof (E : Env) (n : Node) (msg : WorkProofMsg)
    (waits : List (List (ResponseStateMsg × Address))) : Node :=
  let r1 := (HandleWorkProofMsg E n.router (some msg)).1
  if r1.posted = n.router.posted ++ [RoutMsg.proof msg] then
    { router := r1, worker := eventListenerWorkProof E n.worker msg waits }
  else { router := r1, worker := n.worker }

/-- An inbound `TxMsg` from a peer. -/
def Node.inboundTx (E : Env) (n : Node) (decoded : Option (List (Option Transaction))) : Node :=
  { n with router := (HandleTxMsg E n.router decoded).1 }

/-- Example node: fresh router with the sync gate closed, worker with coinbase 9 and
genesis proof hash 0. -/
def demoNode : Node := { router := newRouter, worker := newWorkerState 9 0 }

/-- Example transaction. -/
def demoTx : Transaction := NewTransaction [1, 2, 3]

/-- Example proof by peer 7: number `n`, transactions `txs`, signed over the mix of
`last` and the transaction root. -/
def demoProof (n : Int) (last : Hash) (txs : List Transaction) : WorkProof :=
  { Number := n, Sign := 7 :: demoEnv.hashBytes (MixHash demoEnv last (DeriveSha demoEnv txs)),
    Txs := txs, States := [] }

/-- Example proof message by peer 7 around `demoProof`. -/
def demoProofMsg (n : Int) (last : Hash) (txs : List Transaction) : WorkProofMsg :=
  { Proof := demoProof n last txs,
    Sign := 7 :: demoEnv.hashBytes (demoEnv.sha3_256 ((demoProof n last txs).Data demoEnv)) }

/-- Example response by peer 7 to a query of node 9. -/
def demoResponse (n : Int) (root : Hash) : ResponseStateMsg :=
  { Rs := { Number := n, Root := root, Querier := 9 }, Sign := [] }

/-- No accepting confirm among posted events. -/
def NoAccept (posts : List RoutMsg) : Prop :=
  ∀ x ∈ posts, ∀ m : ConfirmMsg, x = RoutMsg.confirm m → m.Confirm.Confirm = false

/-- The last entry written for peer `p` in a list of `WritePeerProof` calls. -/
def lastWrite (p : Address) (aw : List ProofState) : Option ProofState :=
  (aw.filter (fun st => decide (st.Addr = p))).getLast?

/-- What every step of the proof handling short of the final accept does: the identity,
the genesis hash, the calls of `AddTxs` and the confirm counters are left alone; `ap` is
what it posts, with no accepting confirm in it; `aw` is what it writes to the peer-proof
store, and the entry of a peer afterwards is the last one written for it, or the one it
had when none was written. -/
def Steps (w w' : WorkerState) (ap : List RoutMsg) (aw : List ProofState) : Prop :=
  w'.coinbase = w.coinbase ∧ w'.genesisProofHash = w.genesisProofHash
  ∧ w'.addTxsCalls = w.addTxsCalls ∧ w'.txConfirmPool = w.txConfirmPool
  ∧ w'.posted = w.posted ++ ap ∧ NoAccept ap
  ∧ w'.peerWrites = w.peerWrites ++ aw
  ∧ (∀ p, GetPeerProof w' p = (lastWrite p aw).or (GetPeerProof w p))

/-- The number of the in-loop query of `dealProofEvent` as `dealResponseState` reads it:
`uint64(evnum - 1)` converted to `int64`, wrapped in a `big.Int` and read back with
`Uint64`. -/
def loopQueryNum (ev : WorkProofMsg) : Nat :=
  bigUint64 (toInt64 ((bigUint64 ev.Proof.Number + 2 ^ 64 - 1) % 2 ^ 64))

/-- The entry `dealProofEvent` writes for the sender when the proof verifies against the
root `r`. -/
def acceptedEntry (E : Env) (ev : WorkProofMsg) (sender : Address) (r : Hash) : ProofState :=
  { Addr := sender, Num := bigUint64 ev.Proof.Number,
    Root := MixHash E r (DeriveSha E ev.Proof.Txs) }

/-- The accepting confirm for the proof of `ev`, signed with `sig`. -/
def acceptConfirm (ev : WorkProofMsg) (sig : Bytes) : RoutMsg :=
  RoutMsg.confirm { Confirm := { Signature := ev.Proof.Sign, Confirm := true }, Sign := sig }

/-! ### `txpool/tx_pool.go` -/

/-- `maxHandleKnownTxs`. -/
def maxHandleKnownTxs : Nat := 2000000

/-- `maxThreadNumber`. -/
def maxThreadNumber : Nat := 4

/-- Capacity of each `fullCh[i]` and `verifyCh[i]`. -/
def poolChanCap : Nat := 2000000

/-- The hash value a `tx.Hash()` call returns. -/
def txHash (E : Env) (tx : Transaction) : Hash := (tx.Hash E).1

/-- `TxPool` with the package-level set `handleKnownTx` (`known`).  A channel is the list
of the transactions in it, oldest first; `working` maps a work id to the list recorded
for it. -/
structure TxPool where
  known : List Hash
  fullCh : List (List Transaction)
  verifyCh : List (List Transaction)
  invalidTxCh : List Transaction
  queue : List (Hash × Transaction)
  pending : List (Hash × Transaction)
  onChain : List (Hash × Nat)
  working : List (Int × List Transaction)
  poolBlockCount : Nat
deriving DecidableEq, Repr

/-- `NewTxPool`: empty maps, `maxThreadNumber` empty channel pairs, `poolBlockCount` 100. -/
def NewTxPool : TxPool :=
  { known := [], fullCh := List.replicate maxThreadNumber [],
    verifyCh := List.replicate maxThreadNumber [], invalidTxCh := [], queue := [], pending := [],
    onChain := [], working := [], poolBlockCount := 100 }

/-- Error values of `AddTx`. -/
inductive PoolErr where
  /-- `known transaction: %x`. -/
  | knownTx
  /-- `fullch is full`. -/
  | fullChFull
deriving DecidableEq, Repr

/-- `TxPool.KnownTxAdd`. -/
def TxPool.KnownTxAdd (pool : TxPool) (hash : Hash) : TxPool :=
  let known1 := if pool.known.length ≥ maxHandleKnownTxs then [] else pool.known
  { pool with known := setAdd known1 hash }

/-- `TxPool.DupTx`: `true` when the `known transaction` error is returned. -/
def TxPool.DupTx (E : Env) (pool : TxPool) (tx : Transaction) : Bool :=
  let hash := txHash E tx
  if hash ∈ pool.known then true
  else if (mapLoad pool.queue hash).isSome then true
  else if (mapLoad pool.pending hash).isSome then true
  else if (mapLoad pool.onChain hash).isSome then true
  else false

/-- The `for try` loop of `AddTx` over the tries still to make: the channels after the
first successful non-blocking send, `none` when every probed channel is full. -/
def sendToFullLoop (tx : Transaction) (start threadsNum : Nat) (chs : List (List Transaction)) :
    List Nat → Option (List (List Transaction))
  | [] => none
  | try_ :: rest =>
    let index := (start + try_) % threadsNum
    if (chs.getD index []).length < poolChanCap then
      some (chs.set index (chs.getD index [] ++ [tx]))
    else sendToFullLoop tx start threadsNum chs rest

/-- `TxPool.AddTx`; `start` is the value of `rand.Intn(pool.threadsNum)`. -/
def TxPool.AddTx (E : Env) (pool : TxPool) (tx : Transaction) (start : Nat) :
    TxPool × Option PoolErr :=
  if pool.DupTx E tx then (pool, some .knownTx)
  else
    let tx1 := (tx.Hash E).2
    let pool1 := pool.KnownTxAdd (txHash E tx)
    match sendToFullLoop tx1 start maxThreadNumber pool1.fullCh (List.range maxThreadNumber) with
    | some chs => ({ pool1 with fullCh := chs }, none)
    | none => (pool1, some .fullChFull)

/-- `TxPool.AddTxs`; `starts` gives the random start index of each `AddTx`. -/
def TxPool.AddTxs (E : Env) (pool : TxPool) : List (Transaction × Nat) → TxPool
  | [] => pool
  | (tx, start) :: rest => TxPool.AddTxs E (pool.AddTx E tx start).1 rest

/-- One iteration of the first goroutine of `DealTxRoutine` on channel pair `i`: receive
from `fullCh[i]`, store in `queue`, try to send on `verifyCh[i]`.  Nothing happens while
the channel is empty. -/
def TxPool.queueWorker (E : Env) (pool : TxPool) (i : Nat) : TxPool :=
  match pool.fullCh.getD i [] with
  | [] => pool
  | tx :: rest =>
    let pool1 := { pool with fullCh := pool.fullCh.set i rest,
                             queue := mapStore pool.queue (txHash E tx) tx }
    if (pool1.verifyCh.getD i []).length < poolChanCap then
      { pool1 with verifyCh := pool1.verifyCh.set i (pool1.verifyCh.getD i [] ++ [tx]) }
    else pool1

/-- `TxPool.verifyTx`. -/
def TxPool.verifyTx (_pool : TxPool) (_tx : Transaction) : Bool := true

/-- One iteration of the second goroutine of `DealTxRoutine` on channel pair `i`. -/
def TxPool.verifyWorker (E : Env) (pool : TxPool) (i : Nat) : TxPool :=
  match pool.verifyCh.getD i [] with
  | [] => pool
  | tx :: rest =>
    let pool1 := { pool with verifyCh := pool.verifyCh.set i rest }
    if pool1.verifyTx tx then
      { pool1 with pending := mapStore pool1.pending (txHash E tx) tx,
                   queue := mapDelete pool1.queue (txHash E tx) }
    else { pool1 with invalidTxCh := pool1.invalidTxCh ++ [tx] }

/-- The `Range` callback of `Pending` over the entries still to visit, in the order the
map yields them: the pending map, the transactions collected and the counter `i`. -/
def pendingRange (E : Env) (maxtxs : Nat) :
    List (Hash × Transaction) → List (Hash × Transaction) × List Transaction × Nat →
    List (Hash × Transaction) × List Transaction × Nat
  | [], st => st
  | (_, tx) :: rest, (pend, acc, i) =>
    if i ≥ maxtxs then (pend, acc, i)
    else pendingRange E maxtxs rest (mapDelete pend (txHash E tx), acc ++ [tx], i + 1)

/-- `TxPool.Pending` for `maxtxs ≥ 0`; `order` is the order in which `Range` yields the
entries of the pending map. -/
def TxPool.Pending (E : Env) (pool : TxPool) (workid : Int) (maxtxs : Nat)
    (order : List (Hash × Transaction)) : TxPool × List Transaction :=
  let r := pendingRange E maxtxs order (pool.pending, [], 0)
  let pool1 := { pool with pending := r.1 }
  if r.2.2 > 0 then ({ pool1 with working := mapStore pool1.working workid r.2.1 }, r.2.1)
  else (pool1, r.2.1)

/-- The `for` loop of `WorkEnded` over the transactions of the work. -/
def workEndedLoop (E : Env) (blocknumber : Nat) (succeed : Bool) : List Transaction → TxPool → TxPool
  | [], pool => pool
  | tx :: rest, pool =>
    if succeed then
      workEndedLoop E blocknumber succeed rest
        { pool with onChain := mapStore pool.onChain (txHash E tx) blocknumber }
    else
      workEndedLoop E blocknumber succeed rest
        { pool with pending := mapStore pool.pending (txHash E tx) tx }

/-- `TxPool.WorkEnded`. -/
def TxPool.WorkEnded (E : Env) (pool : TxPool) (workid : Int) (blocknumber : Nat)
    (succeed : Bool) : TxPool :=
  match mapLoad pool.working workid with
  | some txs =>
    let pool1 := workEndedLoop E blocknumber succeed txs pool
    { pool1 with working := mapDelete pool1.working workid }
  | none => pool

/-- The `Range` callback of `FitOnChain` over the entries still to visit. -/
def fitOnChainRange (curHigh poolBlockCount : Nat) :
    List (Hash × Nat) → List (Hash × Nat) → List (Hash × Nat)
  | [], m => m
  | (k, number) :: rest, m =>
    if number > (curHigh + poolBlockCount) % 2 ^ 64 then
      fitOnChainRange curHigh poolBlockCount rest (mapDelete m k)
    else fitOnChainRange curHigh poolBlockCount rest m

/-- `TxPool.FitOnChain`; `curHigh` is the number of `chain.CurrentBlock()`. -/
def TxPool.FitOnChain (pool : TxPool) (curHigh : Nat) : TxPool :=
  { pool with onChain := fitOnChainRange curHigh pool.poolBlockCount pool.onChain pool.onChain }

/-- Hashes of the transactions recorded under all work ids. -/
def workingHashes (E : Env) (working : List (Int × List Transaction)) : List Hash :=
  (working.map (fun e => e.2.map (txHash E))).flatten

/-- Number of the four states `queue`, `pending`, `working[*]`, `onChain` in which the
hash `h` is present. -/
def statesHolding (E : Env) (pool : TxPool) (h : Hash) : Nat :=
  (if h ∈ mapKeys pool.queue then 1 else 0) + (if h ∈ mapKeys pool.pending then 1 else 0)
    + (if h ∈ workingHashes E pool.working then 1 else 0)
    + (if h ∈ mapKeys pool.onChain then 1 else 0)

/-- Pool states reachable from `NewTxPool` by the pool's operations, each one atomic step. -/
inductive PoolReach (E : Env) : TxPool → Prop where
  | new : PoolReach E NewTxPool
  | addTx (pool : TxPool) (tx : Transaction) (start : Nat) :
      PoolReach E pool → start < maxThreadNumber → PoolReach E (pool.AddTx E tx start).1
  | queueWorker (pool : TxPool) (i : Nat) : PoolReach E pool → PoolReach E (pool.queueWorker E i)
  | verifyWorker (pool : TxPool) (i : Nat) : PoolReach E pool → PoolReach E (pool.verifyWorker E i)
  | pending (pool : TxPool) (workid : Int) (maxtxs : Nat) (order : List (Hash × Transaction)) :
      PoolReach E pool → order.Perm pool.pending →
      PoolReach E (pool.Pending E workid maxtxs order).1
  | workEnded (pool : TxPool) (workid : Int) (blocknumber : Nat) (succeed : Bool) :
      PoolReach E pool → PoolReach E (pool.WorkEnded E workid blocknumber succeed)
  | fitOnChain (pool : TxPool) (curHigh : Nat) :
      PoolReach E pool → PoolReach E (pool.FitOnChain curHigh)
  | knownTxAdd (pool : TxPool) (hash : Hash) :
      PoolReach E pool → PoolReach E (pool.KnownTxAdd hash)

/-- The same, along sequences in which the seen set is never cleared: `KnownTxAdd`, on
its own or inside `AddTx`, never finds the set at `maxHandleKnownTxs` entries. -/
inductive PoolReachNoClear (E : Env) : TxPool → Prop where
  | new : PoolReachNoClear E NewTxPool
  | addTx (pool : TxPool) (tx : Transaction) (start : Nat) :
      PoolReachNoClear E pool → start < maxThreadNumber →
      pool.known.length < maxHandleKnownTxs → PoolReachNoClear E (pool.AddTx E tx start).1
  | queueWorker (pool : TxPool) (i : Nat) :
      PoolReachNoClear E pool → PoolReachNoClear E (pool.queueWorker E i)
  | verifyWorker (pool : TxPool) (i : Nat) :
      PoolReachNoClear E pool → PoolReachNoClear E (pool.verifyWorker E i)
  | pending (pool : TxPool) (workid : Int) (maxtxs : Nat) (order : List (Hash × Transaction)) :
      PoolReachNoClear E pool → order.Perm pool.pending →
      PoolReachNoClear E (pool.Pending E workid maxtxs order).1
  | workEnded (pool : TxPool) (workid : Int) (blocknumber : Nat) (succeed : Bool) :
      PoolReachNoClear E pool → PoolReachNoClear E (pool.WorkEnded E workid blocknumber succeed)
  | fitOnChain (pool : TxPool) (curHigh : Nat) :
      PoolReachNoClear E pool → PoolReachNoClear E (pool.FitOnChain curHigh)
  | knownTxAdd (pool : TxPool) (hash : Hash) :
      PoolReachNoClear E pool → pool.known.length < maxHandleKnownTxs →
      PoolReachNoClear E (pool.KnownTxAdd hash)

/-- Hashes of the transactions sitting in a family of channels. -/
def chanHashes (E : Env) (chs : List (List Transaction)) : List Hash :=
  chs.flatten.map (txHash E)

/-- Number of places of the pool pipeline that hold the hash `h`: the ingest channels,
`queue`, `pending`, the working lists and `onChain`, counted with multiplicity. -/
def occ (E : Env) (pool : TxPool) (h : Hash) : Nat :=
  (chanHashes E pool.fullCh).count h + (mapKeys pool.queue).count h
    + (mapKeys pool.pending).count h + (workingHashes E pool.working).count h
    + (mapKeys pool.onChain).count h

/-- Invariant of the pool while the seen set is never cleared: a hash is held at most
once, every hash held is in the seen set, a transaction waiting in a verify channel is
in `queue`, and the pending map is keyed by the hash of its transaction. -/
def PoolInv (E : Env) (pool : TxPool) : Prop :=
  (∀ h, occ E pool h ≤ 1)
  ∧ (∀ h, 0 < occ E pool h → h ∈ pool.known)
  ∧ (∀ h, (chanHashes E pool.verifyCh).count h ≤ (mapKeys pool.queue).count h)
  ∧ (∀ e ∈ pool.pending, e.1 = txHash E e.2)

/-- Example pool: `demoTx` was added, queued, verified and drained into the round with
work id 1. -/
def demoPoolWorking : TxPool :=
  ((((NewTxPool.AddTx demoEnv demoTx 0).1.queueWorker demoEnv 0).verifyWorker demoEnv 0).Pending
    demoEnv 1 10 [(txHash demoEnv demoTx, (demoTx.Hash demoEnv).2)]).1

/-- The seen set after `demoTx` and `n` further hashes were added to it. -/
def demoFill (n : Nat) : List Hash :=
  txHash demoEnv demoTx :: (List.range n).map (fun i => txHash demoEnv demoTx + 1 + i)

/-- Example pool: `demoPoolWorking` after `maxHandleKnownTxs` further `KnownTxAdd` calls
on fresh hashes, the last of which found the seen set full and cleared it. -/
def demoPoolCleared : TxPool :=
  { demoPoolWorking with known := [txHash demoEnv demoTx + 1 + 1999999] }

/-- Example pool: `demoTx` added again to `demoPoolCleared` and taken by the queue
worker. -/
def demoPoolClash : TxPool :=
  (demoPoolCleared.AddTx demoEnv demoTx 0).1.queueWorker demoEnv 0

/-! ### Examples for `GenerateProof` -/

/-- Example parent header with proof hash 5. -/
def demoParent : Header :=
  { ParentHash := 0, Coinbase := 9, ProofHash := 5, Root := 0, TxHash := 0, ReceiptHash := 0,
    ProofRoot := 0, Difficulty := 1, Number := 3, Time := 1000, Extra := [] }

/-- Example header of the round after `demoParent`, number `n`. -/
def demoHeader (n : Int) : Header :=
  { ParentHash := 1, Coinbase := 9, ProofHash := 0, Root := 0, TxHash := 0, ReceiptHash := 0,
    ProofRoot := 0, Difficulty := 1, Number := n, Time := 3000, Extra := [] }

/-! ### Examples for the pool operations -/

/-- A second example transaction. -/
def demoTx2 : Transaction := NewTransaction [4, 5]

/-- Example pool: `demoTx` and `demoTx2` were added, queued and verified, so both are
pending. -/
def demoPoolPending : TxPool :=
  (((((NewTxPool.AddTx demoEnv demoTx 0).1.AddTx demoEnv demoTx2 0).1.queueWorker demoEnv
    0).queueWorker demoEnv 0).verifyWorker demoEnv 0).verifyWorker demoEnv 0

/-- The pending map is a map (no key twice) and holds each transaction under its hash. -/
def PendingKeyed (E : Env) (pool : TxPool) : Prop :=
  (mapKeys pool.pending).Nodup ∧ ∀ e ∈ pool.pending, e.1 = txHash E e.2

/-! ### `worker/worker_mine.go` -/

/-- `minTxsToMine`. -/
def minTxsToMine : Int := 100000

/-- `TxPool.Pended`: the pending transactions, in the order of the map. -/
def TxPool.Pended (pool : TxPool) : List Transaction := pool.pending.map Prod.snd

/-- What a call of `CheckNeedStartMine` yields. -/
inductive StartMine where
  /-- The top round of the queue has a nil `Block`, which `h.Block.Header()` dereferences. -/
  | crashed
  /-- The returned header, `none` for nil. -/
  | ret (h : Option Header)
deriving DecidableEq, Repr

/-- The test `delta >= int64(blockPeorid*1000) || (len(pending) >= minTxsToMine) && delta > 20`
of `CheckNeedStartMine`, with `delta := now - head.Time.Int64()` in `int64` and the
product in `int` (64 bits). -/
def needStartMine (head : Header) (now : Int) (npending : Nat) (blockPeorid : Int) : Bool :=
  let delta := wrapInt64 (now - bigInt64 head.Time)
  decide (delta ≥ wrapInt64 (blockPeorid * 1000))
    || (decide ((npending : Int) ≥ minTxsToMine) && decide (delta > 20))

/-- `worker.CheckNeedStartMine`: the commit queue as the call leaves it and the result.
`currentHeader` is `chain.CurrentHeader()`, `now` the value of
`time.Now().UnixNano() / 1000 / 1000`, `blockPeorid` the package variable of that name. -/
def CheckNeedStartMine (p : WorkPending) (currentHeader : Header) (now : Int) (pool : TxPool)
    (blockPeorid : Int) : WorkPending × StartMine :=
  if p.HaveErr && !p.Empty then (p, .ret none)
  else
    let p1 := if p.HaveErr then p.SetNoError else p
    let head : Option Header :=
      match p1.Top with
      | some h => h.Block
      | none => some currentHeader
    match head with
    | none => (p1, .crashed)
    | some hd =>
      if needStartMine hd now pool.Pended.length blockPeorid then (p1, .ret (some hd))
      else (p1, .ret none)

/-- Example queue holding one round whose block has the header `demoParent`. -/
def demoQueue : WorkPending :=
  { errored := 0, Pending := [{ demoWork with Block := some demoParent }] }

/-! ### Sequences of calls on the commit queue -/

/-- A sequence of `Add` calls, one per work, in order. -/
def WorkPending.addAll (p : WorkPending) (ws : List Work) : WorkPending :=
  ws.foldl (fun q w => (q.Add w).1) p

/-- `n` calls of `pop` in a row: the queue afterwards and the works the calls returned, in
call order (a nil result is left out). -/
def WorkPending.popN : Nat → WorkPending → WorkPending × List Work
  | 0, p => (p, [])
  | n + 1, p =>
    match p.pop with
    | (p1, some w) => ((WorkPending.popN n p1).1, w :: (WorkPending.popN n p1).2)
    | (p1, none) => WorkPending.popN n p1

/-! ### `worker.FinalMine` -/

/-- Errors returned by `FinalMine`. -/
inductive FinalErr where
  /-- `block proof not confirmed`. -/
  | notConfirmed
  /-- The error received from `work.genCh`. -/
  | generation
  /-- `pending is rollback`. -/
  | rollback
deriving DecidableEq, Repr

/-- Capacity given to `lru.New` for `history`. -/
def historySize : Nat := 10

/-- The part of the worker that `FinalMine` works on: the `history` cache (most recent
first), the commit queue, and the calls of `Work.WorkEnded` made so far with their
argument, oldest first. -/
structure Miner where
  history : List (Hash × Unit)
  workPending : WorkPending
  workEnded : List (Work × Bool)
deriving DecidableEq, Repr

/-- What a call of `FinalMine` yields. -/
inductive FinalRet where
  /-- `work.Block` is nil where `result.ProofHash()` dereferences it. -/
  | crashed
  /-- The returned error, `none` for nil. -/
  | ret (err : Option FinalErr)
deriving DecidableEq, Repr

/-- `worker.FinalMine`.  `genErr` tells whether the value received from `work.genCh` is a
non-nil error.  The deferred function starts `work.WorkEnded(false)` when `err` is non-nil
at the return; at a crash `err` is still nil. -/
def FinalMine (s : Miner) (work : Work) (genErr : Bool) : Miner × FinalRet :=
  if work.confirmed then
    if genErr then
      ({ s with workEnded := s.workEnded ++ [(work, false)] }, .ret (some .generation))
    else
      match work.Block with
      | none => (s, .crashed)
      | some result =>
        let s1 := { s with history := lruAdd historySize s.history result.ProofHash () }
        match s1.workPending.Add work with
        | (p1, true) => ({ s1 with workPending := p1 }, .ret none)
        | (p1, false) =>
          ({ s1 with workPending := p1, workEnded := s1.workEnded ++ [(work, false)] },
            .ret (some .rollback))
  else ({ s with workEnded := s.workEnded ++ [(work, false)] }, .ret (some .notConfirmed))

/-- Example worker part: genesis proof hash 0 in the history, empty queue, no call yet. -/
def demoMiner : Miner := { history := [(0, ())], workPending := NewWorkPending, workEnded := [] }

/-- Example round that a quorum confirmed and whose block was generated. -/
def demoWorkDone : Work := { demoWork with confirmed := true, Block := some demoParent }

/-- Example proof message by peer 7 as `demoProofMsg 1 0 []`, whose `States` list claims
for node 9 the root 12345. -/
def demoProofMsgClaiming : WorkProofMsg :=
  { demoProofMsg 1 0 [] with
    Proof := { demoProof 1 0 [] with States := [{ Addr := 9, Root := 12345, Num := 0 }] } }

/-! ### `blockchain/types/receipt.go` -/

/-- `receiptStatusFailedRLP`. -/
def receiptStatusFailedRLP : Bytes := []

/-- `receiptStatusSuccessfulRLP`. -/
def receiptStatusSuccessfulRLP : Bytes := [1]

/-- `ReceiptStatusFailed`. -/
def ReceiptStatusFailed : Nat := 0

/-- `ReceiptStatusSuccessful`. -/
def ReceiptStatusSuccessful : Nat := 1

/-- `Receipt`; `Status` is a `uint`, `ConfirmCount` a `uint64`. -/
structure Receipt where
  Status : Nat
  ConfirmCount : Nat
  TxHash : Hash
deriving DecidableEq, Repr

/-- Error of `setStatus`: `invalid receipt status %x` with the offending bytes. -/
inductive StatusErr where
  | invalid (b : Bytes)
deriving DecidableEq, Repr

/-- `Receipt.setStatus`: the receipt as the call leaves it and the returned error. -/
def Receipt.setStatus (r : Receipt) (postStateOrStatus : Bytes) : Receipt × Option StatusErr :=
  if postStateOrStatus = receiptStatusSuccessfulRLP then
    ({ r with Status := ReceiptStatusSuccessful }, none)
  else if postStateOrStatus = receiptStatusFailedRLP then
    ({ r with Status := ReceiptStatusFailed }, none)
  else (r, some (.invalid postStateOrStatus))

/-- `Receipt.statusEncoding`. -/
def Receipt.statusEncoding (r : Receipt) : Bytes :=
  if r.Status = ReceiptStatusFailed then receiptStatusFailedRLP else receiptStatusSuccessfulRLP

/-! ### `worker/miner.go` -/

/-- The events `WorkControl` subscribes to. -/
inductive SyncEvent where
  | StartEvent
  | DoneEvent
  | FailedEvent
deriving DecidableEq, Repr

/-- `Miner`: the flags `WorkControl`, `Start` and `Stop` read and write, and the `mining`
word of its worker. -/
structure MinerCtl where
  controlStarted : Bool
  mining : Int
  canStart : Int
  shouldStart : Int
  workerMining : Int
deriving DecidableEq, Repr

/-- `Miner.Mining`. -/
def MinerCtl.Mining (m : MinerCtl) : Bool := decide (m.mining > 0)

/-- `worker.start`. -/
def MinerCtl.workerStart (m : MinerCtl) : MinerCtl :=
  if m.workerMining = 1 then m else { m with workerMining := 1 }

/-- `worker.stop`. -/
def MinerCtl.workerStop (m : MinerCtl) : MinerCtl :=
  if m.workerMining = 0 then m else { m with workerMining := 0 }

/-- `Miner.Start`. -/
def MinerCtl.Start (m : MinerCtl) : MinerCtl :=
  let m1 := if !m.controlStarted then { m with controlStarted := true } else m
  let m2 := { m1 with shouldStart := 1 }
  if m2.canStart = 0 then m2
  else ({ m2 with mining := 1 } : MinerCtl).workerStart

/-- `Miner.Stop`. -/
def MinerCtl.Stop (m : MinerCtl) : MinerCtl :=
  let m1 := m.workerStop
  { m1 with mining := 0, shouldStart := 0 }

/-- Body of the `for ev := range events.Chan()` loop of `WorkControl` on one event.  Neither
case leaves the loop. -/
def MinerCtl.onEvent (m : MinerCtl) : SyncEvent → MinerCtl
  | .StartEvent =>
    let m1 := { m with canStart := 0 }
    if m1.Mining then { m1.Stop with shouldStart := 1 } else m1
  | .DoneEvent =>
    let shouldStart := decide (m.shouldStart = 1)
    let m1 := { m with canStart := 1, shouldStart := 0 }
    if shouldStart then m1.Start else m1
  | .FailedEvent =>
    let shouldStart := decide (m.shouldStart = 1)
    let m1 := { m with canStart := 1, shouldStart := 0 }
    if shouldStart then m1.Start else m1

/-- `Miner.WorkControl` over the events its channel delivers until it is closed. -/
def MinerCtl.WorkControl (m : MinerCtl) (evs : List SyncEvent) : MinerCtl :=
  evs.foldl MinerCtl.onEvent m

/-- `New` followed by `Start`: the miner is mining and its control loop is started. -/
def demoMinerCtl : MinerCtl :=
  ({ controlStarted := false, mining := 0, canStart := 1, shouldStart := 0,
     workerMining := 0 } : MinerCtl).Start

/-- Example pool: fresh, except that each of the four ingest channels holds
`poolChanCap` transactions. -/
def demoPoolFull : TxPool :=
  { NewTxPool with
    fullCh := List.replicate maxThreadNumber (List.replicate poolChanCap demoTx2) }

/-! ### `worker.NewMineRound` and the round state -/

/-- `consensus.MinerNumber`. -/
def MinerNumber : Int := 8

/-- `consensus.ExtraVanity`. -/
def ExtraVanity : Nat := 32

/-- `consensus.ExtraSeal`. -/
def ExtraSeal : Nat := 65

/-- The threshold expression `consensus.MinerNumber/2+1-1` that `NewMineRound` passes to
`Insert`. -/
def mineThreshold : Int := MinerNumber / 2 + 1 - 1

/-- Capacity given to `lru.New` for `handleLocalProof`. -/
def handleLocalProofSize : Nat := 100000

/-- `Prometheus.PrepareBlockHeader` (it always returns nil); `nowMs` is
`time.Now().UnixNano()/1000/1000`. -/
def PrepareBlockHeader (header : Header) (nowMs : Int) : Header :=
  let extra1 :=
    if header.Extra.length < ExtraVanity then
      header.Extra ++ List.replicate (ExtraVanity - header.Extra.length) 0
    else header.Extra
  let extra2 := extra1.take ExtraVanity
  let extra3 := extra2 ++ List.replicate ExtraSeal 0
  { header with Extra := extra3, Time := nowMs, Difficulty := 1 }

/-- `RoundState`. -/
inductive RoundState where
  | IDLE
  | PostMining
  | Mining
deriving DecidableEq, Repr

/-- Errors with which `NewMineRound` returns. -/
inductive MineErr where
  /-- `makeCurrent` failed: `chain.StateAt(parent.Root)` returned an error. -/
  | stateAt
  /-- `GenerateProof` returned an error. -/
  | generateProof
  /-- `SignData` on the proof returned an error. -/
  | signData
deriving DecidableEq, Repr

/-- What one call of `NewMineRound` reads from outside the state below: whether the local
node is a `BootNode`, the coinbase and extra data, `parent.Hash()`, whether
`chain.StateAt(parent.Root)` succeeds, the clock readings (`nowMs` for the header time,
`workId` for `time.Now().UnixNano()` in `makeCurrent`, `insertTime` for `time.Now().Unix()`
in `Insert`), the peer proofs `makeCurrent` collects, the variable `blockMaxTxs`, the order
in which `Range` yields the pending entries, and for each transaction whether
`bc.ApplyTransaction` applies it without error. -/
structure RoundEnv where
  isBootNode : Bool
  coinbase : Address
  extra : Bytes
  parentHash : Hash
  stateAtOk : Bool
  nowMs : Int
  workId : Int
  insertTime : Int
  peerStates : List ProofState
  blockMaxTxs : Nat
  order : List (Hash × Transaction)
  applyOk : Transaction → Bool

/-- The state `NewMineRound` works on: the transaction pool, the tracker `unconfirm_mine`,
the cache `handleLocalProof`, the events posted on the mux, `self.current` and the round
state. -/
structure MineState where
  pool : TxPool
  unconfirm_mine : unconfirmedProofs
  handleLocalProof : List (Hash × Unit)
  posted : List RoutMsg
  current : Option Work
  roundState : RoundState
deriving DecidableEq, Repr

/-- `worker.NewMineRound` on the parent header `parent` (the current header of the chain
when the argument is nil): the state as the call leaves it and the returned error.  The
goroutine it starts at the end, which finalizes the block and reports on `genCh`, is not
part of the call. -/
def NewMineRound (E : Env) (R : RoundEnv) (s : MineState) (parent : Header) :
    MineState × Option MineErr :=
  if R.isBootNode then (s, none)
  else
    let header0 : Header :=
      { ParentHash := R.parentHash, Coinbase := R.coinbase, ProofHash := 0, Root := 0,
        TxHash := 0, ReceiptHash := 0, ProofRoot := 0, Difficulty := 0,
        Number := parent.Number + 1, Time := 0, Extra := R.extra }
    let header1 := PrepareBlockHeader header0 R.nowMs
    if !R.stateAtOk then (s, some .stateAt)
    else
      let work0 : Work :=
        { id := R.workId, number := bigUint64 header1.Number, txs := [], confirmed := false }
      let drained := s.pool.Pending E work0.id R.blockMaxTxs R.order
      let work1 : Work := { work0 with txs := drained.2.filter R.applyOk }
      let s2 : MineState := { s with pool := drained.1, current := some work1 }
      match GenerateProof E header1 parent work1.txs R.peerStates with
      | (_, none) => (s2, some .generateProof)
      | (_, some proof) =>
        match SignData E (proof.Data E) with
        | none => (s2, some .signData)
        | some sig =>
          ({ s2 with
              posted := s2.posted ++ [RoutMsg.proof { Proof := proof, Sign := sig }],
              handleLocalProof :=
                lruAdd handleLocalProofSize s2.handleLocalProof (ProofSignature.Hash E proof.Sign) (),
              unconfirm_mine :=
                s2.unconfirm_mine.Insert E proof.Sign work1 mineThreshold R.insertTime },
            none)

/-- The `newRoundCh` case of `RoutineMine`: the state is set to `Mining`, `NewMineRound`
runs, and the state is set to `IDLE` when it returns an error and to `Mining` when it
returns nil. -/
def routineMineNewRound (E : Env) (R : RoundEnv) (s : MineState) (lastHeader : Header) :
    MineState :=
  match NewMineRound E R { s with roundState := .Mining } lastHeader with
  | (s1, some _) => { s1 with roundState := .IDLE }
  | (s1, none) => { s1 with roundState := .Mining }

/-- Example surroundings of a round on a mining node: coinbase 9, every transaction
applies, up to 50000 transactions are drained in the order given. -/
def demoRound (order : List (Hash × Transaction)) : RoundEnv :=
  { isBootNode := false, coinbase := 9, extra := [], parentHash := 77, stateAtOk := true,
    nowMs := 3000, workId := 1, insertTime := 3, peerStates := [], blockMaxTxs := 50000,
    order := order, applyOk := fun _ => true }

/-- Example state before a round: the pool `pool`, nothing tracked, nothing posted, idle. -/
def demoMineState (pool : TxPool) : MineState :=
  { pool := pool, unconfirm_mine := newUnconfirmedProofs, handleLocalProof := [], posted := [],
    current := none, roundState := .IDLE }

/-- The example environment with a signer that returns an error. -/
def demoEnvNoSigner : Env := { demoEnv with signFn := fun _ => none }

/-- The header `NewMineRound` builds for the round and hands to `GenerateProof`. -/
def roundHeader (R : RoundEnv) (parent : Header) : Header :=
  PrepareBlockHeader
    { ParentHash := R.parentHash, Coinbase := R.coinbase, ProofHash := 0, Root := 0,
      TxHash := 0, ReceiptHash := 0, ProofRoot := 0, Difficulty := 0,
      Number := parent.Number + 1, Time := 0, Extra := R.extra } R.nowMs

/-- The work of the round once `commitTransactions` has run: the drained transactions
that apply. -/
def roundWork (E : Env) (R : RoundEnv) (s : MineState) (parent : Header) : Work :=
  { id := R.workId, number := bigUint64 (roundHeader R parent).Number,
    txs := (s.pool.Pending E R.workId R.blockMaxTxs R.order).2.filter R.applyOk,
    confirmed := false }

/-- Example surroundings of a round on a boot node. -/
def demoRoundBoot : RoundEnv := { demoRound [] with isBootNode := true }

/-! ### Calls made by the re-verify loop of `dealProofEvent` -/

/-- Calls made by one run of the re-verify loop: `verifies` counts `VerifyProof`,
`queries` counts the in-loop `queryRemoteState`. -/
structure LoopCalls where
  verifies : Nat
  queries : Nat
deriving DecidableEq, Repr

/-- The `for` loop of `dealProofEvent` as in `proofLoop`, with every call of
`VerifyProof` and every in-loop call of `queryRemoteState` counted in the last
argument. -/
def proofLoopCalls (E : Env) (ev : WorkProofMsg) (sender : Address) :
    List (List (ResponseStateMsg × Address)) → WorkerState → ProofState → LoopCalls →
      (WorkerState × LoopExit) × LoopCalls
  | [], w, peerProofState, c =>
    match VerifyProof E sender peerProofState.Root ev.Proof with
    | none =>
      if (peerProofState.Num + 1) % 2 ^ 64 = bigUint64 ev.Proof.Number then
        ((postConfirm E w { Signature := ev.Proof.Sign, Confirm := false }, .returned),
          { verifies := c.verifies + 1, queries := c.queries })
      else
        (((queryRemoteState E w sender
            (toInt64 ((bigUint64 ev.Proof.Number + 2 ^ 64 - 1) % 2 ^ 64)) []).1, .broke false),
          { verifies := c.verifies + 1, queries := c.queries + 1 })
    | some newroot =>
      ((WritePeerProof w sender
        { Addr := sender, Num := bigUint64 ev.Proof.Number, Root := newroot }, .broke true),
        { verifies := c.verifies + 1, queries := c.queries })
  | resps :: rest, w, peerProofState, c =>
    match VerifyProof E sender peerProofState.Root ev.Proof with
    | none =>
      if (peerProofState.Num + 1) % 2 ^ 64 = bigUint64 ev.Proof.Number then
        ((postConfirm E w { Signature := ev.Proof.Sign, Confirm := false }, .returned),
          { verifies := c.verifies + 1, queries := c.queries })
      else
        match queryRemoteState E w sender
            (toInt64 ((bigUint64 ev.Proof.Number + 2 ^ 64 - 1) % 2 ^ 64)) resps with
        | (w1, false) =>
          ((w1, .broke false), { verifies := c.verifies + 1, queries := c.queries + 1 })
        | (w1, true) =>
          match GetPeerProof w1 sender with
          | none => ((w1, .crashed), { verifies := c.verifies + 1, queries := c.queries + 1 })
          | some ps =>
            proofLoopCalls E ev sender rest w1 ps
              { verifies := c.verifies + 1, queries := c.queries + 1 }
    | some newroot =>
      ((WritePeerProof w sender
        { Addr := sender, Num := bigUint64 ev.Proof.Number, Root := newroot }, .broke true),
        { verifies := c.verifies + 1, queries := c.queries })

/-- The confirm messages among posted events, oldest first. -/
def confirmsOf : List RoutMsg → List ConfirmMsg
  | [] => []
  | RoutMsg.confirm m :: rest => m :: confirmsOf rest
  | RoutMsg.proof _ :: rest => confirmsOf rest
  | RoutMsg.query _ :: rest => confirmsOf rest
  | RoutMsg.response _ :: rest => confirmsOf rest

/-- The confirm of `dealProofEvent` for the proof of `ev` with the flag `b`. -/
def proofConfirm (ev : WorkProofMsg) (b : Bool) : ProofConfirm :=
  { Signature := ev.Proof.Sign, Confirm := b }

/-- Example worker: node 9 holding the entry of proof 1 with root 11 for peer 7. -/
def demoWorkerSeen : WorkerState :=
  { newWorkerState 9 0 with peerProofs := [(7, { Addr := 7, Num := 1, Root := 11 })] }

/-- Example proof message by peer 7 with number 5 over the root 44. -/
def demoProofMsgGap : WorkProofMsg := demoProofMsg 5 44 [demoTx2]

/-- Example waits: the one query is answered by peer 7 with number 4 and root 44. -/
def demoGapWaits : List (List (ResponseStateMsg × Address)) := [[(demoResponse 4 44, 7)]]

/-! ### `worker.updateTxConfirm` -/

/-- What `bc.GetBlockReceiptsByTx` returns with a nil error: the receipts of the block
that holds the transaction, the block's hash and its number. -/
structure BlockReceipts where
  receipts : List Receipt
  blockHash : Hash
  blockNumber : Nat
deriving DecidableEq, Repr

/-- The inner loop of `updateTxConfirm` over the receipts of one block: a receipt whose
`TxHash` has an entry in the pool counts one, takes the entry's count into its
`ConfirmCount` (a `uint64`) and deletes the entry.  The result is the receipts as the
loop leaves them, the pool and `cnt`. -/
def confirmReceipts :
    List Receipt → List (Hash × Nat) → Nat → List Receipt × List (Hash × Nat) × Nat
  | [], pool, cnt => ([], pool, cnt)
  | receipt :: rest, pool, cnt =>
    match mapLoad pool receipt.TxHash with
    | some confirm =>
      let r := confirmReceipts rest (mapDelete pool receipt.TxHash) (cnt + 1)
      ({ receipt with ConfirmCount := (receipt.ConfirmCount + confirm) % 2 ^ 64 } :: r.1,
        r.2.1, r.2.2)
    | none =>
      let r := confirmReceipts rest pool cnt
      (receipt :: r.1, r.2.1, r.2.2)

/-- State of one pass of `updateTxConfirm`: `txConfirmPool`, the calls of
`GetBlockReceiptsByTx` that returned no error (hash asked for and result), the calls of
`WriteBlockReceipts` on the batch, and `cnt`. -/
structure ConfirmPass where
  pool : List (Hash × Nat)
  fetched : List (Hash × BlockReceipts)
  batch : List BlockReceipts
  cnt : Nat
deriving DecidableEq, Repr

/-- The `range` loop of `updateTxConfirm`.  The list is the order in which the keys are
visited; a key whose entry was deleted before it is reached is not produced.
`getByTx` is `bc.GetBlockReceiptsByTx` on the chain database (package `blockchain`, not
part of the sources at hand), `none` for an error. -/
def confirmLoop (getByTx : Hash → Option BlockReceipts) :
    List Hash → ConfirmPass → ConfirmPass
  | [], s => s
  | hash :: rest, s =>
    match mapLoad s.pool hash with
    | none => confirmLoop getByTx rest s
    | some _ =>
      let s1 : ConfirmPass :=
        match getByTx hash with
        | some br =>
          let r := confirmReceipts br.receipts s.pool s.cnt
          { pool := r.2.1, fetched := s.fetched ++ [(hash, br)],
            batch := s.batch ++ [{ br with receipts := r.1 }], cnt := r.2.2 }
        | none => s
      if s1.cnt > 10000 then s1 else confirmLoop getByTx rest s1

/-- The pass of `updateTxConfirm` over `txConfirmPool`, from an empty batch and
`cnt = 0`. -/
def updateTxConfirmPass (getByTx : Hash → Option BlockReceipts) (order : List Hash)
    (w : WorkerState) : ConfirmPass :=
  confirmLoop getByTx order { pool := w.txConfirmPool, fetched := [], batch := [], cnt := 0 }

/-- `worker.updateTxConfirm`: the worker afterwards and the batch written to the chain
database (`batch.Write()` is called only when `cnt > 0`). -/
def updateTxConfirm (getByTx : Hash → Option BlockReceipts) (order : List Hash)
    (w : WorkerState) : WorkerState × List BlockReceipts :=
  let s := updateTxConfirmPass getByTx order w
  ({ w with txConfirmPool := s.pool }, if s.cnt > 0 then s.batch else [])

/-- Example receipt of transaction `h` with no confirmation so far. -/
def demoReceipt (h : Hash) : Receipt := { Status := 1, ConfirmCount := 0, TxHash := h }

/-- Example block 3 holding the receipts of the transactions `0 .. n-1`. -/
def demoBlockOf (n : Nat) : BlockReceipts :=
  { receipts := (List.range' 0 n).map demoReceipt, blockHash := 77, blockNumber := 3 }

/-- Example pool: the transactions `0 .. n-1` with one confirmation each. -/
def demoConfirmPool (n : Nat) : List (Hash × Nat) := (List.range' 0 n).map (fun i => (i, 1))

/-- Example worker: node 9 with the given `txConfirmPool`. -/
def demoWorkerConfirms (pool : List (Hash × Nat)) : WorkerState :=
  { newWorkerState 9 0 with txConfirmPool := pool }

/-- Example chain database: the transactions 1 and 2 are in block 3, whose receipts have
5 and 0 confirmations; no other transaction is in a stored block. -/
def demoGetByTx (h : Hash) : Option BlockReceipts :=
  if h = 1 ∨ h = 2 then
    some { receipts := [{ Status := 1, ConfirmCount := 5, TxHash := 1 },
                        { Status := 1, ConfirmCount := 0, TxHash := 2 }],
           blockHash := 77, blockNumber := 3 }
  else none

/-- Example chain database whose one receipt, of transaction 5, has the largest
`ConfirmCount` a `uint64` holds. -/
def demoGetByTxFull (_h : Hash) : Option BlockReceipts :=
  some { receipts := [{ Status := 1, ConfirmCount := 2 ^ 64 - 1, TxHash := 5 }],
         blockHash := 77, blockNumber := 3 }

/-- Sum of the counts held in a pool. -/
def poolTotal (pool : List (Hash × Nat)) : Nat := (pool.map Prod.snd).sum

/-- Sum of the `ConfirmCount` fields of a list of receipts. -/
def receiptsTotal (rs : List Receipt) : Nat := (rs.map (fun r => r.ConfirmCount)).sum

/-- Sum of the `ConfirmCount` fields over a list of blocks. -/
def blocksTotal (bs : List BlockReceipts) : Nat := (bs.map (fun b => receiptsTotal b.receipts)).sum

/-- Hashes of the receipts of the blocks fetched. -/
def fetchedHashes : List (Hash × BlockReceipts) → List Hash
  | [] => []
  | f :: rest => f.2.receipts.map (fun r => r.TxHash) ++ fetchedHashes rest

/-- What identifies a `WriteBlockReceipts` call: block hash, block number and the
transaction hashes of the receipts. -/
def blockKey (b : BlockReceipts) : Hash × Nat × List Hash :=
  (b.blockHash, b.blockNumber, b.receipts.map (fun r => r.TxHash))

/-- Example proof message with number `n`, no transactions and empty signatures. -/
def demoPlainProofMsg (n : Nat) : WorkProofMsg :=
  { Proof := { Number := n, Sign := [], Txs := [], States := [] }, Sign := [] }

/-- Example flood: the proof messages with the numbers `1 .. n`. -/
def demoProofFlood (n : Nat) : List RoutMsg :=
  (List.range' 1 n).map (fun i => RoutMsg.proof (demoPlainProofMsg i))

/-- The calls of `VerifyProof` and the in-loop calls of `queryRemoteState` that one run of
`dealProofEvent` makes: the branches before the loop as in `dealProofEvent`, the loop
counted by `proofLoopCalls`.  The query before the loop is not an in-loop query. -/
def dealProofEventCalls (E : Env) (w : WorkerState) (ev : WorkProofMsg) (sender : Address)
    (waits : List (List (ResponseStateMsg × Address))) : LoopCalls :=
  if sender = w.coinbase then { verifies := 0, queries := 0 }
  else
    let pastLocalRoot :=
      if w.mining = 1 then
        match w.currentProofHash with
        | some h => setAdd w.history h
        | none => w.history
      else w.history
    if !VerifyState w.coinbase pastLocalRoot ev.Proof then { verifies := 0, queries := 0 }
    else
      match GetPeerProof w sender with
      | some ps =>
        (proofLoopCalls E ev sender waits w ps { verifies := 0, queries := 0 }).2
      | none =>
        if bigUint64 ev.Proof.Number = 1 then
          (proofLoopCalls E ev sender waits w
            { Addr := sender, Num := 0, Root := w.genesisProofHash }
            { verifies := 0, queries := 0 }).2
        else
          match queryRemoteState E w sender (ev.Proof.Number - 1) (waits.headD []) with
          | (w1, true) =>
            match GetPeerProof w1 sender with
            | some ps =>
              (proofLoopCalls E ev sender waits.tail w1 ps { verifies := 0, queries := 0 }).2
            | none => { verifies := 0, queries := 0 }
          | (_, false) => { verifies := 0, queries := 0 }

/-! ## Part II: theorems -/

/-- C7: for every payload, `Hash` gives the same value whatever the `Forward` flag is,
whether `SetForward` runs before or after the first `Hash` call, and `Hash` leaves the
flag as it found it. -/
theorem hash_independent_of_forward (E : Env) (payload : Bytes) (b b' : Bool) (tx : Transaction) :
    (((NewTransaction payload).SetForward b).Hash E).1
        = (((NewTransaction payload).SetForward b').Hash E).1
      ∧ (((((NewTransaction payload).SetForward b).Hash E).2.SetForward b').Hash E).1
        = (((NewTransaction payload).SetForward b).Hash E).1
      ∧ (((((NewTransaction payload).SetForward b).Hash E).2.SetForward b').Hash E).1
        = ((((NewTransaction payload).SetForward b).SetForward b').Hash E).1
      ∧ ((NewTransaction payload).Hash E).1 = E.keccak256 (E.rlpTxdata payload)
      ∧ (tx.Hash E).2.Forward = tx.Forward := by
  refine ⟨rfl, rfl, rfl, rfl, ?_⟩
  unfold Transaction.Hash
  cases h : tx.hash <;> simp [Transaction.SetForward, Transaction.IsForward]

/-! ### The unconfirmed-proof tracker -/

theorem mapLoad_single {K V : Type} [DecidableEq K] (k k' : K) (v : V) :
    mapLoad [(k, v)] k' = if k = k' then some v else none := by
  simp [mapLoad]

theorem trackedOnce_insert (E : Env) (sign : Bytes) (work : Work) (threshold t0 : Int) :
    TrackedOnce (ProofSignature.Hash E sign) threshold t0
      (newUnconfirmedProofs.Insert E sign work threshold t0) := by
  left
  simp [unconfirmedProofs.Insert, newUnconfirmedProofs, mapLoad, mapStore]

theorem confirm_of_sent (E : Env) (u : unconfirmedProofs) (addr : Address) (c : ProofConfirm)
    (w : Work) (h : u.proofs = [] ∧ u.confirmedCh = [w]) : u.Confirm E addr c = u := by
  simp [unconfirmedProofs.Confirm, h.1, mapLoad]

theorem checkTimeout_of_sent (u : unconfirmedProofs) (now : Int) (h : u.proofs = []) :
    u.CheckTimeout now = u := by
  simp [unconfirmedProofs.CheckTimeout, h, checkTimeoutRange]

theorem apply_of_sent (E : Env) (u : unconfirmedProofs) (c : TrackerCall)
    (w : Work) (h : u.proofs = [] ∧ u.confirmedCh = [w]) : c.apply E u = u := by
  cases c with
  | confirm addr cf => exact confirm_of_sent E u addr cf w h
  | checkTimeout now => exact checkTimeout_of_sent u now h.1

theorem runTracker_of_sent (E : Env) (calls : List TrackerCall) (u : unconfirmedProofs)
    (w : Work) (h : u.proofs = [] ∧ u.confirmedCh = [w]) : runTracker E u calls = u := by
  induction calls with
  | nil => rfl
  | cons c rest ih =>
    simp only [runTracker, List.foldl_cons] at ih ⊢
    rw [apply_of_sent E u c w h]
    exact ih

/-- One call on a tracker holding the single entry `k`: the shape is kept, and a call
that sends does so for the stated cause and empties the map. -/
theorem trackedOnce_step (E : Env) (k : Hash) (threshold t0 : Int) (u : unconfirmedProofs)
    (c : TrackerCall) (h : TrackedOnce k threshold t0 u) :
    TrackedOnce k threshold t0 (c.apply E u) ∧
    ((c.apply E u).confirmedCh ≠ u.confirmedCh →
      u.confirmedCh = [] ∧ (∃ w, (c.apply E u).confirmedCh = [w]) ∧ (c.apply E u).proofs = [] ∧
      match c with
      | .confirm addr cf =>
        ∃ info, mapLoad u.proofs (ProofSignature.Hash E cf.Signature) = some info ∧
          info.threshold = threshold ∧
          (setSize (if cf.Confirm = true then setAdd info.confirmed addr else info.confirmed)
              ≥ threshold ∨
           setSize (if cf.Confirm = true then info.confirmedUnpass
              else setAdd info.confirmedUnpass addr) ≥ threshold)
      | .checkTimeout now => now - t0 > waitConfirmTimeout) := by
  rcases h with ⟨hch, info, hp, hthr, htime⟩ | ⟨hp, w, hch⟩
  · cases c with
    | confirm addr cf =>
      by_cases hk : k = ProofSignature.Hash E cf.Signature
      · subst hk
        by_cases hc : cf.Confirm = true
        · by_cases hq : setSize (setAdd info.confirmed addr) ≥ threshold
              ∨ setSize info.confirmedUnpass ≥ threshold
          · have hq' := hq
            rw [← hthr] at hq'
            refine ⟨Or.inr ?_, fun _ => ⟨hch, ?_, ?_, info, ?_, hthr, ?_⟩⟩
            · simp [TrackerCall.apply, unconfirmedProofs.Confirm, hp, hch, mapLoad, hc, hq',
                mapDelete]
            · simp [TrackerCall.apply, unconfirmedProofs.Confirm, hp, hch, mapLoad, hc, hq']
            · simp [TrackerCall.apply, unconfirmedProofs.Confirm, hp, hch, mapLoad, hc, hq',
                mapDelete]
            · simp [hp, mapLoad]
            · simpa [hc] using hq
          · have hq' := hq
            rw [← hthr] at hq'
            refine ⟨Or.inl ?_, fun hne => absurd ?_ hne⟩
            · refine ⟨?_, { info with confirmed := setAdd info.confirmed addr }, ?_, hthr, htime⟩
              · simp [TrackerCall.apply, unconfirmedProofs.Confirm, hp, hch, mapLoad, hc, hq']
              · simp [TrackerCall.apply, unconfirmedProofs.Confirm, hp, mapLoad, hc, hq',
                  mapStore, mapDelete]
            · simp [TrackerCall.apply, unconfirmedProofs.Confirm, hp, hch, mapLoad, hc, hq']
        · by_cases hq : setSize info.confirmed ≥ threshold
              ∨ setSize (setAdd info.confirmedUnpass addr) ≥ threshold
          · have hq' := hq
            rw [← hthr] at hq'
            refine ⟨Or.inr ?_, fun _ => ⟨hch, ?_, ?_, info, ?_, hthr, ?_⟩⟩
            · simp [TrackerCall.apply, unconfirmedProofs.Confirm, hp, hch, mapLoad, hc, hq',
                mapDelete]
            · simp [TrackerCall.apply, unconfirmedProofs.Confirm, hp, hch, mapLoad, hc, hq']
            · simp [TrackerCall.apply, unconfirmedProofs.Confirm, hp, hch, mapLoad, hc, hq',
                mapDelete]
            · simp [hp, mapLoad]
            · simpa [hc] using hq
          · have hq' := hq
            rw [← hthr] at hq'
            refine ⟨Or.inl ?_, fun hne => absurd ?_ hne⟩
            · refine ⟨?_, { info with confirmedUnpass := setAdd info.confirmedUnpass addr }, ?_,
                hthr, htime⟩
              · simp [TrackerCall.apply, unconfirmedProofs.Confirm, hp, hch, mapLoad, hc, hq']
              · simp [TrackerCall.apply, unconfirmedProofs.Confirm, hp, mapLoad, hc, hq',
                  mapStore, mapDelete]
            · simp [TrackerCall.apply, unconfirmedProofs.Confirm, hp, hch, mapLoad, hc, hq']
      · have hu : (TrackerCall.confirm addr cf).apply E u = u := by
          simp [TrackerCall.apply, unconfirmedProofs.Confirm, hp, mapLoad, hk]
        rw [hu]
        exact ⟨Or.inl ⟨hch, info, hp, hthr, htime⟩, fun hne => absurd rfl hne⟩
    | checkTimeout now =>
      by_cases ht : now - info.time > waitConfirmTimeout
      · refine ⟨Or.inr ?_, fun _ => ⟨hch, ?_, ?_, ?_⟩⟩
        · simp [TrackerCall.apply, unconfirmedProofs.CheckTimeout, hp, hch, checkTimeoutRange, ht,
            mapDelete]
        · simp [TrackerCall.apply, unconfirmedProofs.CheckTimeout, hp, hch, checkTimeoutRange, ht]
        · simp [TrackerCall.apply, unconfirmedProofs.CheckTimeout, hp, hch, checkTimeoutRange, ht,
            mapDelete]
        · rw [← htime]; exact ht
      · have hu : (TrackerCall.checkTimeout now).apply E u = u := by
          simp [TrackerCall.apply, unconfirmedProofs.CheckTimeout, hp, checkTimeoutRange, ht]
        rw [hu]
        exact ⟨Or.inl ⟨hch, info, hp, hthr, htime⟩, fun hne => absurd rfl hne⟩
  · rw [apply_of_sent E u c w ⟨hp, hch⟩]
    exact ⟨Or.inr ⟨hp, w, hch⟩, fun hne => absurd rfl hne⟩

theorem trackedOnce_run (E : Env) (k : Hash) (threshold t0 : Int) (calls : List TrackerCall)
    (u : unconfirmedProofs) (h : TrackedOnce k threshold t0 u) :
    TrackedOnce k threshold t0 (runTracker E u calls) := by
  induction calls generalizing u with
  | nil => exact h
  | cons c rest ih =>
    simp only [runTracker, List.foldl_cons]
    exact ih _ (trackedOnce_step E k threshold t0 u c h).1

/-- C3: after a single `Insert`, along every sequence of `Confirm` and `CheckTimeout`
calls at most one work is sent on the confirm channel; a call that sends is a `Confirm`
whose entry reaches the threshold in one of its two sets, or a `CheckTimeout` at which
the entry is older than `waitConfirmTimeout`; after it the map is empty and no later
call changes the tracker. -/
theorem unconfirmed_fires_at_most_once (E : Env) (sign : Bytes) (work : Work)
    (threshold t0 : Int) (pre : List TrackerCall) (c : TrackerCall) (post : List TrackerCall) :
    (runTracker E (newUnconfirmedProofs.Insert E sign work threshold t0) pre).confirmedCh.length ≤ 1
    ∧ ((c.apply E (runTracker E (newUnconfirmedProofs.Insert E sign work threshold t0) pre)).confirmedCh
          ≠ (runTracker E (newUnconfirmedProofs.Insert E sign work threshold t0) pre).confirmedCh →
        (runTracker E (newUnconfirmedProofs.Insert E sign work threshold t0) pre).confirmedCh = []
        ∧ (∃ w, (c.apply E (runTracker E (newUnconfirmedProofs.Insert E sign work threshold t0)
              pre)).confirmedCh = [w])
        ∧ (c.apply E (runTracker E (newUnconfirmedProofs.Insert E sign work threshold t0) pre)).proofs
            = []
        ∧ runTracker E (c.apply E (runTracker E (newUnconfirmedProofs.Insert E sign work threshold t0)
              pre)) post
            = c.apply E (runTracker E (newUnconfirmedProofs.Insert E sign work threshold t0) pre)
        ∧ match c with
          | .confirm addr cf =>
            ∃ info, mapLoad (runTracker E (newUnconfirmedProofs.Insert E sign work threshold t0)
                  pre).proofs (ProofSignature.Hash E cf.Signature) = some info ∧
              info.threshold = threshold ∧
              (setSize (if cf.Confirm = true then setAdd info.confirmed addr else info.confirmed)
                  ≥ threshold ∨
               setSize (if cf.Confirm = true then info.confirmedUnpass
                  else setAdd info.confirmedUnpass addr) ≥ threshold)
          | .checkTimeout now => now - t0 > waitConfirmTimeout) := by
  have hu := trackedOnce_run E _ threshold t0 pre _ (trackedOnce_insert E sign work threshold t0)
  have hstep := trackedOnce_step E _ threshold t0 _ c hu
  refine ⟨?_, fun hne => ?_⟩
  · rcases hu with ⟨hch, _⟩ | ⟨_, w, hch⟩ <;> simp [hch]
  · obtain ⟨h1, ⟨w, h2⟩, h3, h4⟩ := hstep.2 hne
    exact ⟨h1, ⟨w, h2⟩, h3, runTracker_of_sent E post _ w ⟨h3, h2⟩, h4⟩

/-- Evaluation of `unconfirmed_fires_at_most_once` on a round with threshold 1 and one
accepting confirm. -/
theorem unconfirmed_fires_at_most_once_witness :
    ((TrackerCall.confirm 5 ⟨[1], true⟩).apply demoEnv
        (runTracker demoEnv (newUnconfirmedProofs.Insert demoEnv [1] demoWork 1 100) [])).proofs
      = [] :=
  ((unconfirmed_fires_at_most_once demoEnv [1] demoWork 1 100 [] (.confirm 5 ⟨[1], true⟩) []).2
    (by decide)).2.2.1

theorem mapLoad_mem {K V : Type} [DecidableEq K] (m : List (K × V)) (k : K) (v : V)
    (h : mapLoad m k = some v) : (k, v) ∈ m := by
  induction m with
  | nil => simp [mapLoad] at h
  | cons kv rest ih =>
    obtain ⟨k', v'⟩ := kv
    by_cases hk : k' = k
    · subst hk
      simp [mapLoad] at h
      simp [h]
    · simp [mapLoad, hk] at h
      exact List.mem_cons_of_mem _ (ih h)

theorem mem_mapDelete {K V : Type} [DecidableEq K] (m : List (K × V)) (k : K) (x : K × V)
    (h : x ∈ mapDelete m k) : x ∈ m ∧ x.1 ≠ k := by
  induction m with
  | nil => simp [mapDelete] at h
  | cons kv rest ih =>
    obtain ⟨k', v'⟩ := kv
    by_cases hk : k' = k
    · simp only [mapDelete, hk, if_true] at h
      exact ⟨List.mem_cons_of_mem _ (ih h).1, (ih h).2⟩
    · simp only [mapDelete, hk, if_false, List.mem_cons] at h
      rcases h with h | h
      · subst h
        exact ⟨List.mem_cons_self _ _, hk⟩
      · exact ⟨List.mem_cons_of_mem _ (ih h).1, (ih h).2⟩

theorem mem_mapStore {K V : Type} [DecidableEq K] (m : List (K × V)) (k : K) (v : V) (x : K × V)
    (h : x ∈ mapStore m k v) : x = (k, v) ∨ x ∈ m := by
  induction m with
  | nil => simpa [mapStore] using h
  | cons kv rest ih =>
    obtain ⟨k', v'⟩ := kv
    by_cases hk : k' = k
    · simp only [mapStore, hk, if_true, List.mem_cons] at h
      rcases h with h | h
      · exact Or.inl h
      · exact Or.inr (List.mem_cons_of_mem _ (mem_mapDelete rest k x h).1)
    · simp only [mapStore, hk, if_false, List.mem_cons] at h
      rcases h with h | h
      · subst h
        exact Or.inr (List.mem_cons_self _ _)
      · rcases ih h with h | h
        · exact Or.inl h
        · exact Or.inr (List.mem_cons_of_mem _ h)

theorem mapLoad_mapDelete_self {K V : Type} [DecidableEq K] (m : List (K × V)) (k : K) :
    mapLoad (mapDelete m k) k = none := by
  induction m with
  | nil => rfl
  | cons kv rest ih =>
    obtain ⟨k', v'⟩ := kv
    by_cases hk : k' = k <;> simp [mapDelete, mapLoad, hk, ih]

theorem mapDelete_idem {K V : Type} [DecidableEq K] (m : List (K × V)) (k : K) :
    mapDelete (mapDelete m k) k = mapDelete m k := by
  induction m with
  | nil => rfl
  | cons kv rest ih =>
    obtain ⟨k', v'⟩ := kv
    by_cases hk : k' = k <;> simp [mapDelete, hk, ih]

theorem mapLoad_mapStore_self {K V : Type} [DecidableEq K] (m : List (K × V)) (k : K) (v : V) :
    mapLoad (mapStore m k v) k = some v := by
  induction m with
  | nil => simp [mapStore, mapLoad]
  | cons kv rest ih =>
    obtain ⟨k', v'⟩ := kv
    by_cases hk : k' = k <;> simp [mapStore, mapLoad, hk, ih]

theorem mapStore_idem {K V : Type} [DecidableEq K] (m : List (K × V)) (k : K) (v : V) :
    mapStore (mapStore m k v) k v = mapStore m k v := by
  induction m with
  | nil => simp [mapStore, mapDelete]
  | cons kv rest ih =>
    obtain ⟨k', v'⟩ := kv
    by_cases hk : k' = k <;> simp [mapStore, hk, ih, mapDelete_idem]

theorem setAdd_nodup {A : Type} [DecidableEq A] (s : List A) (a : A) (h : s.Nodup) :
    (setAdd s a).Nodup := by
  unfold setAdd
  split
  · exact h
  · rename_i hn
    exact List.Nodup.append h (List.nodup_singleton a) (by simpa using hn)

theorem setAdd_idem {A : Type} [DecidableEq A] (s : List A) (a : A) :
    setAdd (setAdd s a) a = setAdd s a := by
  by_cases h : a ∈ s <;> simp [setAdd, h]

theorem setsNodup_mapDelete (m : List (Hash × proofInfo)) (k : Hash) (h : SetsNodup m) :
    SetsNodup (mapDelete m k) :=
  fun k' info hm => h k' info (mem_mapDelete m k (k', info) hm).1

theorem setsNodup_mapStore (m : List (Hash × proofInfo)) (k : Hash) (v : proofInfo)
    (h : SetsNodup m) (hv : v.confirmed.Nodup ∧ v.confirmedUnpass.Nodup) :
    SetsNodup (mapStore m k v) := by
  intro k' info hm
  rcases mem_mapStore m k v (k', info) hm with h' | h'
  · cases h'
    exact hv
  · exact h k' info h'

theorem setsNodup_checkTimeoutRange (now : Int) (es : List (Hash × proofInfo))
    (u : unconfirmedProofs) (h : SetsNodup u.proofs) :
    SetsNodup (checkTimeoutRange now es u).proofs := by
  induction es generalizing u with
  | nil => exact h
  | cons e rest ih =>
    obtain ⟨k, info⟩ := e
    unfold checkTimeoutRange
    split
    · exact ih _ (setsNodup_mapDelete _ _ h)
    · exact ih _ h

/-- What `Confirm` does on a tracked entry, by the case the code tests first. -/
theorem confirm_cases (E : Env) (u : unconfirmedProofs) (addr : Address) (c : ProofConfirm)
    (info : proofInfo) (h : mapLoad u.proofs (ProofSignature.Hash E c.Signature) = some info) :
    (setSize (if c.Confirm = true then info.confirmedUnpass else setAdd info.confirmedUnpass addr)
        ≥ info.threshold →
      u.Confirm E addr c =
        { proofs := mapDelete u.proofs (ProofSignature.Hash E c.Signature),
          confirmedCh := u.confirmedCh ++ [{ info.work with confirmed := false }] })
    ∧ (¬ setSize (if c.Confirm = true then info.confirmedUnpass
            else setAdd info.confirmedUnpass addr) ≥ info.threshold →
        setSize (if c.Confirm = true then setAdd info.confirmed addr else info.confirmed)
          ≥ info.threshold →
        u.Confirm E addr c =
          { proofs := mapDelete u.proofs (ProofSignature.Hash E c.Signature),
            confirmedCh := u.confirmedCh ++ [{ info.work with confirmed := true }] })
    ∧ (¬ setSize (if c.Confirm = true then info.confirmedUnpass
            else setAdd info.confirmedUnpass addr) ≥ info.threshold →
        ¬ setSize (if c.Confirm = true then setAdd info.confirmed addr else info.confirmed)
          ≥ info.threshold →
        u.Confirm E addr c =
          { proofs := mapStore u.proofs (ProofSignature.Hash E c.Signature)
              (if c.Confirm = true then { info with confirmed := setAdd info.confirmed addr }
               else { info with confirmedUnpass := setAdd info.confirmedUnpass addr }),
            confirmedCh := u.confirmedCh }) := by
  obtain ⟨sig, cf⟩ := c
  cases cf
  · simp only [Bool.false_eq_true, if_false]
    refine ⟨fun h1 => ?_, fun h1 h2 => ?_, fun h1 h2 => ?_⟩
    · simp only [ge_iff_le] at h1
      simp [unconfirmedProofs.Confirm, h, h1]
    · simp only [ge_iff_le] at h1 h2
      simp [unconfirmedProofs.Confirm, h, h1, h2]
    · simp only [ge_iff_le] at h1 h2
      simp [unconfirmedProofs.Confirm, h, h1, h2]
  · simp only [if_true]
    refine ⟨fun h1 => ?_, fun h1 h2 => ?_, fun h1 h2 => ?_⟩
    · simp only [ge_iff_le] at h1
      simp [unconfirmedProofs.Confirm, h, h1]
    · simp only [ge_iff_le] at h1 h2
      simp [unconfirmedProofs.Confirm, h, h1, h2]
    · simp only [ge_iff_le] at h1 h2
      simp [unconfirmedProofs.Confirm, h, h1, h2]

theorem confirm_untracked (E : Env) (u : unconfirmedProofs) (addr : Address) (c : ProofConfirm)
    (h : mapLoad u.proofs (ProofSignature.Hash E c.Signature) = none) : u.Confirm E addr c = u := by
  simp [unconfirmedProofs.Confirm, h]

theorem setsNodup_confirm (E : Env) (u : unconfirmedProofs) (addr : Address) (c : ProofConfirm)
    (h : SetsNodup u.proofs) : SetsNodup (u.Confirm E addr c).proofs := by
  cases hl : mapLoad u.proofs (ProofSignature.Hash E c.Signature) with
  | none => rw [confirm_untracked E u addr c hl]; exact h
  | some info =>
    have hi := h _ _ (mapLoad_mem _ _ _ hl)
    obtain ⟨c1, c2, c3⟩ := confirm_cases E u addr c info hl
    by_cases h1 : setSize (if c.Confirm = true then info.confirmedUnpass
        else setAdd info.confirmedUnpass addr) ≥ info.threshold
    · rw [c1 h1]; exact setsNodup_mapDelete _ _ h
    · by_cases h2 : setSize (if c.Confirm = true then setAdd info.confirmed addr
          else info.confirmed) ≥ info.threshold
      · rw [c2 h1 h2]; exact setsNodup_mapDelete _ _ h
      · rw [c3 h1 h2]
        apply setsNodup_mapStore _ _ _ h
        by_cases hc : c.Confirm = true
        · simp only [hc, if_true]
          exact ⟨setAdd_nodup _ _ hi.1, hi.2⟩
        · simp only [hc, if_false]
          exact ⟨hi.1, setAdd_nodup _ _ hi.2⟩

theorem setsNodup_insert (E : Env) (u : unconfirmedProofs) (sign : Bytes) (work : Work)
    (threshold now : Int) (h : SetsNodup u.proofs) :
    SetsNodup (u.Insert E sign work threshold now).proofs := by
  cases hl : mapLoad u.proofs (ProofSignature.Hash E sign) with
  | some v =>
    have hu : u.Insert E sign work threshold now = u := by
      simp [unconfirmedProofs.Insert, hl]
    rw [hu]; exact h
  | none =>
    have hu : (u.Insert E sign work threshold now).proofs
        = mapStore u.proofs (ProofSignature.Hash E sign)
            { threshold := threshold, work := work, confirmed := [], confirmedUnpass := [],
              time := now } := by
      simp [unconfirmedProofs.Insert, hl]
    rw [hu]
    exact setsNodup_mapStore _ _ _ h ⟨List.nodup_nil, List.nodup_nil⟩

theorem setsNodup_of_reach (E : Env) (u : unconfirmedProofs) (h : TrackerReach E u) :
    SetsNodup u.proofs := by
  induction h with
  | new => intro k info hm; simp [newUnconfirmedProofs] at hm
  | insert u sign work threshold now _ ih => exact setsNodup_insert E u sign work threshold now ih
  | confirm u addr c _ ih => exact setsNodup_confirm E u addr c ih
  | checkTimeout u now _ ih => exact setsNodup_checkTimeoutRange now u.proofs u ih

theorem confirm_idem (E : Env) (u : unconfirmedProofs) (addr : Address) (c : ProofConfirm) :
    (u.Confirm E addr c).Confirm E addr c = u.Confirm E addr c := by
  cases hl : mapLoad u.proofs (ProofSignature.Hash E c.Signature) with
  | none =>
    rw [confirm_untracked E u addr c hl, confirm_untracked E u addr c hl]
  | some info =>
    obtain ⟨c1, c2, c3⟩ := confirm_cases E u addr c info hl
    by_cases h1 : setSize (if c.Confirm = true then info.confirmedUnpass
        else setAdd info.confirmedUnpass addr) ≥ info.threshold
    · rw [c1 h1]
      exact confirm_untracked E _ addr c (mapLoad_mapDelete_self _ _)
    · by_cases h2 : setSize (if c.Confirm = true then setAdd info.confirmed addr
          else info.confirmed) ≥ info.threshold
      · rw [c2 h1 h2]
        exact confirm_untracked E _ addr c (mapLoad_mapDelete_self _ _)
      · rw [c3 h1 h2]
        obtain ⟨sig, cf⟩ := c
        cases cf
        · simp only [Bool.false_eq_true, if_false] at h1 h2 ⊢
          obtain ⟨_, _, d3⟩ := confirm_cases E
            { proofs := mapStore u.proofs (ProofSignature.Hash E sig)
                { info with confirmedUnpass := setAdd info.confirmedUnpass addr },
              confirmedCh := u.confirmedCh } addr ⟨sig, false⟩
            { info with confirmedUnpass := setAdd info.confirmedUnpass addr }
            (mapLoad_mapStore_self _ _ _)
          simp only [Bool.false_eq_true, if_false, setAdd_idem] at d3
          rw [d3 h1 h2, mapStore_idem]
        · simp only [if_true] at h1 h2 ⊢
          obtain ⟨_, _, d3⟩ := confirm_cases E
            { proofs := mapStore u.proofs (ProofSignature.Hash E sig)
                { info with confirmed := setAdd info.confirmed addr },
              confirmedCh := u.confirmedCh } addr ⟨sig, true⟩
            { info with confirmed := setAdd info.confirmed addr }
            (mapLoad_mapStore_self _ _ _)
          simp only [if_true, setAdd_idem] at d3
          rw [d3 h1 h2, mapStore_idem]

/-- C4 (as amended): on a tracked entry `Confirm` tests the rejected set first: when,
after adding the sender, the rejected set has at least `threshold` members the work is
sent with `confirmed = false`; otherwise, when the accepted set has at least `threshold`
members, it is sent with `confirmed = true`; a work sent with `confirmed = false` by
`Confirm` always has a rejected set of at least `threshold` members. -/
theorem confirm_tests_rejected_first (E : Env) (u : unconfirmedProofs) (addr : Address)
    (c : ProofConfirm) (info : proofInfo)
    (h : mapLoad u.proofs (ProofSignature.Hash E c.Signature) = some info) :
    (setSize (if c.Confirm = true then info.confirmedUnpass else setAdd info.confirmedUnpass addr)
        ≥ info.threshold →
      u.Confirm E addr c =
        { proofs := mapDelete u.proofs (ProofSignature.Hash E c.Signature),
          confirmedCh := u.confirmedCh ++ [{ info.work with confirmed := false }] })
    ∧ (setSize (if c.Confirm = true then setAdd info.confirmed addr else info.confirmed)
          ≥ info.threshold →
        ¬ setSize (if c.Confirm = true then info.confirmedUnpass
            else setAdd info.confirmedUnpass addr) ≥ info.threshold →
        u.Confirm E addr c =
          { proofs := mapDelete u.proofs (ProofSignature.Hash E c.Signature),
            confirmedCh := u.confirmedCh ++ [{ info.work with confirmed := true }] })
    ∧ (∀ w, (u.Confirm E addr c).confirmedCh = u.confirmedCh ++ [w] → w.confirmed = false →
        setSize (if c.Confirm = true then info.confirmedUnpass
          else setAdd info.confirmedUnpass addr) ≥ info.threshold) := by
  obtain ⟨c1, c2, c3⟩ := confirm_cases E u addr c info h
  refine ⟨c1, fun h2 h1 => c2 h1 h2, fun w hs hw => ?_⟩
  by_contra h1
  by_cases h2 : setSize (if c.Confirm = true then setAdd info.confirmed addr
      else info.confirmed) ≥ info.threshold
  · rw [c2 h1 h2] at hs
    simp only [List.append_cancel_left_eq, List.cons.injEq, and_true] at hs
    rw [← hs] at hw
    simp at hw
  · rw [c3 h1 h2] at hs
    simp at hs

/-- Evaluation of `confirm_tests_rejected_first` at threshold 1 and one rejecting
confirm. -/
theorem confirm_tests_rejected_first_witness :
    (newUnconfirmedProofs.Insert demoEnv [1] demoWork 1 100).Confirm demoEnv 5 ⟨[1], false⟩
      = { proofs := [], confirmedCh := [{ demoWork with confirmed := false }] } :=
  (confirm_tests_rejected_first demoEnv (newUnconfirmedProofs.Insert demoEnv [1] demoWork 1 100) 5
    ⟨[1], false⟩
    { threshold := 1, work := demoWork, confirmed := [], confirmedUnpass := [], time := 100 }
    (by decide)).1 (by decide)

/-- C4 (as stated) fails at threshold 0: one accepting confirm leaves the accepted set
with one member, at least the threshold, and the work is sent with `confirmed = false`. -/
theorem confirm_threshold_zero_sends_false :
    setSize (setAdd ([] : List Address) 5) ≥ 0
    ∧ mapLoad (newUnconfirmedProofs.Insert demoEnv [1] demoWork 0 100).proofs
        (ProofSignature.Hash demoEnv [1])
      = some { threshold := 0, work := demoWork, confirmed := [], confirmedUnpass := [],
               time := 100 }
    ∧ ((newUnconfirmedProofs.Insert demoEnv [1] demoWork 0 100).Confirm demoEnv 5
        ⟨[1], true⟩).confirmedCh = [{ demoWork with confirmed := false }] := by
  decide

/-- C5: on every reachable tracker, when `Confirm` sends a work with `confirmed = true`
the entry's accepted set, after adding the sender, is duplicate-free and has at least
`threshold` members; a repeated confirm from the same address changes nothing, the set
counts the address once. -/
theorem confirm_true_needs_distinct_quorum (E : Env) (u : unconfirmedProofs)
    (hr : TrackerReach E u) (addr : Address) (c : ProofConfirm) :
    (∀ info w, mapLoad u.proofs (ProofSignature.Hash E c.Signature) = some info →
        (u.Confirm E addr c).confirmedCh = u.confirmedCh ++ [w] → w.confirmed = true →
        (if c.Confirm = true then setAdd info.confirmed addr else info.confirmed).Nodup
        ∧ info.threshold
            ≤ ((if c.Confirm = true then setAdd info.confirmed addr else info.confirmed).length : Int)
        ∧ w = { info.work with confirmed := true })
    ∧ (u.Confirm E addr c).Confirm E addr c = u.Confirm E addr c
    ∧ (∀ s : List Address, setSize (setAdd (setAdd s addr) addr) = setSize (setAdd s addr)) := by
  refine ⟨fun info w h hs hw => ?_, confirm_idem E u addr c, fun s => by rw [setAdd_idem]⟩
  have hi := setsNodup_of_reach E u hr _ _ (mapLoad_mem _ _ _ h)
  obtain ⟨c1, c2, c3⟩ := confirm_cases E u addr c info h
  by_cases h1 : setSize (if c.Confirm = true then info.confirmedUnpass
      else setAdd info.confirmedUnpass addr) ≥ info.threshold
  · rw [c1 h1] at hs
    simp only [List.append_cancel_left_eq, List.cons.injEq, and_true] at hs
    rw [← hs] at hw
    simp at hw
  · by_cases h2 : setSize (if c.Confirm = true then setAdd info.confirmed addr
        else info.confirmed) ≥ info.threshold
    · rw [c2 h1 h2] at hs
      simp only [List.append_cancel_left_eq, List.cons.injEq, and_true] at hs
      refine ⟨?_, h2, hs.symm⟩
      by_cases hc : c.Confirm = true
      · simp only [hc, if_true]; exact setAdd_nodup _ _ hi.1
      · simp only [hc, if_false]; exact hi.1
    · rw [c3 h1 h2] at hs
      simp at hs

/-- Evaluation of `confirm_true_needs_distinct_quorum` at threshold 1 and one accepting
confirm. -/
theorem confirm_true_needs_distinct_quorum_witness :
    (setAdd ([] : List Address) 5).Nodup ∧ (1 : Int) ≤ ((setAdd ([] : List Address) 5).length : Int)
    ∧ ({ demoWork with confirmed := true } : Work) = { demoWork with confirmed := true } :=
  (confirm_true_needs_distinct_quorum demoEnv (newUnconfirmedProofs.Insert demoEnv [1] demoWork 1 100)
    (TrackerReach.insert _ [1] demoWork 1 100 TrackerReach.new) 5 ⟨[1], true⟩).1
    { threshold := 1, work := demoWork, confirmed := [], confirmedUnpass := [], time := 100 }
    { demoWork with confirmed := true } (by decide) (by decide) (by decide)

/-! ### The commit queue -/

theorem drainLoop_eq (ws : List Work) (e : Int) (n : Nat) (log : List WriterEvent) :
    drainLoop ws { p := { errored := e, Pending := ws }, writes := n, log := log }
      = { p := { errored := e, Pending := [] }, writes := n,
          log := log ++ ws.map (fun w' => WriterEvent.ended w' false) } := by
  induction ws generalizing log with
  | nil => simp [drainLoop]
  | cons w rest ih =>
    simp only [drainLoop, WorkPending.pop]
    rw [ih]
    simp

/-- The second loop keeps `log ++ remaining` fixed. -/
theorem writeLoop_remaining (outcome : Nat → Bool) (budget : Nat) (s : WriterState) :
    (writeLoop outcome budget s).log ++ writerRemaining outcome (writeLoop outcome budget s)
      = s.log ++ writerRemaining outcome s := by
  induction budget generalizing s with
  | zero => rfl
  | succ b ih =>
    obtain ⟨⟨e, ws⟩, n, log⟩ := s
    by_cases he : e > 0
    · simp [writeLoop, WorkPending.HaveErr, he]
    · cases ws with
      | nil => simp [writeLoop, WorkPending.HaveErr, he]
      | cons w rest =>
        cases ho : outcome n
        · simp only [writeLoop, WorkPending.HaveErr, he, WorkPending.Head, ho]
          simp only [decide_False, Bool.not_false, List.length_cons, gt_iff_lt,
            Nat.zero_lt_succ, decide_True, Bool.and_self, if_true, List.head?_cons,
            Bool.false_eq_true, if_false, WorkPending.pop]
          rw [ih]
          simp [writerRemaining, WorkPending.HaveErr, he, commitOrderSpec, ho]
        · simp only [writeLoop, WorkPending.HaveErr, he, WorkPending.Head, ho]
          simp only [decide_False, Bool.not_false, List.length_cons, gt_iff_lt,
            Nat.zero_lt_succ, decide_True, Bool.and_self, if_true, List.head?_cons,
            WorkPending.pop]
          rw [ih]
          simp [writerRemaining, WorkPending.HaveErr, he, commitOrderSpec, ho]

theorem runTick_remaining (outcome : Nat → Bool) (budget : Nat) (s : WriterState) :
    (runTick outcome budget s).log ++ writerRemaining outcome (runTick outcome budget s)
      = s.log ++ writerRemaining outcome s := by
  unfold runTick
  simp only
  rw [writeLoop_remaining]
  obtain ⟨⟨e, ws⟩, n, log⟩ := s
  by_cases he : e > 0
  · simp [WorkPending.HaveErr, he, drainLoop_eq, writerRemaining]
  · simp [WorkPending.HaveErr, he]

theorem runTicks_remaining (outcome : Nat → Bool) (budgets : List Nat) (s : WriterState) :
    (runTicks outcome budgets s).log ++ writerRemaining outcome (runTicks outcome budgets s)
      = s.log ++ writerRemaining outcome s := by
  induction budgets generalizing s with
  | nil => rfl
  | cons b rest ih =>
    simp only [runTicks, List.foldl_cons] at ih ⊢
    rw [ih, runTick_remaining]

theorem writeLoop_length_le (outcome : Nat → Bool) (budget : Nat) (s : WriterState) :
    (writeLoop outcome budget s).p.Pending.length ≤ s.p.Pending.length - min budget 1
      ∨ s.p.HaveErr = true := by
  induction budget generalizing s with
  | zero => left; simp [writeLoop]
  | succ b ih =>
    obtain ⟨⟨e, ws⟩, n, log⟩ := s
    by_cases he : e > 0
    · right; simp [WorkPending.HaveErr, he]
    · left
      cases ws with
      | nil => simp [writeLoop, WorkPending.HaveErr, he]
      | cons w rest =>
        simp only [writeLoop, WorkPending.HaveErr, he, WorkPending.Head]
        simp only [decide_False, Bool.not_false, List.length_cons, gt_iff_lt,
          Nat.zero_lt_succ, decide_True, Bool.and_self, if_true, List.head?_cons]
        have hpop : ∀ p1 : WorkPending, p1.Pending = w :: rest → p1.pop.1.Pending = rest := by
          intro p1 h1
          simp [WorkPending.pop, h1]
        rcases ih { p := (if outcome n = true then ({ errored := e, Pending := w :: rest } : WorkPending)
                      else { errored := 1, Pending := w :: rest }).pop.1,
                    writes := n + 1,
                    log := log ++ [.write w (outcome n), .ended w (outcome n)] } with h | h
        · simp only at h
          rw [hpop _ (by split <;> rfl)] at h
          omega
        · -- the queue is in error after this write: the loop stops with `rest` queued
          simp only at h
          have hstop : ∀ s1 : WriterState, s1.p.HaveErr = true → writeLoop outcome b s1 = s1 := by
            intro s1 h1
            cases b with
            | zero => rfl
            | succ b' => simp [writeLoop, h1]
          rw [hstop _ h]
          simp only
          rw [hpop _ (by split <;> rfl)]
          omega

theorem runTick_length (outcome : Nat → Bool) (budget : Nat) (s : WriterState)
    (hb : 1 ≤ budget) :
    (runTick outcome budget s).p.Pending.length ≤ s.p.Pending.length - 1 := by
  obtain ⟨⟨e, ws⟩, n, log⟩ := s
  by_cases he : e > 0
  · have hstop : ∀ s1 : WriterState, s1.p.HaveErr = true → writeLoop outcome budget s1 = s1 := by
      intro s1 h1
      cases budget with
      | zero => rfl
      | succ b' => simp [writeLoop, h1]
    simp only [runTick, WorkPending.HaveErr, he, decide_True, if_true, drainLoop_eq]
    rw [hstop _ (by simp [WorkPending.HaveErr, he])]
    simp
  · rcases writeLoop_length_le outcome budget
        { p := { errored := e, Pending := ws }, writes := n, log := log } with h | h
    · simp only [runTick, WorkPending.HaveErr, he, decide_False, Bool.false_eq_true, if_false]
      have : min budget 1 = 1 := by omega
      rw [this] at h
      exact h
    · simp [WorkPending.HaveErr, he] at h

theorem runTicks_length (outcome : Nat → Bool) (budgets : List Nat) (s : WriterState)
    (hb : ∀ b ∈ budgets, 1 ≤ b) :
    (runTicks outcome budgets s).p.Pending.length ≤ s.p.Pending.length - budgets.length := by
  induction budgets generalizing s with
  | nil => simp [runTicks]
  | cons b rest ih =>
    simp only [runTicks, List.foldl_cons] at ih ⊢
    have h1 := runTick_length outcome b s (hb b (List.mem_cons_self _ _))
    have h2 := ih (runTick outcome b s) (fun b' hb' => hb b' (List.mem_cons_of_mem _ hb'))
    simp only [List.length_cons]
    omega

theorem endedRounds_map_ended (ws : List Work) :
    endedRounds (ws.map (fun w' => WriterEvent.ended w' false)) = ws := by
  induction ws with
  | nil => rfl
  | cons w rest ih =>
    simp only [endedRounds] at ih
    simp [endedRounds, ih]

theorem writtenRounds_map_ended (ws : List Work) :
    writtenRounds (ws.map (fun w' => WriterEvent.ended w' false)) = [] := by
  induction ws with
  | nil => rfl
  | cons w rest ih =>
    simp only [writtenRounds] at ih
    simp [writtenRounds, ih]

theorem endedRounds_spec (outcome : Nat → Bool) (n : Nat) (ws : List Work) :
    endedRounds (commitOrderSpec outcome n ws) = ws := by
  induction ws generalizing n with
  | nil => rfl
  | cons w rest ih =>
    cases ho : outcome n
    · have := endedRounds_map_ended rest
      simp only [endedRounds] at this
      simp [commitOrderSpec, ho, endedRounds, this]
    · have := ih (n + 1)
      simp only [endedRounds] at this
      simp [commitOrderSpec, ho, endedRounds, this]

theorem writtenRounds_spec (outcome : Nat → Bool) (n : Nat) (ws : List Work) :
    writtenRounds (commitOrderSpec outcome n ws) <+: ws := by
  induction ws generalizing n with
  | nil => simp [commitOrderSpec, writtenRounds]
  | cons w rest ih =>
    cases ho : outcome n
    · have := writtenRounds_map_ended rest
      simp only [writtenRounds] at this
      simp [commitOrderSpec, ho, writtenRounds, this]
    · have := ih (n + 1)
      simp only [writtenRounds] at this
      simp [commitOrderSpec, ho, writtenRounds, List.cons_prefix_cons, this]

/-- C6: from any queue content and under any outcomes of `WriteBlockAndState`, what the
ticks of `Run` have done so far is an initial part of the commit order of the
specification (rounds written in queue order, the first failing round and all rounds
behind it ended with `WorkEnded(false)` and none behind it written); the rounds written
and the rounds ended are each an initial part of the queue, so none is skipped; and once
as many ticks as rounds have passed, each with room for one iteration, the queue is empty
and the whole order has been carried out. -/
theorem commit_order (ws : List Work) (outcome : Nat → Bool) (budgets : List Nat) :
    (runTicks outcome budgets
        { p := { errored := 0, Pending := ws }, writes := 0, log := [] }).log
      <+: commitOrderSpec outcome 0 ws
    ∧ writtenRounds (runTicks outcome budgets
        { p := { errored := 0, Pending := ws }, writes := 0, log := [] }).log <+: ws
    ∧ endedRounds (runTicks outcome budgets
        { p := { errored := 0, Pending := ws }, writes := 0, log := [] }).log <+: ws
    ∧ endedRounds (commitOrderSpec outcome 0 ws) = ws
    ∧ ((∀ b ∈ budgets, 1 ≤ b) → ws.length ≤ budgets.length →
        (runTicks outcome budgets
          { p := { errored := 0, Pending := ws }, writes := 0, log := [] }).p.Pending = []
        ∧ (runTicks outcome budgets
          { p := { errored := 0, Pending := ws }, writes := 0, log := [] }).log
            = commitOrderSpec outcome 0 ws) := by
  have hrem := runTicks_remaining outcome budgets
    { p := { errored := 0, Pending := ws }, writes := 0, log := [] }
  have h0 : writerRemaining outcome { p := { errored := 0, Pending := ws }, writes := 0, log := [] }
      = commitOrderSpec outcome 0 ws := by
    simp [writerRemaining, WorkPending.HaveErr]
  rw [h0, List.nil_append] at hrem
  have hpre : (runTicks outcome budgets
      { p := { errored := 0, Pending := ws }, writes := 0, log := [] }).log
      <+: commitOrderSpec outcome 0 ws := ⟨_, hrem⟩
  refine ⟨hpre, ?_, ?_, endedRounds_spec outcome 0 ws, fun hb hl => ?_⟩
  · exact List.IsPrefix.trans (List.IsPrefix.filterMap _ hpre) (writtenRounds_spec outcome 0 ws)
  · have := List.IsPrefix.filterMap
      (fun e => match e with | WriterEvent.write _ _ => none | WriterEvent.ended w _ => some w) hpre
    have h2 := endedRounds_spec outcome 0 ws
    simp only [endedRounds] at h2 ⊢
    rw [h2] at this
    exact this
  · have hlen := runTicks_length outcome budgets
      { p := { errored := 0, Pending := ws }, writes := 0, log := [] } hb
    have hnil : (runTicks outcome budgets
        { p := { errored := 0, Pending := ws }, writes := 0, log := [] }).p.Pending = [] := by
      apply List.eq_nil_of_length_eq_zero
      simp only at hlen
      omega
    refine ⟨hnil, ?_⟩
    have hr : writerRemaining outcome (runTicks outcome budgets
        { p := { errored := 0, Pending := ws }, writes := 0, log := [] }) = [] := by
      unfold writerRemaining
      rw [hnil]
      split <;> simp [commitOrderSpec]
    rw [hr, List.append_nil] at hrem
    exact hrem

/-- Evaluation of `commit_order` on two rounds, the first write failing, two ticks. -/
theorem commit_order_witness :
    (runTicks (fun _ => false) [1, 1]
        { p := { errored := 0, Pending := [demoWork, { demoWork with id := 2 }] },
          writes := 0, log := [] }).p.Pending = []
    ∧ (runTicks (fun _ => false) [1, 1]
        { p := { errored := 0, Pending := [demoWork, { demoWork with id := 2 }] },
          writes := 0, log := [] }).log
      = commitOrderSpec (fun _ => false) 0 [demoWork, { demoWork with id := 2 }] :=
  (commit_order [demoWork, { demoWork with id := 2 }] (fun _ => false) [1, 1]).2.2.2.2
    (by decide) (by decide)

/-! ### The rebroadcast budget of the router -/

theorem mapLoad_mapDelete_ne {K V : Type} [DecidableEq K] (m : List (K × V)) (k k' : K)
    (h : k' ≠ k) : mapLoad (mapDelete m k) k' = mapLoad m k' := by
  induction m with
  | nil => rfl
  | cons kv rest ih =>
    obtain ⟨k0, v0⟩ := kv
    by_cases hk : k0 = k
    · subst hk
      have : ¬ k0 = k' := fun e => h e.symm
      simp [mapDelete, mapLoad, ih, this]
    · by_cases hk' : k0 = k'
      · subst hk'
        simp [mapDelete, mapLoad, hk]
      · simp [mapDelete, mapLoad, hk, hk', ih]

theorem mapDelete_cons_self {K V : Type} [DecidableEq K] (k : K) (v : V) (m : List (K × V)) :
    mapDelete ((k, v) :: m) k = mapDelete m k := by
  simp [mapDelete]

theorem knownStep_head (h : Hash) (c : Int) (rest : List (Hash × Int)) :
    knownStep ((h, c) :: rest) h
      = if c > 0 then ((h, c - 1) :: mapDelete rest h, false, true)
        else ((h, c) :: mapDelete rest h, false, false) := by
  by_cases hc : c > 0
  · simp [knownStep, mapLoad, hc, lruAdd, mapDelete, mapDelete_idem]
  · simp [knownStep, mapLoad, hc, mapDelete]

theorem knownStep_fresh (h : Hash) (cache : List (Hash × Int)) (hn : mapLoad cache h = none) :
    ∃ rest, knownStep cache h = ((h, 2) :: rest, true, true) := by
  have h2 : defaultRoutCount - 1 = 2 := by decide
  simp only [knownStep, hn, lruAdd, h2]
  cases cache with
  | nil => exact ⟨[], by simp [routCacheSize]⟩
  | cons e es =>
    split
    · exact ⟨(e :: es).dropLast, by simp [List.dropLast]⟩
    · exact ⟨e :: es, rfl⟩

theorem knownSteps_shift (h : Hash) (k : Nat) (c : List (Hash × Int)) (p b a d : Nat) :
    knownSteps h k (c, p + a, b + d)
      = ((knownSteps h k (c, p, b)).1, (knownSteps h k (c, p, b)).2.1 + a,
          (knownSteps h k (c, p, b)).2.2 + d) := by
  induction k generalizing c p b with
  | zero => rfl
  | succ k ih =>
    simp only [knownSteps]
    have e1 : ∀ x : Nat, p + a + x = (p + x) + a := fun x => by omega
    have e2 : ∀ x : Nat, b + d + x = (b + x) + d := fun x => by omega
    rw [e1, e2, ih]

theorem knownSteps_head (h : Hash) (k : Nat) (c : Int) (rest : List (Hash × Int)) (p b : Nat)
    (hc : 0 ≤ c) :
    (knownSteps h k ((h, c) :: rest, p, b)).2 = (p, b + min k c.toNat) := by
  induction k generalizing c rest p b with
  | zero => simp [knownSteps]
  | succ k ih =>
    simp only [knownSteps, knownStep_head]
    by_cases hpos : c > 0
    · simp only [hpos, if_true, Bool.false_eq_true, if_false, Nat.add_zero]
      rw [ih (c - 1) _ p (b + 1) (by omega)]
      have : (c - 1).toNat = c.toNat - 1 := by omega
      have h1 : 1 ≤ c.toNat := by omega
      rw [this]
      congr 1
      omega
    · simp only [hpos, if_false, Bool.false_eq_true, Nat.add_zero]
      rw [ih c _ p b hc]
      have : c.toNat = 0 := by omega
      simp [this]

theorem knownSteps_fresh (h : Hash) (k : Nat) (cache : List (Hash × Int)) (p b : Nat)
    (hn : mapLoad cache h = none) :
    (knownSteps h k (cache, p, b)).2 = (p + min k 1, b + min k 3) := by
  cases k with
  | zero => simp [knownSteps]
  | succ k =>
    obtain ⟨rest, hr⟩ := knownStep_fresh h cache hn
    simp only [knownSteps, hr, if_true]
    rw [knownSteps_head h k 2 rest (p + 1) (b + 1) (by omega)]
    have : (2 : Int).toNat = 2 := rfl
    rw [this]
    congr 1 <;> omega

theorem count_append_replicate {A : Type} [DecidableEq A] (l : List A) (n : Nat) (x : A) :
    (l ++ List.replicate n x).count x = l.count x + n := by
  simp [List.count_append, List.count_replicate_self]

theorem handleWorkProofMsg_step (E : Env) (r : Router) (m : WorkProofMsg) :
    (HandleWorkProofMsg E r (some m)).1
      = { r with
          handleKnownProof := (knownStep r.handleKnownProof (m.Hash E)).1,
          posted := r.posted ++ List.replicate
            (if (knownStep r.handleKnownProof (m.Hash E)).2.1 then 1 else 0) (RoutMsg.proof m),
          routed := r.routed ++ List.replicate
            (if (knownStep r.handleKnownProof (m.Hash E)).2.2 then 1 else 0) (RoutMsg.proof m) } := by
  cases hl : mapLoad r.handleKnownProof (m.Hash E) with
  | none => simp [HandleWorkProofMsg, knownStep, lruGet, hl, defaultRoutCount]
  | some c => by_cases hc : c > 0 <;> simp [HandleWorkProofMsg, knownStep, lruGet, hl, hc]

theorem handleProofConfirmMsg_step (E : Env) (r : Router) (m : ConfirmMsg) :
    (HandleProofConfirmMsg E r (some m)).1
      = { r with
          handleKnownProofConfirm := (knownStep r.handleKnownProofConfirm (m.Hash E)).1,
          posted := r.posted ++ List.replicate
            (if (knownStep r.handleKnownProofConfirm (m.Hash E)).2.1 then 1 else 0)
            (RoutMsg.confirm m),
          routed := r.routed ++ List.replicate
            (if (knownStep r.handleKnownProofConfirm (m.Hash E)).2.2 then 1 else 0)
            (RoutMsg.confirm m) } := by
  cases hl : mapLoad r.handleKnownProofConfirm (m.Hash E) with
  | none => simp [HandleProofConfirmMsg, knownStep, lruGet, hl, defaultRoutCount]
  | some c => by_cases hc : c > 0 <;> simp [HandleProofConfirmMsg, knownStep, lruGet, hl, hc]

theorem handleResStateMsg_step (E : Env) (r : Router) (m : ResponseStateMsg) :
    (HandleResStateMsg E r (some m)).1
      = { r with
          handleResponseState := (knownStep r.handleResponseState (m.Hash E)).1,
          posted := r.posted ++ List.replicate
            (if (knownStep r.handleResponseState (m.Hash E)).2.1 then 1 else 0)
            (RoutMsg.response m),
          routed := r.routed ++ List.replicate
            (if (knownStep r.handleResponseState (m.Hash E)).2.2 then 1 else 0)
            (RoutMsg.response m) } := by
  cases hl : mapLoad r.handleResponseState (m.Hash E) with
  | none => simp [HandleResStateMsg, knownStep, lruGet, hl, defaultRoutCount]
  | some c => by_cases hc : c > 0 <;> simp [HandleResStateMsg, knownStep, lruGet, hl, hc]

theorem handleGetStateMsg_step (E : Env) (r : Router) (m : QueryStateMsg) :
    (HandleGetStateMsg E r (some m)).1
      = { r with
          handleQueryState := (knownStep r.handleQueryState (m.Hash E)).1,
          posted := r.posted ++ List.replicate
            (if (knownStep r.handleQueryState (m.Hash E)).2.1 then 1 else 0) (RoutMsg.query m),
          routed := r.routed ++ List.replicate
            (if (knownStep r.handleQueryState (m.Hash E)).2.2 then 1 else 0) (RoutMsg.query m) } := by
  cases hl : mapLoad r.handleQueryState (m.Hash E) with
  | none => simp [HandleGetStateMsg, knownStep, lruGet, hl, defaultRoutCount]
  | some c => by_cases hc : c > 0 <;> simp [HandleGetStateMsg, knownStep, lruGet, hl, hc]

/-- Iterating a handler whose effect on one cache and on the two logs is `knownStep`. -/
theorem iterate_knownStep {σ : Type} (f : σ → σ) (cache : σ → List (Hash × Int))
    (posted routed : σ → List RoutMsg) (x : RoutMsg) (h : Hash)
    (hf : ∀ r, cache (f r) = (knownStep (cache r) h).1
      ∧ posted (f r) = posted r ++ List.replicate (if (knownStep (cache r) h).2.1 then 1 else 0) x
      ∧ routed (f r) = routed r ++ List.replicate (if (knownStep (cache r) h).2.2 then 1 else 0) x)
    (k : Nat) (r : σ) :
    cache (Nat.iterate f k r) = (knownSteps h k (cache r, 0, 0)).1
    ∧ posted (Nat.iterate f k r)
        = posted r ++ List.replicate (knownSteps h k (cache r, 0, 0)).2.1 x
    ∧ routed (Nat.iterate f k r)
        = routed r ++ List.replicate (knownSteps h k (cache r, 0, 0)).2.2 x := by
  induction k generalizing r with
  | zero => simp [knownSteps]
  | succ k ih =>
    obtain ⟨h1, h2, h3⟩ := hf r
    obtain ⟨i1, i2, i3⟩ := ih (f r)
    rw [Function.iterate_succ_apply]
    have hs := knownSteps_shift h k (knownStep (cache r) h).1 0 0
      (if (knownStep (cache r) h).2.1 then 1 else 0) (if (knownStep (cache r) h).2.2 then 1 else 0)
    simp only [knownSteps]
    rw [hs]
    simp only
    rw [h1] at i1 i2 i3
    refine ⟨i1, ?_, ?_⟩
    · rw [i2, h2, List.append_assoc, ← List.replicate_add, Nat.add_comm]
    · rw [i3, h3, List.append_assoc, ← List.replicate_add, Nat.add_comm]

theorem length_mapDelete_le {K V : Type} [DecidableEq K] (m : List (K × V)) (k : K) :
    (mapDelete m k).length ≤ m.length := by
  induction m with
  | nil => simp [mapDelete]
  | cons kv rest ih =>
    obtain ⟨k0, v0⟩ := kv
    by_cases hk : k0 = k
    · simp only [mapDelete, hk, if_true, List.length_cons]; omega
    · simp only [mapDelete, hk, if_false, List.length_cons]; omega

theorem knownStep_length (c : List (Hash × Int)) (h : Hash) :
    (knownStep c h).1.length ≤ c.length + 1 := by
  have hd := length_mapDelete_le c h
  unfold knownStep
  cases hl : mapLoad c h with
  | none =>
    simp only [lruAdd, hl]
    split
    · simp only [List.length_dropLast, List.length_cons]; omega
    · simp
  | some v =>
    by_cases hv : v > 0
    · simp only [hv, if_true, lruAdd, mapLoad, List.find?, beq_self_eq_true, Option.map_some']
      simp only [List.length_cons, mapDelete_cons_self, mapDelete_idem]
      omega
    · simp only [hv, if_false, List.length_cons]
      omega

theorem knownStep_other (c : List (Hash × Int)) (h k : Hash) (hne : k ≠ h)
    (hlen : c.length < routCacheSize) :
    mapLoad (knownStep c h).1 k = mapLoad c k := by
  have hne2 : ¬ h = k := fun e => hne e.symm
  unfold knownStep
  cases hl : mapLoad c h with
  | none =>
    have hno : ¬ ((h, defaultRoutCount - 1) :: c).length > routCacheSize := by
      simp only [List.length_cons]; omega
    simp only [lruAdd, hl, hno, if_false]
    simp [mapLoad, hne2]
  | some v =>
    by_cases hv : v > 0
    · simp only [hv, if_true, lruAdd, mapLoad, List.find?, beq_self_eq_true, Option.map_some']
      simp only [mapDelete_cons_self, mapDelete_idem]
      have := mapLoad_mapDelete_ne c h k hne
      simp only [mapLoad] at this
      simp [hne2, this]
    · simp only [hv, if_false]
      have := mapLoad_mapDelete_ne c h k hne
      simp only [mapLoad] at this
      simp [mapLoad, hne2, this]

theorem knownStep_left (c : List (Hash × Int)) (h : Hash) :
    routLeft (mapLoad (knownStep c h).1 h) = routLeft (mapLoad c h) - 1
    ∧ postLeft (mapLoad (knownStep c h).1 h) = postLeft (mapLoad c h) - 1
    ∧ (knownStep c h).2.1 = decide (0 < postLeft (mapLoad c h))
    ∧ (knownStep c h).2.2 = decide (0 < routLeft (mapLoad c h)) := by
  cases hl : mapLoad c h with
  | none =>
    obtain ⟨rest, hr⟩ := knownStep_fresh h c hl
    rw [hr]
    simp [mapLoad, routLeft, postLeft]
  | some v =>
    by_cases hv : v > 0
    · have e : knownStep c h = ((h, v - 1) :: mapDelete c h, false, true) := by
        simp [knownStep, hl, hv, lruAdd, mapLoad, mapDelete_cons_self, mapDelete_idem]
      have hm : mapLoad ((h, v - 1) :: mapDelete c h) h = some (v - 1) := by simp [mapLoad]
      rw [e]
      have h0 : 0 < v.toNat := by omega
      refine ⟨?_, ?_, ?_, ?_⟩
      · simp only [hm, routLeft]; omega
      · simp only [hm, postLeft]
      · simp [postLeft]
      · simp [routLeft, h0]
    · have e : knownStep c h = ((h, v) :: mapDelete c h, false, false) := by
        simp [knownStep, hl, hv]
      have hm : mapLoad ((h, v) :: mapDelete c h) h = some v := by simp [mapLoad]
      rw [e]
      have h0 : v.toNat = 0 := by omega
      refine ⟨?_, ?_, ?_, ?_⟩
      · simp only [hm, routLeft]; omega
      · simp only [hm, postLeft]
      · simp [postLeft]
      · simp [routLeft, h0]

theorem cacheOf_sameCode (r : Router) (x y : RoutMsg) (h : y.sameCode x = true) :
    r.cacheOf y = r.cacheOf x := by
  cases x <;> cases y <;> simp_all [RoutMsg.sameCode, Router.cacheOf]

/-- One dispatched message: its own cache takes a `knownStep`, the other caches stay, and
the message is appended to the two logs as `knownStep` says. -/
theorem inbound_step (E : Env) (r : Router) (y : RoutMsg) :
    (r.inbound E y).cacheOf y = (knownStep (r.cacheOf y) (y.Hash E)).1
    ∧ (∀ x : RoutMsg, y.sameCode x = false → (r.inbound E y).cacheOf x = r.cacheOf x)
    ∧ (r.inbound E y).posted = r.posted ++ List.replicate
        (if (knownStep (r.cacheOf y) (y.Hash E)).2.1 then 1 else 0) y
    ∧ (r.inbound E y).routed = r.routed ++ List.replicate
        (if (knownStep (r.cacheOf y) (y.Hash E)).2.2 then 1 else 0) y := by
  cases y with
  | proof m =>
    simp only [Router.inbound, handleWorkProofMsg_step]
    exact ⟨rfl, fun x hx => by cases x <;> simp_all [RoutMsg.sameCode, Router.cacheOf], rfl, rfl⟩
  | confirm m =>
    simp only [Router.inbound, handleProofConfirmMsg_step]
    exact ⟨rfl, fun x hx => by cases x <;> simp_all [RoutMsg.sameCode, Router.cacheOf], rfl, rfl⟩
  | query m =>
    simp only [Router.inbound, handleGetStateMsg_step]
    exact ⟨rfl, fun x hx => by cases x <;> simp_all [RoutMsg.sameCode, Router.cacheOf], rfl, rfl⟩
  | response m =>
    simp only [Router.inbound, handleResStateMsg_step]
    exact ⟨rfl, fun x hx => by cases x <;> simp_all [RoutMsg.sameCode, Router.cacheOf], rfl, rfl⟩

theorem count_append_replicate_ne {A : Type} [DecidableEq A] (l : List A) (n : Nat) (x y : A)
    (h : y ≠ x) : (l ++ List.replicate n y).count x = l.count x := by
  have : ¬ (y == x) = true := by simpa using h
  simp [List.count_append, List.count_replicate, this]

/-- Arrivals of `x` interleaved with other messages: as long as no arrival collides with
the hash of `x` and the cache of `x` is not filled up, `x` is broadcast and posted as often
as its cache entry allows. -/
theorem inbounds_count (E : Env) (x : RoutMsg) (tr : List RoutMsg) (r : Router)
    (hlen : (r.cacheOf x).length + tr.length ≤ routCacheSize)
    (hcoll : ∀ y ∈ tr, y.sameCode x = true → y.Hash E = x.Hash E → y = x) :
    (r.inbounds E tr).routed.count x
        = r.routed.count x + min (tr.count x) (routLeft (mapLoad (r.cacheOf x) (x.Hash E)))
    ∧ (r.inbounds E tr).posted.count x
        = r.posted.count x + min (tr.count x) (postLeft (mapLoad (r.cacheOf x) (x.Hash E))) := by
  induction tr generalizing r with
  | nil => simp [Router.inbounds]
  | cons y rest ih =>
    obtain ⟨s1, s2, s3, s4⟩ := inbound_step E r y
    have hfold : r.inbounds E (y :: rest) = (r.inbound E y).inbounds E rest := rfl
    have hcoll2 : ∀ z ∈ rest, z.sameCode x = true → z.Hash E = x.Hash E → z = x :=
      fun z hz => hcoll z (List.mem_cons_of_mem _ hz)
    simp only [List.length_cons] at hlen
    by_cases hyx : y = x
    · subst hyx
      have hl := knownStep_length (r.cacheOf y) (y.Hash E)
      obtain ⟨k1, k2, k3, k4⟩ := knownStep_left (r.cacheOf y) (y.Hash E)
      obtain ⟨i1, i2⟩ := ih (r.inbound E y) (by rw [s1]; omega) hcoll2
      rw [hfold, i1, i2, s1, s3, s4, count_append_replicate, count_append_replicate, k1, k2, k3, k4]
      simp only [List.count_cons_self, decide_eq_true_eq]
      constructor
      · split <;> omega
      · split <;> omega
    · have hcnt : (y :: rest).count x = rest.count x := by
        have : ¬ (y == x) = true := by simpa using hyx
        simp [List.count_cons, this]
      have hcache : mapLoad ((r.inbound E y).cacheOf x) (x.Hash E)
            = mapLoad (r.cacheOf x) (x.Hash E)
          ∧ ((r.inbound E y).cacheOf x).length ≤ (r.cacheOf x).length + 1 := by
        cases hsc : y.sameCode x with
        | false => rw [s2 x hsc]; exact ⟨rfl, by omega⟩
        | true =>
          have e1 := cacheOf_sameCode r x y hsc
          have e2 := cacheOf_sameCode (r.inbound E y) x y hsc
          have hne : x.Hash E ≠ y.Hash E := fun e => hyx (hcoll y (List.mem_cons_self _ _) hsc e.symm)
          rw [← e2, s1, e1]
          exact ⟨knownStep_other _ _ _ hne (by omega), knownStep_length _ _⟩
      obtain ⟨i1, i2⟩ := ih (r.inbound E y) (by omega) hcoll2
      rw [hfold, i1, i2, hcache.1, s3, s4, count_append_replicate_ne _ _ _ _ hyx,
        count_append_replicate_ne _ _ _ _ hyx, hcnt]
      exact ⟨rfl, rfl⟩

/-- C8 (amended): when a WorkProof message whose hash is not in the rebroadcast cache
arrives `k` times in a row at `HandleWorkProofMsg`, it is passed to `routProof` exactly `min k 3`
times and posted on the mux exactly `min k 1` times (on its first arrival only); the
same holds for `HandleProofConfirmMsg`, `HandleGetStateMsg` and `HandleResStateMsg`, each
keyed by its message hash. The last part gives the same counts when the arrivals of the
message are interleaved with arrivals of any other messages of the four kinds, provided
no other arrival of the same kind has the same hash and the cache of that kind, of
capacity 100000, is not filled up by the sequence (so that nothing is evicted). -/
theorem rebroadcast_budget (E : Env) (r : Router) (k : Nat) :
    (∀ m : WorkProofMsg, mapLoad r.handleKnownProof (m.Hash E) = none →
      (Nat.iterate (fun st => (HandleWorkProofMsg E st (some m)).1) k r).routed.count (RoutMsg.proof m)
          = r.routed.count (RoutMsg.proof m) + min k 3
      ∧ (Nat.iterate (fun st => (HandleWorkProofMsg E st (some m)).1) k r).posted.count (RoutMsg.proof m)
          = r.posted.count (RoutMsg.proof m) + min k 1)
    ∧ (∀ m : ConfirmMsg, mapLoad r.handleKnownProofConfirm (m.Hash E) = none →
      (Nat.iterate (fun st => (HandleProofConfirmMsg E st (some m)).1) k r).routed.count
            (RoutMsg.confirm m)
          = r.routed.count (RoutMsg.confirm m) + min k 3
      ∧ (Nat.iterate (fun st => (HandleProofConfirmMsg E st (some m)).1) k r).posted.count
            (RoutMsg.confirm m)
          = r.posted.count (RoutMsg.confirm m) + min k 1)
    ∧ (∀ m : QueryStateMsg, mapLoad r.handleQueryState (m.Hash E) = none →
      (Nat.iterate (fun st => (HandleGetStateMsg E st (some m)).1) k r).routed.count (RoutMsg.query m)
          = r.routed.count (RoutMsg.query m) + min k 3
      ∧ (Nat.iterate (fun st => (HandleGetStateMsg E st (some m)).1) k r).posted.count (RoutMsg.query m)
          = r.posted.count (RoutMsg.query m) + min k 1)
    ∧ (∀ m : ResponseStateMsg, mapLoad r.handleResponseState (m.Hash E) = none →
      (Nat.iterate (fun st => (HandleResStateMsg E st (some m)).1) k r).routed.count
            (RoutMsg.response m)
          = r.routed.count (RoutMsg.response m) + min k 3
      ∧ (Nat.iterate (fun st => (HandleResStateMsg E st (some m)).1) k r).posted.count
            (RoutMsg.response m)
          = r.posted.count (RoutMsg.response m) + min k 1)
    ∧ (∀ (x : RoutMsg) (tr : List RoutMsg), mapLoad (r.cacheOf x) (x.Hash E) = none →
      (r.cacheOf x).length + tr.length ≤ routCacheSize →
      (∀ y ∈ tr, y.sameCode x = true → y.Hash E = x.Hash E → y = x) →
      (r.inbounds E tr).routed.count x = r.routed.count x + min (tr.count x) 3
      ∧ (r.inbounds E tr).posted.count x = r.posted.count x + min (tr.count x) 1) := by
  refine ⟨fun m hn => ?_, fun m hn => ?_, fun m hn => ?_, fun m hn => ?_,
    fun x tr hn hlen hcoll => ?_⟩
  · obtain ⟨_, h2, h3⟩ := iterate_knownStep (fun st => (HandleWorkProofMsg E st (some m)).1)
      Router.handleKnownProof Router.posted Router.routed (RoutMsg.proof m) (m.Hash E)
      (fun st => by beta_reduce; rw [handleWorkProofMsg_step]; exact ⟨rfl, rfl, rfl⟩) k r
    have hk := knownSteps_fresh (m.Hash E) k r.handleKnownProof 0 0 hn
    rw [h2, h3, count_append_replicate, count_append_replicate, hk]
    simp
  · obtain ⟨_, h2, h3⟩ := iterate_knownStep (fun st => (HandleProofConfirmMsg E st (some m)).1)
      Router.handleKnownProofConfirm Router.posted Router.routed (RoutMsg.confirm m) (m.Hash E)
      (fun st => by beta_reduce; rw [handleProofConfirmMsg_step]; exact ⟨rfl, rfl, rfl⟩) k r
    have hk := knownSteps_fresh (m.Hash E) k r.handleKnownProofConfirm 0 0 hn
    rw [h2, h3, count_append_replicate, count_append_replicate, hk]
    simp
  · obtain ⟨_, h2, h3⟩ := iterate_knownStep (fun st => (HandleGetStateMsg E st (some m)).1)
      Router.handleQueryState Router.posted Router.routed (RoutMsg.query m) (m.Hash E)
      (fun st => by beta_reduce; rw [handleGetStateMsg_step]; exact ⟨rfl, rfl, rfl⟩) k r
    have hk := knownSteps_fresh (m.Hash E) k r.handleQueryState 0 0 hn
    rw [h2, h3, count_append_replicate, count_append_replicate, hk]
    simp
  · obtain ⟨_, h2, h3⟩ := iterate_knownStep (fun st => (HandleResStateMsg E st (some m)).1)
      Router.handleResponseState Router.posted Router.routed (RoutMsg.response m) (m.Hash E)
      (fun st => by beta_reduce; rw [handleResStateMsg_step]; exact ⟨rfl, rfl, rfl⟩) k r
    have hk := knownSteps_fresh (m.Hash E) k r.handleResponseState 0 0 hn
    rw [h2, h3, count_append_replicate, count_append_replicate, hk]
    simp
  · have h := inbounds_count E x tr r hlen hcoll
    rw [hn] at h
    exact h

/-- Evaluation of `rebroadcast_budget` on five arrivals of one proof message at a fresh
router, in a row and interleaved with a response and another proof message. -/
theorem rebroadcast_budget_witness :
    ((Nat.iterate (fun st => (HandleWorkProofMsg demoEnv st (some (demoProofMsg 1 0 []))).1) 5
        newRouter).routed.count (RoutMsg.proof (demoProofMsg 1 0 []))
      = newRouter.routed.count (RoutMsg.proof (demoProofMsg 1 0 [])) + min 5 3
    ∧ (Nat.iterate (fun st => (HandleWorkProofMsg demoEnv st (some (demoProofMsg 1 0 []))).1) 5
        newRouter).posted.count (RoutMsg.proof (demoProofMsg 1 0 []))
      = newRouter.posted.count (RoutMsg.proof (demoProofMsg 1 0 [])) + min 5 1)
    ∧ ((newRouter.inbounds demoEnv
          [RoutMsg.proof (demoProofMsg 1 0 []), RoutMsg.response (demoResponse 1 0),
           RoutMsg.proof (demoProofMsg 1 0 []), RoutMsg.proof (demoProofMsg 2 0 []),
           RoutMsg.proof (demoProofMsg 1 0 []), RoutMsg.proof (demoProofMsg 1 0 []),
           RoutMsg.proof (demoProofMsg 1 0 [])]).routed.count (RoutMsg.proof (demoProofMsg 1 0 []))
        = newRouter.routed.count (RoutMsg.proof (demoProofMsg 1 0 []))
          + min ([RoutMsg.proof (demoProofMsg 1 0 []), RoutMsg.response (demoResponse 1 0),
           RoutMsg.proof (demoProofMsg 1 0 []), RoutMsg.proof (demoProofMsg 2 0 []),
           RoutMsg.proof (demoProofMsg 1 0 []), RoutMsg.proof (demoProofMsg 1 0 []),
           RoutMsg.proof (demoProofMsg 1 0 [])].count (RoutMsg.proof (demoProofMsg 1 0 []))) 3
      ∧ (newRouter.inbounds demoEnv
          [RoutMsg.proof (demoProofMsg 1 0 []), RoutMsg.response (demoResponse 1 0),
           RoutMsg.proof (demoProofMsg 1 0 []), RoutMsg.proof (demoProofMsg 2 0 []),
           RoutMsg.proof (demoProofMsg 1 0 []), RoutMsg.proof (demoProofMsg 1 0 []),
           RoutMsg.proof (demoProofMsg 1 0 [])]).posted.count (RoutMsg.proof (demoProofMsg 1 0 []))
        = newRouter.posted.count (RoutMsg.proof (demoProofMsg 1 0 []))
          + min ([RoutMsg.proof (demoProofMsg 1 0 []), RoutMsg.response (demoResponse 1 0),
           RoutMsg.proof (demoProofMsg 1 0 []), RoutMsg.proof (demoProofMsg 2 0 []),
           RoutMsg.proof (demoProofMsg 1 0 []), RoutMsg.proof (demoProofMsg 1 0 []),
           RoutMsg.proof (demoProofMsg 1 0 [])].count (RoutMsg.proof (demoProofMsg 1 0 []))) 1) :=
  ⟨(rebroadcast_budget demoEnv newRouter 5).1 (demoProofMsg 1 0 []) (by decide),
   (rebroadcast_budget demoEnv newRouter 5).2.2.2.2 (RoutMsg.proof (demoProofMsg 1 0 []))
      [RoutMsg.proof (demoProofMsg 1 0 []), RoutMsg.response (demoResponse 1 0),
       RoutMsg.proof (demoProofMsg 1 0 []), RoutMsg.proof (demoProofMsg 2 0 []),
       RoutMsg.proof (demoProofMsg 1 0 []), RoutMsg.proof (demoProofMsg 1 0 []),
       RoutMsg.proof (demoProofMsg 1 0 [])]
      (by decide) (by decide) (by decide)⟩

/-! ### The sync gate -/

/-- C9 (as stated) fails: with `AcceptTxs = 0`, a first-seen WorkProof message whose
proof verifies is handled by `dealProofEvent`, which calls `AddTxs` with the proof's
transactions. -/
theorem workproof_adds_txs_with_gate_closed :
    demoNode.router.AcceptTxs = 0
    ∧ (demoNode.inboundWorkProof demoEnv (demoProofMsg 1 0 [demoTx]) []).router.AcceptTxs = 0
    ∧ (demoNode.inboundWorkProof demoEnv (demoProofMsg 1 0 [demoTx]) []).worker.addTxsCalls
        = [[demoTx]] := by
  decide

/-! ### Handling of inbound proofs: what the steps leave alone -/

theorem noAccept_nil : NoAccept [] := by
  intro x hx; simp at hx

theorem noAccept_append (a b : List RoutMsg) (ha : NoAccept a) (hb : NoAccept b) :
    NoAccept (a ++ b) := by
  intro x hx m hm
  rcases List.mem_append.1 hx with h | h
  · exact ha x h m hm
  · exact hb x h m hm

theorem mapLoad_lruGet {V : Type} (c : List (Hash × V)) (k k' : Hash) :
    mapLoad (lruGet c k).2 k' = mapLoad c k' := by
  unfold lruGet
  cases hl : mapLoad c k with
  | none => rfl
  | some v =>
    by_cases hk : k = k'
    · subst hk; simp [mapLoad, hl]
    · simp [mapLoad, hk, mapLoad_mapDelete_ne c k k' (fun e => hk e.symm)]

theorem lruGet_fst {V : Type} (c : List (Hash × V)) (k : Hash) :
    (lruGet c k).1 = mapLoad c k := by
  unfold lruGet
  cases mapLoad c k <;> rfl

/-- The two outcomes of `dealResponseState`: nothing but the recency order of the query
cache changes, or the response matches the cached query of its sender and the entry
`{sender, number, root}` is written. -/
theorem dealResponseState_cases (w : WorkerState) (ev : ResponseStateMsg) (sender : Address) :
    (∃ c, dealResponseState w ev sender = ({ w with queryCache := c }, false)
        ∧ ∀ k, mapLoad c k = mapLoad w.queryCache k)
    ∨ (∃ c qs sent, dealResponseState w ev sender
          = (WritePeerProof { w with queryCache := c } sender
              { Addr := sender, Num := bigUint64 ev.Rs.Number, Root := ev.Rs.Root }, sent)
        ∧ (∀ k, mapLoad c k = mapLoad w.queryCache k)
        ∧ mapLoad w.queryCache sender = some qs
        ∧ bigUint64 ev.Rs.Number = bigUint64 qs.Qs.Number
        ∧ ev.Rs.Querier = w.coinbase
        ∧ (sent = true ↔ mapLoad w.peerLockMap sender = some true)) := by
  by_cases hq : ev.Rs.Querier ≠ w.coinbase
  · left
    exact ⟨w.queryCache, by simp [dealResponseState, hq], fun _ => rfl⟩
  · have hfst := lruGet_fst w.queryCache sender
    have hsnd := mapLoad_lruGet w.queryCache sender
    cases hg : lruGet w.queryCache sender with
    | mk hit cache1 =>
      rw [hg] at hfst hsnd
      simp only at hfst hsnd
      cases hit with
      | none =>
        left
        exact ⟨w.queryCache, by simp [dealResponseState, hq, hg], fun _ => rfl⟩
      | some qs =>
        by_cases hn : bigUint64 ev.Rs.Number ≠ bigUint64 qs.Qs.Number
        · left
          exact ⟨cache1, by simp [dealResponseState, hq, hg, hn], hsnd⟩
        · right
          have hn' : bigUint64 ev.Rs.Number = bigUint64 qs.Qs.Number := not_not.1 hn
          have hq' : ev.Rs.Querier = w.coinbase := not_not.1 hq
          cases hlock : mapLoad w.peerLockMap sender with
          | none =>
            exact ⟨cache1, qs, false, by simp [dealResponseState, hq', hg, hn', WritePeerProof, hlock],
              hsnd, hfst.symm, hn', hq', by simp⟩
          | some b =>
            cases b with
            | true =>
              exact ⟨cache1, qs, true, by simp [dealResponseState, hq', hg, hn', WritePeerProof, hlock],
                hsnd, hfst.symm, hn', hq', by simp⟩
            | false =>
              exact ⟨cache1, qs, false, by simp [dealResponseState, hq', hg, hn', WritePeerProof, hlock],
                hsnd, hfst.symm, hn', hq', by simp⟩

theorem lastWrite_nil (p : Address) : lastWrite p [] = none := rfl

theorem lastWrite_append (p : Address) (a b : List ProofState) :
    lastWrite p (a ++ b) = (lastWrite p b).or (lastWrite p a) := by
  simp [lastWrite, List.filter_append]

theorem lastWrite_mem (p : Address) (aw : List ProofState) (st : ProofState)
    (h : lastWrite p aw = some st) : st ∈ aw ∧ st.Addr = p := by
  have hm := List.mem_of_getLast?_eq_some h
  simpa using hm

theorem lastWrite_of_mem (p : Address) (aw : List ProofState) (st : ProofState)
    (h : st ∈ aw) (ha : st.Addr = p) : ∃ st', lastWrite p aw = some st' := by
  have hm : st ∈ aw.filter (fun st => decide (st.Addr = p)) := by simp [h, ha]
  cases hl : lastWrite p aw with
  | some st' => exact ⟨st', rfl⟩
  | none =>
    simp only [lastWrite, List.getLast?_eq_none_iff] at hl
    rw [hl] at hm
    simp at hm

theorem steps_refl (w : WorkerState) : Steps w w [] [] :=
  ⟨rfl, rfl, rfl, rfl, by simp, noAccept_nil, by simp, fun _ => by simp [lastWrite_nil]⟩

theorem steps_trans (a b c : WorkerState) (ap bp : List RoutMsg) (aw bw : List ProofState)
    (h1 : Steps a b ap aw) (h2 : Steps b c bp bw) : Steps a c (ap ++ bp) (aw ++ bw) := by
  obtain ⟨a1, a2, a3, a4, a5, a6, a7, a8⟩ := h1
  obtain ⟨b1, b2, b3, b4, b5, b6, b7, b8⟩ := h2
  refine ⟨b1.trans a1, b2.trans a2, b3.trans a3, b4.trans a4, ?_, noAccept_append _ _ a6 b6, ?_,
    fun p => ?_⟩
  · rw [b5, a5, List.append_assoc]
  · rw [b7, a7, List.append_assoc]
  · rw [b8 p, a8 p, lastWrite_append, Option.or_assoc]

theorem mapLoad_mapStore_ne {K V : Type} [DecidableEq K] (m : List (K × V)) (k k' : K) (v : V)
    (h : k' ≠ k) : mapLoad (mapStore m k v) k' = mapLoad m k' := by
  induction m with
  | nil =>
    have : ¬ k = k' := fun e => h e.symm
    simp [mapStore, mapLoad, this]
  | cons kv rest ih =>
    obtain ⟨k0, v0⟩ := kv
    by_cases hk : k0 = k
    · subst hk
      have : ¬ k0 = k' := fun e => h e.symm
      simp [mapStore, mapLoad, this, mapLoad_mapDelete_ne rest k0 k' h]
    · by_cases hk' : k0 = k'
      · subst hk'
        simp [mapStore, mapLoad, hk]
      · simp [mapStore, mapLoad, hk, hk', ih]

theorem writePeerProof_steps (w : WorkerState) (addr : Address) (st : ProofState)
    (ha : st.Addr = addr) : Steps w (WritePeerProof w addr st) [] [st] := by
  refine ⟨rfl, rfl, rfl, rfl, by simp [WritePeerProof], noAccept_nil, rfl, fun p => ?_⟩
  by_cases hp : p = addr
  · subst hp
    simp [GetPeerProof, WritePeerProof, mapLoad_mapStore_self, lastWrite, ha]
  · have hne : ¬ st.Addr = p := fun e => hp (e.symm.trans ha)
    simp [GetPeerProof, WritePeerProof, mapLoad_mapStore_ne _ addr p st hp, lastWrite, hne]

theorem steps_of_queryCache (w : WorkerState) (c : List (Hash × QueryStateMsg)) :
    Steps w { w with queryCache := c } [] [] :=
  ⟨rfl, rfl, rfl, rfl, by simp, noAccept_nil, by simp, fun _ => by simp [lastWrite_nil, GetPeerProof]⟩

theorem steps_of_peerLockMap (w : WorkerState) (m : List (Address × Bool)) :
    Steps w { w with peerLockMap := m } [] [] :=
  ⟨rfl, rfl, rfl, rfl, by simp, noAccept_nil, by simp, fun _ => by simp [lastWrite_nil, GetPeerProof]⟩

/-- `dealResponseState` posts nothing and writes at most the one entry of its sender,
numbered as the cached query of that sender. -/
theorem dealResponseState_steps (w : WorkerState) (ev : ResponseStateMsg) (sender : Address) :
    ∃ aw, Steps w (dealResponseState w ev sender).1 [] aw
      ∧ (∀ k, mapLoad (dealResponseState w ev sender).1.queryCache k = mapLoad w.queryCache k)
      ∧ (aw = [] ∨ (aw = [{ Addr := sender, Num := bigUint64 ev.Rs.Number, Root := ev.Rs.Root }]
          ∧ ∃ qs, mapLoad w.queryCache sender = some qs
            ∧ bigUint64 ev.Rs.Number = bigUint64 qs.Qs.Number))
      ∧ ((dealResponseState w ev sender).2 = true → aw ≠ []) := by
  rcases dealResponseState_cases w ev sender with ⟨c, h, hc⟩ | ⟨c, qs, sent, h, hc, hq, hn, _, _⟩
  · rw [h]
    exact ⟨[], steps_of_queryCache w c, hc, Or.inl rfl, by simp⟩
  · rw [h]
    refine ⟨[_], ?_, hc, Or.inr ⟨rfl, qs, hq, hn⟩, by simp⟩
    have := steps_trans _ _ _ _ _ _ _ (steps_of_queryCache w c)
      (writePeerProof_steps { w with queryCache := c } sender
        { Addr := sender, Num := bigUint64 ev.Rs.Number, Root := ev.Rs.Root } rfl)
    simpa using this

/-- While `queryRemoteState` waits on the lock of `miner` with the query `msg` cached,
every entry written for `miner` carries the number of `msg`; a wait that ends with a
token has written one. -/
theorem awaitPeerLock_steps (miner : Address) (msg : QueryStateMsg)
    (resps : List (ResponseStateMsg × Address)) (w : WorkerState)
    (hq : mapLoad w.queryCache miner = some msg) :
    ∃ aw, Steps w (awaitPeerLock miner resps w).1 [] aw
      ∧ (∀ st ∈ aw, st.Addr = miner → st.Num = bigUint64 msg.Qs.Number)
      ∧ ((awaitPeerLock miner resps w).2 = true → ∃ st ∈ aw, st.Addr = miner) := by
  induction resps generalizing w with
  | nil =>
    refine ⟨[], ?_, by simp, by simp [awaitPeerLock]⟩
    simp only [awaitPeerLock]
    exact steps_of_peerLockMap w _
  | cons e rest ih =>
    obtain ⟨ev, sender⟩ := e
    obtain ⟨aw1, hs1, hc1, hw1, hsent⟩ := dealResponseState_steps w ev sender
    have hnum : ∀ st ∈ aw1, st.Addr = miner → st.Num = bigUint64 msg.Qs.Number := by
      intro st hst ha
      rcases hw1 with h | ⟨h, qs, hqs, hn⟩
      · rw [h] at hst; simp at hst
      · rw [h] at hst
        simp only [List.mem_singleton] at hst
        subst hst
        simp only at ha
        subst ha
        rw [hq] at hqs
        cases hqs
        exact hn
    simp only [awaitPeerLock]
    by_cases hdone : ((dealResponseState w ev sender).2 && decide (sender = miner)) = true
    · rw [if_pos hdone]
      simp only [Bool.and_eq_true, decide_eq_true_eq] at hdone
      refine ⟨aw1, hs1, hnum, fun _ => ?_⟩
      rcases hw1 with h | ⟨h, _⟩
      · exact absurd h (hsent hdone.1)
      · exact ⟨_, by rw [h]; exact List.mem_singleton.2 rfl, hdone.2⟩
    · rw [if_neg hdone]
      obtain ⟨aw2, hs2, hn2, hd2⟩ := ih (dealResponseState w ev sender).1 (by rw [hc1]; exact hq)
      refine ⟨aw1 ++ aw2, ?_, ?_, ?_⟩
      · have := steps_trans _ _ _ _ _ _ _ hs1 hs2
        simpa using this
      · intro st hst ha
        rcases List.mem_append.1 hst with h | h
        · exact hnum st h ha
        · exact hn2 st h ha
      · intro hd
        obtain ⟨st, hst, ha⟩ := hd2 hd
        exact ⟨st, List.mem_append_right _ hst, ha⟩

theorem mapLoad_lruAdd_self {V : Type} (size : Nat) (hs : 1 ≤ size) (c : List (Hash × V))
    (k : Hash) (v : V) : mapLoad (lruAdd size c k v) k = some v := by
  unfold lruAdd
  cases hl : mapLoad c k with
  | some _ => simp [mapLoad]
  | none =>
    simp only
    split
    · rename_i hlen
      cases c with
      | nil => simp at hlen; omega
      | cons e es => simp [List.dropLast, mapLoad]
    · simp [mapLoad]

/-- `queryRemoteState` posts at most its query, and every entry written for `miner` while
it waits carries the queried number (as `Uint64` reads it). -/
theorem queryRemoteState_steps (E : Env) (w : WorkerState) (miner : Address) (number : Int)
    (resps : List (ResponseStateMsg × Address)) :
    ∃ ap aw, Steps w (queryRemoteState E w miner number resps).1 ap aw
      ∧ (∀ st ∈ aw, st.Addr = miner → st.Num = bigUint64 number)
      ∧ ((queryRemoteState E w miner number resps).2 = true → ∃ st ∈ aw, st.Addr = miner) := by
  unfold queryRemoteState
  simp only
  cases hsig : SignData E (QueryState.Data E { Miner := miner, Number := number }) with
  | none => exact ⟨[], [], steps_refl w, by simp, by simp⟩
  | some sig =>
    simp only
    have hq : NoAccept [RoutMsg.query
        { Qs := { Miner := miner, Number := number }, Sign := sig }] := by
      intro x hx m hm
      simp only [List.mem_singleton] at hx
      rw [hx] at hm
      cases hm
    have hload := mapLoad_lruAdd_self queryCacheSize (by decide) w.queryCache miner
      ({ Qs := { Miner := miner, Number := number }, Sign := sig } : QueryStateMsg)
    have key : ∀ W : WorkerState,
        Steps w W [RoutMsg.query { Qs := { Miner := miner, Number := number }, Sign := sig }] [] →
        mapLoad W.queryCache miner
          = some ({ Qs := { Miner := miner, Number := number }, Sign := sig } : QueryStateMsg) →
        ∃ ap aw, Steps w (awaitPeerLock miner resps W).1 ap aw
          ∧ (∀ st ∈ aw, st.Addr = miner → st.Num = bigUint64 number)
          ∧ ((awaitPeerLock miner resps W).2 = true → ∃ st ∈ aw, st.Addr = miner) := by
      intro W h0 hl
      obtain ⟨aw, hs, hn, hd⟩ := awaitPeerLock_steps miner
        { Qs := { Miner := miner, Number := number }, Sign := sig } resps W hl
      have := steps_trans _ _ _ _ _ _ _ h0 hs
      exact ⟨_, _, this, by simpa using hn, hd⟩
    split
    · exact key _ ⟨rfl, rfl, rfl, rfl, rfl, hq, by simp, fun _ => by simp [lastWrite_nil, GetPeerProof]⟩ hload
    · exact key _ ⟨rfl, rfl, rfl, rfl, rfl, hq, by simp, fun _ => by simp [lastWrite_nil, GetPeerProof]⟩ hload

theorem postConfirm_reject_steps (E : Env) (w : WorkerState) (sig : Bytes) :
    ∃ ap, Steps w (postConfirm E w { Signature := sig, Confirm := false }) ap [] := by
  unfold postConfirm
  split
  · exact ⟨[], steps_refl w⟩
  · refine ⟨_, rfl, rfl, rfl, rfl, rfl, ?_, by simp, fun _ => by simp [lastWrite_nil, GetPeerProof]⟩
    intro x hx m hm
    simp only [List.mem_singleton] at hx
    rw [hx] at hm
    cases hm
    rfl

theorem verifyProof_some (E : Env) (sender : Address) (r : Hash) (proof : WorkProof) (nr : Hash)
    (h : VerifyProof E sender r proof = some nr) :
    nr = MixHash E r (DeriveSha E proof.Txs)
      ∧ E.ecrecover (E.hashBytes (MixHash E r (DeriveSha E proof.Txs))) proof.Sign = some sender := by
  simp only [VerifyProof, verifyProof] at h
  cases hr : E.ecrecover (E.hashBytes (MixHash E r (DeriveSha E proof.Txs))) proof.Sign with
  | none => rw [hr] at h; simp at h
  | some a =>
    rw [hr] at h
    by_cases ha : a = sender
    · simp [ha] at h
      exact ⟨h.symm, by rw [ha]⟩
    · simp [ha] at h

/-- The re-verify loop: every entry it writes for the sender before the final one carries
the number of its query; it is left by `break` with `Confirm = true` exactly when the
proof verified against some root `r`, the final write is then the accepted entry of `r`,
and `r` is the root the loop started with or the root of an entry written meanwhile. -/
theorem proofLoop_spec (E : Env) (ev : WorkProofMsg) (sender : Address)
    (waits : List (List (ResponseStateMsg × Address))) (w : WorkerState) (ps : ProofState) :
    ∃ ap pre fin, Steps w (proofLoop E ev sender waits w ps).1 ap (pre ++ fin)
      ∧ (∀ st ∈ pre, st.Addr = sender → st.Num = loopQueryNum ev)
      ∧ (((proofLoop E ev sender waits w ps).2 = LoopExit.broke true
            ∧ ∃ r, fin = [acceptedEntry E ev sender r]
              ∧ VerifyProof E sender r ev.Proof = some (MixHash E r (DeriveSha E ev.Proof.Txs))
              ∧ (r = ps.Root ∨ ∃ st ∈ pre, st.Addr = sender ∧ st.Root = r))
          ∨ ((proofLoop E ev sender waits w ps).2 ≠ LoopExit.broke true ∧ fin = [])) := by
  induction waits generalizing w ps with
  | nil =>
    simp only [proofLoop]
    cases hv : VerifyProof E sender ps.Root ev.Proof with
    | some nr =>
      obtain ⟨hnr, _⟩ := verifyProof_some E sender ps.Root ev.Proof nr hv
      subst hnr
      refine ⟨[], [], [acceptedEntry E ev sender ps.Root], ?_, by simp, Or.inl ⟨rfl, ps.Root, rfl, hv,
        Or.inl rfl⟩⟩
      exact writePeerProof_steps w sender _ rfl
    | none =>
      simp only
      split
      · obtain ⟨ap, hs⟩ := postConfirm_reject_steps E w ev.Proof.Sign
        exact ⟨ap, [], [], hs, by simp, Or.inr ⟨by simp, rfl⟩⟩
      · obtain ⟨ap, aw, hs, hn, _⟩ := queryRemoteState_steps E w sender
          (toInt64 ((bigUint64 ev.Proof.Number + 2 ^ 64 - 1) % 2 ^ 64)) []
        exact ⟨ap, aw, [], by simpa using hs, hn, Or.inr ⟨by simp, rfl⟩⟩
  | cons resps rest ih =>
    simp only [proofLoop]
    cases hv : VerifyProof E sender ps.Root ev.Proof with
    | some nr =>
      obtain ⟨hnr, _⟩ := verifyProof_some E sender ps.Root ev.Proof nr hv
      subst hnr
      refine ⟨[], [], [acceptedEntry E ev sender ps.Root], ?_, by simp, Or.inl ⟨rfl, ps.Root, rfl, hv,
        Or.inl rfl⟩⟩
      exact writePeerProof_steps w sender _ rfl
    | none =>
      simp only
      split
      · obtain ⟨ap, hs⟩ := postConfirm_reject_steps E w ev.Proof.Sign
        exact ⟨ap, [], [], hs, by simp, Or.inr ⟨by simp, rfl⟩⟩
      · obtain ⟨ap, aw, hs, hn, hd⟩ := queryRemoteState_steps E w sender
          (toInt64 ((bigUint64 ev.Proof.Number + 2 ^ 64 - 1) % 2 ^ 64)) resps
        cases hq : queryRemoteState E w sender
            (toInt64 ((bigUint64 ev.Proof.Number + 2 ^ 64 - 1) % 2 ^ 64)) resps with
        | mk w1 ok =>
          rw [hq] at hs hd
          simp only at hs hd
          cases ok with
          | false => exact ⟨ap, aw, [], by simpa using hs, hn, Or.inr ⟨by simp, rfl⟩⟩
          | true =>
            simp only
            cases hg : GetPeerProof w1 sender with
            | none => exact ⟨ap, aw, [], by simpa using hs, hn, Or.inr ⟨by simp, rfl⟩⟩
            | some ps' =>
              simp only
              obtain ⟨ap2, pre2, fin2, hs2, hn2, hfin⟩ := ih w1 ps'
              have hsteps := steps_trans _ _ _ _ _ _ _ hs hs2
              rw [← List.append_assoc] at hsteps
              refine ⟨ap ++ ap2, aw ++ pre2, fin2, hsteps, ?_, ?_⟩
              · intro st hst ha
                rcases List.mem_append.1 hst with h | h
                · exact hn st h ha
                · exact hn2 st h ha
              · rcases hfin with ⟨hb, r, hf, hver, hor⟩ | ⟨hb, hf⟩
                · refine Or.inl ⟨hb, r, hf, hver, Or.inr ?_⟩
                  rcases hor with hr | ⟨st, hst, ha, hroot⟩
                  · -- the root verified against is the entry the query left in the store
                    obtain ⟨st0, hst0, ha0⟩ := hd rfl
                    obtain ⟨st', hl⟩ := lastWrite_of_mem sender aw st0 hst0 ha0
                    have hstore := hs.2.2.2.2.2.2.2 sender
                    rw [hl, hg] at hstore
                    simp only [Option.or_some, Option.some.injEq] at hstore
                    obtain ⟨hm, ha'⟩ := lastWrite_mem sender aw st' hl
                    exact ⟨st', List.mem_append_left _ hm, ha', by rw [← hstore, hr]⟩
                  · exact ⟨st, List.mem_append_right _ hst, ha, hroot⟩
                · exact Or.inr ⟨hb, hf⟩

theorem steps_post_reject (w w2 : WorkerState) (ap : List RoutMsg) (aw : List ProofState)
    (sign sig : Bytes) (h : Steps w w2 ap aw) :
    Steps w { w2 with posted := w2.posted ++
        [RoutMsg.confirm { Confirm := { Signature := sign, Confirm := false }, Sign := sig }] }
      (ap ++ [RoutMsg.confirm { Confirm := { Signature := sign, Confirm := false }, Sign := sig }])
      aw := by
  obtain ⟨a1, a2, a3, a4, a5, a6, a7, a8⟩ := h
  refine ⟨a1, a2, a3, a4, by simp [a5], noAccept_append _ _ a6 ?_, a7, a8⟩
  intro x hx m hm
  simp only [List.mem_singleton] at hx
  rw [hx] at hm
  cases hm
  rfl

/-- `dealProofEvent` from the loop on: either no accepting confirm is posted and the call
is made of steps only, or the proof verified against a root `r`, the accepted entry of
`r` is the last write, and the accepting confirm, the `AddTxs` call and the confirm
counters follow. -/
theorem dealProofTail_spec (E : Env) (ev : WorkProofMsg) (sender : Address) (w1 : WorkerState)
    (ps : ProofState) (rest : List (List (ResponseStateMsg × Address))) :
    ∃ ap pre fin w2, Steps w1 w2 ap (pre ++ fin)
      ∧ (∀ st ∈ pre, st.Addr = sender → st.Num = loopQueryNum ev)
      ∧ ((dealProofTail E ev sender w1 ps rest = w2
            ∧ (fin = [] ∨ ∃ r, fin = [acceptedEntry E ev sender r]))
          ∨ (∃ r sig, fin = [acceptedEntry E ev sender r]
              ∧ SignData E ({ Signature := ev.Proof.Sign, Confirm := true } : ProofConfirm).Data
                  = some sig
              ∧ dealProofTail E ev sender w1 ps rest
                  = { w2 with posted := w2.posted ++ [acceptConfirm ev sig],
                              addTxsCalls := w2.addTxsCalls ++ [ev.Proof.Txs],
                              txConfirmPool := bumpTxConfirm E ev.Proof.Txs w2.txConfirmPool }
              ∧ VerifyProof E sender r ev.Proof = some (MixHash E r (DeriveSha E ev.Proof.Txs))
              ∧ (r = ps.Root ∨ ∃ st ∈ pre, st.Addr = sender ∧ st.Root = r))) := by
  obtain ⟨ap, pre, fin, hs, hn, hfin⟩ := proofLoop_spec E ev sender rest w1 ps
  unfold dealProofTail
  cases hl : proofLoop E ev sender rest w1 ps with
  | mk w2 exit =>
    rw [hl] at hs hfin
    simp only at hs hfin
    have hfin0 : exit ≠ LoopExit.broke true → fin = [] := by
      intro hne
      rcases hfin with ⟨hb, _⟩ | ⟨_, hf⟩
      · exact absurd hb hne
      · exact hf
    cases exit with
    | returned => exact ⟨ap, pre, fin, w2, hs, hn, Or.inl ⟨rfl, Or.inl (hfin0 (by simp))⟩⟩
    | crashed => exact ⟨ap, pre, fin, w2, hs, hn, Or.inl ⟨rfl, Or.inl (hfin0 (by simp))⟩⟩
    | broke confirm =>
      cases confirm with
      | false =>
        simp only
        cases hsig : SignData E
            ({ Signature := ev.Proof.Sign, Confirm := false } : ProofConfirm).Data with
        | none => exact ⟨ap, pre, fin, w2, hs, hn, Or.inl ⟨rfl, Or.inl (hfin0 (by simp))⟩⟩
        | some sig =>
          exact ⟨_, pre, fin, _, steps_post_reject w1 w2 ap _ ev.Proof.Sign sig hs, hn,
            Or.inl ⟨by simp, Or.inl (hfin0 (by simp))⟩⟩
      | true =>
        rcases hfin with ⟨_, r, hf, hver, hor⟩ | ⟨hb, _⟩
        · simp only
          cases hsig : SignData E
              ({ Signature := ev.Proof.Sign, Confirm := true } : ProofConfirm).Data with
          | none => exact ⟨ap, pre, fin, w2, hs, hn, Or.inl ⟨rfl, Or.inr ⟨r, hf⟩⟩⟩
          | some sig =>
            exact ⟨ap, pre, fin, w2, hs, hn, Or.inr ⟨r, sig, hf, rfl, by simp [acceptConfirm],
              hver, hor⟩⟩
        · exact absurd rfl hb

/-- `dealProofEvent` as a whole.  Entries written for the sender before the final one
carry the number of the query that was pending; an accepting confirm is posted only
after the proof verified against a root `r`, which is the root of the entry the store
held for the sender at the start, the genesis proof hash when it held none and the proof
is numbered 1, or the root of an entry written during the call. -/
theorem dealProofEvent_spec (E : Env) (w : WorkerState) (ev : WorkProofMsg) (sender : Address)
    (waits : List (List (ResponseStateMsg × Address))) :
    ∃ ap pre fin w2, Steps w w2 ap (pre ++ fin)
      ∧ (∀ st ∈ pre, st.Addr = sender →
          st.Num = loopQueryNum ev ∨ st.Num = bigUint64 (ev.Proof.Number - 1))
      ∧ ((dealProofEvent E w ev sender waits = w2
            ∧ (fin = [] ∨ ∃ r, fin = [acceptedEntry E ev sender r]))
          ∨ (∃ r sig, fin = [acceptedEntry E ev sender r]
              ∧ SignData E ({ Signature := ev.Proof.Sign, Confirm := true } : ProofConfirm).Data
                  = some sig
              ∧ dealProofEvent E w ev sender waits
                  = { w2 with posted := w2.posted ++ [acceptConfirm ev sig],
                              addTxsCalls := w2.addTxsCalls ++ [ev.Proof.Txs],
                              txConfirmPool := bumpTxConfirm E ev.Proof.Txs w2.txConfirmPool }
              ∧ VerifyProof E sender r ev.Proof = some (MixHash E r (DeriveSha E ev.Proof.Txs))
              ∧ ((∃ ps0, GetPeerProof w sender = some ps0 ∧ r = ps0.Root)
                  ∨ (GetPeerProof w sender = none ∧ bigUint64 ev.Proof.Number = 1
                      ∧ r = w.genesisProofHash)
                  ∨ ∃ st ∈ pre, st.Addr = sender ∧ st.Root = r))) := by
  unfold dealProofEvent
  by_cases hc : sender = w.coinbase
  · exact ⟨[], [], [], w, steps_refl w, by simp, Or.inl ⟨by simp [hc], Or.inl rfl⟩⟩
  · simp only [hc, if_false, VerifyState, Bool.not_true, Bool.false_eq_true]
    cases hg : GetPeerProof w sender with
    | some ps =>
      simp only
      obtain ⟨ap, pre, fin, w2, hs, hn, hout⟩ := dealProofTail_spec E ev sender w ps waits
      refine ⟨ap, pre, fin, w2, hs, fun st hst ha => Or.inl (hn st hst ha), ?_⟩
      rcases hout with h | ⟨r, sig, hf, hsig, hres, hver, hor⟩
      · exact Or.inl h
      · refine Or.inr ⟨r, sig, hf, hsig, hres, hver, ?_⟩
        rcases hor with hr | h
        · exact Or.inl ⟨ps, rfl, hr⟩
        · exact Or.inr (Or.inr h)
    | none =>
      simp only
      by_cases h1 : bigUint64 ev.Proof.Number = 1
      · simp only [h1, if_true]
        obtain ⟨ap, pre, fin, w2, hs, hn, hout⟩ := dealProofTail_spec E ev sender w
          { Addr := sender, Num := 0, Root := w.genesisProofHash } waits
        refine ⟨ap, pre, fin, w2, hs, fun st hst ha => Or.inl (hn st hst ha), ?_⟩
        rcases hout with h | ⟨r, sig, hf, hsig, hres, hver, hor⟩
        · exact Or.inl h
        · refine Or.inr ⟨r, sig, hf, hsig, hres, hver, ?_⟩
          rcases hor with hr | h
          · exact Or.inr (Or.inl ⟨trivial, trivial, hr⟩)
          · exact Or.inr (Or.inr h)
      · simp only [h1, if_false]
        obtain ⟨apq, awq, hsq, hnq, hdq⟩ := queryRemoteState_steps E w sender
          (ev.Proof.Number - 1) (waits.headD [])
        cases hq : queryRemoteState E w sender (ev.Proof.Number - 1) (waits.headD []) with
        | mk w1 ok =>
          rw [hq] at hsq hdq
          simp only at hsq hdq
          cases ok with
          | false =>
            simp only
            obtain ⟨ap2, hs2⟩ := postConfirm_reject_steps E w1 ev.Proof.Sign
            have := steps_trans _ _ _ _ _ _ _ hsq hs2
            exact ⟨_, awq, [], _, this, fun st hst ha => Or.inr (hnq st hst ha),
              Or.inl ⟨rfl, Or.inl rfl⟩⟩
          | true =>
            simp only
            cases hg1 : GetPeerProof w1 sender with
            | none =>
              exact ⟨apq, awq, [], w1, by simpa using hsq,
                fun st hst ha => Or.inr (hnq st hst ha), Or.inl ⟨rfl, Or.inl rfl⟩⟩
            | some ps' =>
              simp only
              obtain ⟨ap, pre, fin, w2, hs, hn, hout⟩ :=
                dealProofTail_spec E ev sender w1 ps' waits.tail
              have hsteps := steps_trans _ _ _ _ _ _ _ hsq hs
              rw [← List.append_assoc] at hsteps
              refine ⟨apq ++ ap, awq ++ pre, fin, w2, hsteps, ?_, ?_⟩
              · intro st hst ha
                rcases List.mem_append.1 hst with h | h
                · exact Or.inr (hnq st h ha)
                · exact Or.inl (hn st h ha)
              · rcases hout with h | ⟨r, sig, hf, hsig, hres, hver, hor⟩
                · exact Or.inl h
                · refine Or.inr ⟨r, sig, hf, hsig, hres, hver, Or.inr (Or.inr ?_)⟩
                  rcases hor with hr | ⟨st, hst, ha, hroot⟩
                  · obtain ⟨st0, hst0, ha0⟩ := hdq rfl
                    obtain ⟨st', hl⟩ := lastWrite_of_mem sender awq st0 hst0 ha0
                    have hstore := hsq.2.2.2.2.2.2.2 sender
                    rw [hl, hg1] at hstore
                    simp only [Option.or_some, Option.some.injEq] at hstore
                    obtain ⟨hm, ha'⟩ := lastWrite_mem sender awq st' hl
                    exact ⟨st', List.mem_append_left _ hm, ha', by rw [← hstore, hr]⟩
                  · exact ⟨st, List.mem_append_right _ hst, ha, hroot⟩

/-- No accepting confirm is posted by a call made of steps only. -/
theorem no_accept_of_steps (w w2 : WorkerState) (ap : List RoutMsg) (aw : List ProofState)
    (ev : WorkProofMsg) (mid : List RoutMsg) (sig : Bytes) (hs : Steps w w2 ap aw)
    (h : w2.posted = w.posted ++ mid ++ [acceptConfirm ev sig]) : False := by
  obtain ⟨_, _, _, _, a5, a6, _, _⟩ := hs
  rw [a5, List.append_assoc] at h
  have hap := List.append_cancel_left h
  have hmem : acceptConfirm ev sig ∈ ap := by rw [hap]; simp
  have := a6 _ hmem _ rfl
  simp at this

/-- C9 (as amended): while `AcceptTxs == 0`, `HandleTxMsg` returns nil without pushing
any transaction to the pool channel; the WorkProof path does not read the gate (the
worker state after an inbound WorkProof is the same whatever `AcceptTxs` is), and a call
of `dealProofEvent` that posts the accepting confirm calls `AddTxs` with the proof's
transactions. -/
theorem sync_gate_guards_tx_handler_only (E : Env) :
    (∀ (r : Router) (decoded : Option (List (Option Transaction))), r.AcceptTxs = 0 →
        HandleTxMsg E r decoded = (r, none))
    ∧ (∀ (n : Node) (msg : WorkProofMsg) (waits : List (List (ResponseStateMsg × Address)))
        (a : Nat),
        (Node.inboundWorkProof E { n with router := { n.router with AcceptTxs := a } } msg
            waits).worker
          = (n.inboundWorkProof E msg waits).worker)
    ∧ (∀ (w : WorkerState) (ev : WorkProofMsg) (sender : Address)
        (waits : List (List (ResponseStateMsg × Address))) (mid : List RoutMsg) (sig : Bytes),
        (dealProofEvent E w ev sender waits).posted = w.posted ++ mid ++ [acceptConfirm ev sig] →
        (dealProofEvent E w ev sender waits).addTxsCalls = w.addTxsCalls ++ [ev.Proof.Txs]) := by
  refine ⟨fun r decoded h => by simp [HandleTxMsg, h], fun n msg waits a => ?_,
    fun w ev sender waits mid sig h => ?_⟩
  · simp only [Node.inboundWorkProof, handleWorkProofMsg_step, apply_ite Node.worker]
  · obtain ⟨ap, pre, fin, w2, hs, _, hout⟩ := dealProofEvent_spec E w ev sender waits
    rcases hout with ⟨hres, _⟩ | ⟨r, sig', _, _, hres, _, _⟩
    · rw [hres] at h
      exact (no_accept_of_steps w w2 ap _ ev mid sig hs h).elim
    · rw [hres]
      simp [hs.2.2.1]

/-- Evaluation of `sync_gate_guards_tx_handler_only` on a transaction message at the
fresh router. -/
theorem sync_gate_guards_tx_handler_only_witness :
    HandleTxMsg demoEnv newRouter (some [some demoTx]) = (newRouter, none) :=
  (sync_gate_guards_tx_handler_only demoEnv).1 newRouter (some [some demoTx]) (by decide)

/-! ### The peer-proof store -/

/-- C10 (as stated) fails: with the entry `{7, 1, r1}` stored for peer 7 (its proof 1 was
accepted), a proof numbered 3 signed over `r1` is accepted and the entry becomes
`{7, 3, MixHash(r1, txRoot)}`; `r1` was stored at number 1, no root was stored at
number 2. -/
theorem accepted_root_not_at_previous_number :
    GetPeerProof (dealProofEvent demoEnv (newWorkerState 9 0) (demoProofMsg 1 0 []) 7 []) 7
      = some { Addr := 7, Num := 1, Root := MixHash demoEnv 0 (DeriveSha demoEnv []) }
    ∧ (dealProofEvent demoEnv
        (dealProofEvent demoEnv (newWorkerState 9 0) (demoProofMsg 1 0 []) 7 [])
        (demoProofMsg 3 (MixHash demoEnv 0 (DeriveSha demoEnv [])) [demoTx]) 7 []).posted.getLast?
      = some (acceptConfirm
          (demoProofMsg 3 (MixHash demoEnv 0 (DeriveSha demoEnv [])) [demoTx])
          (9 :: demoEnv.hashBytes (demoEnv.sha3_256
            (ProofConfirm.Data
              { Signature := (demoProof 3 (MixHash demoEnv 0 (DeriveSha demoEnv [])) [demoTx]).Sign,
                Confirm := true }))))
    ∧ GetPeerProof (dealProofEvent demoEnv
        (dealProofEvent demoEnv (newWorkerState 9 0) (demoProofMsg 1 0 []) 7 [])
        (demoProofMsg 3 (MixHash demoEnv 0 (DeriveSha demoEnv [])) [demoTx]) 7 []) 7
      = some { Addr := 7, Num := 3,
               Root := MixHash demoEnv (MixHash demoEnv 0 (DeriveSha demoEnv []))
                         (DeriveSha demoEnv [demoTx]) } := by
  decide

/-- C10 (as amended): whenever `dealProofEvent` posts the accepting confirm for a proof
numbered `n` from sender `p`, the store entry for `p` afterwards is
`{p, n, MixHash(r, DeriveSha(proof.Txs))}` where `r` is the root the proof verified
against: the root of the entry stored for `p` when the call began (whatever its number),
the genesis proof hash when none was stored and `n = 1`, or the root of an entry written
for `p` by a response during the call, which carries the number of the pending query. -/
theorem accepted_entry_mixes_verified_root (E : Env) (w : WorkerState) (ev : WorkProofMsg)
    (sender : Address) (waits : List (List (ResponseStateMsg × Address))) (mid : List RoutMsg)
    (sig : Bytes)
    (h : (dealProofEvent E w ev sender waits).posted = w.posted ++ mid ++ [acceptConfirm ev sig]) :
    ∃ r, GetPeerProof (dealProofEvent E w ev sender waits) sender
          = some { Addr := sender, Num := bigUint64 ev.Proof.Number,
                   Root := MixHash E r (DeriveSha E ev.Proof.Txs) }
      ∧ VerifyProof E sender r ev.Proof = some (MixHash E r (DeriveSha E ev.Proof.Txs))
      ∧ ((∃ ps0, GetPeerProof w sender = some ps0 ∧ r = ps0.Root)
          ∨ (GetPeerProof w sender = none ∧ bigUint64 ev.Proof.Number = 1
              ∧ r = w.genesisProofHash)
          ∨ ∃ st ∈ (dealProofEvent E w ev sender waits).peerWrites.drop w.peerWrites.length,
              st.Addr = sender ∧ st.Root = r
                ∧ (st.Num = loopQueryNum ev ∨ st.Num = bigUint64 (ev.Proof.Number - 1))) := by
  obtain ⟨ap, pre, fin, w2, hs, hn, hout⟩ := dealProofEvent_spec E w ev sender waits
  rcases hout with ⟨hres, _⟩ | ⟨r, sig', hf, _, hres, hver, hor⟩
  · rw [hres] at h
    exact (no_accept_of_steps w w2 ap _ ev mid sig hs h).elim
  · refine ⟨r, ?_, hver, ?_⟩
    · rw [hres]
      have hstore := hs.2.2.2.2.2.2.2 sender
      rw [hf, lastWrite_append] at hstore
      simp only [GetPeerProof] at hstore ⊢
      rw [hstore]
      simp [lastWrite, acceptedEntry]
    · rcases hor with h0 | h0 | ⟨st, hst, ha, hroot⟩
      · exact Or.inl h0
      · exact Or.inr (Or.inl h0)
      · refine Or.inr (Or.inr ⟨st, ?_, ha, hroot, hn st hst ha⟩)
        rw [hres]
        simp only
        rw [hs.2.2.2.2.2.2.1]
        simp [hst]

/-- Evaluation of `accepted_entry_mixes_verified_root` on the first proof of peer 7 at
a fresh worker. -/
theorem accepted_entry_mixes_verified_root_witness :
    ∃ r, GetPeerProof (dealProofEvent demoEnv (newWorkerState 9 0) (demoProofMsg 1 0 []) 7 []) 7
          = some { Addr := 7, Num := bigUint64 (demoProofMsg 1 0 []).Proof.Number,
                   Root := MixHash demoEnv r (DeriveSha demoEnv (demoProofMsg 1 0 []).Proof.Txs) }
      ∧ VerifyProof demoEnv 7 r (demoProofMsg 1 0 []).Proof
          = some (MixHash demoEnv r (DeriveSha demoEnv (demoProofMsg 1 0 []).Proof.Txs))
      ∧ ((∃ ps0, GetPeerProof (newWorkerState 9 0) 7 = some ps0 ∧ r = ps0.Root)
          ∨ (GetPeerProof (newWorkerState 9 0) 7 = none
              ∧ bigUint64 (demoProofMsg 1 0 []).Proof.Number = 1
              ∧ r = (newWorkerState 9 0).genesisProofHash)
          ∨ ∃ st ∈ (dealProofEvent demoEnv (newWorkerState 9 0) (demoProofMsg 1 0 []) 7
                []).peerWrites.drop (newWorkerState 9 0).peerWrites.length,
              st.Addr = 7 ∧ st.Root = r
                ∧ (st.Num = loopQueryNum (demoProofMsg 1 0 [])
                    ∨ st.Num = bigUint64 ((demoProofMsg 1 0 []).Proof.Number - 1))) :=
  accepted_entry_mixes_verified_root demoEnv (newWorkerState 9 0) (demoProofMsg 1 0 []) 7 [] []
    (9 :: demoEnv.hashBytes (demoEnv.sha3_256
      (ProofConfirm.Data { Signature := (demoProof 1 0 []).Sign, Confirm := true })))
    (by decide)

/-- C2 (as stated) fails: peer 7's proof 3 arrives with nothing stored, the query for
number 2 is answered and the proof accepted, so `Num` goes 2, 3; a further
`ResponseState` of peer 7 for number 2, matching the query still cached, is written
although 3 is stored, and `Num` falls back to 2. -/
theorem peer_num_decreases_on_late_response :
    numsWritten 7 (handleEvents demoEnv (newWorkerState 9 0)
        [InEvent.workProof (demoProofMsg 3 11 []) 7 [[(demoResponse 2 11, 7)]],
         InEvent.responseState (demoResponse 2 99) 7]).peerWrites = [2, 3, 2]
    ∧ (GetPeerProof (handleEvents demoEnv (newWorkerState 9 0)
        [InEvent.workProof (demoProofMsg 3 11 []) 7 [[(demoResponse 2 11, 7)]]]) 7).map
          (fun st => st.Num) = some 3
    ∧ (GetPeerProof (handleEvents demoEnv (newWorkerState 9 0)
        [InEvent.workProof (demoProofMsg 3 11 []) 7 [[(demoResponse 2 11, 7)]],
         InEvent.responseState (demoResponse 2 99) 7]) 7).map (fun st => st.Num) = some 2 := by
  decide

theorem loopQueryNum_eq (ev : WorkProofMsg) (h1 : 1 ≤ ev.Proof.Number)
    (h2 : ev.Proof.Number ≤ 2 ^ 63) :
    loopQueryNum ev = bigUint64 ev.Proof.Number - 1
      ∧ bigUint64 (ev.Proof.Number - 1) = bigUint64 ev.Proof.Number - 1 := by
  simp only [loopQueryNum, bigUint64, toInt64]
  constructor
  · split <;> omega
  · omega

theorem numsWritten_append (p : Address) (a b : List ProofState) :
    numsWritten p (a ++ b) = numsWritten p a ++ numsWritten p b := by
  simp [numsWritten, List.filter_append]

theorem pairwise_le_of_all_eq (l : List Nat) (q : Nat) (h : ∀ n ∈ l, n = q) :
    l.Pairwise (fun a b => a ≤ b) := by
  rw [List.pairwise_iff_forall_sublist]
  intro a b hab
  have ha := h a (hab.subset (by simp))
  have hb := h b (hab.subset (by simp))
  omega

/-- C2 (as amended): handling a proof numbered `n` (with `1 ≤ n ≤ 2^63`) from peer `p`
writes for `p` only entries numbered `n - 1` (from responses to its own query) and then,
on acceptance, one entry numbered `n`, in that order; so when the stored `Num` is below
`n` it never decreases from one write to the next during the call.  A `ResponseState`
handled on its own writes nothing or the one entry `{sender, its number, its root}`
when its number matches the query cached for the sender, with no comparison against the
stored `Num`. -/
theorem peer_num_monotone_for_newer_proofs (E : Env) (w : WorkerState) :
    (∀ (ev : WorkProofMsg) (sender : Address) (waits : List (List (ResponseStateMsg × Address))),
        1 ≤ ev.Proof.Number → ev.Proof.Number ≤ 2 ^ 63 →
        ∃ added, (dealProofEvent E w ev sender waits).peerWrites = w.peerWrites ++ added
          ∧ (∀ n ∈ numsWritten sender added,
              n = bigUint64 ev.Proof.Number - 1 ∨ n = bigUint64 ev.Proof.Number)
          ∧ (numsWritten sender added).Pairwise (fun a b => a ≤ b)
          ∧ (∀ ps, GetPeerProof w sender = some ps → ps.Num < bigUint64 ev.Proof.Number →
              (ps.Num :: numsWritten sender added).Pairwise (fun a b => a ≤ b)))
    ∧ (∀ (ev : ResponseStateMsg) (sender : Address),
        (dealResponseState w ev sender).1.peerWrites = w.peerWrites
        ∨ ((dealResponseState w ev sender).1.peerWrites
              = w.peerWrites ++ [{ Addr := sender, Num := bigUint64 ev.Rs.Number, Root := ev.Rs.Root }]
            ∧ ∃ qs, mapLoad w.queryCache sender = some qs
              ∧ bigUint64 ev.Rs.Number = bigUint64 qs.Qs.Number)) := by
  refine ⟨fun ev sender waits h1 h2 => ?_, fun ev sender => ?_⟩
  · obtain ⟨hq1, hq2⟩ := loopQueryNum_eq ev h1 h2
    obtain ⟨ap, pre, fin, w2, hs, hn, hout⟩ := dealProofEvent_spec E w ev sender waits
    have hpre : ∀ n ∈ numsWritten sender pre, n = bigUint64 ev.Proof.Number - 1 := by
      intro n hm
      simp only [numsWritten, List.mem_map, List.mem_filter, decide_eq_true_eq] at hm
      obtain ⟨st, ⟨hst, ha⟩, rfl⟩ := hm
      rcases hn st hst ha with h | h
      · rw [h, hq1]
      · rw [h, hq2]
    have hfin : fin = [] ∨ ∃ r, fin = [acceptedEntry E ev sender r] := by
      rcases hout with ⟨_, h⟩ | ⟨r, _, h, _⟩
      · exact h
      · exact Or.inr ⟨r, h⟩
    have hfinN : ∀ n ∈ numsWritten sender fin, n = bigUint64 ev.Proof.Number := by
      intro n hm
      rcases hfin with h | ⟨r, h⟩
      · rw [h] at hm; simp [numsWritten] at hm
      · rw [h] at hm
        simp [numsWritten, acceptedEntry] at hm
        exact hm
    have hwrites : (dealProofEvent E w ev sender waits).peerWrites = w.peerWrites ++ (pre ++ fin) := by
      rcases hout with ⟨hres, _⟩ | ⟨r, sig, _, _, hres, _, _⟩
      · rw [hres]; exact hs.2.2.2.2.2.2.1
      · rw [hres]; exact hs.2.2.2.2.2.2.1
    have hall : ∀ n ∈ numsWritten sender (pre ++ fin),
        n = bigUint64 ev.Proof.Number - 1 ∨ n = bigUint64 ev.Proof.Number := by
      intro n hm
      rw [numsWritten_append] at hm
      rcases List.mem_append.1 hm with h | h
      · exact Or.inl (hpre n h)
      · exact Or.inr (hfinN n h)
    have hsorted : (numsWritten sender (pre ++ fin)).Pairwise (fun a b => a ≤ b) := by
      rw [numsWritten_append, List.pairwise_append]
      refine ⟨pairwise_le_of_all_eq _ _ hpre, pairwise_le_of_all_eq _ _ hfinN, fun a ha b hb => ?_⟩
      have := hpre a ha
      have := hfinN b hb
      omega
    refine ⟨pre ++ fin, hwrites, hall, hsorted, fun ps _ hlt => ?_⟩
    rw [List.pairwise_cons]
    refine ⟨fun n hm => ?_, hsorted⟩
    rcases hall n hm with h | h <;> omega
  · obtain ⟨aw, hs, _, haw, _⟩ := dealResponseState_steps w ev sender
    rcases haw with h | ⟨h, hq⟩
    · left
      rw [hs.2.2.2.2.2.2.1, h]
      simp
    · right
      refine ⟨?_, hq⟩
      rw [hs.2.2.2.2.2.2.1, h]

/-- Evaluation of `peer_num_monotone_for_newer_proofs` on proof 3 of peer 7 arriving at a
fresh worker. -/
theorem peer_num_monotone_for_newer_proofs_witness :
    ∃ added, (dealProofEvent demoEnv (newWorkerState 9 0) (demoProofMsg 3 11 []) 7
          [[(demoResponse 2 11, 7)]]).peerWrites = (newWorkerState 9 0).peerWrites ++ added
      ∧ (∀ n ∈ numsWritten 7 added,
          n = bigUint64 (demoProofMsg 3 11 []).Proof.Number - 1
            ∨ n = bigUint64 (demoProofMsg 3 11 []).Proof.Number)
      ∧ (numsWritten 7 added).Pairwise (fun a b => a ≤ b)
      ∧ (∀ ps, GetPeerProof (newWorkerState 9 0) 7 = some ps →
          ps.Num < bigUint64 (demoProofMsg 3 11 []).Proof.Number →
          (ps.Num :: numsWritten 7 added).Pairwise (fun a b => a ≤ b)) :=
  (peer_num_monotone_for_newer_proofs demoEnv (newWorkerState 9 0)).1 (demoProofMsg 3 11 []) 7
    [[(demoResponse 2 11, 7)]] (by decide) (by decide)

/-! ### The transaction pool -/

theorem count_keys_mapDelete {V : Type} (m : List (Hash × V)) (k h : Hash) :
    (mapKeys (mapDelete m k)).count h = if h = k then 0 else (mapKeys m).count h := by
  induction m with
  | nil => simp [mapDelete, mapKeys]
  | cons e rest ih =>
    obtain ⟨k0, v0⟩ := e
    simp only [mapKeys] at ih
    by_cases hk : k0 = k
    · subst hk
      by_cases hh : h = k0
      · subst hh; simp [mapDelete, mapKeys, ih]
      · have : ¬ k0 = h := fun e => hh e.symm
        simp [mapDelete, mapKeys, ih, hh, List.count_cons, this]
    · by_cases hh : h = k
      · subst hh
        simp [mapDelete, mapKeys, hk, ih, List.count_cons]
      · simp [mapDelete, mapKeys, hk, ih, hh, List.count_cons]

theorem count_keys_mapStore {V : Type} (m : List (Hash × V)) (k h : Hash) (v : V) :
    (mapKeys (mapStore m k v)).count h = if h = k then 1 else (mapKeys m).count h := by
  induction m with
  | nil =>
    by_cases hh : h = k
    · subst hh; simp [mapStore, mapKeys]
    · have : ¬ k = h := fun e => hh e.symm
      simp [mapStore, mapKeys, hh, List.count_cons, this]
  | cons e rest ih =>
    obtain ⟨k0, v0⟩ := e
    simp only [mapKeys] at ih
    by_cases hk : k0 = k
    · subst hk
      have hd := count_keys_mapDelete rest k0 h
      simp only [mapKeys] at hd
      by_cases hh : h = k0
      · subst hh; simp [mapStore, mapKeys, hd]
      · have : ¬ k0 = h := fun e => hh e.symm
        simp [mapStore, mapKeys, hd, hh, List.count_cons, this]
    · by_cases hh : h = k
      · subst hh
        simp [mapStore, mapKeys, hk, ih, List.count_cons]
      · simp [mapStore, mapKeys, hk, ih, hh, List.count_cons]

theorem chanHashes_cons (E : Env) (c : List Transaction) (chs : List (List Transaction)) :
    chanHashes E (c :: chs) = c.map (txHash E) ++ chanHashes E chs := by
  simp [chanHashes]

/-- Receiving the head of channel `i` removes exactly its hash. -/
theorem count_chan_pop (E : Env) (chs : List (List Transaction)) (i : Nat) (tx : Transaction)
    (rest : List Transaction) (h : Hash) (hg : chs.getD i [] = tx :: rest) :
    (chanHashes E (chs.set i rest)).count h + (if h = txHash E tx then 1 else 0)
      = (chanHashes E chs).count h := by
  induction chs generalizing i with
  | nil => simp at hg
  | cons c cs ih =>
    cases i with
    | zero =>
      simp only [List.getD_cons_zero] at hg
      subst hg
      by_cases hh : h = txHash E tx
      · simp [chanHashes_cons, List.count_cons, hh]
      · have : ¬ txHash E tx = h := fun e => hh e.symm
        simp [chanHashes_cons, List.count_cons, hh, this]
    | succ j =>
      simp only [List.getD_cons_succ] at hg
      have := ih j hg
      simp only [List.set_cons_succ, chanHashes_cons, List.count_append]
      omega

/-- Sending on channel `i` adds at most the hash sent. -/
theorem count_chan_push (E : Env) (chs : List (List Transaction)) (i : Nat) (tx : Transaction)
    (h : Hash) :
    (chanHashes E (chs.set i (chs.getD i [] ++ [tx]))).count h
      ≤ (chanHashes E chs).count h + (if h = txHash E tx then 1 else 0) := by
  induction chs generalizing i with
  | nil => simp [chanHashes]
  | cons c cs ih =>
    cases i with
    | zero =>
      by_cases hh : h = txHash E tx
      · simp [chanHashes_cons, List.count_cons, List.count_append, hh]; omega
      · have : ¬ txHash E tx = h := fun e => hh e.symm
        simp [chanHashes_cons, List.count_cons, List.count_append, hh, this]
    | succ j =>
      have := ih j
      simp only [List.set_cons_succ, List.getD_cons_succ, chanHashes_cons, List.count_append]
      omega

theorem txHash_cached (E : Env) (tx : Transaction) : txHash E (tx.Hash E).2 = txHash E tx := by
  unfold txHash Transaction.Hash
  cases h : tx.hash with
  | some v => simp [h]
  | none => simp [Transaction.SetForward]

theorem mem_setAdd_of_mem {A : Type} [DecidableEq A] (s : List A) (a x : A) (h : x ∈ s) :
    x ∈ setAdd s a := by
  unfold setAdd
  split
  · exact h
  · exact List.mem_append_left _ h

theorem mem_setAdd_self {A : Type} [DecidableEq A] (s : List A) (a : A) : a ∈ setAdd s a := by
  unfold setAdd
  split
  · assumption
  · simp

theorem poolInv_new (E : Env) : PoolInv E NewTxPool := by
  refine ⟨fun h => ?_, fun h hp => ?_, fun h => ?_, fun e he => ?_⟩
  · simp [occ, NewTxPool, chanHashes, mapKeys, workingHashes, maxThreadNumber, List.replicate]
  · simp [occ, NewTxPool, chanHashes, mapKeys, workingHashes, maxThreadNumber, List.replicate] at hp
  · simp [NewTxPool, chanHashes, mapKeys, maxThreadNumber, List.replicate]
  · simp [NewTxPool] at he

theorem poolInv_knownTxAdd (E : Env) (pool : TxPool) (hash : Hash) (hi : PoolInv E pool)
    (hc : pool.known.length < maxHandleKnownTxs) : PoolInv E (pool.KnownTxAdd hash) := by
  obtain ⟨h1, h2, h3, h4⟩ := hi
  have hn : ¬ pool.known.length ≥ maxHandleKnownTxs := by omega
  refine ⟨h1, fun h hp => ?_, h3, h4⟩
  simp only [TxPool.KnownTxAdd, hn, if_false]
  exact mem_setAdd_of_mem _ _ _ (h2 h hp)

theorem sendToFullLoop_count (E : Env) (tx : Transaction) (start n : Nat)
    (chs chs' : List (List Transaction)) (tries : List Nat) (h : Hash)
    (hs : sendToFullLoop tx start n chs tries = some chs') :
    (chanHashes E chs').count h ≤ (chanHashes E chs).count h + (if h = txHash E tx then 1 else 0) := by
  induction tries with
  | nil => simp [sendToFullLoop] at hs
  | cons t rest ih =>
    simp only [sendToFullLoop] at hs
    split at hs
    · simp only [Option.some.injEq] at hs
      rw [← hs]
      exact count_chan_push E chs _ tx h
    · exact ih hs

theorem poolInv_addTx (E : Env) (pool : TxPool) (tx : Transaction) (start : Nat)
    (hi : PoolInv E pool) (hc : pool.known.length < maxHandleKnownTxs) :
    PoolInv E (pool.AddTx E tx start).1 := by
  unfold TxPool.AddTx
  by_cases hd : pool.DupTx E tx = true
  · simp only [hd, if_true]
    exact hi
  · simp only [hd, Bool.false_eq_true, if_false]
    have hnk : txHash E tx ∉ pool.known := by
      intro hm
      apply hd
      simp [TxPool.DupTx, hm]
    obtain ⟨h1, h2, h3, h4⟩ := hi
    have hocc0 : occ E pool (txHash E tx) = 0 := by
      by_contra hne
      exact hnk (h2 _ (Nat.pos_of_ne_zero hne))
    have hn : ¬ pool.known.length ≥ maxHandleKnownTxs := by omega
    have hknown : ∀ h, (h ∈ pool.known ∨ h = txHash E tx) → h ∈ (pool.KnownTxAdd (txHash E tx)).known := by
      intro h hh
      simp only [TxPool.KnownTxAdd, hn, if_false]
      rcases hh with hh | hh
      · exact mem_setAdd_of_mem _ _ _ hh
      · rw [hh]; exact mem_setAdd_self _ _
    cases hs : sendToFullLoop (tx.Hash E).2 start maxThreadNumber (pool.KnownTxAdd (txHash E tx)).fullCh
        (List.range maxThreadNumber) with
    | none =>
      simp only
      exact ⟨h1, fun h hp => hknown h (Or.inl (h2 h hp)), h3, h4⟩
    | some chs =>
      simp only
      have hcount := fun h => sendToFullLoop_count E (tx.Hash E).2 start maxThreadNumber
        (pool.KnownTxAdd (txHash E tx)).fullCh chs (List.range maxThreadNumber) h hs
      simp only [txHash_cached] at hcount
      have hoccle : ∀ h, occ E { pool.KnownTxAdd (txHash E tx) with fullCh := chs } h
          ≤ occ E pool h + (if h = txHash E tx then 1 else 0) := by
        intro h
        have := hcount h
        simp only [occ, TxPool.KnownTxAdd] at this ⊢
        omega
      refine ⟨fun h => ?_, fun h hp => ?_, h3, h4⟩
      · have := hoccle h
        by_cases hh : h = txHash E tx
        · subst hh; simp only [if_true] at this; omega
        · simp only [hh, if_false] at this
          have := h1 h
          omega
      · have := hoccle h
        by_cases hh : h = txHash E tx
        · exact hknown h (Or.inr hh)
        · simp only [hh, if_false] at this
          exact hknown h (Or.inl (h2 h (by omega)))

theorem poolInv_queueWorker (E : Env) (pool : TxPool) (i : Nat) (hi : PoolInv E pool) :
    PoolInv E (pool.queueWorker E i) := by
  unfold TxPool.queueWorker
  cases hg : pool.fullCh.getD i [] with
  | nil => exact hi
  | cons tx rest =>
    obtain ⟨h1, h2, h3, h4⟩ := hi
    have hpop := fun h => count_chan_pop E pool.fullCh i tx rest h hg
    have hq := fun h => count_keys_mapStore pool.queue (txHash E tx) h tx
    have hpush := fun h => count_chan_push E pool.verifyCh i tx h
    have hfree : (mapKeys pool.queue).count (txHash E tx) = 0 := by
      have a := hpop (txHash E tx)
      have b := h1 (txHash E tx)
      simp only [occ, if_true] at a b
      omega
    have hv0 : (chanHashes E pool.verifyCh).count (txHash E tx) = 0 := by
      have := h3 (txHash E tx)
      omega
    simp only
    have hoccle : ∀ (v : List (List Transaction)) (h : Hash),
        occ E { pool with fullCh := pool.fullCh.set i rest,
                          queue := mapStore pool.queue (txHash E tx) tx, verifyCh := v } h
          ≤ occ E pool h := by
      intro v h
      have a := hpop h
      have b := hq h
      simp only [occ]
      by_cases hh : h = txHash E tx
      · subst hh
        simp only [if_true] at a b
        omega
      · simp only [hh, if_false] at a b
        omega
    split
    · refine ⟨fun h => le_trans (hoccle _ h) (h1 h), fun h hp => h2 h (lt_of_lt_of_le hp (hoccle _ h)),
        fun h => ?_, h4⟩
      have a := hpush h
      have b := hq h
      have c := h3 h
      simp only
      by_cases hh : h = txHash E tx
      · subst hh
        simp only [if_true] at a b
        omega
      · simp only [hh, if_false] at a b
        omega
    · refine ⟨fun h => le_trans (hoccle _ h) (h1 h), fun h hp => h2 h (lt_of_lt_of_le hp (hoccle _ h)),
        fun h => ?_, h4⟩
      have b := hq h
      have c := h3 h
      simp only
      by_cases hh : h = txHash E tx
      · subst hh
        simp only [if_true] at b
        omega
      · simp only [hh, if_false] at b
        omega

theorem poolInv_verifyWorker (E : Env) (pool : TxPool) (i : Nat) (hi : PoolInv E pool) :
    PoolInv E (pool.verifyWorker E i) := by
  unfold TxPool.verifyWorker
  cases hg : pool.verifyCh.getD i [] with
  | nil => exact hi
  | cons tx rest =>
    obtain ⟨h1, h2, h3, h4⟩ := hi
    have hpop := fun h => count_chan_pop E pool.verifyCh i tx rest h hg
    have hq := fun h => count_keys_mapDelete pool.queue (txHash E tx) h
    have hp := fun h => count_keys_mapStore pool.pending (txHash E tx) h tx
    simp only [TxPool.verifyTx, if_true]
    have hoccle : ∀ h,
        occ E { pool with verifyCh := pool.verifyCh.set i rest,
                          pending := mapStore pool.pending (txHash E tx) tx,
                          queue := mapDelete pool.queue (txHash E tx) } h
          ≤ occ E pool h := by
      intro h
      have a := hpop h
      have b := hq h
      have c := hp h
      have d := h3 h
      simp only [occ]
      by_cases hh : h = txHash E tx
      · subst hh
        simp only [if_true] at a b c
        omega
      · simp only [hh, if_false] at a b c
        omega
    refine ⟨fun h => le_trans (hoccle h) (h1 h), fun h hp' => h2 h (lt_of_lt_of_le hp' (hoccle h)),
      fun h => ?_, fun e he => ?_⟩
    · have a := hpop h
      have b := hq h
      have d := h3 h
      have e := h1 h
      simp only [occ] at e
      simp only
      by_cases hh : h = txHash E tx
      · subst hh
        simp only [if_true] at a b
        omega
      · simp only [hh, if_false] at a b
        omega
    · rcases mem_mapStore _ _ _ _ he with h | h
      · rw [h]
      · exact h4 e h

theorem workingHashes_cons (E : Env) (k : Int) (l : List Transaction)
    (m : List (Int × List Transaction)) :
    workingHashes E ((k, l) :: m) = l.map (txHash E) ++ workingHashes E m := by
  simp [workingHashes]

theorem count_working_mapDelete (E : Env) (m : List (Int × List Transaction)) (k : Int) (h : Hash) :
    (workingHashes E (mapDelete m k)).count h ≤ (workingHashes E m).count h := by
  induction m with
  | nil => simp [mapDelete]
  | cons e rest ih =>
    obtain ⟨k0, l0⟩ := e
    by_cases hk : k0 = k
    · simp only [mapDelete, hk, if_true, workingHashes_cons, List.count_append]
      omega
    · simp only [mapDelete, hk, if_false, workingHashes_cons, List.count_append]
      omega

theorem count_working_mapStore (E : Env) (m : List (Int × List Transaction)) (k : Int)
    (txs : List Transaction) (h : Hash) :
    (workingHashes E (mapStore m k txs)).count h
      ≤ (workingHashes E m).count h + (txs.map (txHash E)).count h := by
  induction m with
  | nil => simp [mapStore, workingHashes]
  | cons e rest ih =>
    obtain ⟨k0, l0⟩ := e
    by_cases hk : k0 = k
    · have := count_working_mapDelete E rest k h
      simp only [mapStore, hk, if_true, workingHashes_cons, List.count_append]
      omega
    · simp only [mapStore, hk, if_false, workingHashes_cons, List.count_append]
      omega

theorem count_working_take (E : Env) (m : List (Int × List Transaction)) (k : Int)
    (txs : List Transaction) (h : Hash) (hl : mapLoad m k = some txs) :
    (workingHashes E (mapDelete m k)).count h + (txs.map (txHash E)).count h
      ≤ (workingHashes E m).count h := by
  induction m with
  | nil => simp [mapLoad] at hl
  | cons e rest ih =>
    obtain ⟨k0, l0⟩ := e
    by_cases hk : k0 = k
    · simp only [mapLoad, hk, if_true, Option.some.injEq] at hl
      subst hl
      have := count_working_mapDelete E rest k h
      simp only [mapDelete, hk, if_true, workingHashes_cons, List.count_append]
      omega
    · simp only [mapLoad, hk, if_false] at hl
      have := ih hl
      simp only [mapDelete, hk, if_false, workingHashes_cons, List.count_append]
      omega

theorem count_cons_hash (h t : Hash) (l : List Hash) :
    (t :: l).count h = l.count h + (if h = t then 1 else 0) := by
  by_cases hh : h = t
  · subst hh; simp
  · have : ¬ t = h := fun e => hh e.symm
    simp [List.count_cons, hh, this]

/-- The `Range` of `Pending`: what leaves the pending map is what is collected. -/
theorem pendingRange_count (E : Env) (maxtxs : Nat) (order : List (Hash × Transaction))
    (pend : List (Hash × Transaction)) (acc : List Transaction) (i : Nat)
    (hkeys : ∀ e ∈ order, e.1 = txHash E e.2)
    (hle : ∀ h, (order.map Prod.fst).count h ≤ (pend.map Prod.fst).count h)
    (hone : ∀ h, (pend.map Prod.fst).count h ≤ 1) (h : Hash) :
    ((pendingRange E maxtxs order (pend, acc, i)).1.map Prod.fst).count h
        + ((pendingRange E maxtxs order (pend, acc, i)).2.1.map (txHash E)).count h
      ≤ (pend.map Prod.fst).count h + (acc.map (txHash E)).count h := by
  induction order generalizing pend acc i with
  | nil => simp [pendingRange]
  | cons e rest ih =>
    obtain ⟨k, tx⟩ := e
    simp only [pendingRange]
    split
    · exact le_refl _
    · have hk : k = txHash E tx := hkeys (k, tx) (List.mem_cons_self _ _)
      subst hk
      have hdel : ∀ h', ((mapDelete pend (txHash E tx)).map Prod.fst).count h'
          = if h' = txHash E tx then 0 else (pend.map Prod.fst).count h' := fun h' => by
        have := count_keys_mapDelete pend (txHash E tx) h'
        simpa [mapKeys] using this
      have hle' : ∀ h', (rest.map Prod.fst).count h' + (if h' = txHash E tx then 1 else 0)
          ≤ (pend.map Prod.fst).count h' := fun h' => by
        have := hle h'
        rw [List.map_cons, count_cons_hash] at this
        exact this
      have hrec := ih (mapDelete pend (txHash E tx)) (acc ++ [tx]) (i + 1)
        (fun e he => hkeys e (List.mem_cons_of_mem _ he))
        (fun h' => by
          have a := hle' h'
          have b := hdel h'
          have c := hone h'
          by_cases hh : h' = txHash E tx
          · simp only [hh, if_true] at a b ⊢
            have c' := hone (txHash E tx)
            omega
          · simp only [hh, if_false] at a b ⊢
            omega)
        (fun h' => by
          have b := hdel h'
          have c := hone h'
          by_cases hh : h' = txHash E tx
          · simp only [hh, if_true] at b ⊢; omega
          · simp only [hh, if_false] at b ⊢; omega)
      have a := hle' h
      have b := hdel h
      have hacc : ((acc ++ [tx]).map (txHash E)).count h
          = (acc.map (txHash E)).count h + (if h = txHash E tx then 1 else 0) := by
        by_cases hh : h = txHash E tx
        · simp [List.count_append, hh]
        · have : ¬ txHash E tx = h := fun e => hh e.symm
          simp [List.count_append, List.count_cons, hh, this]
      rw [hacc] at hrec
      by_cases hh : h = txHash E tx
      · simp only [hh, if_true] at a b hrec ⊢
        omega
      · simp only [hh, if_false] at a b hrec ⊢
        omega

theorem pendingRange_mem (E : Env) (maxtxs : Nat) (order : List (Hash × Transaction))
    (pend : List (Hash × Transaction)) (acc : List Transaction) (i : Nat) (e : Hash × Transaction)
    (he : e ∈ (pendingRange E maxtxs order (pend, acc, i)).1) : e ∈ pend := by
  induction order generalizing pend acc i with
  | nil => simpa [pendingRange] using he
  | cons e0 rest ih =>
    obtain ⟨k, tx⟩ := e0
    simp only [pendingRange] at he
    split at he
    · exact he
    · exact (mem_mapDelete _ _ _ (ih _ _ _ he)).1

theorem poolInv_pending (E : Env) (pool : TxPool) (workid : Int) (maxtxs : Nat)
    (order : List (Hash × Transaction)) (hi : PoolInv E pool) (hperm : order.Perm pool.pending) :
    PoolInv E (pool.Pending E workid maxtxs order).1 := by
  obtain ⟨h1, h2, h3, h4⟩ := hi
  have hkeys : ∀ e ∈ order, e.1 = txHash E e.2 := fun e he => h4 e (hperm.mem_iff.1 he)
  have hcnt : ∀ h, (mapKeys order).count h = (mapKeys pool.pending).count h := fun h =>
    (hperm.map Prod.fst).count_eq h
  have hone : ∀ h, (mapKeys pool.pending).count h ≤ 1 := fun h => by
    have := h1 h
    simp only [occ] at this
    omega
  have hrange : ∀ h,
      (mapKeys (pendingRange E maxtxs order (pool.pending, [], 0)).1).count h
        + ((pendingRange E maxtxs order (pool.pending, [], 0)).2.1.map (txHash E)).count h
      ≤ (mapKeys pool.pending).count h := fun h => by
    have := pendingRange_count E maxtxs order pool.pending [] 0 hkeys
      (fun h' => le_of_eq (hcnt h')) hone h
    simpa [mapKeys] using this
  have hmem : ∀ e ∈ (pendingRange E maxtxs order (pool.pending, [], 0)).1, e.1 = txHash E e.2 :=
    fun e he => h4 e (pendingRange_mem E maxtxs order _ _ _ e he)
  unfold TxPool.Pending
  simp only
  split
  · have hoccle : ∀ h,
        occ E { pool with pending := (pendingRange E maxtxs order (pool.pending, [], 0)).1,
                          working := mapStore pool.working workid
                            (pendingRange E maxtxs order (pool.pending, [], 0)).2.1 } h
          ≤ occ E pool h := by
      intro h
      have a := hrange h
      have b := count_working_mapStore E pool.working workid
        (pendingRange E maxtxs order (pool.pending, [], 0)).2.1 h
      simp only [occ]
      omega
    exact ⟨fun h => le_trans (hoccle h) (h1 h), fun h hp => h2 h (lt_of_lt_of_le hp (hoccle h)),
      h3, hmem⟩
  · have hoccle : ∀ h,
        occ E { pool with pending := (pendingRange E maxtxs order (pool.pending, [], 0)).1 } h
          ≤ occ E pool h := by
      intro h
      have a := hrange h
      simp only [occ]
      omega
    exact ⟨fun h => le_trans (hoccle h) (h1 h), fun h hp => h2 h (lt_of_lt_of_le hp (hoccle h)),
      h3, hmem⟩

/-- The loop of `WorkEnded` touches `onChain` and `pending` only, adds at most the hashes
of the work to them, and keeps the pending map keyed by hash. -/
theorem workEndedLoop_spec (E : Env) (blocknumber : Nat) (succeed : Bool)
    (txs : List Transaction) (pool : TxPool) (hk : ∀ e ∈ pool.pending, e.1 = txHash E e.2) :
    (workEndedLoop E blocknumber succeed txs pool).known = pool.known
    ∧ (workEndedLoop E blocknumber succeed txs pool).fullCh = pool.fullCh
    ∧ (workEndedLoop E blocknumber succeed txs pool).verifyCh = pool.verifyCh
    ∧ (workEndedLoop E blocknumber succeed txs pool).queue = pool.queue
    ∧ (workEndedLoop E blocknumber succeed txs pool).working = pool.working
    ∧ (∀ h, (mapKeys (workEndedLoop E blocknumber succeed txs pool).pending).count h
          + (mapKeys (workEndedLoop E blocknumber succeed txs pool).onChain).count h
        ≤ (mapKeys pool.pending).count h + (mapKeys pool.onChain).count h
          + (txs.map (txHash E)).count h)
    ∧ (∀ e ∈ (workEndedLoop E blocknumber succeed txs pool).pending, e.1 = txHash E e.2) := by
  induction txs generalizing pool with
  | nil => exact ⟨rfl, rfl, rfl, rfl, rfl, fun h => by simp [workEndedLoop], hk⟩
  | cons tx rest ih =>
    simp only [workEndedLoop]
    cases succeed with
    | true =>
      simp only [if_true]
      obtain ⟨a1, a2, a3, a4, a5, a6, a7⟩ := ih
        { pool with onChain := mapStore pool.onChain (txHash E tx) blocknumber } hk
      refine ⟨a1, a2, a3, a4, a5, fun h => ?_, a7⟩
      have a := a6 h
      have b := count_keys_mapStore pool.onChain (txHash E tx) h blocknumber
      rw [List.map_cons, count_cons_hash]
      simp only at a
      by_cases hh : h = txHash E tx
      · simp only [hh, if_true] at a b ⊢; omega
      · simp only [hh, if_false] at a b ⊢; omega
    | false =>
      simp only [Bool.false_eq_true, if_false]
      obtain ⟨a1, a2, a3, a4, a5, a6, a7⟩ := ih
        { pool with pending := mapStore pool.pending (txHash E tx) tx }
        (fun e he => by
          rcases mem_mapStore _ _ _ _ he with h | h
          · rw [h]
          · exact hk e h)
      refine ⟨a1, a2, a3, a4, a5, fun h => ?_, a7⟩
      have a := a6 h
      have b := count_keys_mapStore pool.pending (txHash E tx) h tx
      rw [List.map_cons, count_cons_hash]
      simp only at a
      by_cases hh : h = txHash E tx
      · simp only [hh, if_true] at a b ⊢; omega
      · simp only [hh, if_false] at a b ⊢; omega

theorem poolInv_workEnded (E : Env) (pool : TxPool) (workid : Int) (blocknumber : Nat)
    (succeed : Bool) (hi : PoolInv E pool) :
    PoolInv E (pool.WorkEnded E workid blocknumber succeed) := by
  unfold TxPool.WorkEnded
  cases hl : mapLoad pool.working workid with
  | none => exact hi
  | some txs =>
    obtain ⟨h1, h2, h3, h4⟩ := hi
    obtain ⟨a1, a2, a3, a4, a5, a6, a7⟩ := workEndedLoop_spec E blocknumber succeed txs pool h4
    simp only
    have hoccle : ∀ h,
        occ E { workEndedLoop E blocknumber succeed txs pool with
                working := mapDelete (workEndedLoop E blocknumber succeed txs pool).working workid } h
          ≤ occ E pool h := by
      intro h
      have a := a6 h
      have b := count_working_take E pool.working workid txs h hl
      simp only [occ, a2, a4, a5]
      omega
    refine ⟨fun h => le_trans (hoccle h) (h1 h), fun h hp => ?_, fun h => ?_, a7⟩
    · simp only [a1]
      exact h2 h (lt_of_lt_of_le hp (hoccle h))
    · simp only [a3, a4]
      exact h3 h

theorem count_fitOnChainRange (curHigh pbc : Nat) (es m : List (Hash × Nat)) (h : Hash) :
    (mapKeys (fitOnChainRange curHigh pbc es m)).count h ≤ (mapKeys m).count h := by
  induction es generalizing m with
  | nil => simp [fitOnChainRange]
  | cons e rest ih =>
    obtain ⟨k, number⟩ := e
    simp only [fitOnChainRange]
    split
    · have a := ih (mapDelete m k)
      have b := count_keys_mapDelete m k h
      by_cases hh : h = k
      · simp only [hh, if_true] at b; rw [hh] at a ⊢; omega
      · simp only [hh, if_false] at b; omega
    · exact ih m

theorem poolInv_fitOnChain (E : Env) (pool : TxPool) (curHigh : Nat) (hi : PoolInv E pool) :
    PoolInv E (pool.FitOnChain curHigh) := by
  obtain ⟨h1, h2, h3, h4⟩ := hi
  have hoccle : ∀ h, occ E (pool.FitOnChain curHigh) h ≤ occ E pool h := by
    intro h
    have := count_fitOnChainRange curHigh pool.poolBlockCount pool.onChain pool.onChain h
    simp only [occ, TxPool.FitOnChain]
    omega
  exact ⟨fun h => le_trans (hoccle h) (h1 h), fun h hp => h2 h (lt_of_lt_of_le hp (hoccle h)),
    h3, h4⟩

theorem poolInv_of_reach (E : Env) (pool : TxPool) (hr : PoolReachNoClear E pool) :
    PoolInv E pool := by
  induction hr with
  | new => exact poolInv_new E
  | addTx pool tx start _ _ hc ih => exact poolInv_addTx E pool tx start ih hc
  | queueWorker pool i _ ih => exact poolInv_queueWorker E pool i ih
  | verifyWorker pool i _ ih => exact poolInv_verifyWorker E pool i ih
  | pending pool workid maxtxs order _ hp ih => exact poolInv_pending E pool workid maxtxs order ih hp
  | workEnded pool workid bn succeed _ ih => exact poolInv_workEnded E pool workid bn succeed ih
  | fitOnChain pool curHigh _ ih => exact poolInv_fitOnChain E pool curHigh ih
  | knownTxAdd pool hash _ hc ih => exact poolInv_knownTxAdd E pool hash ih hc

theorem indicator_le_count (l : List Hash) (h : Hash) :
    (if h ∈ l then 1 else 0) ≤ l.count h := by
  split
  · rename_i hm
    exact List.count_pos_iff.2 hm
  · exact Nat.zero_le _

/-- C1 (as amended): in every pool state reachable from the empty pool by the pool's
operations (`AddTx`, the queue-worker step, the verify-worker step, `Pending`,
`WorkEnded`, `FitOnChain`, `KnownTxAdd`), each one atomic step, along which the seen set
is never cleared, every transaction hash is present in at most one of `queue`,
`pending`, `working[*]` and `onChain`. -/
theorem tx_state_exclusive_while_seen_set_kept (E : Env) (pool : TxPool)
    (hr : PoolReachNoClear E pool) (h : Hash) : statesHolding E pool h ≤ 1 := by
  obtain ⟨h1, _, _, _⟩ := poolInv_of_reach E pool hr
  have a := h1 h
  have b1 := indicator_le_count (mapKeys pool.queue) h
  have b2 := indicator_le_count (mapKeys pool.pending) h
  have b3 := indicator_le_count (workingHashes E pool.working) h
  have b4 := indicator_le_count (mapKeys pool.onChain) h
  simp only [occ] at a
  simp only [statesHolding]
  omega

/-- Evaluation of `tx_state_exclusive_while_seen_set_kept` on the pool in which `demoTx`
was added and queued. -/
theorem tx_state_exclusive_while_seen_set_kept_witness :
    statesHolding demoEnv ((NewTxPool.AddTx demoEnv demoTx 0).1.queueWorker demoEnv 0)
      (txHash demoEnv demoTx) ≤ 1 :=
  tx_state_exclusive_while_seen_set_kept demoEnv _
    (PoolReachNoClear.queueWorker _ 0
      (PoolReachNoClear.addTx NewTxPool demoTx 0 PoolReachNoClear.new (by decide) (by decide)))
    (txHash demoEnv demoTx)

theorem demoFill_length (n : Nat) : (demoFill n).length = n + 1 := by
  simp [demoFill]

theorem demoFill_succ (n : Nat) :
    setAdd (demoFill n) (txHash demoEnv demoTx + 1 + n) = demoFill (n + 1) := by
  have key : ∀ t : Nat, t + 1 + n ∉ t :: (List.range n).map (fun i => t + 1 + i) := by
    intro t
    simp only [List.mem_cons, List.mem_map, List.mem_range, not_or, not_exists, not_and]
    refine ⟨by omega, fun i hi he => by omega⟩
  have hn : txHash demoEnv demoTx + 1 + n ∉ demoFill n := key _
  simp only [setAdd, hn, if_false]
  simp [demoFill, List.range_succ]

theorem demoPoolWorking_reach : PoolReach demoEnv demoPoolWorking :=
  PoolReach.pending _ 1 10 _
    (PoolReach.verifyWorker _ 0
      (PoolReach.queueWorker _ 0 (PoolReach.addTx NewTxPool demoTx 0 PoolReach.new (by decide))))
    (by decide)

/-- The pool with `demoTx` in `working[1]` and `n` further hashes seen is reachable as
long as the seen set has not reached its capacity. -/
theorem demoFill_reach (n : Nat) (hn : n + 1 ≤ maxHandleKnownTxs) :
    PoolReach demoEnv { demoPoolWorking with known := demoFill n } := by
  induction n with
  | zero =>
    have h0 : ({ demoPoolWorking with known := demoFill 0 } : TxPool) = demoPoolWorking := by
      decide
    rw [h0]
    exact demoPoolWorking_reach
  | succ n ih =>
    have hstep := PoolReach.knownTxAdd _ (txHash demoEnv demoTx + 1 + n) (ih (by omega))
    have hlen : ¬ (demoFill n).length ≥ maxHandleKnownTxs := by
      rw [demoFill_length]; omega
    simp only [TxPool.KnownTxAdd, hlen, if_false, demoFill_succ] at hstep
    exact hstep

theorem demoPoolCleared_reach : PoolReach demoEnv demoPoolCleared := by
  have hstep := PoolReach.knownTxAdd _ (txHash demoEnv demoTx + 1 + 1999999)
    (demoFill_reach 1999999 (by decide))
  have hlen : (demoFill 1999999).length ≥ maxHandleKnownTxs := by
    rw [demoFill_length]; decide
  simp only [TxPool.KnownTxAdd, hlen, if_true] at hstep
  have hs : setAdd ([] : List Hash) (txHash demoEnv demoTx + 1 + 1999999)
      = [txHash demoEnv demoTx + 1 + 1999999] := by simp [setAdd]
  rw [hs] at hstep
  exact hstep

/-- C1 (as stated) fails: with `demoTx` in `working[1]`, two million `KnownTxAdd` calls
on fresh hashes clear the seen set; `AddTx` then accepts `demoTx` again (`DupTx` does
not look at `working`) and the queue worker puts it in `queue`, so its hash is in two of
the four states. -/
theorem tx_in_queue_and_working_after_seen_set_cleared :
    PoolReach demoEnv demoPoolClash
    ∧ statesHolding demoEnv demoPoolClash (txHash demoEnv demoTx) = 2
    ∧ txHash demoEnv demoTx ∈ mapKeys demoPoolClash.queue
    ∧ txHash demoEnv demoTx ∈ workingHashes demoEnv demoPoolClash.working := by
  refine ⟨?_, by decide, by decide, by decide⟩
  exact PoolReach.queueWorker _ 0
    (PoolReach.addTx demoPoolCleared demoTx 0 demoPoolCleared_reach (by decide))

/-! ### Proof generation and verification -/

theorem toInt64_bigUint64_of_range (x : Int) (h0 : 0 ≤ x) (h1 : x < 2 ^ 63) :
    toInt64 (bigUint64 x) = x := by
  unfold toInt64 bigUint64
  have h2 : (x.natAbs : Int) = x := Int.natAbs_of_nonneg h0
  have h3 : x.natAbs < 2 ^ 63 := by omega
  have h4 : x.natAbs % 2 ^ 64 = x.natAbs := Nat.mod_eq_of_lt (by omega)
  rw [h4, h4, if_pos h3]
  exact h2

/-- C11 (as stated) fails: for a header with number 2^63 the proof returned by
`GenerateProof` carries the number -2^63, not the header number. -/
theorem generateProof_number_wraps_at_2_pow_63 :
    (GenerateProof demoEnv (demoHeader 9223372036854775808) demoParent [] []).2.map WorkProof.Number
      = some (-9223372036854775808)
    ∧ (demoHeader 9223372036854775808).Number = 9223372036854775808 := by
  decide

/-- C11 (amended): when `signFn` returns a signature `sig` for the new proof hash,
`GenerateProof` sets `header.TxHash = DeriveSha(txs)` and
`header.ProofHash = MixHash(parent.ProofHash, DeriveSha(txs))`, which is the keccak of the
two hashes side by side, leaves every other header field as it was, and returns the
proof with `Sign = sig`, `Txs = txs`, `States = proofs` and
`Number = int64(header.Number.Uint64())`, which is `header.Number` whenever
`0 ≤ header.Number < 2^63`; when `signFn` returns an error the header is left as it was
and no proof is returned. -/
theorem generateProof_sets_roots_and_returns_proof (E : Env) (header parent : Header)
    (txs : List Transaction) (proofs : List ProofState) :
    (∀ sig : Bytes,
      E.signFn (E.hashBytes (MixHash E parent.ProofHash (DeriveSha E txs))) = some sig →
      GenerateProof E header parent txs proofs
          = ({ header with TxHash := DeriveSha E txs,
                           ProofHash := MixHash E parent.ProofHash (DeriveSha E txs) },
              some { Number := toInt64 (bigUint64 header.Number), Sign := sig, Txs := txs,
                     States := proofs })
        ∧ (GenerateProof E header parent txs proofs).1.TxHash = DeriveSha E txs
        ∧ (GenerateProof E header parent txs proofs).1.ProofHash
            = E.keccak256 (E.hashBytes parent.ProofHash ++ E.hashBytes (DeriveSha E txs))
        ∧ (GenerateProof E header parent txs proofs).1.ParentHash = header.ParentHash
        ∧ (GenerateProof E header parent txs proofs).1.Coinbase = header.Coinbase
        ∧ (GenerateProof E header parent txs proofs).1.Root = header.Root
        ∧ (GenerateProof E header parent txs proofs).1.ReceiptHash = header.ReceiptHash
        ∧ (GenerateProof E header parent txs proofs).1.ProofRoot = header.ProofRoot
        ∧ (GenerateProof E header parent txs proofs).1.Difficulty = header.Difficulty
        ∧ (GenerateProof E header parent txs proofs).1.Number = header.Number
        ∧ (GenerateProof E header parent txs proofs).1.Time = header.Time
        ∧ (GenerateProof E header parent txs proofs).1.Extra = header.Extra
        ∧ (0 ≤ header.Number → header.Number < 2 ^ 63 →
            (GenerateProof E header parent txs proofs).2
              = some { Number := header.Number, Sign := sig, Txs := txs, States := proofs }))
    ∧ (E.signFn (E.hashBytes (MixHash E parent.ProofHash (DeriveSha E txs))) = none →
        GenerateProof E header parent txs proofs = (header, none)) := by
  constructor
  · intro sig hs
    have e : GenerateProof E header parent txs proofs
        = ({ header with TxHash := DeriveSha E txs,
                         ProofHash := MixHash E parent.ProofHash (DeriveSha E txs) },
            some { Number := toInt64 (bigUint64 header.Number), Sign := sig, Txs := txs,
                   States := proofs }) := by
      simp only [GenerateProof, hs]
    rw [e]
    refine ⟨rfl, rfl, rfl, rfl, rfl, rfl, rfl, rfl, rfl, rfl, rfl, rfl, ?_⟩
    intro h0 h1
    simp only [toInt64_bigUint64_of_range header.Number h0 h1]
  · intro hs
    simp only [GenerateProof, hs]

/-- Evaluation of `generateProof_sets_roots_and_returns_proof` on header number 4 after
`demoParent`, with one transaction. -/
theorem generateProof_sets_roots_and_returns_proof_witness :
    (0 : Int) ≤ (demoHeader 4).Number ∧ (demoHeader 4).Number < 2 ^ 63
    ∧ (GenerateProof demoEnv (demoHeader 4) demoParent [demoTx] []).2
        = some { Number := (demoHeader 4).Number,
                 Sign := 9 :: demoEnv.hashBytes
                   (MixHash demoEnv demoParent.ProofHash (DeriveSha demoEnv [demoTx])),
                 Txs := [demoTx], States := [] } :=
  ⟨by decide, by decide,
    ((generateProof_sets_roots_and_returns_proof demoEnv (demoHeader 4) demoParent [demoTx] []).1
      (9 :: demoEnv.hashBytes (MixHash demoEnv demoParent.ProofHash (DeriveSha demoEnv [demoTx])))
      rfl).2.2.2.2.2.2.2.2.2.2.2.2 (by decide) (by decide)⟩

/-- C12: assume that for every hash `h` the engine's `signFn` returns a signature of the
bytes of `h` from which `ecrecover` gives back the address `signer`.  Then for every
header, parent and transaction list `GenerateProof` returns a proof, and
`VerifyProof(signer, parent.ProofHash, proof)` returns, without error, exactly the
`ProofHash` that `GenerateProof` set in the header.  For any environment, `VerifyProof`
returns the `invalid proof` error whenever the recovered address differs from the given
one (and when the recovery fails), and the mixed hash when they agree. -/
theorem generated_proof_is_accepted_by_verifyProof (E : Env) (signer : Address)
    (hsign : ∀ h : Hash, ∃ sig : Bytes,
      E.signFn (E.hashBytes h) = some sig ∧ E.ecrecover (E.hashBytes h) sig = some signer)
    (header parent : Header) (txs : List Transaction) (proofs : List ProofState) :
    (∃ wp : WorkProof, (GenerateProof E header parent txs proofs).2 = some wp
      ∧ VerifyProof E signer parent.ProofHash wp
          = some (GenerateProof E header parent txs proofs).1.ProofHash)
    ∧ (∀ (addr recovered : Address) (lastHash : Hash) (proof : WorkProof),
        E.ecrecover (E.hashBytes (MixHash E lastHash (DeriveSha E proof.Txs))) proof.Sign
            = some recovered →
        (recovered ≠ addr → VerifyProof E addr lastHash proof = none)
        ∧ (recovered = addr →
            VerifyProof E addr lastHash proof = some (MixHash E lastHash (DeriveSha E proof.Txs))))
    ∧ (∀ (addr : Address) (lastHash : Hash) (proof : WorkProof),
        E.ecrecover (E.hashBytes (MixHash E lastHash (DeriveSha E proof.Txs))) proof.Sign = none →
        VerifyProof E addr lastHash proof = none) := by
  refine ⟨?_, ?_, ?_⟩
  · obtain ⟨sig, hs, hr⟩ := hsign (MixHash E parent.ProofHash (DeriveSha E txs))
    refine ⟨{ Number := toInt64 (bigUint64 header.Number), Sign := sig, Txs := txs,
              States := proofs }, ?_, ?_⟩
    · simp only [GenerateProof, hs]
    · simp only [GenerateProof, hs, VerifyProof, verifyProof, hr]
      simp
  · intro addr recovered lastHash proof hr
    constructor
    · intro hne
      simp only [VerifyProof, verifyProof, hr]
      simp [hne]
    · intro he
      simp only [VerifyProof, verifyProof, hr]
      simp [he]
  · intro addr lastHash proof hr
    simp only [VerifyProof, verifyProof, hr]

/-- Evaluation of `generated_proof_is_accepted_by_verifyProof` in the example environment,
whose signer is address 9. -/
theorem generated_proof_is_accepted_by_verifyProof_witness :
    ∃ wp : WorkProof, (GenerateProof demoEnv (demoHeader 4) demoParent [demoTx] []).2 = some wp
      ∧ VerifyProof demoEnv 9 demoParent.ProofHash wp
          = some (GenerateProof demoEnv (demoHeader 4) demoParent [demoTx] []).1.ProofHash :=
  (generated_proof_is_accepted_by_verifyProof demoEnv 9
    (fun h => ⟨9 :: demoEnv.hashBytes h, rfl, by simp [demoEnv]⟩)
    (demoHeader 4) demoParent [demoTx] []).1

/-! ### `Pending`, `WorkEnded` and `AddTx` as single calls -/

theorem mapDelete_eq_filter {K V : Type} [DecidableEq K] (m : List (K × V)) (k : K) :
    mapDelete m k = m.filter (fun e => decide (e.1 ≠ k)) := by
  induction m with
  | nil => rfl
  | cons kv rest ih =>
    obtain ⟨k0, v0⟩ := kv
    by_cases hk : k0 = k
    · simp [mapDelete, hk, ih]
    · simp [mapDelete, hk, ih]

theorem foldl_mapDelete_eq_filter {K V : Type} [DecidableEq K] (ks : List K) (m : List (K × V)) :
    ks.foldl mapDelete m = m.filter (fun e => decide (e.1 ∉ ks)) := by
  induction ks generalizing m with
  | nil => simp
  | cons k rest ih =>
    simp only [List.foldl_cons, ih, mapDelete_eq_filter, List.filter_filter]
    congr 1
    funext e
    by_cases h1 : e.1 = k <;> by_cases h2 : e.1 ∈ rest <;> simp [h1, h2]

theorem pendingRange_eq (E : Env) (maxtxs : Nat) (order : List (Hash × Transaction))
    (pend : List (Hash × Transaction)) (acc : List Transaction) (i : Nat) (hi : i ≤ maxtxs) :
    pendingRange E maxtxs order (pend, acc, i)
      = ((order.take (maxtxs - i)).foldl (fun m e => mapDelete m (txHash E e.2)) pend,
          acc ++ (order.take (maxtxs - i)).map Prod.snd,
          i + (order.take (maxtxs - i)).length) := by
  induction order generalizing pend acc i with
  | nil => simp [pendingRange]
  | cons e rest ih =>
    obtain ⟨k, tx⟩ := e
    by_cases hge : i ≥ maxtxs
    · have h0 : maxtxs - i = 0 := by omega
      simp [pendingRange, hge, h0]
    · have h1 : maxtxs - i = (maxtxs - (i + 1)) + 1 := by omega
      simp only [pendingRange, hge, if_false]
      rw [ih _ _ (i + 1) (by omega), h1]
      simp only [List.take_succ_cons, List.foldl_cons, List.map_cons, List.length_cons,
        List.append_assoc, List.singleton_append]
      refine Prod.ext rfl (Prod.ext rfl ?_)
      simp only
      omega

theorem pending_result (E : Env) (pool : TxPool) (workid : Int) (maxtxs : Nat)
    (order : List (Hash × Transaction)) :
    (pool.Pending E workid maxtxs order).2 = (order.take maxtxs).map Prod.snd
    ∧ (pool.Pending E workid maxtxs order).1.pending
        = (order.take maxtxs).foldl (fun m e => mapDelete m (txHash E e.2)) pool.pending
    ∧ (pool.Pending E workid maxtxs order).1.working
        = (if 0 < (order.take maxtxs).length
            then mapStore pool.working workid ((order.take maxtxs).map Prod.snd)
            else pool.working)
    ∧ (pool.Pending E workid maxtxs order).1.queue = pool.queue
    ∧ (pool.Pending E workid maxtxs order).1.onChain = pool.onChain
    ∧ (pool.Pending E workid maxtxs order).1.known = pool.known
    ∧ (pool.Pending E workid maxtxs order).1.fullCh = pool.fullCh
    ∧ (pool.Pending E workid maxtxs order).1.verifyCh = pool.verifyCh := by
  have e := pendingRange_eq E maxtxs order pool.pending [] 0 (Nat.zero_le _)
  simp only [Nat.sub_zero, List.nil_append, Nat.zero_add] at e
  unfold TxPool.Pending
  simp only [e]
  by_cases h : 0 < (order.take maxtxs).length
  · simp only [gt_iff_lt, h, if_true, and_self]
  · simp only [gt_iff_lt, h, if_false, and_self]

theorem pending_spec_of_keyed (E : Env) (pool : TxPool) (workid : Int)
    (maxtxs : Nat) (order : List (Hash × Transaction))
    (hperm : order.Perm pool.pending)
    (hnodup : (mapKeys pool.pending).Nodup)
    (hkeys : ∀ e ∈ pool.pending, e.1 = txHash E e.2) :
    (pool.Pending E workid maxtxs order).2.length = min maxtxs pool.pending.length
    ∧ ((pool.Pending E workid maxtxs order).2.map (txHash E)).Nodup
    ∧ (∀ tx ∈ (pool.Pending E workid maxtxs order).2, (txHash E tx, tx) ∈ pool.pending)
    ∧ (pool.Pending E workid maxtxs order).1.pending
        = pool.pending.filter
            (fun e => decide (e.1 ∉ (pool.Pending E workid maxtxs order).2.map (txHash E)))
    ∧ ((pool.Pending E workid maxtxs order).2 ≠ [] →
        mapLoad (pool.Pending E workid maxtxs order).1.working workid
            = some (pool.Pending E workid maxtxs order).2
        ∧ ∀ id : Int, id ≠ workid →
            mapLoad (pool.Pending E workid maxtxs order).1.working id = mapLoad pool.working id)
    ∧ ((pool.Pending E workid maxtxs order).2 = [] →
        (pool.Pending E workid maxtxs order).1.working = pool.working)
    ∧ (pool.Pending E workid maxtxs order).1.queue = pool.queue
    ∧ (pool.Pending E workid maxtxs order).1.onChain = pool.onChain := by
  obtain ⟨r1, r2, r3, r4, r5, _, _, _⟩ := pending_result E pool workid maxtxs order
  have hmem : ∀ e ∈ order.take maxtxs, e ∈ pool.pending :=
    fun e he => hperm.subset (List.mem_of_mem_take he)
  have hmap : (order.take maxtxs).map (fun e => txHash E e.2)
      = (order.take maxtxs).map Prod.fst :=
    List.map_congr_left (fun e he => (hkeys e (hmem e he)).symm)
  have hhash : ((order.take maxtxs).map Prod.snd).map (txHash E)
      = (order.take maxtxs).map Prod.fst := by
    rw [List.map_map]
    exact hmap
  refine ⟨?_, ?_, ?_, ?_, ?_, ?_, r4, r5⟩
  · rw [r1, List.length_map, List.length_take, hperm.length_eq]
  · rw [r1, hhash]
    have h1 : (order.map Prod.fst).Nodup := (hperm.map Prod.fst).nodup_iff.2 hnodup
    exact (List.take_sublist maxtxs order).map Prod.fst |>.nodup h1
  · intro tx htx
    rw [r1] at htx
    obtain ⟨e, he, hetx⟩ := List.mem_map.1 htx
    have := hkeys e (hmem e he)
    obtain ⟨k, v⟩ := e
    simp only at hetx this
    subst hetx
    rw [← this]
    exact hmem _ he
  · rw [r2, r1, hhash, ← hmap, ← foldl_mapDelete_eq_filter, List.foldl_map]
  · intro hne
    have hpos : 0 < (order.take maxtxs).length := by
      rw [r1] at hne
      cases h : order.take maxtxs with
      | nil => rw [h] at hne; exact absurd rfl hne
      | cons a b => simp
    rw [r3, if_pos hpos, r1]
    exact ⟨mapLoad_mapStore_self _ _ _, fun id hid => mapLoad_mapStore_ne _ _ _ _ hid⟩
  · intro he
    have h0 : ¬ 0 < (order.take maxtxs).length := by
      rw [r1] at he
      have := congrArg List.length he
      simp only [List.length_map, List.length_nil] at this
      omega
    rw [r3, if_neg h0]

theorem nodup_keys_mapStore {V : Type} (m : List (Hash × V)) (k : Hash) (v : V)
    (h : (mapKeys m).Nodup) : (mapKeys (mapStore m k v)).Nodup := by
  rw [List.nodup_iff_count_le_one] at h ⊢
  intro a
  rw [count_keys_mapStore]
  split
  · exact Nat.le_refl 1
  · exact h a

theorem nodup_keys_mapDelete {V : Type} (m : List (Hash × V)) (k : Hash)
    (h : (mapKeys m).Nodup) : (mapKeys (mapDelete m k)).Nodup := by
  rw [List.nodup_iff_count_le_one] at h ⊢
  intro a
  rw [count_keys_mapDelete]
  split
  · exact Nat.zero_le 1
  · exact h a

theorem pendingKeyed_store (E : Env) (pool : TxPool) (tx : Transaction)
    (h : PendingKeyed E pool) :
    (mapKeys (mapStore pool.pending (txHash E tx) tx)).Nodup
    ∧ ∀ e ∈ mapStore pool.pending (txHash E tx) tx, e.1 = txHash E e.2 := by
  refine ⟨nodup_keys_mapStore _ _ _ h.1, fun e he => ?_⟩
  rcases mem_mapStore _ _ _ _ he with h1 | h1
  · rw [h1]
  · exact h.2 e h1

theorem addTx_pending (E : Env) (pool : TxPool) (tx : Transaction) (start : Nat) :
    (pool.AddTx E tx start).1.pending = pool.pending := by
  unfold TxPool.AddTx
  split
  · rfl
  · simp only [TxPool.KnownTxAdd]
    split <;> rfl

theorem pendingKeyed_workEndedLoop (E : Env) (blocknumber : Nat) (succeed : Bool)
    (txs : List Transaction) (pool : TxPool) (h : PendingKeyed E pool) :
    PendingKeyed E (workEndedLoop E blocknumber succeed txs pool) := by
  induction txs generalizing pool with
  | nil => exact h
  | cons tx rest ih =>
    cases succeed with
    | true =>
      simp only [workEndedLoop, if_true]
      exact ih _ h
    | false =>
      simp only [workEndedLoop, Bool.false_eq_true, if_false]
      exact ih _ (pendingKeyed_store E pool tx h)

/-- Every pool state the operations produce has a well-formed pending map. -/
theorem pendingKeyed_of_reach (E : Env) (pool : TxPool) (hr : PoolReach E pool) :
    PendingKeyed E pool := by
  induction hr with
  | new => exact ⟨List.nodup_nil, fun e he => by simp [NewTxPool] at he⟩
  | addTx pool tx start _ _ ih =>
    unfold PendingKeyed
    rw [addTx_pending]
    exact ih
  | queueWorker pool i _ ih =>
    unfold TxPool.queueWorker
    split
    · exact ih
    · simp only
      split <;> exact ih
  | verifyWorker pool i _ ih =>
    unfold TxPool.verifyWorker
    split
    · exact ih
    · simp only [TxPool.verifyTx, if_true]
      exact pendingKeyed_store E pool _ ih
  | pending pool workid maxtxs order _ hperm ih =>
    have hp := (pending_spec_of_keyed E pool workid maxtxs order hperm ih.1 ih.2).2.2.2.1
    unfold PendingKeyed
    rw [hp]
    refine ⟨?_, fun e he => ih.2 e (List.mem_of_mem_filter he)⟩
    exact (List.filter_sublist _).map Prod.fst |>.nodup ih.1
  | workEnded pool workid blocknumber succeed _ ih =>
    unfold TxPool.WorkEnded
    split
    · exact pendingKeyed_workEndedLoop E blocknumber succeed _ pool ih
    · exact ih
  | fitOnChain pool curHigh _ ih => exact ih
  | knownTxAdd pool hash _ ih => exact ih

theorem demoPoolPending_reach : PoolReach demoEnv demoPoolPending :=
  PoolReach.verifyWorker _ 0 (PoolReach.verifyWorker _ 0 (PoolReach.queueWorker _ 0
    (PoolReach.queueWorker _ 0 (PoolReach.addTx _ demoTx2 0
      (PoolReach.addTx NewTxPool demoTx 0 PoolReach.new (by decide)) (by decide)))))

/-- C13: in every pool state the pool's operations produce, for every `maxtxs ≥ 0` and
every order `order` in which `Range` yields the pending entries, `Pending(workid, maxtxs)`
returns exactly `min maxtxs |pending|` transactions, with pairwise distinct hashes, each
of which was pending under its hash; afterwards the pending map is the old one without
exactly the returned hashes; when the result is not empty it is stored under
`working[workid]` (the other work ids keep their lists), when it is empty `working` is
left as it was; `queue` and `onChain` are unchanged. -/
theorem pending_takes_min_and_records_working (E : Env) (pool : TxPool) (workid : Int)
    (maxtxs : Nat) (order : List (Hash × Transaction))
    (hreach : PoolReach E pool) (hperm : order.Perm pool.pending) :
    (pool.Pending E workid maxtxs order).2.length = min maxtxs pool.pending.length
    ∧ ((pool.Pending E workid maxtxs order).2.map (txHash E)).Nodup
    ∧ (∀ tx ∈ (pool.Pending E workid maxtxs order).2, (txHash E tx, tx) ∈ pool.pending)
    ∧ (pool.Pending E workid maxtxs order).1.pending
        = pool.pending.filter
            (fun e => decide (e.1 ∉ (pool.Pending E workid maxtxs order).2.map (txHash E)))
    ∧ ((pool.Pending E workid maxtxs order).2 ≠ [] →
        mapLoad (pool.Pending E workid maxtxs order).1.working workid
            = some (pool.Pending E workid maxtxs order).2
        ∧ ∀ id : Int, id ≠ workid →
            mapLoad (pool.Pending E workid maxtxs order).1.working id = mapLoad pool.working id)
    ∧ ((pool.Pending E workid maxtxs order).2 = [] →
        (pool.Pending E workid maxtxs order).1.working = pool.working)
    ∧ (pool.Pending E workid maxtxs order).1.queue = pool.queue
    ∧ (pool.Pending E workid maxtxs order).1.onChain = pool.onChain :=
  pending_spec_of_keyed E pool workid maxtxs order hperm
    (pendingKeyed_of_reach E pool hreach).1 (pendingKeyed_of_reach E pool hreach).2

/-- Evaluation of `pending_takes_min_and_records_working`: one of two pending
transactions is drained into the round with work id 1. -/
theorem pending_takes_min_and_records_working_witness :
    (demoPoolPending.Pending demoEnv 1 1 demoPoolPending.pending).2.length
      = min 1 demoPoolPending.pending.length
    ∧ (demoPoolPending.Pending demoEnv 1 1 demoPoolPending.pending).2
        = [(demoTx.Hash demoEnv).2]
    ∧ demoPoolPending.pending.length = 2 :=
  ⟨(pending_takes_min_and_records_working demoEnv demoPoolPending 1 1 demoPoolPending.pending
      demoPoolPending_reach (List.Perm.refl _)).1, by decide, by decide⟩

theorem workEndedLoop_true (E : Env) (n : Nat) (txs : List Transaction) (pool : TxPool) :
    workEndedLoop E n true txs pool
      = { pool with onChain := txs.foldl (fun m tx => mapStore m (txHash E tx) n) pool.onChain } := by
  induction txs generalizing pool with
  | nil => rfl
  | cons tx rest ih => simp only [workEndedLoop, if_true, ih, List.foldl_cons]

theorem workEndedLoop_false (E : Env) (n : Nat) (txs : List Transaction) (pool : TxPool) :
    workEndedLoop E n false txs pool
      = { pool with pending := txs.foldl (fun m tx => mapStore m (txHash E tx) tx) pool.pending } := by
  induction txs generalizing pool with
  | nil => rfl
  | cons tx rest ih =>
    simp only [workEndedLoop, Bool.false_eq_true, if_false, ih, List.foldl_cons]

/-- Loading from a map after a run of stores: the key was stored by some element of the
run, or the map still answers as before. -/
theorem mapLoad_foldl_store {A V : Type} (f : A → Hash) (g : A → V) (xs : List A)
    (m : List (Hash × V)) (h : Hash) :
    (∃ x ∈ xs, f x = h ∧ mapLoad (xs.foldl (fun acc x => mapStore acc (f x) (g x)) m) h = some (g x))
    ∨ (h ∉ xs.map f
        ∧ mapLoad (xs.foldl (fun acc x => mapStore acc (f x) (g x)) m) h = mapLoad m h) := by
  induction xs generalizing m with
  | nil => exact Or.inr ⟨by simp, rfl⟩
  | cons a rest ih =>
    simp only [List.foldl_cons]
    rcases ih (mapStore m (f a) (g a)) with ⟨x, hx, hfx, hl⟩ | ⟨hn, hl⟩
    · exact Or.inl ⟨x, List.mem_cons_of_mem _ hx, hfx, hl⟩
    · by_cases hfa : f a = h
      · refine Or.inl ⟨a, List.mem_cons_self _ _, hfa, ?_⟩
        rw [hl, ← hfa, mapLoad_mapStore_self]
      · refine Or.inr ⟨?_, ?_⟩
        · simp only [List.map_cons, List.mem_cons, not_or]
          exact ⟨fun e => hfa e.symm, hn⟩
        · rw [hl, mapLoad_mapStore_ne _ _ _ _ (fun e => hfa e.symm)]

/-- C14: for every pool state with `working[workid] = txs`, `WorkEnded(workid, n, true)`
sets `onChain[h] = n` for the hash `h` of every transaction of `txs`, leaves the other
`onChain` entries and the whole pending map unchanged; `WorkEnded(workid, n, false)` puts
every transaction of `txs` back into pending under its hash (when two transactions of
`txs` share a hash, one of them is the value), leaves the other pending entries and the
whole `onChain` map unchanged; in both cases `working[workid]` is removed, the other work
ids and `queue` are untouched; when `workid` has no working entry the call changes
nothing. -/
theorem workEnded_moves_working_txs (E : Env) (pool : TxPool) (workid : Int) (n : Nat) :
    (∀ txs : List Transaction, mapLoad pool.working workid = some txs →
      (∀ tx ∈ txs, mapLoad (pool.WorkEnded E workid n true).onChain (txHash E tx) = some n)
      ∧ (∀ h : Hash, h ∉ txs.map (txHash E) →
          mapLoad (pool.WorkEnded E workid n true).onChain h = mapLoad pool.onChain h)
      ∧ (pool.WorkEnded E workid n true).pending = pool.pending
      ∧ (∀ tx ∈ txs, ∃ tx2 ∈ txs, txHash E tx2 = txHash E tx
          ∧ mapLoad (pool.WorkEnded E workid n false).pending (txHash E tx) = some tx2)
      ∧ ((txs.map (txHash E)).Nodup →
          ∀ tx ∈ txs, mapLoad (pool.WorkEnded E workid n false).pending (txHash E tx) = some tx)
      ∧ (∀ h : Hash, h ∉ txs.map (txHash E) →
          mapLoad (pool.WorkEnded E workid n false).pending h = mapLoad pool.pending h)
      ∧ (pool.WorkEnded E workid n false).onChain = pool.onChain
      ∧ (∀ succeed : Bool,
          mapLoad (pool.WorkEnded E workid n succeed).working workid = none
          ∧ (∀ id : Int, id ≠ workid →
              mapLoad (pool.WorkEnded E workid n succeed).working id = mapLoad pool.working id)
          ∧ (pool.WorkEnded E workid n succeed).queue = pool.queue))
    ∧ (mapLoad pool.working workid = none →
        ∀ succeed : Bool, pool.WorkEnded E workid n succeed = pool) := by
  constructor
  · intro txs hw
    have et : pool.WorkEnded E workid n true
        = { pool with
            onChain := txs.foldl (fun m tx => mapStore m (txHash E tx) n) pool.onChain,
            working := mapDelete pool.working workid } := by
      simp only [TxPool.WorkEnded, hw, workEndedLoop_true]
    have ef : pool.WorkEnded E workid n false
        = { pool with
            pending := txs.foldl (fun m tx => mapStore m (txHash E tx) tx) pool.pending,
            working := mapDelete pool.working workid } := by
      simp only [TxPool.WorkEnded, hw, workEndedLoop_false]
    have hfalse : ∀ tx ∈ txs, ∃ tx2 ∈ txs, txHash E tx2 = txHash E tx
        ∧ mapLoad (pool.WorkEnded E workid n false).pending (txHash E tx) = some tx2 := by
      intro tx htx
      rw [ef]
      rcases mapLoad_foldl_store (txHash E) id txs pool.pending (txHash E tx) with
        ⟨x, hx, hfx, hl⟩ | ⟨hn, _⟩
      · exact ⟨x, hx, hfx, hl⟩
      · exact absurd (List.mem_map_of_mem _ htx) hn
    refine ⟨?_, ?_, ?_, hfalse, ?_, ?_, ?_, ?_⟩
    · intro tx htx
      rw [et]
      rcases mapLoad_foldl_store (txHash E) (fun _ => n) txs pool.onChain (txHash E tx) with
        ⟨x, _, _, hl⟩ | ⟨hn, _⟩
      · exact hl
      · exact absurd (List.mem_map_of_mem _ htx) hn
    · intro h hh
      rw [et]
      rcases mapLoad_foldl_store (txHash E) (fun _ => n) txs pool.onChain h with
        ⟨x, hx, hfx, _⟩ | ⟨_, hl⟩
      · exact absurd (hfx ▸ List.mem_map_of_mem _ hx) hh
      · exact hl
    · rw [et]
    · intro hnd tx htx
      obtain ⟨tx2, h2, hh, hl⟩ := hfalse tx htx
      have : tx2 = tx := List.inj_on_of_nodup_map hnd h2 htx hh
      rw [hl, this]
    · intro h hh
      rw [ef]
      rcases mapLoad_foldl_store (txHash E) id txs pool.pending h with
        ⟨x, hx, hfx, _⟩ | ⟨_, hl⟩
      · exact absurd (hfx ▸ List.mem_map_of_mem _ hx) hh
      · exact hl
    · rw [ef]
    · intro succeed
      cases succeed with
      | true =>
        rw [et]
        exact ⟨mapLoad_mapDelete_self _ _, fun id hid => mapLoad_mapDelete_ne _ _ _ hid, rfl⟩
      | false =>
        rw [ef]
        exact ⟨mapLoad_mapDelete_self _ _, fun id hid => mapLoad_mapDelete_ne _ _ _ hid, rfl⟩
  · intro hw succeed
    simp only [TxPool.WorkEnded, hw]

/-- Evaluation of `workEnded_moves_working_txs` on the pool with `demoTx` in
`working[1]`: success at block 7 and failure. -/
theorem workEnded_moves_working_txs_witness :
    mapLoad demoPoolWorking.working 1 = some [(demoTx.Hash demoEnv).2]
    ∧ mapLoad (demoPoolWorking.WorkEnded demoEnv 1 7 true).onChain (txHash demoEnv demoTx) = some 7
    ∧ (demoPoolWorking.WorkEnded demoEnv 1 7 false).onChain = demoPoolWorking.onChain :=
  ⟨by decide,
    by
      have h := ((workEnded_moves_working_txs demoEnv demoPoolWorking 1 7).1
        [(demoTx.Hash demoEnv).2] (by decide)).1 (demoTx.Hash demoEnv).2 (by simp)
      rw [txHash_cached] at h
      exact h,
    ((workEnded_moves_working_txs demoEnv demoPoolWorking 1 7).1
      [(demoTx.Hash demoEnv).2] (by decide)).2.2.2.2.2.2.1⟩

theorem mapLoad_isSome_iff {K V : Type} [DecidableEq K] (m : List (K × V)) (k : K) :
    (mapLoad m k).isSome = true ↔ k ∈ mapKeys m := by
  induction m with
  | nil => simp [mapLoad, mapKeys]
  | cons kv rest ih =>
    obtain ⟨k0, v0⟩ := kv
    by_cases hk : k0 = k
    · simp [mapLoad, mapKeys, hk]
    · have hk2 : ¬ k = k0 := fun e => hk e.symm
      simp only [mapLoad, hk, if_false, ih]
      simp [mapKeys, hk2]

theorem dupTx_iff (E : Env) (pool : TxPool) (tx : Transaction) :
    pool.DupTx E tx = true
      ↔ (txHash E tx ∈ pool.known ∨ txHash E tx ∈ mapKeys pool.queue
          ∨ txHash E tx ∈ mapKeys pool.pending ∨ txHash E tx ∈ mapKeys pool.onChain) := by
  rw [← mapLoad_isSome_iff, ← mapLoad_isSome_iff, ← mapLoad_isSome_iff]
  unfold TxPool.DupTx
  by_cases h1 : txHash E tx ∈ pool.known
  · simp [h1]
  · by_cases h2 : (mapLoad pool.queue (txHash E tx)).isSome = true
    · simp [h1, h2]
    · by_cases h3 : (mapLoad pool.pending (txHash E tx)).isSome = true
      · simp [h1, h2, h3]
      · by_cases h4 : (mapLoad pool.onChain (txHash E tx)).isSome = true
        · simp [h1, h2, h3, h4]
        · simp [h1, h2, h3, h4]

theorem sendToFullLoop_some (tx : Transaction) (start n : Nat) (chs chs' : List (List Transaction))
    (tries : List Nat) (hs : sendToFullLoop tx start n chs tries = some chs') :
    ∃ t ∈ tries, (chs.getD ((start + t) % n) []).length < poolChanCap
      ∧ chs' = chs.set ((start + t) % n) (chs.getD ((start + t) % n) [] ++ [tx]) := by
  induction tries with
  | nil => simp [sendToFullLoop] at hs
  | cons t rest ih =>
    simp only [sendToFullLoop] at hs
    split at hs
    · rename_i hlt
      simp only [Option.some.injEq] at hs
      exact ⟨t, List.mem_cons_self _ _, hlt, hs.symm⟩
    · obtain ⟨t2, ht2, h1, h2⟩ := ih hs
      exact ⟨t2, List.mem_cons_of_mem _ ht2, h1, h2⟩

theorem sendToFullLoop_none (tx : Transaction) (start n : Nat) (chs : List (List Transaction))
    (tries : List Nat) :
    sendToFullLoop tx start n chs tries = none
      ↔ ∀ t ∈ tries, poolChanCap ≤ (chs.getD ((start + t) % n) []).length := by
  induction tries with
  | nil => simp [sendToFullLoop]
  | cons t rest ih =>
    simp only [sendToFullLoop]
    by_cases hlt : (chs.getD ((start + t) % n) []).length < poolChanCap
    · simp only [hlt, if_true, List.mem_cons, forall_eq_or_imp]
      constructor
      · intro h; cases h
      · intro h; omega
    · simp only [hlt, if_false, ih, List.mem_cons, forall_eq_or_imp]
      constructor
      · intro h; exact ⟨by omega, h⟩
      · intro h; exact h.2

theorem probe_covers (start i : Nat) (hi : i < maxThreadNumber) :
    ∃ t ∈ List.range maxThreadNumber, (start + t) % maxThreadNumber = i := by
  refine ⟨(i + maxThreadNumber - start % maxThreadNumber) % maxThreadNumber, ?_, ?_⟩
  · rw [List.mem_range]
    exact Nat.mod_lt _ (by decide)
  · simp only [maxThreadNumber] at hi ⊢
    omega

theorem probe_in_range (start t : Nat) : (start + t) % maxThreadNumber < maxThreadNumber :=
  Nat.mod_lt _ (by decide)

theorem addTx_unfold (E : Env) (pool : TxPool) (tx : Transaction) (start : Nat) :
    pool.AddTx E tx start
      = if pool.DupTx E tx = true then (pool, some PoolErr.knownTx)
        else
          match sendToFullLoop (tx.Hash E).2 start maxThreadNumber pool.fullCh
              (List.range maxThreadNumber) with
          | some chs => ({ pool.KnownTxAdd (txHash E tx) with fullCh := chs }, none)
          | none => (pool.KnownTxAdd (txHash E tx), some PoolErr.fullChFull) := by
  rfl

/-- C15: `AddTx(tx)` returns the known-transaction error exactly when `tx.Hash()` is in
the seen set, the queue, pending or onChain, and then leaves the pool as it was.
Otherwise the hash is marked seen, and the call returns nil exactly when one of the
`maxThreadNumber` ingest channels has free capacity, in which case one channel with free
capacity got the transaction appended and no other channel changed; it returns the
`fullch is full` error exactly when every ingest channel is full, and then no channel
changed.  In no case are `queue`, `pending` or `onChain` touched. -/
theorem addTx_known_or_enqueued_or_full (E : Env) (pool : TxPool) (tx : Transaction)
    (start : Nat) :
    ((pool.AddTx E tx start).2 = some PoolErr.knownTx
      ↔ (txHash E tx ∈ pool.known ∨ txHash E tx ∈ mapKeys pool.queue
          ∨ txHash E tx ∈ mapKeys pool.pending ∨ txHash E tx ∈ mapKeys pool.onChain))
    ∧ ((pool.AddTx E tx start).2 = some PoolErr.knownTx → (pool.AddTx E tx start).1 = pool)
    ∧ ((pool.AddTx E tx start).2 ≠ some PoolErr.knownTx →
        ((pool.AddTx E tx start).2 = none
          ↔ ∃ i, i < maxThreadNumber ∧ (pool.fullCh.getD i []).length < poolChanCap)
        ∧ ((pool.AddTx E tx start).2 = some PoolErr.fullChFull
          ↔ ∀ i, i < maxThreadNumber → poolChanCap ≤ (pool.fullCh.getD i []).length)
        ∧ ((pool.AddTx E tx start).2 = none →
            ∃ i, i < maxThreadNumber ∧ (pool.fullCh.getD i []).length < poolChanCap
              ∧ (pool.AddTx E tx start).1.fullCh
                  = pool.fullCh.set i (pool.fullCh.getD i [] ++ [(tx.Hash E).2])
              ∧ (pool.fullCh.length = maxThreadNumber →
                  (pool.AddTx E tx start).1.fullCh.getD i []
                      = pool.fullCh.getD i [] ++ [(tx.Hash E).2]
                  ∧ ∀ j, j ≠ i →
                      (pool.AddTx E tx start).1.fullCh.getD j [] = pool.fullCh.getD j []))
        ∧ ((pool.AddTx E tx start).2 = some PoolErr.fullChFull →
            (pool.AddTx E tx start).1.fullCh = pool.fullCh)
        ∧ (pool.AddTx E tx start).1.known = (pool.KnownTxAdd (txHash E tx)).known)
    ∧ (pool.AddTx E tx start).1.queue = pool.queue
    ∧ (pool.AddTx E tx start).1.pending = pool.pending
    ∧ (pool.AddTx E tx start).1.onChain = pool.onChain := by
  by_cases hd : pool.DupTx E tx = true
  · have hd2 := (dupTx_iff E pool tx).1 hd
    have e : pool.AddTx E tx start = (pool, some PoolErr.knownTx) := by
      rw [addTx_unfold, if_pos hd]
    rw [e]
    refine ⟨?_, ?_, ?_, rfl, rfl, rfl⟩
    · exact ⟨fun _ => hd2, fun _ => rfl⟩
    · intro _; rfl
    · intro h; exact absurd rfl h
  · have hd2 : ¬ (txHash E tx ∈ pool.known ∨ txHash E tx ∈ mapKeys pool.queue
        ∨ txHash E tx ∈ mapKeys pool.pending ∨ txHash E tx ∈ mapKeys pool.onChain) :=
      fun h => hd ((dupTx_iff E pool tx).2 h)
    cases hs : sendToFullLoop (tx.Hash E).2 start maxThreadNumber pool.fullCh
        (List.range maxThreadNumber) with
    | none =>
      have e : pool.AddTx E tx start
          = (pool.KnownTxAdd (txHash E tx), some PoolErr.fullChFull) := by
        rw [addTx_unfold, if_neg hd, hs]
      have hall := (sendToFullLoop_none _ _ _ _ _).1 hs
      have hfull : ∀ i, i < maxThreadNumber → poolChanCap ≤ (pool.fullCh.getD i []).length := by
        intro i hi
        obtain ⟨t, ht, hti⟩ := probe_covers start i hi
        have := hall t ht
        rw [hti] at this
        exact this
      rw [e]
      refine ⟨?_, ?_, ?_, rfl, rfl, rfl⟩
      · constructor
        · intro h; cases h
        · intro h; exact absurd h hd2
      · intro h; cases h
      · intro _
        refine ⟨?_, ?_, ?_, ?_, rfl⟩
        · constructor
          · intro h; cases h
          · intro hex
            obtain ⟨i, hi, hlt⟩ := hex
            have := hfull i hi
            omega
        · exact ⟨fun _ => hfull, fun _ => rfl⟩
        · intro h; cases h
        · intro _; rfl
    | some chs =>
      have e : pool.AddTx E tx start
          = ({ pool.KnownTxAdd (txHash E tx) with fullCh := chs }, none) := by
        rw [addTx_unfold, if_neg hd, hs]
      obtain ⟨t, ht, hlt, hchs⟩ := sendToFullLoop_some _ _ _ _ _ _ hs
      have hin := probe_in_range start t
      rw [e]
      refine ⟨?_, ?_, ?_, rfl, rfl, rfl⟩
      · constructor
        · intro h; cases h
        · intro h; exact absurd h hd2
      · intro h; cases h
      · intro _
        refine ⟨?_, ?_, ?_, ?_, rfl⟩
        · exact ⟨fun _ => ⟨_, hin, hlt⟩, fun _ => rfl⟩
        · constructor
          · intro h; cases h
          · intro h
            have := h _ hin
            omega
        · intro _
          refine ⟨_, hin, hlt, hchs, ?_⟩
          intro hlen
          have hb : (start + t) % maxThreadNumber < pool.fullCh.length := by
            rw [hlen]; exact hin
          show chs.getD _ [] = _ ∧ ∀ j, j ≠ _ → chs.getD j [] = _
          rw [hchs]
          constructor
          · simp [List.getD_eq_getElem?_getD, List.getElem?_set, hb]
          · intro j hj
            have hj2 : ¬ (start + t) % maxThreadNumber = j := fun e => hj e.symm
            simp [List.getD_eq_getElem?_getD, List.getElem?_set, hj2]
        · intro h; cases h

/-- Evaluation of `addTx_known_or_enqueued_or_full` on a fresh pool: the transaction is
not known and channel 0 has room, so `AddTx` returns nil. -/
theorem addTx_known_or_enqueued_or_full_witness :
    (NewTxPool.AddTx demoEnv demoTx 0).2 ≠ some PoolErr.knownTx
    ∧ (∃ i, i < maxThreadNumber ∧ (NewTxPool.fullCh.getD i []).length < poolChanCap)
    ∧ (NewTxPool.AddTx demoEnv demoTx 0).2 = none :=
  ⟨by decide, ⟨0, by decide, by decide⟩,
    ((addTx_known_or_enqueued_or_full demoEnv NewTxPool demoTx 0).2.2.1 (by decide)).1.2
      ⟨0, by decide, by decide⟩⟩

/-! ### The decision to start a round -/

theorem wrapInt64_of_range (x : Int) (h0 : -2 ^ 63 ≤ x) (h1 : x < 2 ^ 63) : wrapInt64 x = x := by
  unfold wrapInt64 toInt64
  split <;> omega

theorem bigInt64_of_range (x : Int) (h0 : -2 ^ 63 ≤ x) (h1 : x < 2 ^ 63) : bigInt64 x = x := by
  unfold bigInt64 wrapInt64 toInt64 bigUint64
  split <;> split <;> (try split) <;> omega

theorem needStartMine_iff (head : Header) (now : Int) (npending : Nat) (blockPeorid : Int)
    (ht0 : -2 ^ 63 ≤ head.Time) (ht1 : head.Time < 2 ^ 63)
    (hd0 : -2 ^ 63 ≤ now - head.Time) (hd1 : now - head.Time < 2 ^ 63)
    (hp0 : -2 ^ 63 ≤ blockPeorid * 1000) (hp1 : blockPeorid * 1000 < 2 ^ 63) :
    needStartMine head now npending blockPeorid = true
      ↔ (now - head.Time ≥ blockPeorid * 1000
          ∨ ((npending : Int) ≥ minTxsToMine ∧ now - head.Time > 20)) := by
  unfold needStartMine
  rw [bigInt64_of_range _ ht0 ht1, wrapInt64_of_range _ hd0 hd1, wrapInt64_of_range _ hp0 hp1]
  simp only [Bool.or_eq_true, Bool.and_eq_true, decide_eq_true_eq]

theorem checkNeedStartMine_noErr (p : WorkPending) (current : Header) (now : Int) (pool : TxPool)
    (blockPeorid : Int) (hne : p.HaveErr = false) (h : Header)
    (hh : (p.Pending = [] ∧ h = current) ∨ (∃ w, p.Pending.getLast? = some w ∧ w.Block = some h)) :
    CheckNeedStartMine p current now pool blockPeorid
      = if needStartMine h now pool.Pended.length blockPeorid then (p, StartMine.ret (some h))
        else (p, StartMine.ret none) := by
  have htop : (match p.Top with
      | some w => w.Block
      | none => some current) = some h := by
    rcases hh with ⟨hnil, hc⟩ | ⟨w, hw, hb⟩
    · simp [WorkPending.Top, hne, hnil, hc]
    · have hpos : p.Pending.length > 0 := by
        cases hp : p.Pending with
        | nil => rw [hp] at hw; simp at hw
        | cons a b => simp
      simp [WorkPending.Top, hne, hpos, hw, hb]
  unfold CheckNeedStartMine
  simp only [hne, Bool.false_and, Bool.false_eq_true, if_false, htop]

/-- C16 (as stated) fails outside the range of the 64-bit words the code computes in.
(1) With `blockPeorid = 9223372036854776` the product `blockPeorid*1000` wraps to a
negative `int`, and a header whose age is 0 is returned though the age is below
`blockPeorid*1000` and nothing is pending.  (2) With a header time of `-2^63 + 500` the
difference `now - h.Time` wraps to a negative `int64`, and nil is returned though the age
exceeds `blockPeorid*1000`.  (3) With a header time of `2^64`, `Time.Int64()` is 0, and the
header is returned though its age is negative. -/
theorem checkNeedStartMine_wraps_outside_int64 :
    (NewWorkPending.HaveErr = false
      ∧ (CheckNeedStartMine NewWorkPending demoParent 1000 NewTxPool 9223372036854776).2
          = StartMine.ret (some demoParent)
      ∧ ¬ ((1000 : Int) - demoParent.Time ≥ 9223372036854776 * 1000
            ∨ ((NewTxPool.Pended.length : Int) ≥ minTxsToMine ∧ (1000 : Int) - demoParent.Time > 20)))
    ∧ ((CheckNeedStartMine NewWorkPending { demoParent with Time := -9223372036854775808 + 500 }
          1000 NewTxPool 2).2 = StartMine.ret none
      ∧ (1000 : Int) - (-9223372036854775808 + 500) ≥ 2 * 1000)
    ∧ ((CheckNeedStartMine NewWorkPending { demoParent with Time := 18446744073709551616 }
          5000 NewTxPool 2).2
          = StartMine.ret (some { demoParent with Time := 18446744073709551616 })
      ∧ ¬ ((5000 : Int) - 18446744073709551616 ≥ 2 * 1000
            ∨ ((NewTxPool.Pended.length : Int) ≥ minTxsToMine
                ∧ (5000 : Int) - 18446744073709551616 > 20))) := by
  decide

/-- C16 (amended): when the commit queue is not in error state, `CheckNeedStartMine`
leaves the queue as it is and looks at the header `h` of `WorkPending.Top()` (the last
round queued) when the queue is non-empty, else at the chain's current header.  It
returns `h` if and only if `delta >= int64(blockPeorid*1000)`, or the number of pending
transactions is `>= minTxsToMine` and `delta > 20`, where
`delta = now_ms - h.Time.Int64()` is computed in `int64`; otherwise it returns nil.  Whenever
`h.Time`, `now_ms - h.Time` and `blockPeorid*1000` lie within the `int64` range, this is
the condition `now_ms - h.Time >= blockPeorid*1000`, or pending `>= minTxsToMine` and
`now_ms - h.Time > 20`, over the integers. -/
theorem checkNeedStartMine_decides_by_age_or_load (p : WorkPending) (current : Header)
    (now : Int) (pool : TxPool) (blockPeorid : Int) (hne : p.HaveErr = false) (h : Header)
    (hh : (p.Pending = [] ∧ h = current) ∨ (∃ w, p.Pending.getLast? = some w ∧ w.Block = some h)) :
    (CheckNeedStartMine p current now pool blockPeorid).1 = p
    ∧ ((CheckNeedStartMine p current now pool blockPeorid).2 = StartMine.ret (some h)
        ↔ needStartMine h now pool.Pended.length blockPeorid = true)
    ∧ (needStartMine h now pool.Pended.length blockPeorid = false →
        (CheckNeedStartMine p current now pool blockPeorid).2 = StartMine.ret none)
    ∧ (-2 ^ 63 ≤ h.Time → h.Time < 2 ^ 63 → -2 ^ 63 ≤ now - h.Time → now - h.Time < 2 ^ 63 →
        -2 ^ 63 ≤ blockPeorid * 1000 → blockPeorid * 1000 < 2 ^ 63 →
        ((CheckNeedStartMine p current now pool blockPeorid).2 = StartMine.ret (some h)
          ↔ (now - h.Time ≥ blockPeorid * 1000
              ∨ ((pool.Pended.length : Int) ≥ minTxsToMine ∧ now - h.Time > 20)))
        ∧ (¬ (now - h.Time ≥ blockPeorid * 1000
              ∨ ((pool.Pended.length : Int) ≥ minTxsToMine ∧ now - h.Time > 20)) →
            (CheckNeedStartMine p current now pool blockPeorid).2 = StartMine.ret none)) := by
  have e := checkNeedStartMine_noErr p current now pool blockPeorid hne h hh
  have key : ((CheckNeedStartMine p current now pool blockPeorid).2 = StartMine.ret (some h)
        ↔ needStartMine h now pool.Pended.length blockPeorid = true)
      ∧ (needStartMine h now pool.Pended.length blockPeorid = false →
        (CheckNeedStartMine p current now pool blockPeorid).2 = StartMine.ret none) := by
    rw [e]
    cases hn : needStartMine h now pool.Pended.length blockPeorid with
    | true => simp
    | false => simp
  refine ⟨?_, key.1, key.2, ?_⟩
  · rw [e]
    split <;> rfl
  · intro ht0 ht1 hd0 hd1 hp0 hp1
    have hiff := needStartMine_iff h now pool.Pended.length blockPeorid ht0 ht1 hd0 hd1 hp0 hp1
    refine ⟨key.1.trans hiff, fun hnot => key.2 ?_⟩
    cases hn : needStartMine h now pool.Pended.length blockPeorid with
    | true => exact absurd (hiff.1 hn) hnot
    | false => rfl

/-- Evaluation of `checkNeedStartMine_decides_by_age_or_load`: one round is queued, its
header is 2500 ms old and the period is 2 s, so the header is returned. -/
theorem checkNeedStartMine_decides_by_age_or_load_witness :
    demoQueue.HaveErr = false
    ∧ (∃ w, demoQueue.Pending.getLast? = some w ∧ w.Block = some demoParent)
    ∧ (3500 : Int) - demoParent.Time ≥ 2 * 1000
    ∧ (CheckNeedStartMine demoQueue (demoHeader 1) 3500 NewTxPool 2).2
        = StartMine.ret (some demoParent) :=
  ⟨by decide, ⟨_, rfl, rfl⟩, by decide,
    (((checkNeedStartMine_decides_by_age_or_load demoQueue (demoHeader 1) 3500 NewTxPool 2
        (by decide) demoParent (Or.inr ⟨_, rfl, rfl⟩)).2.2.2
      (by decide) (by decide) (by decide) (by decide) (by decide) (by decide)).1).2
      (Or.inl (by decide))⟩

/-! ### The commit queue is first-in first-out -/

theorem addAll_noErr (p : WorkPending) (ws : List Work) (hne : p.HaveErr = false) :
    p.addAll ws = { p with Pending := p.Pending ++ ws } := by
  induction ws generalizing p with
  | nil => simp [WorkPending.addAll]
  | cons w rest ih =>
    have h1 : (p.Add w).1 = { p with Pending := p.Pending ++ [w] } := by
      simp [WorkPending.Add, hne]
    have h2 : ({ p with Pending := p.Pending ++ [w] } : WorkPending).HaveErr = false := hne
    have h3 : p.addAll (w :: rest) = ((p.Add w).1).addAll rest := rfl
    rw [h3, h1, ih _ h2]
    simp

theorem popN_spec (k : Nat) (p : WorkPending) :
    WorkPending.popN k p = ({ p with Pending := p.Pending.drop k }, p.Pending.take k) := by
  induction k generalizing p with
  | zero => simp [WorkPending.popN]
  | succ k ih =>
    cases hp : p.Pending with
    | nil =>
      have e : p.pop = (p, none) := by simp [WorkPending.pop, hp]
      simp only [WorkPending.popN, e, ih, hp, List.drop_nil, List.take_nil]
    | cons w rest =>
      have e : p.pop = ({ p with Pending := rest }, some w) := by simp [WorkPending.pop, hp]
      simp only [WorkPending.popN, e, ih, List.drop_succ_cons, List.take_succ_cons]

/-- C17: `WorkPending.Add(w)` returns false exactly when the error flag is set, and then
leaves the queue as it was; otherwise it returns true and the list becomes the old list
with `w` appended at the end.  `pop` on a non-empty list removes and returns its first
element, on an empty list it returns nil.  So after a sequence of `Add` calls on a queue
without error, `k` calls of `pop` return the first `k` works of the old list followed by
the added ones, in insertion order, and as many calls as there are works empty the
queue. -/
theorem workPending_add_appends_pop_takes_first (p : WorkPending) (w : Work) :
    ((p.Add w).2 = false ↔ p.HaveErr = true)
    ∧ (p.HaveErr = true → p.Add w = (p, false))
    ∧ (p.HaveErr = false → p.Add w = ({ p with Pending := p.Pending ++ [w] }, true))
    ∧ (∀ (first : Work) (rest : List Work), p.Pending = first :: rest →
        p.pop = ({ p with Pending := rest }, some first))
    ∧ (p.Pending = [] → p.pop = (p, none))
    ∧ (∀ ws : List Work, p.HaveErr = false →
        (p.addAll ws).Pending = p.Pending ++ ws
        ∧ (∀ k : Nat, (WorkPending.popN k (p.addAll ws)).2 = (p.Pending ++ ws).take k)
        ∧ WorkPending.popN (p.Pending ++ ws).length (p.addAll ws)
            = ({ p with Pending := [] }, p.Pending ++ ws)) := by
  refine ⟨?_, ?_, ?_, ?_, ?_, ?_⟩
  · cases h : p.HaveErr <;> simp [WorkPending.Add, h]
  · intro h; simp [WorkPending.Add, h]
  · intro h; simp [WorkPending.Add, h]
  · intro first rest h; simp [WorkPending.pop, h]
  · intro h; simp [WorkPending.pop, h]
  · intro ws hne
    rw [addAll_noErr p ws hne]
    refine ⟨rfl, fun k => ?_, ?_⟩
    · rw [popN_spec]
    · rw [popN_spec]
      simp

/-- Evaluation of `workPending_add_appends_pop_takes_first`: two works added to a fresh
queue are popped in the order they were added. -/
theorem workPending_add_appends_pop_takes_first_witness :
    NewWorkPending.HaveErr = false
    ∧ WorkPending.popN (NewWorkPending.Pending ++ [demoWork, { demoWork with id := 2 }]).length
          (NewWorkPending.addAll [demoWork, { demoWork with id := 2 }])
        = ({ NewWorkPending with Pending := [] },
            NewWorkPending.Pending ++ [demoWork, { demoWork with id := 2 }]) :=
  ⟨by decide,
    ((workPending_add_appends_pop_takes_first NewWorkPending demoWork).2.2.2.2.2
      [demoWork, { demoWork with id := 2 }] (by decide)).2.2⟩

/-! ### The timeout sweep of the tracker -/

theorem checkTimeoutRange_eq (now : Int) (es : List (Hash × proofInfo)) (u : unconfirmedProofs) :
    checkTimeoutRange now es u
      = { proofs := ((es.filter (fun e => decide (now - e.2.time > waitConfirmTimeout))).map
                      Prod.fst).foldl mapDelete u.proofs,
          confirmedCh := u.confirmedCh
            ++ (es.filter (fun e => decide (now - e.2.time > waitConfirmTimeout))).map
                (fun e => e.2.work) } := by
  induction es generalizing u with
  | nil => simp [checkTimeoutRange]
  | cons e rest ih =>
    obtain ⟨k, info⟩ := e
    by_cases hx : now - info.time > waitConfirmTimeout
    · simp only [checkTimeoutRange, hx, if_true, ih, List.filter_cons, decide_True,
        List.map_cons, List.foldl_cons, List.append_assoc, List.singleton_append]
    · simp only [checkTimeoutRange, hx, if_false, ih, List.filter_cons, decide_False,
        Bool.false_eq_true]

theorem eq_of_key_eq {V : Type} (m : List (Hash × V)) (hn : (mapKeys m).Nodup)
    (a b : Hash × V) (ha : a ∈ m) (hb : b ∈ m) (h : a.1 = b.1) : a = b :=
  List.inj_on_of_nodup_map hn ha hb h

theorem checkTimeout_spec (u : unconfirmedProofs) (now : Int) (hn : (mapKeys u.proofs).Nodup) :
    (u.CheckTimeout now).proofs
        = u.proofs.filter (fun e => decide (¬ now - e.2.time > waitConfirmTimeout))
    ∧ (u.CheckTimeout now).confirmedCh
        = u.confirmedCh
          ++ (u.proofs.filter (fun e => decide (now - e.2.time > waitConfirmTimeout))).map
              (fun e => e.2.work) := by
  unfold unconfirmedProofs.CheckTimeout
  rw [checkTimeoutRange_eq, foldl_mapDelete_eq_filter]
  refine ⟨?_, rfl⟩
  apply List.filter_congr
  intro e he
  by_cases hx : now - e.2.time > waitConfirmTimeout
  · have hmem : e.1 ∈ (u.proofs.filter
        (fun e => decide (now - e.2.time > waitConfirmTimeout))).map Prod.fst :=
      List.mem_map.2 ⟨e, List.mem_filter.2 ⟨he, by simpa using hx⟩, rfl⟩
    simp [hx, hmem]
  · have hnot : e.1 ∉ (u.proofs.filter
        (fun e => decide (now - e.2.time > waitConfirmTimeout))).map Prod.fst := by
      intro hm
      obtain ⟨e2, he2, hk⟩ := List.mem_map.1 hm
      obtain ⟨hin, hexp⟩ := List.mem_filter.1 he2
      have := eq_of_key_eq u.proofs hn e2 e hin he hk
      subst this
      exact hx (by simpa using hexp)
    simp [hx, hnot]

/-- Every tracker state the calls produce has a map without repeated keys. -/
theorem keysNodup_of_trackerReach (E : Env) (u : unconfirmedProofs) (hr : TrackerReach E u) :
    (mapKeys u.proofs).Nodup := by
  induction hr with
  | new => exact List.nodup_nil
  | insert u sign work threshold now _ ih =>
    unfold unconfirmedProofs.Insert
    simp only
    split
    · exact nodup_keys_mapStore _ _ _ ih
    · exact ih
  | confirm u addr c _ ih =>
    cases hl : mapLoad u.proofs (ProofSignature.Hash E c.Signature) with
    | none =>
      rw [confirm_untracked E u addr c hl]
      exact ih
    | some info =>
      obtain ⟨c1, c2, c3⟩ := confirm_cases E u addr c info hl
      by_cases h1 : setSize (if c.Confirm = true then info.confirmedUnpass
          else setAdd info.confirmedUnpass addr) ≥ info.threshold
      · rw [c1 h1]
        exact nodup_keys_mapDelete _ _ ih
      · by_cases h2 : setSize (if c.Confirm = true then setAdd info.confirmed addr
            else info.confirmed) ≥ info.threshold
        · rw [c2 h1 h2]
          exact nodup_keys_mapDelete _ _ ih
        · rw [c3 h1 h2]
          exact nodup_keys_mapStore _ _ _ ih
  | checkTimeout u now _ ih =>
    rw [(checkTimeout_spec u now ih).1]
    exact (List.filter_sublist _).map Prod.fst |>.nodup ih

/-- C18: `CheckTimeout` run at time `now` deletes exactly the entries whose age
`now - time` (`time` being the second at which the entry was inserted) is greater than
`waitConfirmTimeout = 30`, hands off the work of each of them, in map order, and keeps
every other entry as it is; each work handed off is the work stored in its entry, with
its `confirmed` flag as stored (false for a round no quorum has confirmed). -/
theorem checkTimeout_hands_off_expired_only (u : unconfirmedProofs) (now : Int)
    (hn : (mapKeys u.proofs).Nodup) :
    waitConfirmTimeout = 30
    ∧ (u.CheckTimeout now).proofs = u.proofs.filter (fun e => decide (¬ now - e.2.time > 30))
    ∧ (u.CheckTimeout now).confirmedCh
        = u.confirmedCh ++ (u.proofs.filter (fun e => decide (now - e.2.time > 30))).map
            (fun e => e.2.work)
    ∧ (∀ e ∈ u.proofs, now - e.2.time > 30 →
        e ∉ (u.CheckTimeout now).proofs ∧ mapLoad (u.CheckTimeout now).proofs e.1 = none
        ∧ e.2.work ∈ (u.CheckTimeout now).confirmedCh)
    ∧ (∀ e ∈ u.proofs, ¬ now - e.2.time > 30 →
        e ∈ (u.CheckTimeout now).proofs ∧ mapLoad (u.CheckTimeout now).proofs e.1 = some e.2)
    ∧ (∀ w ∈ (u.CheckTimeout now).confirmedCh, w ∈ u.confirmedCh
        ∨ ∃ e ∈ u.proofs, now - e.2.time > 30 ∧ w = e.2.work
            ∧ w.confirmed = e.2.work.confirmed) := by
  obtain ⟨h1, h2⟩ := checkTimeout_spec u now hn
  have hw : waitConfirmTimeout = 30 := rfl
  rw [hw] at h1 h2
  have hn2 : (mapKeys (u.CheckTimeout now).proofs).Nodup := by
    rw [h1]
    exact (List.filter_sublist _).map Prod.fst |>.nodup hn
  refine ⟨rfl, h1, h2, ?_, ?_, ?_⟩
  · intro e he hx
    have hnot : e ∉ (u.CheckTimeout now).proofs := by
      rw [h1]
      intro hm
      have := (List.mem_filter.1 hm).2
      simp only [decide_not, Bool.not_eq_true', decide_eq_false_iff_not] at this
      exact this hx
    refine ⟨hnot, ?_, ?_⟩
    · cases hl : mapLoad (u.CheckTimeout now).proofs e.1 with
      | none => rfl
      | some v =>
        exfalso
        have hm := mapLoad_mem _ _ _ hl
        have hm2 : (e.1, v) ∈ u.proofs := by
          rw [h1] at hm
          exact List.mem_of_mem_filter hm
        have := eq_of_key_eq u.proofs hn (e.1, v) e hm2 he rfl
        rw [this] at hm
        exact hnot hm
    · rw [h2]
      exact List.mem_append_right _
        (List.mem_map.2 ⟨e, List.mem_filter.2 ⟨he, by simpa using hx⟩, rfl⟩)
  · intro e he hx
    have hin : e ∈ (u.CheckTimeout now).proofs := by
      rw [h1]
      exact List.mem_filter.2 ⟨he, by simpa using hx⟩
    refine ⟨hin, ?_⟩
    cases hl : mapLoad (u.CheckTimeout now).proofs e.1 with
    | none =>
      exfalso
      have := (mapLoad_isSome_iff (u.CheckTimeout now).proofs e.1).2
        (List.mem_map.2 ⟨e, hin, rfl⟩)
      rw [hl] at this
      cases this
    | some v =>
      have hm := mapLoad_mem _ _ _ hl
      have := eq_of_key_eq _ hn2 (e.1, v) e hm hin rfl
      rw [← this]
  · intro w hwm
    rw [h2] at hwm
    rcases List.mem_append.1 hwm with h | h
    · exact Or.inl h
    · obtain ⟨e, he, hew⟩ := List.mem_map.1 h
      obtain ⟨hin, hexp⟩ := List.mem_filter.1 he
      exact Or.inr ⟨e, hin, by simpa using hexp, hew.symm, by rw [← hew]⟩

/-- Evaluation of `checkTimeout_hands_off_expired_only`: of two entries inserted at
seconds 0 and 10, a sweep at second 35 hands off the first and keeps the second. -/
theorem checkTimeout_hands_off_expired_only_witness :
    (mapKeys ((newUnconfirmedProofs.Insert demoEnv [1] demoWork 4 0).Insert demoEnv [2]
        { demoWork with id := 2 } 4 10).proofs).Nodup
    ∧ (((newUnconfirmedProofs.Insert demoEnv [1] demoWork 4 0).Insert demoEnv [2]
        { demoWork with id := 2 } 4 10).CheckTimeout 35).confirmedCh = [demoWork]
    ∧ (mapKeys (((newUnconfirmedProofs.Insert demoEnv [1] demoWork 4 0).Insert demoEnv [2]
        { demoWork with id := 2 } 4 10).CheckTimeout 35).proofs)
        = [ProofSignature.Hash demoEnv [2]] :=
  ⟨by decide,
    by
      have h := (checkTimeout_hands_off_expired_only
        ((newUnconfirmedProofs.Insert demoEnv [1] demoWork 4 0).Insert demoEnv [2]
          { demoWork with id := 2 } 4 10) 35 (by decide)).2.2.1
      rw [h]
      decide,
    by decide⟩

/-! ### `VerifyState` -/

/-- C19, evaluation at the failing input: node 9 with history `[0]` receives from peer 7 a
proof whose `States` list claims root 12345 for node 9; the root is not in the history,
yet `VerifyState` returns true (its body starts with `return true`, for every input), and
`dealProofEvent` goes on to verify the proof and posts an accepting confirm, not a
rejecting one. -/
theorem verifyState_returns_true_for_unknown_root :
    (∃ st ∈ demoProofMsgClaiming.Proof.States,
        st.Addr = (newWorkerState 9 0).coinbase ∧ st.Root ∉ (newWorkerState 9 0).history)
    ∧ VerifyState 9 (newWorkerState 9 0).history demoProofMsgClaiming.Proof = true
    ∧ (∀ (coinbase : Address) (history : List Hash) (proof : WorkProof),
        VerifyState coinbase history proof = true)
    ∧ (dealProofEvent demoEnv (newWorkerState 9 0) demoProofMsgClaiming 7 []).posted
        = [RoutMsg.confirm
            { Confirm := { Signature := demoProofMsgClaiming.Proof.Sign, Confirm := true },
              Sign := 9 :: demoEnv.hashBytes (demoEnv.sha3_256
                (({ Signature := demoProofMsgClaiming.Proof.Sign, Confirm := true } :
                  ProofConfirm).Data)) }] := by
  refine ⟨⟨_, List.mem_singleton.2 rfl, by decide, by decide⟩, rfl, fun _ _ _ => rfl, by decide⟩

/-! ### `FinalMine` -/

/-- C20: for a work whose block is set whenever `genCh` delivers nil, `FinalMine(work)`
returns nil if and only if `work.confirmed` is true, `work.genCh` delivers nil and
`WorkPending.Add` accepts the work (the queue is not in error state); then the work is
appended to the queue and `WorkEnded` is not invoked.  In every other case it returns a
non-nil error (`block proof not confirmed`, the generation error, or
`pending is rollback`) and `WorkEnded(false)` is invoked exactly once, for this work, and
the queue is left as it was. -/
theorem finalMine_nil_iff_confirmed_generated_queued (s : Miner) (work : Work) (genErr : Bool)
    (hB : work.confirmed = true → genErr = false → ∃ b, work.Block = some b) :
    ((FinalMine s work genErr).2 = FinalRet.ret none
      ↔ (work.confirmed = true ∧ genErr = false ∧ (s.workPending.Add work).2 = true))
    ∧ ((s.workPending.Add work).2 = true ↔ s.workPending.HaveErr = false)
    ∧ ((FinalMine s work genErr).2 = FinalRet.ret none →
        (FinalMine s work genErr).1.workEnded = s.workEnded
        ∧ (FinalMine s work genErr).1.workPending.Pending = s.workPending.Pending ++ [work])
    ∧ ((FinalMine s work genErr).2 ≠ FinalRet.ret none →
        (∃ e, (FinalMine s work genErr).2 = FinalRet.ret (some e))
        ∧ (FinalMine s work genErr).1.workEnded = s.workEnded ++ [(work, false)]
        ∧ (FinalMine s work genErr).1.workPending = s.workPending)
    ∧ (work.confirmed = false →
        (FinalMine s work genErr).2 = FinalRet.ret (some FinalErr.notConfirmed))
    ∧ (work.confirmed = true → genErr = true →
        (FinalMine s work genErr).2 = FinalRet.ret (some FinalErr.generation))
    ∧ (work.confirmed = true → genErr = false → s.workPending.HaveErr = true →
        (FinalMine s work genErr).2 = FinalRet.ret (some FinalErr.rollback)) := by
  have hadd : (s.workPending.Add work).2 = true ↔ s.workPending.HaveErr = false := by
    cases h : s.workPending.HaveErr <;> simp [WorkPending.Add, h]
  cases hc : work.confirmed with
  | false =>
    have e : FinalMine s work genErr
        = ({ s with workEnded := s.workEnded ++ [(work, false)] },
            FinalRet.ret (some FinalErr.notConfirmed)) := by
      simp [FinalMine, hc]
    rw [e]
    refine ⟨?_, hadd, ?_, ?_, ?_, ?_, ?_⟩
    · constructor
      · intro h; cases h
      · intro h; cases h.1
    · intro h; cases h
    · intro _; exact ⟨⟨_, rfl⟩, rfl, rfl⟩
    · intro _; rfl
    · intro h; cases h
    · intro h; cases h
  | true =>
    cases hg : genErr with
    | true =>
      have e : FinalMine s work true
          = ({ s with workEnded := s.workEnded ++ [(work, false)] },
              FinalRet.ret (some FinalErr.generation)) := by
        simp [FinalMine, hc]
      rw [e]
      refine ⟨?_, hadd, ?_, ?_, ?_, ?_, ?_⟩
      · constructor
        · intro h; cases h
        · intro h; cases h.2.1
      · intro h; cases h
      · intro _; exact ⟨⟨_, rfl⟩, rfl, rfl⟩
      · intro h; cases h
      · intro _ _; rfl
      · intro _ h; cases h
    | false =>
      obtain ⟨b, hb⟩ := hB hc hg
      rcases Bool.eq_false_or_eq_true s.workPending.HaveErr with he | he
      · have hA : s.workPending.Add work = (s.workPending, false) := by
          simp [WorkPending.Add, he]
        have e : FinalMine s work false
            = ({ s with history := lruAdd historySize s.history b.ProofHash (),
                        workEnded := s.workEnded ++ [(work, false)] },
                FinalRet.ret (some FinalErr.rollback)) := by
          simp only [FinalMine, hc, hb, hA, if_true, Bool.false_eq_true, if_false]
        have ha : ¬ (s.workPending.Add work).2 = true := by
          rw [hA]; simp
        rw [e]
        refine ⟨?_, hadd, ?_, ?_, ?_, ?_, ?_⟩
        · constructor
          · intro h; cases h
          · intro h; exact absurd h.2.2 ha
        · intro h; cases h
        · intro _; exact ⟨⟨_, rfl⟩, rfl, rfl⟩
        · intro h; cases h
        · intro _ h; cases h
        · intro _ _ _; rfl
      · have hA : s.workPending.Add work
            = ({ s.workPending with Pending := s.workPending.Pending ++ [work] }, true) := by
          simp [WorkPending.Add, he]
        have e : FinalMine s work false
            = ({ s with history := lruAdd historySize s.history b.ProofHash (),
                        workPending := { s.workPending with
                          Pending := s.workPending.Pending ++ [work] } },
                FinalRet.ret none) := by
          simp only [FinalMine, hc, hb, hA, if_true, Bool.false_eq_true, if_false]
        have ha : (s.workPending.Add work).2 = true := by rw [hA]
        rw [e]
        refine ⟨?_, hadd, ?_, ?_, ?_, ?_, ?_⟩
        · exact ⟨fun _ => ⟨rfl, rfl, ha⟩, fun _ => rfl⟩
        · intro _; exact ⟨rfl, rfl⟩
        · intro h; exact absurd rfl h
        · intro h; cases h
        · intro _ h; cases h
        · intro _ _ h; rw [he] at h; cases h

/-- Evaluation of `finalMine_nil_iff_confirmed_generated_queued`: a confirmed round with
its block, nil on `genCh` and a queue without error: `FinalMine` returns nil and queues
the round. -/
theorem finalMine_nil_iff_confirmed_generated_queued_witness :
    (demoWorkDone.confirmed = true → false = false → ∃ b, demoWorkDone.Block = some b)
    ∧ (FinalMine demoMiner demoWorkDone false).2 = FinalRet.ret none
    ∧ (FinalMine demoMiner demoWorkDone false).1.workPending.Pending = [demoWorkDone] :=
  ⟨fun _ _ => ⟨_, rfl⟩,
    (finalMine_nil_iff_confirmed_generated_queued demoMiner demoWorkDone false
      (fun _ _ => ⟨_, rfl⟩)).1.2 ⟨by decide, rfl, by decide⟩,
    by decide⟩

/-! ### A drained round that fails returns its transactions -/

theorem mapDelete_of_not_mem {K V : Type} [DecidableEq K] (m : List (K × V)) (k : K)
    (h : mapLoad m k = none) : mapDelete m k = m := by
  induction m with
  | nil => rfl
  | cons kv rest ih =>
    obtain ⟨k0, v0⟩ := kv
    by_cases hk : k0 = k
    · simp [mapLoad, hk] at h
    · simp only [mapLoad, hk, if_false] at h
      simp [mapDelete, hk, ih h]

theorem mapDelete_mapStore_absent {K V : Type} [DecidableEq K] (m : List (K × V)) (k : K) (v : V)
    (h : mapLoad m k = none) : mapDelete (mapStore m k v) k = m := by
  induction m with
  | nil => simp [mapStore, mapDelete]
  | cons kv rest ih =>
    obtain ⟨k0, v0⟩ := kv
    by_cases hk : k0 = k
    · simp [mapLoad, hk] at h
    · simp only [mapLoad, hk, if_false] at h
      simp [mapStore, mapDelete, hk, ih h]

theorem mapLoad_filter_key {K V : Type} [DecidableEq K] (m : List (K × V)) (q : K → Bool) (k : K) :
    mapLoad (m.filter (fun e => q e.1)) k = if q k = true then mapLoad m k else none := by
  induction m with
  | nil => simp [mapLoad]
  | cons kv rest ih =>
    obtain ⟨k0, v0⟩ := kv
    by_cases hk : k0 = k
    · subst hk
      cases hq : q k0 <;> simp [List.filter_cons, hq, mapLoad, ih]
    · cases hq0 : q k0
      · simp only [List.filter_cons, hq0, Bool.false_eq_true, if_false, ih, mapLoad, hk]
      · simp only [List.filter_cons, hq0, if_true, mapLoad, hk, if_false, ih]

theorem mapLoad_of_mem_nodup {V : Type} (m : List (Hash × V)) (hn : (mapKeys m).Nodup)
    (k : Hash) (v : V) (h : (k, v) ∈ m) : mapLoad m k = some v := by
  cases hl : mapLoad m k with
  | none =>
    have := (mapLoad_isSome_iff m k).2 (List.mem_map.2 ⟨(k, v), h, rfl⟩)
    rw [hl] at this
    cases this
  | some v2 =>
    have := eq_of_key_eq m hn (k, v2) (k, v) (mapLoad_mem _ _ _ hl) h rfl
    simp only [Prod.mk.injEq, true_and] at this
    rw [this]

theorem pending_then_workEnded_of_keyed (E : Env) (pool : TxPool) (workid : Int) (maxtxs n : Nat)
    (order : List (Hash × Transaction)) (hperm : order.Perm pool.pending)
    (hnodup : (mapKeys pool.pending).Nodup) (hkeys : ∀ e ∈ pool.pending, e.1 = txHash E e.2)
    (hno : mapLoad pool.working workid = none) :
    (∀ k : Hash,
        mapLoad ((pool.Pending E workid maxtxs order).1.WorkEnded E workid n false).pending k
          = mapLoad pool.pending k)
    ∧ ((pool.Pending E workid maxtxs order).1.WorkEnded E workid n false).working = pool.working
    ∧ ((pool.Pending E workid maxtxs order).1.WorkEnded E workid n false).queue = pool.queue
    ∧ ((pool.Pending E workid maxtxs order).1.WorkEnded E workid n false).onChain
        = pool.onChain := by
  obtain ⟨_, _, s3, s4, _, _, s7, s8⟩ :=
    pending_spec_of_keyed E pool workid maxtxs order hperm hnodup hkeys
  obtain ⟨r1, _, r3, _, _, _, _, _⟩ := pending_result E pool workid maxtxs order
  by_cases hpos : 0 < (order.take maxtxs).length
  · rw [if_pos hpos, ← r1] at r3
    have hw : mapLoad (pool.Pending E workid maxtxs order).1.working workid
        = some (pool.Pending E workid maxtxs order).2 := by
      rw [r3]; exact mapLoad_mapStore_self _ _ _
    have ef : (pool.Pending E workid maxtxs order).1.WorkEnded E workid n false
        = { (pool.Pending E workid maxtxs order).1 with
            pending := (pool.Pending E workid maxtxs order).2.foldl
              (fun m tx => mapStore m (txHash E tx) tx) (pool.Pending E workid maxtxs order).1.pending,
            working := mapDelete (pool.Pending E workid maxtxs order).1.working workid } := by
      simp only [TxPool.WorkEnded, hw, workEndedLoop_false]
    rw [ef]
    refine ⟨fun k => ?_, ?_, s7, s8⟩
    · show mapLoad ((pool.Pending E workid maxtxs order).2.foldl
          (fun m tx => mapStore m (txHash E tx) tx) (pool.Pending E workid maxtxs order).1.pending) k
        = mapLoad pool.pending k
      rcases mapLoad_foldl_store (txHash E) id (pool.Pending E workid maxtxs order).2
          (pool.Pending E workid maxtxs order).1.pending k with ⟨x, hx, hfx, hl⟩ | ⟨hn, hl⟩
      · simp only [id_eq] at hl
        rw [hl, ← hfx]
        exact (mapLoad_of_mem_nodup pool.pending hnodup _ _ (s3 x hx)).symm
      · simp only [id_eq] at hl
        rw [hl, s4]
        have := mapLoad_filter_key pool.pending
          (fun key => decide (key ∉ (pool.Pending E workid maxtxs order).2.map (txHash E))) k
        rw [this]
        simp [hn]
    · show mapDelete (pool.Pending E workid maxtxs order).1.working workid = pool.working
      rw [r3]
      exact mapDelete_mapStore_absent _ _ _ hno
  · rw [if_neg hpos] at r3
    have hw : mapLoad (pool.Pending E workid maxtxs order).1.working workid = none := by
      rw [r3]; exact hno
    have ef : (pool.Pending E workid maxtxs order).1.WorkEnded E workid n false
        = (pool.Pending E workid maxtxs order).1 := by
      simp only [TxPool.WorkEnded, hw]
    have hnil : (pool.Pending E workid maxtxs order).2 = [] := by
      rw [r1]
      have : order.take maxtxs = [] := List.eq_nil_of_length_eq_zero (by omega)
      rw [this]; rfl
    rw [ef]
    refine ⟨fun k => ?_, r3, s7, s8⟩
    rw [s4, hnil]
    have := mapLoad_filter_key pool.pending (fun key => decide (key ∉ ([] : List Hash))) k
    simp only [List.map_nil] at this ⊢
    rw [this]
    simp

/-- C21: in every pool state the pool's operations produce, for every work id that has
no entry in `working`, every `maxtxs ≥ 0` and every order in which `Range` yields the
pending entries, `Pending(workid, maxtxs)` followed by `WorkEnded(workid, n, false)` leaves
`pending` with the same value under every hash as before `Pending` (and still without a
repeated key), and leaves `working`, `queue` and `onChain` exactly as they were. -/
theorem pending_then_failed_workEnded_restores_pool (E : Env) (pool : TxPool) (workid : Int)
    (maxtxs n : Nat) (order : List (Hash × Transaction))
    (hreach : PoolReach E pool) (hperm : order.Perm pool.pending)
    (hno : mapLoad pool.working workid = none) :
    (∀ k : Hash,
        mapLoad ((pool.Pending E workid maxtxs order).1.WorkEnded E workid n false).pending k
          = mapLoad pool.pending k)
    ∧ (mapKeys ((pool.Pending E workid maxtxs order).1.WorkEnded E workid n false).pending).Nodup
    ∧ (mapKeys pool.pending).Nodup
    ∧ ((pool.Pending E workid maxtxs order).1.WorkEnded E workid n false).working = pool.working
    ∧ ((pool.Pending E workid maxtxs order).1.WorkEnded E workid n false).queue = pool.queue
    ∧ ((pool.Pending E workid maxtxs order).1.WorkEnded E workid n false).onChain
        = pool.onChain := by
  have hk := pendingKeyed_of_reach E pool hreach
  obtain ⟨h1, h2, h3, h4⟩ :=
    pending_then_workEnded_of_keyed E pool workid maxtxs n order hperm hk.1 hk.2 hno
  have hr2 : PoolReach E ((pool.Pending E workid maxtxs order).1.WorkEnded E workid n false) :=
    PoolReach.workEnded _ workid n false (PoolReach.pending pool workid maxtxs order hreach hperm)
  exact ⟨h1, (pendingKeyed_of_reach E _ hr2).1, hk.1, h2, h3, h4⟩

/-- Evaluation of `pending_then_failed_workEnded_restores_pool`: one of two pending
transactions is drained into round 1, the round fails, and both are pending again. -/
theorem pending_then_failed_workEnded_restores_pool_witness :
    mapLoad demoPoolPending.working 1 = none
    ∧ ((demoPoolPending.Pending demoEnv 1 1 demoPoolPending.pending).1.WorkEnded demoEnv 1 7
        false).working = demoPoolPending.working
    ∧ mapKeys ((demoPoolPending.Pending demoEnv 1 1 demoPoolPending.pending).1.WorkEnded demoEnv 1 7
        false).pending = [txHash demoEnv demoTx2, txHash demoEnv demoTx] :=
  ⟨by decide,
    (pending_then_failed_workEnded_restores_pool demoEnv demoPoolPending 1 1 7
      demoPoolPending.pending demoPoolPending_reach (List.Perm.refl _) (by decide)).2.2.2.1,
    by decide⟩

/-! ### `Miner.WorkControl` -/

/-- C22, evaluation at the failing input: the miner is mining, and the events
`StartEvent`, `DoneEvent`, `StartEvent` arrive.  The first stops the miner, the second
starts it again, and the loop, which has no exit in its `DoneEvent`/`FailedEvent` case,
handles the third as well and stops the miner: at the end it is not mining.  In general
the loop handles every event of the channel, whatever came before. -/
theorem workControl_handles_start_after_done :
    demoMinerCtl.Mining = true
    ∧ (demoMinerCtl.WorkControl [SyncEvent.StartEvent]).Mining = false
    ∧ (demoMinerCtl.WorkControl [SyncEvent.StartEvent, SyncEvent.DoneEvent]).Mining = true
    ∧ (demoMinerCtl.WorkControl
        [SyncEvent.StartEvent, SyncEvent.DoneEvent, SyncEvent.StartEvent]).Mining = false
    ∧ (demoMinerCtl.WorkControl
        [SyncEvent.StartEvent, SyncEvent.DoneEvent, SyncEvent.StartEvent]).workerMining = 0
    ∧ (∀ (m : MinerCtl) (evs : List SyncEvent) (ev : SyncEvent),
        m.WorkControl (evs ++ [ev]) = (m.WorkControl evs).onEvent ev) := by
  refine ⟨by decide, by decide, by decide, by decide, by decide, fun m evs ev => ?_⟩
  simp [MinerCtl.WorkControl, List.foldl_append]

/-! ### `Receipt.setStatus` -/

/-- C23: `setStatus(b)` returns no error if and only if `b` is the empty byte string or the
single byte `0x01`; it sets `Status` to `ReceiptStatusFailed` for the former and to
`ReceiptStatusSuccessful` for the latter, touching no other field, and for every other
byte string it returns the error and leaves the receipt as it was.  Hence
`setStatus(statusEncoding(r))` on any receipt gives it the status of `r`, without error,
for every `r` whose status is `Failed` or `Successful`. -/
theorem setStatus_accepts_empty_and_one (r : Receipt) (b : Bytes) :
    ((r.setStatus b).2 = none ↔ (b = [] ∨ b = [1]))
    ∧ (b = [] → r.setStatus b = ({ r with Status := ReceiptStatusFailed }, none))
    ∧ (b = [1] → r.setStatus b = ({ r with Status := ReceiptStatusSuccessful }, none))
    ∧ (b ≠ [] → b ≠ [1] → r.setStatus b = (r, some (StatusErr.invalid b)))
    ∧ ReceiptStatusFailed = 0 ∧ ReceiptStatusSuccessful = 1
    ∧ ((r.Status = ReceiptStatusFailed ∨ r.Status = ReceiptStatusSuccessful) →
        r.setStatus r.statusEncoding = (r, none)
        ∧ ∀ r0 : Receipt, r0.setStatus r.statusEncoding = ({ r0 with Status := r.Status }, none)) := by
  have h1 : ([] : Bytes) ≠ [1] := by decide
  refine ⟨?_, ?_, ?_, ?_, rfl, rfl, ?_⟩
  · by_cases hb1 : b = [1]
    · simp [Receipt.setStatus, receiptStatusSuccessfulRLP, hb1]
    · by_cases hb0 : b = []
      · simp [Receipt.setStatus, receiptStatusSuccessfulRLP, receiptStatusFailedRLP, hb0]
      · simp [Receipt.setStatus, receiptStatusSuccessfulRLP, receiptStatusFailedRLP, hb0, hb1]
  · intro hb
    subst hb
    simp [Receipt.setStatus, receiptStatusSuccessfulRLP, receiptStatusFailedRLP]
  · intro hb
    subst hb
    simp [Receipt.setStatus, receiptStatusSuccessfulRLP]
  · intro hb0 hb1
    simp [Receipt.setStatus, receiptStatusSuccessfulRLP, receiptStatusFailedRLP, hb0, hb1]
  · intro hs
    have key : ∀ r0 : Receipt,
        r0.setStatus r.statusEncoding = ({ r0 with Status := r.Status }, none) := by
      intro r0
      rcases hs with hs | hs
      · have henc : r.statusEncoding = [] := by
          simp [Receipt.statusEncoding, receiptStatusFailedRLP, hs]
        rw [henc, hs]
        simp [Receipt.setStatus, receiptStatusSuccessfulRLP, receiptStatusFailedRLP]
      · have hne : ¬ r.Status = ReceiptStatusFailed := by
          rw [hs]; decide
        have henc : r.statusEncoding = [1] := by
          simp [Receipt.statusEncoding, receiptStatusSuccessfulRLP, hne]
        rw [henc, hs]
        simp [Receipt.setStatus, receiptStatusSuccessfulRLP]
    exact ⟨key r, key⟩

/-- Evaluation of `setStatus_accepts_empty_and_one`: the byte `0x02` is refused and the
encoding of a successful receipt is read back. -/
theorem setStatus_accepts_empty_and_one_witness :
    ([2] : Bytes) ≠ [] ∧ ([2] : Bytes) ≠ [1]
    ∧ ({ Status := 0, ConfirmCount := 3, TxHash := 5 } : Receipt).setStatus [2]
        = ({ Status := 0, ConfirmCount := 3, TxHash := 5 }, some (StatusErr.invalid [2])) :=
  ⟨by decide, by decide,
    (setStatus_accepts_empty_and_one { Status := 0, ConfirmCount := 3, TxHash := 5 } [2]).2.2.2.1
      (by decide) (by decide)⟩

/-! ### The error flag of the commit queue is cleared on an empty queue only -/

/-- C24: whenever a call of `CheckNeedStartMine` changes the queue's `errored` word, the
flag was set, the pending list is empty, and the word is 0 afterwards; the pending list is
never changed by the call; and when the flag is set and the list is not empty the call
returns nil and leaves the flag set. -/
theorem checkNeedStartMine_clears_flag_on_empty_only (p : WorkPending) (current : Header)
    (now : Int) (pool : TxPool) (blockPeorid : Int) :
    ((CheckNeedStartMine p current now pool blockPeorid).1.errored ≠ p.errored →
        p.HaveErr = true ∧ p.Pending = []
        ∧ (CheckNeedStartMine p current now pool blockPeorid).1.errored = 0)
    ∧ (CheckNeedStartMine p current now pool blockPeorid).1.Pending = p.Pending
    ∧ (p.HaveErr = true → p.Pending ≠ [] →
        CheckNeedStartMine p current now pool blockPeorid = (p, StartMine.ret none)
        ∧ (CheckNeedStartMine p current now pool blockPeorid).1.HaveErr = true)
    ∧ (p.HaveErr = true → p.Pending = [] →
        (CheckNeedStartMine p current now pool blockPeorid).1 = p.SetNoError
        ∧ (CheckNeedStartMine p current now pool blockPeorid).1.HaveErr = false) := by
  have hfst : ∀ q : WorkPending,
      ((match (match q.Top with
            | some h => h.Block
            | none => some current) with
        | none => (q, StartMine.crashed)
        | some hd =>
          if needStartMine hd now pool.Pended.length blockPeorid = true then
            (q, StartMine.ret (some hd))
          else (q, StartMine.ret none)) : WorkPending × StartMine).1 = q := by
    intro q
    split
    · rfl
    · split <;> rfl
  rcases Bool.eq_false_or_eq_true p.HaveErr with he | he
  · cases hp : p.Pending with
    | nil =>
      have hemp : p.Empty = true := by simp [WorkPending.Empty, hp]
      have e1 : (CheckNeedStartMine p current now pool blockPeorid).1 = p.SetNoError := by
        unfold CheckNeedStartMine
        simp only [he, hemp, Bool.not_true, Bool.and_false, Bool.false_eq_true, if_false, if_true]
        exact hfst _
      refine ⟨fun _ => ⟨he, rfl, ?_⟩, ?_, fun _ h => absurd rfl h, fun _ _ => ⟨e1, ?_⟩⟩
      · rw [e1]; rfl
      · rw [e1]; exact hp
      · rw [e1]; simp [WorkPending.SetNoError, WorkPending.HaveErr]
    | cons w rest =>
      have hemp : p.Empty = false := by simp [WorkPending.Empty, hp]
      have e1 : CheckNeedStartMine p current now pool blockPeorid = (p, StartMine.ret none) := by
        unfold CheckNeedStartMine
        simp only [he, hemp, Bool.not_false, Bool.and_true, if_true]
      rw [e1]
      refine ⟨fun h => absurd rfl h, hp, fun _ _ => ⟨rfl, he⟩, fun _ h => by cases h⟩
  · have e1 : (CheckNeedStartMine p current now pool blockPeorid).1 = p := by
      unfold CheckNeedStartMine
      simp only [he, Bool.false_and, Bool.false_eq_true, if_false]
      exact hfst _
    rw [e1]
    refine ⟨fun h => absurd rfl h, rfl, fun h => ?_, fun h => ?_⟩
    · rw [he] at h; cases h
    · rw [he] at h; cases h

/-- Evaluation of `checkNeedStartMine_clears_flag_on_empty_only`: a queue in error state
that still holds a round keeps its flag, and nil is returned. -/
theorem checkNeedStartMine_clears_flag_on_empty_only_witness :
    ({ demoQueue with errored := 1 } : WorkPending).HaveErr = true
    ∧ ({ demoQueue with errored := 1 } : WorkPending).Pending ≠ []
    ∧ CheckNeedStartMine { demoQueue with errored := 1 } demoParent 99999 NewTxPool 2
        = ({ demoQueue with errored := 1 }, StartMine.ret none) :=
  ⟨by decide, by decide,
    ((checkNeedStartMine_clears_flag_on_empty_only { demoQueue with errored := 1 } demoParent
      99999 NewTxPool 2).2.2.1 (by decide) (by decide)).1⟩

/-! ### A failed `AddTx` leaves the hash marked as seen -/

theorem addTx_of_full (E : Env) (pool : TxPool) (tx : Transaction) (start : Nat)
    (hd : pool.DupTx E tx = false)
    (hfull : ∀ i, i < maxThreadNumber → poolChanCap ≤ (pool.fullCh.getD i []).length) :
    pool.AddTx E tx start = (pool.KnownTxAdd (txHash E tx), some PoolErr.fullChFull) := by
  have hs : sendToFullLoop (tx.Hash E).2 start maxThreadNumber pool.fullCh
      (List.range maxThreadNumber) = none :=
    (sendToFullLoop_none _ _ _ _ _).2 (fun t _ => hfull _ (probe_in_range start t))
  have hd2 : ¬ pool.DupTx E tx = true := by rw [hd]; simp
  rw [addTx_unfold, if_neg hd2, hs]

theorem addTx_full_inv (E : Env) (pool : TxPool) (tx : Transaction) (start : Nat)
    (hd : pool.DupTx E tx = false)
    (hfull : (pool.AddTx E tx start).2 = some PoolErr.fullChFull) :
    pool.AddTx E tx start = (pool.KnownTxAdd (txHash E tx), some PoolErr.fullChFull) := by
  have hd2 : ¬ pool.DupTx E tx = true := by rw [hd]; simp
  rw [addTx_unfold, if_neg hd2] at hfull ⊢
  cases hs : sendToFullLoop (tx.Hash E).2 start maxThreadNumber pool.fullCh
      (List.range maxThreadNumber) with
  | none => rfl
  | some chs => rw [hs] at hfull; cases hfull

/-- C27: let `tx` be a transaction that `DupTx` does not reject (its hash is in none of the
seen set, `queue`, `pending`, `onChain`) and let `AddTx(tx)` return the `fullch is full`
error.  Then the hash is still in none of `queue`, `pending`, `onChain`; `working` is
as it was, so `tx` is not in `working` if it was not there before, which is so in every
pool state reached without a clearing of the seen set; the hash is in the seen set, so
the pool is not as it was before the call; and a following `AddTx(tx)` returns the
known-transaction error and changes nothing, whatever the ingest channels hold by
then. -/
theorem failed_addTx_marks_seen_and_blocks_retry (E : Env) (pool : TxPool) (tx : Transaction)
    (start : Nat) (hd : pool.DupTx E tx = false)
    (hfull : (pool.AddTx E tx start).2 = some PoolErr.fullChFull) :
    txHash E tx ∉ mapKeys (pool.AddTx E tx start).1.queue
    ∧ txHash E tx ∉ mapKeys (pool.AddTx E tx start).1.pending
    ∧ txHash E tx ∉ mapKeys (pool.AddTx E tx start).1.onChain
    ∧ (pool.AddTx E tx start).1.working = pool.working
    ∧ (txHash E tx ∉ workingHashes E pool.working →
        txHash E tx ∉ workingHashes E (pool.AddTx E tx start).1.working)
    ∧ (PoolReachNoClear E pool →
        txHash E tx ∉ workingHashes E (pool.AddTx E tx start).1.working)
    ∧ txHash E tx ∈ (pool.AddTx E tx start).1.known
    ∧ txHash E tx ∉ pool.known
    ∧ (pool.AddTx E tx start).1 ≠ pool
    ∧ (∀ (start2 : Nat) (chs : List (List Transaction)),
        ({ (pool.AddTx E tx start).1 with fullCh := chs } : TxPool).AddTx E tx start2
          = ({ (pool.AddTx E tx start).1 with fullCh := chs }, some PoolErr.knownTx)) := by
  have e := addTx_full_inv E pool tx start hd hfull
  have hnd : ¬ (txHash E tx ∈ pool.known ∨ txHash E tx ∈ mapKeys pool.queue
      ∨ txHash E tx ∈ mapKeys pool.pending ∨ txHash E tx ∈ mapKeys pool.onChain) := by
    intro h
    have := (dupTx_iff E pool tx).2 h
    rw [hd] at this
    cases this
  have hk : txHash E tx ∈ (pool.KnownTxAdd (txHash E tx)).known := by
    simp only [TxPool.KnownTxAdd]
    exact mem_setAdd_self _ _
  rw [e]
  refine ⟨fun h => hnd (Or.inr (Or.inl h)), fun h => hnd (Or.inr (Or.inr (Or.inl h))),
    fun h => hnd (Or.inr (Or.inr (Or.inr h))), rfl, fun h => h, fun hr => ?_, hk,
    fun h => hnd (Or.inl h), fun heq => ?_, fun start2 chs => ?_⟩
  · show txHash E tx ∉ workingHashes E pool.working
    intro hm
    obtain ⟨_, h2, _, _⟩ := poolInv_of_reach E pool hr
    have hpos : 0 < occ E pool (txHash E tx) := by
      have := List.count_pos_iff.2 hm
      simp only [occ]
      omega
    exact hnd (Or.inl (h2 _ hpos))
  · have : txHash E tx ∈ pool.known := by
      have h2 : (pool.KnownTxAdd (txHash E tx)).known = pool.known := by
        have := congrArg TxPool.known heq
        exact this
      rw [← h2]
      exact hk
    exact hnd (Or.inl this)
  · have hd3 : ({ pool.KnownTxAdd (txHash E tx) with fullCh := chs } : TxPool).DupTx E tx = true :=
      (dupTx_iff E _ tx).2 (Or.inl hk)
    rw [addTx_unfold, if_pos hd3]

/-- Evaluation of `failed_addTx_marks_seen_and_blocks_retry`: all four channels are full,
`AddTx(demoTx)` fails, the hash is marked seen, and the retry after the channels were
emptied is refused as known. -/
theorem failed_addTx_marks_seen_and_blocks_retry_witness :
    demoPoolFull.DupTx demoEnv demoTx = false
    ∧ (demoPoolFull.AddTx demoEnv demoTx 0).2 = some PoolErr.fullChFull
    ∧ (({ (demoPoolFull.AddTx demoEnv demoTx 0).1 with fullCh := NewTxPool.fullCh } :
          TxPool).AddTx demoEnv demoTx 0).2 = some PoolErr.knownTx :=
  have hd : demoPoolFull.DupTx demoEnv demoTx = false := by
    simp [TxPool.DupTx, demoPoolFull, NewTxPool, mapLoad]
  have hf : ∀ i, i < maxThreadNumber → poolChanCap ≤ (demoPoolFull.fullCh.getD i []).length := by
    intro i hi
    have : demoPoolFull.fullCh.getD i [] = List.replicate poolChanCap demoTx2 := by
      simp [demoPoolFull, List.getD_eq_getElem?_getD, List.getElem?_replicate, hi]
    rw [this, List.length_replicate]
  have hfull : (demoPoolFull.AddTx demoEnv demoTx 0).2 = some PoolErr.fullChFull := by
    rw [addTx_of_full demoEnv demoPoolFull demoTx 0 hd hf]
  ⟨hd, hfull, by
    rw [(failed_addTx_marks_seen_and_blocks_retry demoEnv demoPoolFull demoTx 0 hd
      hfull).2.2.2.2.2.2.2.2.2 0 NewTxPool.fullCh]⟩

/-! ### `NewMineRound` -/

theorem newMineRound_boot (E : Env) (R : RoundEnv) (s : MineState) (parent : Header)
    (hb : R.isBootNode = true) : NewMineRound E R s parent = (s, none) := by
  simp [NewMineRound, hb]

theorem newMineRound_stateAt (E : Env) (R : RoundEnv) (s : MineState) (parent : Header)
    (hb : R.isBootNode = false) (hs : R.stateAtOk = false) :
    NewMineRound E R s parent = (s, some MineErr.stateAt) := by
  simp [NewMineRound, hb, hs]

theorem newMineRound_genFail (E : Env) (R : RoundEnv) (s : MineState) (parent : Header)
    (hb : R.isBootNode = false) (hs : R.stateAtOk = true)
    (hg : (GenerateProof E (roundHeader R parent) parent (roundWork E R s parent).txs
            R.peerStates).2 = none) :
    NewMineRound E R s parent
      = ({ s with pool := (s.pool.Pending E R.workId R.blockMaxTxs R.order).1,
                  current := some (roundWork E R s parent) },
          some MineErr.generateProof) := by
  simp only [roundHeader, roundWork] at hg
  simp only [NewMineRound, hb, hs, Bool.false_eq_true, if_false, Bool.not_true]
  generalize hG : GenerateProof E _ parent _ R.peerStates = g at hg ⊢
  obtain ⟨g1, g2⟩ := g
  simp only at hg
  subst hg
  rfl

theorem newMineRound_signFail (E : Env) (R : RoundEnv) (s : MineState) (parent : Header)
    (hb : R.isBootNode = false) (hs : R.stateAtOk = true) (proof : WorkProof)
    (hg : (GenerateProof E (roundHeader R parent) parent (roundWork E R s parent).txs
            R.peerStates).2 = some proof)
    (hsig : SignData E (proof.Data E) = none) :
    NewMineRound E R s parent
      = ({ s with pool := (s.pool.Pending E R.workId R.blockMaxTxs R.order).1,
                  current := some (roundWork E R s parent) },
          some MineErr.signData) := by
  simp only [roundHeader, roundWork] at hg
  simp only [NewMineRound, hb, hs, Bool.false_eq_true, if_false, Bool.not_true]
  generalize hG : GenerateProof E _ parent _ R.peerStates = g at hg ⊢
  obtain ⟨g1, g2⟩ := g
  simp only at hg
  subst hg
  simp only [hsig]
  rfl

theorem newMineRound_ok (E : Env) (R : RoundEnv) (s : MineState) (parent : Header)
    (hb : R.isBootNode = false) (hs : R.stateAtOk = true) (proof : WorkProof) (sig : Bytes)
    (hg : (GenerateProof E (roundHeader R parent) parent (roundWork E R s parent).txs
            R.peerStates).2 = some proof)
    (hsig : SignData E (proof.Data E) = some sig) :
    NewMineRound E R s parent
      = ({ s with
            pool := (s.pool.Pending E R.workId R.blockMaxTxs R.order).1,
            current := some (roundWork E R s parent),
            posted := s.posted ++ [RoutMsg.proof { Proof := proof, Sign := sig }],
            handleLocalProof :=
              lruAdd handleLocalProofSize s.handleLocalProof (ProofSignature.Hash E proof.Sign) (),
            unconfirm_mine :=
              s.unconfirm_mine.Insert E proof.Sign (roundWork E R s parent) mineThreshold
                R.insertTime },
          none) := by
  simp only [roundHeader, roundWork] at hg
  simp only [NewMineRound, hb, hs, Bool.false_eq_true, if_false, Bool.not_true]
  generalize hG : GenerateProof E _ parent _ R.peerStates = g at hg ⊢
  obtain ⟨g1, g2⟩ := g
  simp only at hg
  subst hg
  simp only [hsig]
  rfl

theorem newMineRound_nil_inv (E : Env) (R : RoundEnv) (s : MineState) (parent : Header)
    (hb : R.isBootNode = false) (hnil : (NewMineRound E R s parent).2 = none) :
    R.stateAtOk = true
    ∧ ∃ (proof : WorkProof) (sig : Bytes),
        (GenerateProof E (roundHeader R parent) parent (roundWork E R s parent).txs
          R.peerStates).2 = some proof
        ∧ SignData E (proof.Data E) = some sig := by
  rcases Bool.eq_false_or_eq_true R.stateAtOk with hs | hs
  · refine ⟨hs, ?_⟩
    cases hg : (GenerateProof E (roundHeader R parent) parent (roundWork E R s parent).txs
        R.peerStates).2 with
    | none =>
      rw [newMineRound_genFail E R s parent hb hs hg] at hnil
      cases hnil
    | some proof =>
      cases hsig : SignData E (proof.Data E) with
      | none =>
        rw [newMineRound_signFail E R s parent hb hs proof hg hsig] at hnil
        cases hnil
      | some sig => exact ⟨proof, sig, rfl, hsig⟩
  · rw [newMineRound_stateAt E R s parent hb hs] at hnil
    cases hnil

theorem insert_tracked (E : Env) (u : unconfirmedProofs) (sign : Bytes) (work : Work)
    (threshold now : Int) :
    (mapLoad u.proofs (ProofSignature.Hash E sign) = none →
      mapLoad (u.Insert E sign work threshold now).proofs (ProofSignature.Hash E sign)
        = some { threshold := threshold, work := work, confirmed := [],
                 confirmedUnpass := [], time := now })
    ∧ (∀ info, mapLoad u.proofs (ProofSignature.Hash E sign) = some info →
        u.Insert E sign work threshold now = u) := by
  constructor
  · intro h
    simp only [unconfirmedProofs.Insert, h]
    exact mapLoad_mapStore_self _ _ _
  · intro info h
    simp only [unconfirmedProofs.Insert, h]

theorem newMineRound_roundState (E : Env) (R : RoundEnv) (s : MineState) (parent : Header)
    (x : RoundState) :
    NewMineRound E R { s with roundState := x } parent
      = ({ (NewMineRound E R s parent).1 with roundState := x }, (NewMineRound E R s parent).2) := by
  have hw : roundWork E R { s with roundState := x } parent = roundWork E R s parent := rfl
  rcases Bool.eq_false_or_eq_true R.isBootNode with hb | hb
  · rw [newMineRound_boot E R _ parent hb, newMineRound_boot E R s parent hb]
  · rcases Bool.eq_false_or_eq_true R.stateAtOk with hs | hs
    · cases hg : (GenerateProof E (roundHeader R parent) parent (roundWork E R s parent).txs
          R.peerStates).2 with
      | none =>
        rw [newMineRound_genFail E R _ parent hb hs (by rw [hw]; exact hg),
          newMineRound_genFail E R s parent hb hs hg]
        rfl
      | some proof =>
        cases hsig : SignData E (proof.Data E) with
        | none =>
          rw [newMineRound_signFail E R _ parent hb hs proof (by rw [hw]; exact hg) hsig,
            newMineRound_signFail E R s parent hb hs proof hg hsig]
          rfl
        | some sig =>
          rw [newMineRound_ok E R _ parent hb hs proof sig (by rw [hw]; exact hg) hsig,
            newMineRound_ok E R s parent hb hs proof sig hg hsig]
          rfl
    · rw [newMineRound_stateAt E R _ parent hb hs, newMineRound_stateAt E R s parent hb hs]

theorem routineMineNewRound_eq (E : Env) (R : RoundEnv) (s : MineState) (lastHeader : Header) :
    routineMineNewRound E R s lastHeader
      = { (NewMineRound E R s lastHeader).1 with
          roundState := if (NewMineRound E R s lastHeader).2 = none then RoundState.Mining
                        else RoundState.IDLE } := by
  unfold routineMineNewRound
  rw [newMineRound_roundState]
  cases h : (NewMineRound E R s lastHeader).2 <;> simp

/-- The pool after `NewMineRound`: on a boot node and when `makeCurrent` fails it is the
pool as it was; on every other path, whether the call then returns nil or an error, it is
the pool as `Pending` left it. -/
theorem newMineRound_pool (E : Env) (R : RoundEnv) (s : MineState) (parent : Header) :
    (NewMineRound E R s parent).1.pool
      = if R.isBootNode = true ∨ R.stateAtOk = false then s.pool
        else (s.pool.Pending E R.workId R.blockMaxTxs R.order).1 := by
  rcases Bool.eq_false_or_eq_true R.isBootNode with hb | hb
  · rw [newMineRound_boot E R s parent hb]; simp [hb]
  · rcases Bool.eq_false_or_eq_true R.stateAtOk with hs | hs
    · have hc : ¬ (R.isBootNode = true ∨ R.stateAtOk = false) := by simp [hb, hs]
      rw [if_neg hc]
      cases hg : (GenerateProof E (roundHeader R parent) parent (roundWork E R s parent).txs
          R.peerStates).2 with
      | none => rw [newMineRound_genFail E R s parent hb hs hg]
      | some proof =>
        cases hsig : SignData E (proof.Data E) with
        | none => rw [newMineRound_signFail E R s parent hb hs proof hg hsig]
        | some sig => rw [newMineRound_ok E R s parent hb hs proof sig hg hsig]
    · rw [newMineRound_stateAt E R s parent hb hs]; simp [hs]

/-- C25: `MinerNumber` is 8 and the threshold `MinerNumber/2+1-1` that `NewMineRound`
passes to `Insert` is 4, which is `⌈MinerNumber/2⌉`; whenever `NewMineRound` returns nil on
a node that is not a boot node, the tracker is the old one after
`Insert(proof, work, threshold)` with this threshold. -/
theorem mine_threshold_is_ceil_half_miner_number :
    MinerNumber = 8 ∧ mineThreshold = 4 ∧ mineThreshold = ⌈(MinerNumber : ℚ) / 2⌉
    ∧ (∀ (E : Env) (R : RoundEnv) (s : MineState) (parent : Header),
        R.isBootNode = false → (NewMineRound E R s parent).2 = none →
        ∃ proof : WorkProof,
          (GenerateProof E (roundHeader R parent) parent (roundWork E R s parent).txs
            R.peerStates).2 = some proof
          ∧ (NewMineRound E R s parent).1.unconfirm_mine
              = s.unconfirm_mine.Insert E proof.Sign (roundWork E R s parent) 4 R.insertTime) := by
  refine ⟨rfl, by decide, ?_, ?_⟩
  · have h4 : mineThreshold = 4 := by decide
    rw [h4, eq_comm, Int.ceil_eq_iff]
    norm_num [MinerNumber]
  · intro E R s parent hb hnil
    obtain ⟨hs, proof, sig, hg, hsig⟩ := newMineRound_nil_inv E R s parent hb hnil
    refine ⟨proof, hg, ?_⟩
    rw [newMineRound_ok E R s parent hb hs proof sig hg hsig]
    rfl

/-- Evaluation of `mine_threshold_is_ceil_half_miner_number` on a round of the example
node over two pending transactions: the round is tracked with threshold 4. -/
theorem mine_threshold_is_ceil_half_miner_number_witness :
    (demoRound demoPoolPending.pending).isBootNode = false
    ∧ (NewMineRound demoEnv (demoRound demoPoolPending.pending) (demoMineState demoPoolPending)
        demoParent).2 = none
    ∧ ∃ proof : WorkProof,
        (GenerateProof demoEnv (roundHeader (demoRound demoPoolPending.pending) demoParent)
          demoParent
          (roundWork demoEnv (demoRound demoPoolPending.pending) (demoMineState demoPoolPending)
            demoParent).txs (demoRound demoPoolPending.pending).peerStates).2 = some proof
        ∧ (NewMineRound demoEnv (demoRound demoPoolPending.pending)
            (demoMineState demoPoolPending) demoParent).1.unconfirm_mine
            = (demoMineState demoPoolPending).unconfirm_mine.Insert demoEnv proof.Sign
                (roundWork demoEnv (demoRound demoPoolPending.pending)
                  (demoMineState demoPoolPending) demoParent) 4
                (demoRound demoPoolPending.pending).insertTime :=
  ⟨rfl, by decide,
    mine_threshold_is_ceil_half_miner_number.2.2.2 demoEnv (demoRound demoPoolPending.pending)
      (demoMineState demoPoolPending) demoParent rfl (by decide)⟩

/-- C28, evaluation at the failing input: two transactions are pending, nothing is in
`working`, and the signer returns an error.  `NewMineRound` drains both transactions into
`working[1]`, `GenerateProof` fails, and the call returns the error with the pending map
empty and both transactions still in `working[1]`; `RoutineMine` only sets the round state
back to `IDLE`.  In general the pool after the call is the pool as `Pending` left it on
every path past `makeCurrent`, whether nil or an error is returned: no error path calls
`WorkEnded`. -/
theorem newMineRound_error_leaves_txs_in_working :
    demoPoolPending.pending.length = 2 ∧ demoPoolPending.working = []
    ∧ (NewMineRound demoEnvNoSigner (demoRound demoPoolPending.pending)
        (demoMineState demoPoolPending) demoParent).2 = some MineErr.generateProof
    ∧ (NewMineRound demoEnvNoSigner (demoRound demoPoolPending.pending)
        (demoMineState demoPoolPending) demoParent).1.pool.pending = []
    ∧ mapLoad (NewMineRound demoEnvNoSigner (demoRound demoPoolPending.pending)
        (demoMineState demoPoolPending) demoParent).1.pool.working 1
        = some [(demoTx.Hash demoEnv).2, (demoTx2.Hash demoEnv).2]
    ∧ (routineMineNewRound demoEnvNoSigner (demoRound demoPoolPending.pending)
        (demoMineState demoPoolPending) demoParent).roundState = RoundState.IDLE
    ∧ (routineMineNewRound demoEnvNoSigner (demoRound demoPoolPending.pending)
        (demoMineState demoPoolPending) demoParent).pool.pending = []
    ∧ (∀ (E : Env) (R : RoundEnv) (s : MineState) (parent : Header),
        (NewMineRound E R s parent).1.pool
          = if R.isBootNode = true ∨ R.stateAtOk = false then s.pool
            else (s.pool.Pending E R.workId R.blockMaxTxs R.order).1) := by
  refine ⟨by decide, by decide, by decide, by decide, by decide, by decide, by decide, ?_⟩
  intro E R s parent
  exact newMineRound_pool E R s parent

/-- C29 (as stated) fails on a boot node: `NewMineRound` returns nil at once, `RoutineMine`
leaves the round state at `Mining`, and nothing is tracked in `unconfirm_mine`. -/
theorem bootNode_round_stays_mining_with_nothing_tracked :
    demoRoundBoot.isBootNode = true
    ∧ (NewMineRound demoEnv demoRoundBoot (demoMineState NewTxPool) demoParent).2 = none
    ∧ (routineMineNewRound demoEnv demoRoundBoot (demoMineState NewTxPool) demoParent).roundState
        = RoundState.Mining
    ∧ (routineMineNewRound demoEnv demoRoundBoot (demoMineState NewTxPool)
        demoParent).unconfirm_mine.proofs = [] := by
  decide

/-- C29 (amended): on a node that is not a boot node, whenever `NewMineRound` returns nil
(and `RoutineMine` leaves the round state at `Mining`), the proof was generated and
signed, the proof message was posted, and the tracker `unconfirm_mine` has an entry under
the hash of the proof signature; that entry holds the round's work, with threshold
`MinerNumber/2+1-1`, unless an entry under this hash was tracked already, which `Insert`
leaves in place.  Whenever `NewMineRound` returns an error the state is set to `IDLE` and
the tracker is as it was.  On a boot node `NewMineRound` returns nil without doing
anything, and the state stays `Mining` with the tracker as it was. -/
theorem newMineRound_nil_tracks_round_unless_boot (E : Env) (R : RoundEnv) (s : MineState)
    (parent : Header) :
    (R.isBootNode = false → (NewMineRound E R s parent).2 = none →
      (routineMineNewRound E R s parent).roundState = RoundState.Mining
      ∧ ∃ (proof : WorkProof) (sig : Bytes),
          (GenerateProof E (roundHeader R parent) parent (roundWork E R s parent).txs
            R.peerStates).2 = some proof
          ∧ SignData E (proof.Data E) = some sig
          ∧ (routineMineNewRound E R s parent).posted
              = s.posted ++ [RoutMsg.proof { Proof := proof, Sign := sig }]
          ∧ (∃ info : proofInfo,
              mapLoad (routineMineNewRound E R s parent).unconfirm_mine.proofs
                (ProofSignature.Hash E proof.Sign) = some info
              ∧ (mapLoad s.unconfirm_mine.proofs (ProofSignature.Hash E proof.Sign) = none →
                  info = { threshold := mineThreshold, work := roundWork E R s parent,
                           confirmed := [], confirmedUnpass := [], time := R.insertTime })
              ∧ (∀ old, mapLoad s.unconfirm_mine.proofs (ProofSignature.Hash E proof.Sign)
                    = some old → info = old)))
    ∧ ((NewMineRound E R s parent).2 ≠ none →
        (routineMineNewRound E R s parent).roundState = RoundState.IDLE
        ∧ (routineMineNewRound E R s parent).unconfirm_mine = s.unconfirm_mine)
    ∧ (R.isBootNode = true →
        (NewMineRound E R s parent).2 = none
        ∧ routineMineNewRound E R s parent = { s with roundState := RoundState.Mining }) := by
  refine ⟨?_, ?_, ?_⟩
  · intro hb hnil
    obtain ⟨hs, proof, sig, hg, hsig⟩ := newMineRound_nil_inv E R s parent hb hnil
    have e := newMineRound_ok E R s parent hb hs proof sig hg hsig
    rw [routineMineNewRound_eq, e]
    refine ⟨by simp, proof, sig, hg, hsig, rfl, ?_⟩
    obtain ⟨i1, i2⟩ := insert_tracked E s.unconfirm_mine proof.Sign (roundWork E R s parent)
      mineThreshold R.insertTime
    cases hl : mapLoad s.unconfirm_mine.proofs (ProofSignature.Hash E proof.Sign) with
    | none =>
      refine ⟨_, i1 hl, fun _ => rfl, fun old h => by cases h⟩
    | some old =>
      refine ⟨old, ?_, fun h => (by cases h), fun o h => ?_⟩
      · show mapLoad (s.unconfirm_mine.Insert E proof.Sign (roundWork E R s parent)
            mineThreshold R.insertTime).proofs (ProofSignature.Hash E proof.Sign) = some old
        rw [i2 old hl]
        exact hl
      · simp only [Option.some.injEq] at h
        exact h
  · intro hne
    rw [routineMineNewRound_eq]
    refine ⟨by simp [hne], ?_⟩
    show (NewMineRound E R s parent).1.unconfirm_mine = s.unconfirm_mine
    rcases Bool.eq_false_or_eq_true R.isBootNode with hb | hb
    · rw [newMineRound_boot E R s parent hb]
    · rcases Bool.eq_false_or_eq_true R.stateAtOk with hs | hs
      · cases hg : (GenerateProof E (roundHeader R parent) parent (roundWork E R s parent).txs
            R.peerStates).2 with
        | none => rw [newMineRound_genFail E R s parent hb hs hg]
        | some proof =>
          cases hsig : SignData E (proof.Data E) with
          | none => rw [newMineRound_signFail E R s parent hb hs proof hg hsig]
          | some sig =>
            rw [newMineRound_ok E R s parent hb hs proof sig hg hsig] at hne
            exact absurd rfl hne
      · rw [newMineRound_stateAt E R s parent hb hs]
  · intro hb
    rw [routineMineNewRound_eq, newMineRound_boot E R s parent hb]
    exact ⟨rfl, by simp⟩

/-- Evaluation of `newMineRound_nil_tracks_round_unless_boot` on a round of the example
node over two pending transactions. -/
theorem newMineRound_nil_tracks_round_unless_boot_witness :
    (demoRound demoPoolPending.pending).isBootNode = false
    ∧ (NewMineRound demoEnv (demoRound demoPoolPending.pending) (demoMineState demoPoolPending)
        demoParent).2 = none
    ∧ (routineMineNewRound demoEnv (demoRound demoPoolPending.pending)
        (demoMineState demoPoolPending) demoParent).roundState = RoundState.Mining
    ∧ (routineMineNewRound demoEnv (demoRound demoPoolPending.pending)
        (demoMineState demoPoolPending) demoParent).unconfirm_mine.proofs.length = 1 :=
  ⟨rfl, by decide,
    ((newMineRound_nil_tracks_round_unless_boot demoEnv (demoRound demoPoolPending.pending)
      (demoMineState demoPoolPending) demoParent).1 rfl (by decide)).1,
    by decide⟩

/-! ### The re-verify loop of `dealProofEvent`: calls and confirms -/

theorem confirmsOf_append (a b : List RoutMsg) :
    confirmsOf (a ++ b) = confirmsOf a ++ confirmsOf b := by
  induction a with
  | nil => rfl
  | cons x xs ih => cases x <;> simp [confirmsOf, ih]

theorem dealResponseState_posted (w : WorkerState) (ev : ResponseStateMsg) (sender : Address) :
    (dealResponseState w ev sender).1.posted = w.posted := by
  unfold dealResponseState
  split
  · rfl
  · split
    · rfl
    · simp only [WritePeerProof]
      split
      · rfl
      · split <;> rfl

theorem awaitPeerLock_posted (miner : Address) (resps : List (ResponseStateMsg × Address))
    (w : WorkerState) : (awaitPeerLock miner resps w).1.posted = w.posted := by
  induction resps generalizing w with
  | nil => rfl
  | cons e rest ih =>
    obtain ⟨ev, sender⟩ := e
    simp only [awaitPeerLock]
    split
    · exact dealResponseState_posted w ev sender
    · rw [ih]; exact dealResponseState_posted w ev sender

/-- `queryRemoteState` posts no confirm. -/
theorem queryRemoteState_confirms (E : Env) (w : WorkerState) (miner : Address) (number : Int)
    (resps : List (ResponseStateMsg × Address)) :
    confirmsOf (queryRemoteState E w miner number resps).1.posted = confirmsOf w.posted := by
  unfold queryRemoteState
  simp only
  split
  · rfl
  · rw [awaitPeerLock_posted]
    split <;> simp [confirmsOf_append, confirmsOf]

/-- A successful `queryRemoteState` leaves an entry for `miner` that carries the queried
number, as `Uint64` reads it. -/
theorem queryRemoteState_entry (E : Env) (w w1 : WorkerState) (miner : Address) (number : Int)
    (resps : List (ResponseStateMsg × Address))
    (h : queryRemoteState E w miner number resps = (w1, true)) :
    ∃ ps, GetPeerProof w1 miner = some ps ∧ ps.Num = bigUint64 number := by
  obtain ⟨ap, aw, hs, hn, hd⟩ := queryRemoteState_steps E w miner number resps
  rw [h] at hs hd
  obtain ⟨st, hst, ha⟩ := hd rfl
  obtain ⟨_, _, _, _, _, _, _, hg⟩ := hs
  have hne : aw.filter (fun st => decide (st.Addr = miner)) ≠ [] := by
    intro he
    have : st ∈ aw.filter (fun st => decide (st.Addr = miner)) :=
      List.mem_filter.2 ⟨hst, by simpa using ha⟩
    rw [he] at this
    cases this
  have hl : lastWrite miner aw
      = some ((aw.filter (fun st => decide (st.Addr = miner))).getLast hne) := by
    unfold lastWrite
    exact List.getLast?_eq_getLast _ hne
  have hmem := List.getLast_mem hne
  rw [List.mem_filter] at hmem
  refine ⟨_, ?_, hn _ hmem.1 (by simpa using hmem.2)⟩
  rw [hg miner, hl]
  rfl


theorem proofLoopCalls_fst (E : Env) (ev : WorkProofMsg) (sender : Address)
    (waits : List (List (ResponseStateMsg × Address))) (w : WorkerState) (ps : ProofState)
    (c : LoopCalls) :
    (proofLoopCalls E ev sender waits w ps c).1 = proofLoop E ev sender waits w ps := by
  induction waits generalizing w ps c with
  | nil =>
    simp only [proofLoopCalls, proofLoop]
    split
    · split <;> rfl
    · rfl
  | cons resps rest ih =>
    simp only [proofLoopCalls, proofLoop]
    split
    · split
      · rfl
      · split
        · rfl
        · split
          · rfl
          · exact ih _ _ _
    · rfl

/-- An iteration that starts from an entry one below the proof's number makes one call of
`VerifyProof`, no query, and ends the loop. -/
theorem proofLoopCalls_adjacent (E : Env) (ev : WorkProofMsg) (sender : Address)
    (waits : List (List (ResponseStateMsg × Address))) (w : WorkerState) (ps : ProofState)
    (c : LoopCalls) (hnum : (ps.Num + 1) % 2 ^ 64 = bigUint64 ev.Proof.Number) :
    (proofLoopCalls E ev sender waits w ps c).2
        = { verifies := c.verifies + 1, queries := c.queries }
      ∧ proofLoop E ev sender waits w ps = proofLoop E ev sender [] w ps
      ∧ (proofLoop E ev sender waits w ps).2 ≠ LoopExit.crashed := by
  cases waits with
  | nil =>
    simp only [proofLoopCalls, proofLoop]
    split
    · simp only [if_pos hnum]
      simp
    · simp
  | cons resps rest =>
    simp only [proofLoopCalls, proofLoop]
    split
    · simp only [if_pos hnum]
      simp
    · simp

theorem postConfirm_confirms (E : Env) (w : WorkerState) (c : ProofConfirm) :
    match SignData E c.Data with
    | some sig => confirmsOf (postConfirm E w c).posted
        = confirmsOf w.posted ++ [{ Confirm := c, Sign := sig }]
    | none => confirmsOf (postConfirm E w c).posted = confirmsOf w.posted := by
  unfold postConfirm
  cases SignData E c.Data with
  | none => rfl
  | some sig => simp [confirmsOf_append, confirmsOf]

/-- The confirms posted by the loop itself: left by `return` it has posted the rejecting
confirm (when signing succeeded) behind what the queries posted; left otherwise it has
posted no confirm. -/
theorem proofLoop_confirms (E : Env) (ev : WorkProofMsg) (sender : Address)
    (waits : List (List (ResponseStateMsg × Address))) (w : WorkerState) (ps : ProofState) :
    ((proofLoop E ev sender waits w ps).2 = LoopExit.returned →
        ∃ W, confirmsOf W.posted = confirmsOf w.posted
          ∧ (proofLoop E ev sender waits w ps).1
              = postConfirm E W { Signature := ev.Proof.Sign, Confirm := false })
      ∧ ((proofLoop E ev sender waits w ps).2 ≠ LoopExit.returned →
        confirmsOf (proofLoop E ev sender waits w ps).1.posted = confirmsOf w.posted) := by
  induction waits generalizing w ps with
  | nil =>
    simp only [proofLoop]
    split
    · split
      · exact ⟨fun _ => ⟨w, rfl, rfl⟩, fun h => absurd rfl h⟩
      · exact ⟨fun h => (by cases h), fun _ => queryRemoteState_confirms E w sender _ []⟩
    · exact ⟨fun h => (by cases h), fun _ => rfl⟩
  | cons resps rest ih =>
    simp only [proofLoop]
    split
    · split
      · exact ⟨fun _ => ⟨w, rfl, rfl⟩, fun h => absurd rfl h⟩
      · have hq := queryRemoteState_confirms E w sender
          (toInt64 ((bigUint64 ev.Proof.Number + 2 ^ 64 - 1) % 2 ^ 64)) resps
        split
        · rename_i w1 heq
          rw [heq] at hq
          exact ⟨fun h => (by cases h), fun _ => hq⟩
        · rename_i w1 heq
          rw [heq] at hq
          split
          · exact ⟨fun h => (by cases h), fun _ => hq⟩
          · rename_i ps1 _
            obtain ⟨h1, h2⟩ := ih w1 ps1
            refine ⟨fun h => ?_, fun h => ?_⟩
            · obtain ⟨W, hW, he⟩ := h1 h
              exact ⟨W, hW.trans hq, he⟩
            · exact (h2 h).trans hq
    · exact ⟨fun h => (by cases h), fun _ => rfl⟩

/-- The confirms posted from the loop on: none after a nil dereference, otherwise the one
confirm of the proof when signing it succeeds and none when signing fails. -/
theorem dealProofTail_confirms (E : Env) (ev : WorkProofMsg) (sender : Address)
    (w : WorkerState) (ps : ProofState) (waits : List (List (ResponseStateMsg × Address))) :
    ((proofLoop E ev sender waits w ps).2 = LoopExit.crashed →
        confirmsOf (dealProofTail E ev sender w ps waits).posted = confirmsOf w.posted)
      ∧ ((proofLoop E ev sender waits w ps).2 ≠ LoopExit.crashed →
        ∃ b, match SignData E (proofConfirm ev b).Data with
          | some sig => confirmsOf (dealProofTail E ev sender w ps waits).posted
              = confirmsOf w.posted ++ [{ Confirm := proofConfirm ev b, Sign := sig }]
          | none => confirmsOf (dealProofTail E ev sender w ps waits).posted
              = confirmsOf w.posted) := by
  obtain ⟨h1, h2⟩ := proofLoop_confirms E ev sender waits w ps
  unfold dealProofTail
  cases hl : proofLoop E ev sender waits w ps with
  | mk w2 exit =>
    rw [hl] at h1 h2
    cases exit with
    | returned =>
      obtain ⟨W, hW, he⟩ := h1 rfl
      simp only at he
      refine ⟨fun h => (by cases h), fun _ => ⟨false, ?_⟩⟩
      have hp := postConfirm_confirms E W { Signature := ev.Proof.Sign, Confirm := false }
      simp only [proofConfirm]
      rw [he, ← hW]
      exact hp
    | crashed =>
      exact ⟨fun _ => h2 (by simp), fun h => absurd rfl h⟩
    | broke b =>
      have hb := h2 (by simp)
      simp only at hb
      refine ⟨fun h => (by cases h), fun _ => ⟨b, ?_⟩⟩
      simp only [proofConfirm]
      cases hs : SignData E
          ({ Signature := ev.Proof.Sign, Confirm := b } : ProofConfirm).Data with
      | none => simpa using hb
      | some sig =>
        cases b with
        | false => simp [confirmsOf_append, confirmsOf, hb]
        | true => simp [confirmsOf_append, confirmsOf, hb]


/-- With every successful in-loop query leaving an entry one below the proof's number, the
loop makes at most two calls of `VerifyProof` and one query, uses no wait beyond the
first, and does not dereference a nil entry. -/
theorem proofLoopCalls_bound (E : Env) (ev : WorkProofMsg) (sender : Address)
    (waits : List (List (ResponseStateMsg × Address))) (w : WorkerState) (ps : ProofState)
    (c : LoopCalls)
    (H : ∀ (w0 w1 : WorkerState) (resps : List (ResponseStateMsg × Address)),
      queryRemoteState E w0 sender
          (toInt64 ((bigUint64 ev.Proof.Number + 2 ^ 64 - 1) % 2 ^ 64)) resps = (w1, true) →
        ∃ ps1, GetPeerProof w1 sender = some ps1
          ∧ ps1.Num = (bigUint64 ev.Proof.Number + 2 ^ 64 - 1) % 2 ^ 64) :
    (proofLoopCalls E ev sender waits w ps c).2.verifies ≤ c.verifies + 2
      ∧ c.verifies + 1 ≤ (proofLoopCalls E ev sender waits w ps c).2.verifies
      ∧ (proofLoopCalls E ev sender waits w ps c).2.queries ≤ c.queries + 1
      ∧ proofLoop E ev sender waits w ps = proofLoop E ev sender (waits.take 1) w ps
      ∧ (proofLoop E ev sender waits w ps).2 ≠ LoopExit.crashed := by
  cases waits with
  | nil =>
    refine ⟨?_, ?_, ?_, rfl, ?_⟩
    · simp only [proofLoopCalls]
      split
      · split <;> simp
      · simp
    · simp only [proofLoopCalls]
      split
      · split <;> simp
      · simp
    · simp only [proofLoopCalls]
      split
      · split <;> simp
      · simp
    · simp only [proofLoop]
      split
      · split <;> simp
      · simp
  | cons resps rest =>
    simp only [List.take_succ_cons, List.take_zero, proofLoopCalls, proofLoop]
    split
    · split
      · simp
      · cases hq : queryRemoteState E w sender
            (toInt64 ((bigUint64 ev.Proof.Number + 2 ^ 64 - 1) % 2 ^ 64)) resps with
        | mk w1 ok =>
          cases ok with
          | false => simp
          | true =>
            obtain ⟨ps1, hg, hn⟩ := H w w1 resps hq
            have hadj : (ps1.Num + 1) % 2 ^ 64 = bigUint64 ev.Proof.Number := by
              rw [hn]
              unfold bigUint64
              omega
            simp only [hg]
            obtain ⟨a1, a2, a3⟩ := proofLoopCalls_adjacent E ev sender rest w1 ps1
              { verifies := c.verifies + 1, queries := c.queries + 1 } hadj
            rw [a1]
            exact ⟨by simp, by simp, by simp, a2, a3⟩
    · simp


theorem dealProofEvent_known_peer (E : Env) (w : WorkerState) (ev : WorkProofMsg)
    (sender : Address) (ps : ProofState) (waits : List (List (ResponseStateMsg × Address)))
    (h1 : sender ≠ w.coinbase) (h2 : GetPeerProof w sender = some ps) :
    dealProofEvent E w ev sender waits = dealProofTail E ev sender w ps waits := by
  simp [dealProofEvent, h1, VerifyState, h2]

/-- C30 (counterexample): on a node whose signer returns an error every query fails, so
the assumption about successful queries holds; the first proof of peer 7 verifies against
the genesis root in one call of `VerifyProof`, the peer's entry is written, and
`dealProofEvent` posts no confirm.  And on a node whose signer works, the node's own
proof coming back is ignored: nothing is posted although `SignData` returns a
signature. -/
theorem no_confirm_without_signer_or_for_own_proof :
    (∀ (w0 : WorkerState) (n : Int) (resps : List (ResponseStateMsg × Address)),
        (queryRemoteState demoEnvNoSigner w0 7 n resps).2 = false)
      ∧ GetPeerProof (newWorkerState 9 0) 7 = none
      ∧ proofLoopCalls demoEnvNoSigner (demoProofMsg 1 0 [demoTx]) 7 [] (newWorkerState 9 0)
          { Addr := 7, Num := 0, Root := 0 } { verifies := 0, queries := 0 }
        = ((WritePeerProof (newWorkerState 9 0) 7
              { Addr := 7, Num := 1, Root := MixHash demoEnv 0 (DeriveSha demoEnv [demoTx]) },
            LoopExit.broke true), { verifies := 1, queries := 0 })
      ∧ (dealProofEvent demoEnvNoSigner (newWorkerState 9 0)
          (demoProofMsg 1 0 [demoTx]) 7 []).posted = []
      ∧ confirmsOf (dealProofEvent demoEnvNoSigner (newWorkerState 9 0)
          (demoProofMsg 1 0 [demoTx]) 7 []).posted = []
      ∧ (∀ b, SignData demoEnv (proofConfirm (demoProofMsg 1 0 [demoTx]) b).Data ≠ none)
      ∧ dealProofEvent demoEnv (newWorkerState 9 0) (demoProofMsg 1 0 [demoTx]) 9 []
          = newWorkerState 9 0
      ∧ (dealProofEvent demoEnv (newWorkerState 9 0) (demoProofMsg 1 0 [demoTx]) 9 []).posted
          = [] := by
  refine ⟨fun w0 n resps => ?_, by decide, by decide, by decide, by decide, ?_, by decide,
    by decide⟩
  · simp [queryRemoteState, SignData, demoEnvNoSigner]
  · intro b
    simp [SignData, demoEnv]

/-- With every successful in-loop query leaving an entry one below the proof's number,
`dealProofEvent` uses the waits of at most two queries: the one before the loop and the
one inside it. -/
theorem dealProofEvent_waits (E : Env) (w : WorkerState) (ev : WorkProofMsg)
    (sender : Address) (waits : List (List (ResponseStateMsg × Address)))
    (H : ∀ (w0 w1 : WorkerState) (resps : List (ResponseStateMsg × Address)),
      queryRemoteState E w0 sender
          (toInt64 ((bigUint64 ev.Proof.Number + 2 ^ 64 - 1) % 2 ^ 64)) resps = (w1, true) →
        ∃ ps1, GetPeerProof w1 sender = some ps1
          ∧ ps1.Num = (bigUint64 ev.Proof.Number + 2 ^ 64 - 1) % 2 ^ 64) :
    dealProofEvent E w ev sender waits = dealProofEvent E w ev sender (waits.take 2) := by
  have hT : ∀ (W : WorkerState) (ps : ProofState)
      (ws : List (List (ResponseStateMsg × Address))),
      dealProofTail E ev sender W ps ws = dealProofTail E ev sender W ps (ws.take 1) := by
    intro W ps ws
    obtain ⟨_, _, _, b4, _⟩ := proofLoopCalls_bound E ev sender ws W ps
      { verifies := 0, queries := 0 } H
    simp only [dealProofTail]
    rw [b4]
  have hT2 : ∀ (W : WorkerState) (ps : ProofState)
      (ws : List (List (ResponseStateMsg × Address))) (n : Nat), 1 ≤ n →
      dealProofTail E ev sender W ps ws = dealProofTail E ev sender W ps (ws.take n) := by
    intro W ps ws n hn
    rw [hT W ps ws, hT W ps (ws.take n), List.take_take, Nat.min_eq_left hn]
  have hhead : (waits.take 2).headD [] = waits.headD [] := by
    cases waits <;> rfl
  have htail : (waits.take 2).tail = waits.tail.take 1 := by
    cases waits <;> rfl
  by_cases hself : sender = w.coinbase
  · simp [dealProofEvent, hself]
  · simp only [dealProofEvent, if_neg hself, VerifyState, Bool.not_true, Bool.false_eq_true,
      if_false, hhead, htail]
    cases hg : GetPeerProof w sender with
    | some ps => exact hT2 w ps waits 2 (by decide)
    | none =>
      simp only
      split
      · exact hT2 w _ waits 2 (by decide)
      · cases hq : queryRemoteState E w sender (ev.Proof.Number - 1) (waits.headD []) with
        | mk w1 ok =>
          cases ok with
          | false => rfl
          | true =>
            simp only
            cases hg1 : GetPeerProof w1 sender with
            | none => rfl
            | some ps1 => exact hT w1 ps1 waits.tail

/-- C30 (amended): assuming every successful `queryRemoteState(sender, n-1)`, before or
inside the loop, leaves the store entry of the sender with `Num = n-1` (in `uint64`), one
run of `dealProofEvent` makes at most two calls of `VerifyProof` and at most one in-loop
query.  A proof whose sender is the node itself is ignored and nothing is posted.  For
every other sender exactly one confirm for the proof is posted when `SignData` returns a
signature for it, and no confirm is posted when `SignData` returns an error.  The run
waits for at most two queries, the one before the loop and the one inside it. -/
theorem dealProofEvent_bounded_one_confirm_when_signed (E : Env) (w : WorkerState)
    (ev : WorkProofMsg) (sender : Address) (waits : List (List (ResponseStateMsg × Address)))
    (H : ∀ (w0 w1 : WorkerState) (resps : List (ResponseStateMsg × Address)) (number : Int),
      (number = ev.Proof.Number - 1
        ∨ number = toInt64 ((bigUint64 ev.Proof.Number + 2 ^ 64 - 1) % 2 ^ 64)) →
      queryRemoteState E w0 sender number resps = (w1, true) →
        ∃ ps1, GetPeerProof w1 sender = some ps1
          ∧ ps1.Num = (bigUint64 ev.Proof.Number + 2 ^ 64 - 1) % 2 ^ 64) :
    (dealProofEventCalls E w ev sender waits).verifies ≤ 2
      ∧ (dealProofEventCalls E w ev sender waits).queries ≤ 1
      ∧ (sender = w.coinbase → dealProofEvent E w ev sender waits = w)
      ∧ (sender ≠ w.coinbase →
          ∃ b, match SignData E (proofConfirm ev b).Data with
            | some sig => confirmsOf (dealProofEvent E w ev sender waits).posted
                = confirmsOf w.posted ++ [{ Confirm := proofConfirm ev b, Sign := sig }]
            | none => confirmsOf (dealProofEvent E w ev sender waits).posted
                = confirmsOf w.posted)
      ∧ dealProofEvent E w ev sender waits = dealProofEvent E w ev sender (waits.take 2) := by
  have Hin : ∀ (w0 w1 : WorkerState) (resps : List (ResponseStateMsg × Address)),
      queryRemoteState E w0 sender
          (toInt64 ((bigUint64 ev.Proof.Number + 2 ^ 64 - 1) % 2 ^ 64)) resps = (w1, true) →
        ∃ ps1, GetPeerProof w1 sender = some ps1
          ∧ ps1.Num = (bigUint64 ev.Proof.Number + 2 ^ 64 - 1) % 2 ^ 64 :=
    fun w0 w1 resps hq => H w0 w1 resps _ (Or.inr rfl) hq
  have hloop : ∀ (W : WorkerState) (ps : ProofState)
      (ws : List (List (ResponseStateMsg × Address))),
      (proofLoopCalls E ev sender ws W ps { verifies := 0, queries := 0 }).2.verifies ≤ 2
      ∧ (proofLoopCalls E ev sender ws W ps { verifies := 0, queries := 0 }).2.queries ≤ 1
      ∧ ∃ b, match SignData E (proofConfirm ev b).Data with
          | some sig => confirmsOf (dealProofTail E ev sender W ps ws).posted
              = confirmsOf W.posted ++ [{ Confirm := proofConfirm ev b, Sign := sig }]
          | none => confirmsOf (dealProofTail E ev sender W ps ws).posted
              = confirmsOf W.posted := by
    intro W ps ws
    obtain ⟨b1, _, b3, _, b5⟩ := proofLoopCalls_bound E ev sender ws W ps
      { verifies := 0, queries := 0 } Hin
    exact ⟨by simpa using b1, by simpa using b3, (dealProofTail_confirms E ev sender W ps ws).2 b5⟩
  have hw := dealProofEvent_waits E w ev sender waits Hin
  by_cases hself : sender = w.coinbase
  · refine ⟨?_, ?_, fun _ => ?_, fun h => absurd hself h, hw⟩
    · simp [dealProofEventCalls, hself]
    · simp [dealProofEventCalls, hself]
    · simp [dealProofEvent, hself]
  · refine ⟨?_, ?_, fun h => absurd h hself, fun _ => ?_, hw⟩
    · simp only [dealProofEventCalls, if_neg hself, VerifyState, Bool.not_true]
      cases hg : GetPeerProof w sender with
      | some ps => exact (hloop w ps waits).1
      | none =>
        simp only [Bool.false_eq_true, if_false]
        split
        · exact (hloop w _ waits).1
        · split
          · split
            · exact (hloop _ _ _).1
            · simp
          · simp
    · simp only [dealProofEventCalls, if_neg hself, VerifyState, Bool.not_true]
      cases hg : GetPeerProof w sender with
      | some ps => exact (hloop w ps waits).2.1
      | none =>
        simp only [Bool.false_eq_true, if_false]
        split
        · exact (hloop w _ waits).2.1
        · split
          · split
            · exact (hloop _ _ _).2.1
            · simp
          · simp
    · simp only [dealProofEvent, if_neg hself, VerifyState, Bool.not_true]
      cases hg : GetPeerProof w sender with
      | some ps => exact (hloop w ps waits).2.2
      | none =>
        simp only [Bool.false_eq_true, if_false]
        split
        · exact (hloop w _ waits).2.2
        · cases hq : queryRemoteState E w sender (ev.Proof.Number - 1) (waits.headD []) with
          | mk w1 ok =>
            have hc := queryRemoteState_confirms E w sender (ev.Proof.Number - 1)
              (waits.headD [])
            rw [hq] at hc
            simp only at hc
            cases ok with
            | true =>
              obtain ⟨ps1, hg1, _⟩ := H w w1 (waits.headD []) _ (Or.inl rfl) hq
              simp only [hg1]
              obtain ⟨b, hb⟩ := (hloop w1 ps1 waits.tail).2.2
              refine ⟨b, ?_⟩
              rw [← hc]
              exact hb
            | false =>
              simp only
              refine ⟨false, ?_⟩
              have hp := postConfirm_confirms E w1
                { Signature := ev.Proof.Sign, Confirm := false }
              rw [← hc]
              exact hp

/-- C30 (witness): node 9 holds the entry of proof 1 for peer 7 and receives proof 5; the
in-loop query for number 4 is answered, the second `VerifyProof` succeeds, and the one
accepting confirm is posted. -/
theorem dealProofEvent_bounded_one_confirm_when_signed_witness :
    dealProofEventCalls demoEnv demoWorkerSeen demoProofMsgGap 7 demoGapWaits
        = { verifies := 2, queries := 1 }
      ∧ (confirmsOf (dealProofEvent demoEnv demoWorkerSeen demoProofMsgGap 7
          demoGapWaits).posted).length = 1
      ∧ (dealProofEventCalls demoEnv demoWorkerSeen demoProofMsgGap 7 demoGapWaits).verifies ≤ 2
      ∧ (dealProofEventCalls demoEnv demoWorkerSeen demoProofMsgGap 7 demoGapWaits).queries ≤ 1 :=
  have h := dealProofEvent_bounded_one_confirm_when_signed demoEnv demoWorkerSeen
    demoProofMsgGap 7 demoGapWaits
    (fun w0 w1 resps number hn hq =>
      (queryRemoteState_entry demoEnv w0 w1 7 number resps hq).imp
        (fun _ hp => ⟨hp.1, hp.2.trans (by
          rcases hn with hn | hn
          · rw [hn]; decide
          · rw [hn]; decide)⟩))
  ⟨by decide, by decide, h.1, h.2.1⟩

/-! ### `updateTxConfirm`: what one pass moves -/

theorem confirmReceipts_hashes (rs : List Receipt) (pool : List (Hash × Nat)) (cnt : Nat) :
    (confirmReceipts rs pool cnt).1.map (fun r => r.TxHash) = rs.map (fun r => r.TxHash) := by
  induction rs generalizing pool cnt with
  | nil => rfl
  | cons r rest ih =>
    simp only [confirmReceipts]
    split <;> simp [ih]

theorem mapLoad_none_not_key {V : Type} (m : List (Hash × V)) (k : Hash)
    (h : mapLoad m k = none) : ∀ e ∈ m, e.1 ≠ k := by
  intro e he hk
  have : k ∈ mapKeys m := by
    rw [← hk]
    exact List.mem_map_of_mem Prod.fst he
  rw [← mapLoad_isSome_iff, h] at this
  cases this

theorem confirmReceipts_pool (rs : List Receipt) (pool : List (Hash × Nat)) (cnt : Nat) :
    (confirmReceipts rs pool cnt).2.1
      = pool.filter (fun e => decide (e.1 ∉ rs.map (fun r => r.TxHash))) := by
  induction rs generalizing pool cnt with
  | nil => simp [confirmReceipts]
  | cons r rest ih =>
    simp only [confirmReceipts]
    split
    · simp only [ih, mapDelete_eq_filter, List.filter_filter]
      apply List.filter_congr
      intro e _
      by_cases h1 : e.1 = r.TxHash <;>
        by_cases h2 : e.1 ∈ rest.map (fun r => r.TxHash) <;> simp [h1, h2]
    · rename_i hnone
      simp only [ih]
      apply List.filter_congr
      intro e he
      have := mapLoad_none_not_key pool r.TxHash hnone e he
      simp [this]

theorem nodup_keys_filter {V : Type} (m : List (Hash × V)) (q : Hash × V → Bool)
    (hn : (mapKeys m).Nodup) : (mapKeys (m.filter q)).Nodup := by
  unfold mapKeys at *
  exact List.Nodup.sublist (List.Sublist.map _ (List.filter_sublist m)) hn

/-- Deleting a present key of a map with distinct keys removes one entry, and its count
from the total. -/
theorem mapDelete_present (pool : List (Hash × Nat)) (k : Hash) (c : Nat)
    (hn : (mapKeys pool).Nodup) (h : mapLoad pool k = some c) :
    (mapDelete pool k).length + 1 = pool.length
      ∧ poolTotal (mapDelete pool k) + c = poolTotal pool
      ∧ (mapKeys (mapDelete pool k)).Nodup := by
  induction pool with
  | nil => simp [mapLoad] at h
  | cons e rest ih =>
    obtain ⟨k1, v1⟩ := e
    have hn1 : (mapKeys rest).Nodup := by
      unfold mapKeys at *
      exact (List.nodup_cons.1 hn).2
    have hk1 : k1 ∉ mapKeys rest := by
      unfold mapKeys at *
      exact (List.nodup_cons.1 hn).1
    by_cases hk : k1 = k
    · subst hk
      have hc : v1 = c := by simpa [mapLoad] using h
      have hno : mapLoad rest k1 = none := by
        cases hl : mapLoad rest k1 with
        | none => rfl
        | some v =>
          have : k1 ∈ mapKeys rest := (mapLoad_isSome_iff rest k1).1 (by rw [hl]; rfl)
          exact absurd this hk1
      rw [mapDelete_cons_self, mapDelete_of_not_mem rest k1 hno]
      refine ⟨by simp, ?_, hn1⟩
      simp [poolTotal, hc]
      omega
    · have h1 : mapLoad rest k = some c := by simpa [mapLoad, hk] using h
      obtain ⟨i1, i2, i3⟩ := ih hn1 h1
      have hd : mapDelete ((k1, v1) :: rest) k = (k1, v1) :: mapDelete rest k := by
        simp [mapDelete, hk]
      have hnd : (mapKeys (mapDelete ((k1, v1) :: rest) k)).Nodup := by
        rw [mapDelete_eq_filter]
        exact nodup_keys_filter _ _ hn
      rw [hd] at hnd ⊢
      refine ⟨by simp; omega, ?_, hnd⟩
      simp only [poolTotal, List.map_cons, List.sum_cons] at *
      omega

theorem confirmReceipts_cnt (rs : List Receipt) (pool : List (Hash × Nat)) (cnt : Nat)
    (hn : (mapKeys pool).Nodup) :
    (confirmReceipts rs pool cnt).2.2 + (confirmReceipts rs pool cnt).2.1.length
        = cnt + pool.length
      ∧ (confirmReceipts rs pool cnt).2.2 ≤ cnt + rs.length
      ∧ cnt ≤ (confirmReceipts rs pool cnt).2.2 := by
  induction rs generalizing pool cnt with
  | nil => simp [confirmReceipts]
  | cons r rest ih =>
    simp only [confirmReceipts]
    split
    · rename_i c hc
      obtain ⟨d1, _, d3⟩ := mapDelete_present pool r.TxHash c hn hc
      obtain ⟨i1, i2, i3⟩ := ih (mapDelete pool r.TxHash) (cnt + 1) d3
      simp only [List.length_cons]
      omega
    · obtain ⟨i1, i2, i3⟩ := ih pool cnt hn
      simp only [List.length_cons]
      omega

/-- Without overflow of a `ConfirmCount`, what the inner loop takes out of the pool is
what it adds to the receipts. -/
theorem confirmReceipts_total (rs : List Receipt) (pool : List (Hash × Nat)) (cnt : Nat)
    (hn : (mapKeys pool).Nodup)
    (hw : ∀ r ∈ rs, r.ConfirmCount + poolTotal pool < 2 ^ 64) :
    receiptsTotal (confirmReceipts rs pool cnt).1 + poolTotal (confirmReceipts rs pool cnt).2.1
      = receiptsTotal rs + poolTotal pool := by
  induction rs generalizing pool cnt with
  | nil => simp [confirmReceipts, receiptsTotal]
  | cons r rest ih =>
    simp only [confirmReceipts]
    split
    · rename_i c hc
      obtain ⟨_, d2, d3⟩ := mapDelete_present pool r.TxHash c hn hc
      have hr := hw r (List.mem_cons_self _ _)
      have i1 := ih (mapDelete pool r.TxHash) (cnt + 1) d3 (fun x hx => by
        have := hw x (List.mem_cons_of_mem _ hx)
        omega)
      have hmod : (r.ConfirmCount + c) % 2 ^ 64 = r.ConfirmCount + c :=
        Nat.mod_eq_of_lt (by omega)
      simp only [receiptsTotal, List.map_cons, List.sum_cons, hmod] at *
      omega
    · have i1 := ih pool cnt hn (fun x hx => hw x (List.mem_cons_of_mem _ hx))
      simp only [receiptsTotal, List.map_cons, List.sum_cons] at *
      omega

/-- The count of an entry whose hash is among the receipts is added to the first such
receipt, in `uint64`. -/
theorem confirmReceipts_adds (rs : List Receipt) (pool : List (Hash × Nat)) (cnt : Nat)
    (h : Hash) (c : Nat) (hl : mapLoad pool h = some c)
    (hm : h ∈ rs.map (fun r => r.TxHash)) :
    ∃ (i : Nat) (r0 : Receipt), rs[i]? = some r0 ∧ r0.TxHash = h
      ∧ (confirmReceipts rs pool cnt).1[i]?
          = some { r0 with ConfirmCount := (r0.ConfirmCount + c) % 2 ^ 64 } := by
  induction rs generalizing pool cnt with
  | nil => simp at hm
  | cons r rest ih =>
    by_cases hr : r.TxHash = h
    · refine ⟨0, r, by simp, hr, ?_⟩
      simp only [confirmReceipts]
      rw [hr, hl]
      simp
    · have hm1 : h ∈ rest.map (fun r => r.TxHash) := by
        simp only [List.map_cons, List.mem_cons] at hm
        rcases hm with hm | hm
        · exact absurd hm.symm hr
        · exact hm
      simp only [confirmReceipts]
      split
      · obtain ⟨i, r0, h1, h2, h3⟩ := ih (mapDelete pool r.TxHash) (cnt + 1)
          (by rw [mapLoad_mapDelete_ne _ _ _ (fun e => hr e.symm)]; exact hl) hm1
        exact ⟨i + 1, r0, by simpa using h1, h2, by simpa using h3⟩
      · obtain ⟨i, r0, h1, h2, h3⟩ := ih pool cnt hl hm1
        exact ⟨i + 1, r0, by simpa using h1, h2, by simpa using h3⟩

theorem poolTotal_filter_le (pool : List (Hash × Nat)) (q : Hash × Nat → Bool) :
    poolTotal (pool.filter q) ≤ poolTotal pool := by
  induction pool with
  | nil => simp
  | cons e rest ih =>
    simp only [List.filter_cons]
    split
    · simp only [poolTotal, List.map_cons, List.sum_cons] at *
      omega
    · simp only [poolTotal, List.map_cons, List.sum_cons] at *
      omega

/-- The count of a pass never exceeds the cap by more than one block. -/
theorem confirmLoop_cnt_le (g : Hash → Option BlockReceipts) (m : Nat)
    (hm : ∀ h br, g h = some br → br.receipts.length ≤ m)
    (order : List Hash) (s : ConfirmPass) (hn : (mapKeys s.pool).Nodup) :
    (confirmLoop g order s).cnt ≤ max s.cnt 10000 + m := by
  induction order generalizing s with
  | nil => simp only [confirmLoop]; omega
  | cons hash rest ih =>
    simp only [confirmLoop]
    split
    · exact ih s hn
    · cases hg : g hash with
      | none =>
        simp only
        split
        · omega
        · exact ih s hn
      | some br =>
        simp only
        obtain ⟨c1, c2, c3⟩ := confirmReceipts_cnt br.receipts s.pool s.cnt hn
        have hlen := hm hash br hg
        split
        · dsimp only
          omega
        · rename_i hle
          have hn1 : (mapKeys (confirmReceipts br.receipts s.pool s.cnt).2.1).Nodup := by
            rw [confirmReceipts_pool]
            exact nodup_keys_filter _ _ hn
          have := ih { pool := (confirmReceipts br.receipts s.pool s.cnt).2.1,
                       fetched := s.fetched ++ [(hash, br)],
                       batch := s.batch ++
                         [{ br with receipts := (confirmReceipts br.receipts s.pool s.cnt).1 }],
                       cnt := (confirmReceipts br.receipts s.pool s.cnt).2.2 } hn1
          simp only at this
          omega

/-- What a pass from the state `s` does, in terms of the blocks it fetched (`fs`) and
the calls of `WriteBlockReceipts` it made (`ps`). -/
theorem confirmLoop_facts (g : Hash → Option BlockReceipts) (order : List Hash)
    (s : ConfirmPass) (hn : (mapKeys s.pool).Nodup) :
    ∃ fs ps,
      (confirmLoop g order s).fetched = s.fetched ++ fs
      ∧ (confirmLoop g order s).batch = s.batch ++ ps
      ∧ ps.map blockKey = fs.map (fun f => blockKey f.2)
      ∧ (confirmLoop g order s).pool
          = s.pool.filter (fun e => decide (e.1 ∉ fetchedHashes fs))
      ∧ (confirmLoop g order s).cnt + (confirmLoop g order s).pool.length
          = s.cnt + s.pool.length
      ∧ (∀ f ∈ fs, (mapLoad s.pool f.1).isSome = true ∧ g f.1 = some f.2)
      ∧ (∀ h c, mapLoad s.pool h = some c → h ∈ fetchedHashes fs →
          ∃ (k : Nat) (f : Hash × BlockReceipts) (put : BlockReceipts) (i : Nat) (r0 : Receipt),
            fs[k]? = some f ∧ ps[k]? = some put ∧ f.2.receipts[i]? = some r0 ∧ r0.TxHash = h
            ∧ put.receipts[i]?
                = some { r0 with ConfirmCount := (r0.ConfirmCount + c) % 2 ^ 64 })
      ∧ ((∀ f ∈ fs, ∀ r ∈ f.2.receipts, r.ConfirmCount + poolTotal s.pool < 2 ^ 64) →
          blocksTotal ps + poolTotal (confirmLoop g order s).pool
            = blocksTotal (fs.map Prod.snd) + poolTotal s.pool) := by
  have hnil : ∀ s0 : ConfirmPass, ∃ fs ps,
      s0.fetched = s0.fetched ++ fs ∧ s0.batch = s0.batch ++ ps
      ∧ ps.map blockKey = fs.map (fun f => blockKey f.2)
      ∧ s0.pool = s0.pool.filter (fun e => decide (e.1 ∉ fetchedHashes fs))
      ∧ s0.cnt + s0.pool.length = s0.cnt + s0.pool.length
      ∧ (∀ f ∈ fs, (mapLoad s0.pool f.1).isSome = true ∧ g f.1 = some f.2)
      ∧ (∀ h c, mapLoad s0.pool h = some c → h ∈ fetchedHashes fs →
          ∃ (k : Nat) (f : Hash × BlockReceipts) (put : BlockReceipts) (i : Nat) (r0 : Receipt),
            fs[k]? = some f ∧ ps[k]? = some put ∧ f.2.receipts[i]? = some r0 ∧ r0.TxHash = h
            ∧ put.receipts[i]?
                = some { r0 with ConfirmCount := (r0.ConfirmCount + c) % 2 ^ 64 })
      ∧ ((∀ f ∈ fs, ∀ r ∈ f.2.receipts, r.ConfirmCount + poolTotal s0.pool < 2 ^ 64) →
          blocksTotal ps + poolTotal s0.pool
            = blocksTotal (fs.map Prod.snd) + poolTotal s0.pool) := by
    intro s0
    refine ⟨[], [], by simp, by simp, rfl, by simp [fetchedHashes], rfl, by simp, ?_, ?_⟩
    · intro h c _ hm
      simp [fetchedHashes] at hm
    · intro _
      simp [blocksTotal]
  induction order generalizing s with
  | nil => exact hnil s
  | cons hash rest ih =>
    simp only [confirmLoop]
    split
    · exact ih s hn
    · rename_i c0 hc0
      cases hg : g hash with
      | none =>
        simp only
        split
        · exact hnil s
        · exact ih s hn
      | some br =>
        simp only
        obtain ⟨c1, _, _⟩ := confirmReceipts_cnt br.receipts s.pool s.cnt hn
        have hpool := confirmReceipts_pool br.receipts s.pool s.cnt
        have hhash := confirmReceipts_hashes br.receipts s.pool s.cnt
        have hn1 : (mapKeys (confirmReceipts br.receipts s.pool s.cnt).2.1).Nodup := by
          rw [hpool]
          exact nodup_keys_filter _ _ hn
        have hkey : blockKey { br with receipts := (confirmReceipts br.receipts s.pool s.cnt).1 }
            = blockKey br := by
          simp [blockKey, hhash]
        have hsome : (mapLoad s.pool hash).isSome = true := by rw [hc0]; rfl
        split
        · refine ⟨[(hash, br)],
            [{ br with receipts := (confirmReceipts br.receipts s.pool s.cnt).1 }],
            rfl, rfl, by simp [hkey], ?_, c1, ?_, ?_, ?_⟩
          · simp only [fetchedHashes, List.append_nil]
            exact hpool
          · intro f hf
            simp only [List.mem_singleton] at hf
            subst hf
            exact ⟨hsome, hg⟩
          · intro h c hl hm
            simp only [fetchedHashes, List.append_nil] at hm
            obtain ⟨i, r0, a1, a2, a3⟩ :=
              confirmReceipts_adds br.receipts s.pool s.cnt h c hl hm
            exact ⟨0, (hash, br),
                { br with receipts := (confirmReceipts br.receipts s.pool s.cnt).1 }, i, r0,
                by simp, by simp, a1, a2, a3⟩
          · intro hw
            have := confirmReceipts_total br.receipts s.pool s.cnt hn
              (hw (hash, br) (by simp))
            simpa [blocksTotal] using this
        · obtain ⟨fs2, ps2, e1, e2, e3, e4, e5, e6, e7, e8⟩ :=
            ih { pool := (confirmReceipts br.receipts s.pool s.cnt).2.1,
                 fetched := s.fetched ++ [(hash, br)],
                 batch := s.batch ++
                   [{ br with receipts := (confirmReceipts br.receipts s.pool s.cnt).1 }],
                 cnt := (confirmReceipts br.receipts s.pool s.cnt).2.2 } hn1
          simp only at e1 e2 e4 e5 e6 e7 e8
          refine ⟨(hash, br) :: fs2,
            { br with receipts := (confirmReceipts br.receipts s.pool s.cnt).1 } :: ps2,
            by rw [e1]; simp, by rw [e2]; simp, by simp [hkey, e3], ?_, by omega, ?_, ?_, ?_⟩
          · rw [e4, hpool, List.filter_filter]
            apply List.filter_congr
            intro e _
            simp only [fetchedHashes, List.mem_append]
            by_cases h1 : e.1 ∈ br.receipts.map (fun r => r.TxHash) <;>
              by_cases h2 : e.1 ∈ fetchedHashes fs2 <;> simp [h1, h2]
          · intro f hf
            rcases List.mem_cons.1 hf with hf | hf
            · subst hf
              exact ⟨hsome, hg⟩
            · obtain ⟨q1, q2⟩ := e6 f hf
              refine ⟨?_, q2⟩
              rw [hpool, mapLoad_filter_key s.pool
                (fun k => decide (k ∉ br.receipts.map (fun r => r.TxHash)))] at q1
              split at q1
              · exact q1
              · cases q1
          · intro h c hl hm
            simp only [fetchedHashes, List.mem_append] at hm
            by_cases h1 : h ∈ br.receipts.map (fun r => r.TxHash)
            · obtain ⟨i, r0, a1, a2, a3⟩ :=
                confirmReceipts_adds br.receipts s.pool s.cnt h c hl h1
              exact ⟨0, (hash, br),
                { br with receipts := (confirmReceipts br.receipts s.pool s.cnt).1 }, i, r0,
                by simp, by simp, a1, a2, a3⟩
            · have h2 : h ∈ fetchedHashes fs2 := by
                rcases hm with hm | hm
                · exact absurd hm h1
                · exact hm
              have hl1 : mapLoad (confirmReceipts br.receipts s.pool s.cnt).2.1 h = some c := by
                rw [hpool, mapLoad_filter_key s.pool
                  (fun k => decide (k ∉ br.receipts.map (fun r => r.TxHash)))]
                simp [h1, hl]
              obtain ⟨k, f, put, i, r0, a1, a2, a3, a4, a5⟩ := e7 h c hl1 h2
              exact ⟨k + 1, f, put, i, r0, by simpa using a1, by simpa using a2, a3, a4, a5⟩
          · intro hw
            have hstep := confirmReceipts_total br.receipts s.pool s.cnt hn
              (hw (hash, br) (by simp))
            have hle : poolTotal (confirmReceipts br.receipts s.pool s.cnt).2.1
                ≤ poolTotal s.pool := by
              rw [hpool]
              exact poolTotal_filter_le _ _
            have hrest := e8 (fun f hf r hr => by
              have := hw f (List.mem_cons_of_mem _ hf) r hr
              omega)
            simp only [blocksTotal, List.map_cons, List.sum_cons] at *
            omega

theorem confirmLoop_empty (g : Hash → Option BlockReceipts) (order : List Hash)
    (s : ConfirmPass) (h : s.pool = []) : confirmLoop g order s = s := by
  induction order with
  | nil => rfl
  | cons hash rest ih =>
    simp only [confirmLoop, h, mapLoad]
    exact ih

theorem demoConfirmPool_keys (n : Nat) : mapKeys (demoConfirmPool n) = List.range' 0 n := by
  simp [mapKeys, demoConfirmPool, Function.comp_def]

theorem demoBlockOf_hashes (n : Nat) :
    (demoBlockOf n).receipts.map (fun r => r.TxHash) = List.range' 0 n := by
  simp [demoBlockOf, demoReceipt, Function.comp_def]

/-- One block whose receipts cover the whole pool empties it in one pass, whatever its
size. -/
theorem demo_pass_empties_succ (n : Nat) :
    (demoConfirmPool (n + 1)).length = n + 1
      ∧ (mapKeys (demoConfirmPool (n + 1))).Nodup
      ∧ (updateTxConfirmPass (fun _ => some (demoBlockOf (n + 1)))
          (mapKeys (demoConfirmPool (n + 1))) (demoWorkerConfirms (demoConfirmPool (n + 1)))).pool
          = []
      ∧ (updateTxConfirmPass (fun _ => some (demoBlockOf (n + 1)))
          (mapKeys (demoConfirmPool (n + 1))) (demoWorkerConfirms (demoConfirmPool (n + 1)))).cnt
          = n + 1 := by
  have hlen : (demoConfirmPool (n + 1)).length = n + 1 := by simp [demoConfirmPool]
  have hnd : (mapKeys (demoConfirmPool (n + 1))).Nodup := by
    rw [demoConfirmPool_keys]
    exact List.nodup_range' 0 (n + 1)
  have hp : (confirmReceipts (demoBlockOf (n + 1)).receipts (demoConfirmPool (n + 1)) 0).2.1
      = [] := by
    rw [confirmReceipts_pool, demoBlockOf_hashes, List.filter_eq_nil_iff]
    intro e he
    have : e.1 ∈ mapKeys (demoConfirmPool (n + 1)) := List.mem_map_of_mem Prod.fst he
    rw [demoConfirmPool_keys] at this
    simp [this]
  have hc : (confirmReceipts (demoBlockOf (n + 1)).receipts (demoConfirmPool (n + 1)) 0).2.2
      = n + 1 := by
    have := (confirmReceipts_cnt (demoBlockOf (n + 1)).receipts (demoConfirmPool (n + 1)) 0
      hnd).1
    rw [hp, hlen] at this
    simpa using this
  have h0 : mapLoad (demoConfirmPool (n + 1)) 0 = some 1 := by
    simp [demoConfirmPool, List.range'_succ, mapLoad]
  have hrun : updateTxConfirmPass (fun _ => some (demoBlockOf (n + 1)))
      (mapKeys (demoConfirmPool (n + 1))) (demoWorkerConfirms (demoConfirmPool (n + 1)))
      = { pool := [], fetched := [(0, demoBlockOf (n + 1))],
          batch := [{ demoBlockOf (n + 1) with
            receipts := (confirmReceipts (demoBlockOf (n + 1)).receipts
              (demoConfirmPool (n + 1)) 0).1 }],
          cnt := n + 1 } := by
    rw [demoConfirmPool_keys, List.range'_succ]
    simp only [updateTxConfirmPass, demoWorkerConfirms, newWorkerState, confirmLoop, h0, hp, hc,
      List.nil_append]
    split
    · rfl
    · exact confirmLoop_empty _ _ _ rfl
  rw [hrun]
  exact ⟨hlen, hnd, rfl, rfl⟩

theorem demo_pass_empties (n : Nat) (h : 0 < n) :
    (demoConfirmPool n).length = n
      ∧ (mapKeys (demoConfirmPool n)).Nodup
      ∧ (updateTxConfirmPass (fun _ => some (demoBlockOf n))
          (mapKeys (demoConfirmPool n)) (demoWorkerConfirms (demoConfirmPool n))).pool = []
      ∧ (updateTxConfirmPass (fun _ => some (demoBlockOf n))
          (mapKeys (demoConfirmPool n)) (demoWorkerConfirms (demoConfirmPool n))).cnt = n := by
  obtain ⟨k, rfl⟩ := Nat.exists_eq_succ_of_ne_zero (Nat.pos_iff_ne_zero.1 h)
  exact demo_pass_empties_succ k

theorem updateTxConfirm_pool (g : Hash → Option BlockReceipts) (order : List Hash)
    (w : WorkerState) :
    (updateTxConfirm g order w).1.txConfirmPool = (updateTxConfirmPass g order w).pool := rfl

/-- C26 (counterexample): with 10,001 entries in `txConfirmPool`, all of transactions of
one stored block, one pass removes all 10,001 (`cnt` is tested after the block, against
`> 10000`); and a count of 1 added to a `ConfirmCount` of 2^64-1 is written as 0. -/
theorem one_pass_removes_10001_entries :
    (demoConfirmPool 10001).length = 10001
      ∧ (mapKeys (demoConfirmPool 10001)).Nodup
      ∧ (updateTxConfirm (fun _ => some (demoBlockOf 10001)) (mapKeys (demoConfirmPool 10001))
          (demoWorkerConfirms (demoConfirmPool 10001))).1.txConfirmPool = []
      ∧ updateTxConfirm demoGetByTxFull [5] (demoWorkerConfirms [(5, 1)])
          = (demoWorkerConfirms [],
              [{ receipts := [{ Status := 1, ConfirmCount := 0, TxHash := 5 }],
                 blockHash := 77, blockNumber := 3 }]) := by
  have h := demo_pass_empties 10001 (by decide)
  refine ⟨h.1, h.2.1, ?_, by decide⟩
  rw [updateTxConfirm_pool]
  exact h.2.2.1

/-- C26 (amended): one pass of `updateTxConfirm` over a pool with distinct keys removes as
many entries as `cnt` counts, and `cnt` exceeds 10,000 by at most the receipts of one
block (`m` bounds the receipts of a block); the entries left keep their count, and an
entry whose hash is in no receipt of a block returned for a key of the pool is left;
every removed entry's count is added, in `uint64`, to the `ConfirmCount` of a receipt
with that `TxHash` in a block returned by `GetBlockReceiptsByTx` and written to the
batch; when no `ConfirmCount` can pass 2^64-1 the total taken out of the pool is the
total added to the receipts. -/
theorem updateTxConfirm_moves_counts_cap_per_block (g : Hash → Option BlockReceipts)
    (order : List Hash) (w : WorkerState) (m : Nat)
    (hn : (mapKeys w.txConfirmPool).Nodup)
    (hm : ∀ h br, g h = some br → br.receipts.length ≤ m) :
    (updateTxConfirmPass g order w).cnt
          + (updateTxConfirm g order w).1.txConfirmPool.length = w.txConfirmPool.length
      ∧ (updateTxConfirmPass g order w).cnt ≤ 10000 + m
      ∧ (∀ h c, mapLoad (updateTxConfirm g order w).1.txConfirmPool h = some c →
          mapLoad w.txConfirmPool h = some c)
      ∧ (∀ h, (∀ k br, (mapLoad w.txConfirmPool k).isSome = true → g k = some br →
            h ∉ br.receipts.map (fun r => r.TxHash)) →
          mapLoad (updateTxConfirm g order w).1.txConfirmPool h = mapLoad w.txConfirmPool h)
      ∧ (∀ h c, mapLoad w.txConfirmPool h = some c →
          mapLoad (updateTxConfirm g order w).1.txConfirmPool h = none →
          ∃ (k : Nat) (key : Hash) (br put : BlockReceipts) (i : Nat) (r0 : Receipt),
            (updateTxConfirmPass g order w).fetched[k]? = some (key, br)
            ∧ (mapLoad w.txConfirmPool key).isSome = true ∧ g key = some br
            ∧ (updateTxConfirm g order w).2[k]? = some put
            ∧ put.blockHash = br.blockHash ∧ put.blockNumber = br.blockNumber
            ∧ br.receipts[i]? = some r0 ∧ r0.TxHash = h
            ∧ put.receipts[i]?
                = some { r0 with ConfirmCount := (r0.ConfirmCount + c) % 2 ^ 64 })
      ∧ ((∀ k br, g k = some br →
            ∀ r ∈ br.receipts, r.ConfirmCount + poolTotal w.txConfirmPool < 2 ^ 64) →
          blocksTotal (updateTxConfirmPass g order w).batch
              + poolTotal (updateTxConfirm g order w).1.txConfirmPool
            = blocksTotal ((updateTxConfirmPass g order w).fetched.map Prod.snd)
              + poolTotal w.txConfirmPool) := by
  obtain ⟨fs, ps, e1, e2, e3, e4, e5, e6, e7, e8⟩ := confirmLoop_facts g order
    { pool := w.txConfirmPool, fetched := [], batch := [], cnt := 0 } hn
  have hb := confirmLoop_cnt_le g m hm order
    { pool := w.txConfirmPool, fetched := [], batch := [], cnt := 0 } hn
  simp only [List.nil_append, Nat.zero_add] at e1 e2 e4 e5 e6 e7 e8 hb
  have hpass : updateTxConfirmPass g order w
      = confirmLoop g order { pool := w.txConfirmPool, fetched := [], batch := [], cnt := 0 } :=
    rfl
  have hpool : (updateTxConfirm g order w).1.txConfirmPool
      = w.txConfirmPool.filter (fun e => decide (e.1 ∉ fetchedHashes fs)) := by
    simp only [updateTxConfirm, hpass]
    exact e4
  have hload : ∀ h, mapLoad (updateTxConfirm g order w).1.txConfirmPool h
      = if decide (h ∉ fetchedHashes fs) = true then mapLoad w.txConfirmPool h else none := by
    intro h
    rw [hpool]
    exact mapLoad_filter_key w.txConfirmPool (fun k => decide (k ∉ fetchedHashes fs)) h
  have hfh : ∀ h, h ∈ fetchedHashes fs →
      ∃ f ∈ fs, h ∈ f.2.receipts.map (fun r => r.TxHash) := by
    intro h
    generalize fs = l
    induction l with
    | nil => intro hh; simp [fetchedHashes] at hh
    | cons f rest ih =>
      intro hh
      simp only [fetchedHashes, List.mem_append] at hh
      rcases hh with hh | hh
      · exact ⟨f, List.mem_cons_self _ _, hh⟩
      · obtain ⟨f2, hf2, hm2⟩ := ih hh
        exact ⟨f2, List.mem_cons_of_mem _ hf2, hm2⟩
  refine ⟨?_, ?_, ?_, ?_, ?_, ?_⟩
  · rw [hpool, ← e4, hpass]
    exact e5
  · rw [hpass]
    omega
  · intro h c hc
    rw [hload] at hc
    split at hc
    · exact hc
    · cases hc
  · intro h hno
    rw [hload]
    have : h ∉ fetchedHashes fs := by
      intro hh
      obtain ⟨f, hf, hmem⟩ := hfh h hh
      obtain ⟨q1, q2⟩ := e6 f hf
      exact hno f.1 f.2 q1 q2 hmem
    simp [this]
  · intro h c hc hgone
    have hin : h ∈ fetchedHashes fs := by
      by_contra hh
      rw [hload] at hgone
      simp [hh, hc] at hgone
    obtain ⟨k, f, put, i, r0, a1, a2, a3, a4, a5⟩ := e7 h c hc hin
    have hfmem : f ∈ fs := List.mem_iff_getElem?.2 ⟨k, a1⟩
    obtain ⟨q1, q2⟩ := e6 f hfmem
    have hkey : blockKey put = blockKey f.2 := by
      have h1 : (ps.map blockKey)[k]? = some (blockKey put) := by
        rw [List.getElem?_map, a2]; rfl
      have h2 : (fs.map (fun f => blockKey f.2))[k]? = some (blockKey f.2) := by
        rw [List.getElem?_map, a1]; rfl
      rw [e3, h2] at h1
      exact (Option.some.inj h1).symm
    have hcnt : 0 < (updateTxConfirmPass g order w).cnt := by
      have hlt : (w.txConfirmPool.filter (fun e => decide (e.1 ∉ fetchedHashes fs))).length
          < w.txConfirmPool.length := by
        rw [List.length_filter_lt_length_iff_exists]
        exact ⟨(h, c), mapLoad_mem _ _ _ hc, by simp [hin]⟩
      rw [hpass]
      rw [e4] at e5
      omega
    have hbatch : (updateTxConfirm g order w).2 = ps := by
      simp only [updateTxConfirm]
      rw [if_pos hcnt, hpass, e2]
    simp only [blockKey, Prod.mk.injEq] at hkey
    refine ⟨k, f.1, f.2, put, i, r0, ?_, q1, q2, ?_, hkey.1, hkey.2.1, a3, a4, a5⟩
    · rw [hpass, e1]; exact a1
    · rw [hbatch]; exact a2
  · intro hw
    rw [hpool, ← e4, hpass, e1, e2]
    exact e8 (fun f hf r hr => hw f.1 f.2 (e6 f hf).2 r hr)

/-- C26 (witness): the pool holds counts for the transactions 1, 2 and 3; 1 and 2 are in
a stored block, 3 is in none.  The pass removes the two entries, writes the block with
5+2 and 0+3 confirmations, and leaves the entry of 3. -/
theorem updateTxConfirm_moves_counts_cap_per_block_witness :
    updateTxConfirm demoGetByTx [1, 2, 3] (demoWorkerConfirms [(1, 2), (2, 3), (3, 1)])
        = (demoWorkerConfirms [(3, 1)],
            [{ receipts := [{ Status := 1, ConfirmCount := 7, TxHash := 1 },
                            { Status := 1, ConfirmCount := 3, TxHash := 2 }],
               blockHash := 77, blockNumber := 3 }])
      ∧ (updateTxConfirmPass demoGetByTx [1, 2, 3]
          (demoWorkerConfirms [(1, 2), (2, 3), (3, 1)])).cnt ≤ 10000 + 2
      ∧ (updateTxConfirmPass demoGetByTx [1, 2, 3]
            (demoWorkerConfirms [(1, 2), (2, 3), (3, 1)])).cnt
          + (updateTxConfirm demoGetByTx [1, 2, 3]
            (demoWorkerConfirms [(1, 2), (2, 3), (3, 1)])).1.txConfirmPool.length
          = (demoWorkerConfirms [(1, 2), (2, 3), (3, 1)]).txConfirmPool.length :=
  have h := updateTxConfirm_moves_counts_cap_per_block demoGetByTx [1, 2, 3]
    (demoWorkerConfirms [(1, 2), (2, 3), (3, 1)]) 2 (by decide)
    (fun k br hg => by
      unfold demoGetByTx at hg
      split at hg
      · cases hg
        decide
      · cases hg)
  ⟨by decide, h.2.1, h.1⟩

/-! ### Eviction from the rebroadcast cache -/

theorem demoPlainProofMsg_hash (n : Nat) :
    (demoPlainProofMsg n).Hash demoEnv = n + 1800 := by
  simp [WorkProofMsg.Hash, WorkProof.Data, demoEnv, demoDigest, demoPlainProofMsg]
  exact Nat.add_comm _ _

theorem mapLoad_none_of_not_key {V : Type} (m : List (Hash × V)) (k : Hash)
    (h : k ∉ mapKeys m) : mapLoad m k = none := by
  cases hl : mapLoad m k with
  | none => rfl
  | some v => exact absurd ((mapLoad_isSome_iff m k).1 (by rw [hl]; rfl)) h

/-- Fresh hashes arriving while the cache has room are pushed to the front, each with two
broadcasts left. -/
theorem foldl_knownStep_fresh (hs : List Hash) (c : List (Hash × Int)) (hn : hs.Nodup)
    (hfresh : ∀ h ∈ hs, h ∉ mapKeys c) (hlen : c.length + hs.length ≤ routCacheSize) :
    hs.foldl (fun c h => (knownStep c h).1) c = hs.reverse.map (fun h => (h, (2 : Int))) ++ c := by
  induction hs generalizing c with
  | nil => simp
  | cons h rest ih =>
    have hl : mapLoad c h = none := mapLoad_none_of_not_key c h (hfresh h (List.mem_cons_self _ _))
    simp only [List.length_cons] at hlen
    have hstep : (knownStep c h).1 = (h, 2) :: c := by
      simp only [knownStep, hl, lruAdd, defaultRoutCount, List.length_cons]
      rw [if_neg (by omega)]
      rfl
    simp only [List.foldl_cons, hstep]
    rw [ih ((h, 2) :: c) (List.nodup_cons.1 hn).2]
    · simp
    · intro k hk hmem
      simp only [mapKeys, List.map_cons, List.mem_cons] at hmem
      rcases hmem with hmem | hmem
      · subst hmem
        exact (List.nodup_cons.1 hn).1 hk
      · exact hfresh k (List.mem_cons_of_mem _ hk) hmem
    · simp only [List.length_cons]
      omega

/-- As many fresh distinct hashes as the cache holds evict the entry that was there. -/
theorem foldl_knownStep_evicts (hs : List Hash) (hx : Hash) (v : Int) (hn : hs.Nodup)
    (hnot : hx ∉ hs) (hlen : hs.length = routCacheSize) :
    mapLoad (hs.foldl (fun c h => (knownStep c h).1) [(hx, v)]) hx = none := by
  rcases List.eq_nil_or_concat hs with h0 | ⟨init, last, h1⟩
  · rw [h0] at hlen
    exact absurd hlen (by decide)
  · rw [List.concat_eq_append] at h1
    subst h1
    rw [List.length_append, List.length_singleton] at hlen
    have hn1 : init.Nodup := (List.nodup_append.1 hn).1
    have hlast : last ∉ init := by
      intro hm
      exact (List.nodup_append.1 hn).2.2 hm (List.mem_singleton.2 rfl)
    have hxi : hx ∉ init := fun hm => hnot (List.mem_append_left _ hm)
    have hxl : hx ≠ last := fun e => hnot (by rw [e]; simp)
    have hfill := foldl_knownStep_fresh init [(hx, v)] hn1
      (fun h hh hmem => by
        simp only [mapKeys, List.map_cons, List.map_nil, List.mem_singleton] at hmem
        exact hxi (hmem ▸ hh))
      (by simp only [List.length_singleton]; omega)
    rw [List.foldl_append, hfill]
    simp only [List.foldl_cons, List.foldl_nil]
    have hl : mapLoad (init.reverse.map (fun h => (h, (2 : Int))) ++ [(hx, v)]) last = none := by
      apply mapLoad_none_of_not_key
      simp only [mapKeys, List.map_append, List.map_map, List.map_cons, List.map_nil,
        List.mem_append, List.mem_singleton]
      intro hm
      rcases hm with hm | hm
      · simp only [List.mem_map, Function.comp] at hm
        obtain ⟨a, ha, rfl⟩ := hm
        exact hlast (List.mem_reverse.1 ha)
      · exact hxl hm.symm
    have hstep : (knownStep (init.reverse.map (fun h => (h, (2 : Int))) ++ [(hx, v)]) last).1
        = (last, 2) :: init.reverse.map (fun h => (h, (2 : Int))) := by
      simp only [knownStep, hl, lruAdd, defaultRoutCount, List.length_cons, List.length_append,
        List.length_map, List.length_reverse, List.length_singleton]
      rw [if_pos (by omega)]
      rw [← List.cons_append, List.dropLast_concat]
      rfl
    rw [hstep]
    apply mapLoad_none_of_not_key
    simp only [mapKeys, List.map_cons, List.map_map, List.mem_cons]
    intro hm
    rcases hm with hm | hm
    · exact hxl hm
    · simp only [List.mem_map, Function.comp] at hm
      obtain ⟨a, ha, rfl⟩ := hm
      exact hxi (List.mem_reverse.1 ha)

theorem inbounds_append (E : Env) (r : Router) (a b : List RoutMsg) :
    r.inbounds E (a ++ b) = (r.inbounds E a).inbounds E b := by
  simp [Router.inbounds, List.foldl_append]

/-- The proof cache after a run of inbound proof messages is the fold of the cache step
over their hashes. -/
theorem inbounds_proofs_cache (E : Env) (ms : List WorkProofMsg) (r : Router) :
    (r.inbounds E (ms.map RoutMsg.proof)).handleKnownProof
      = (ms.map (fun m => m.Hash E)).foldl (fun c h => (knownStep c h).1) r.handleKnownProof := by
  induction ms generalizing r with
  | nil => rfl
  | cons m rest ih =>
    have h1 := (inbound_step E r (RoutMsg.proof m)).1
    simp only [Router.cacheOf, RoutMsg.Hash] at h1
    have hfold : r.inbounds E ((m :: rest).map RoutMsg.proof)
        = (r.inbound E (RoutMsg.proof m)).inbounds E (rest.map RoutMsg.proof) := rfl
    rw [hfold, ih, h1]
    rfl

/-- Arrivals of other messages add nothing to what is posted or broadcast of `x`. -/
theorem inbounds_count_absent (E : Env) (x : RoutMsg) (tr : List RoutMsg) (r : Router)
    (hx : x ∉ tr) :
    (r.inbounds E tr).posted.count x = r.posted.count x
      ∧ (r.inbounds E tr).routed.count x = r.routed.count x := by
  induction tr generalizing r with
  | nil => exact ⟨rfl, rfl⟩
  | cons y rest ih =>
    obtain ⟨_, _, s3, s4⟩ := inbound_step E r y
    have hyx : y ≠ x := fun e => hx (by rw [e]; exact List.mem_cons_self _ _)
    have hfold : r.inbounds E (y :: rest) = (r.inbound E y).inbounds E rest := rfl
    obtain ⟨i1, i2⟩ := ih (r.inbound E y) (fun hm => hx (List.mem_cons_of_mem _ hm))
    rw [hfold, i1, i2, s3, s4, count_append_replicate_ne _ _ _ _ hyx,
      count_append_replicate_ne _ _ _ _ hyx]
    exact ⟨rfl, rfl⟩

/-- The arrival of a message whose hash is not in its cache posts it and broadcasts it. -/
theorem inbound_fresh (E : Env) (r : Router) (x : RoutMsg)
    (h : mapLoad (r.cacheOf x) (x.Hash E) = none) :
    (r.inbound E x).posted.count x = r.posted.count x + 1
      ∧ (r.inbound E x).routed.count x = r.routed.count x + 1 := by
  obtain ⟨_, _, s3, s4⟩ := inbound_step E r x
  obtain ⟨rest, hk⟩ := knownStep_fresh (x.Hash E) (r.cacheOf x) h
  rw [hk] at s3 s4
  rw [s3, s4]
  exact ⟨count_append_replicate _ _ _, count_append_replicate _ _ _⟩

theorem inbounds_singleton (E : Env) (r : Router) (x : RoutMsg) :
    r.inbounds E [x] = r.inbound E x := rfl

/-- A proof message whose entry is the only one in the cache, followed by as many other
proof messages with distinct hashes as the cache holds, is posted and broadcast once more
when it arrives again. -/
theorem evicted_arrival (E : Env) (r : Router) (x : WorkProofMsg) (others : List WorkProofMsg)
    (v : Int) (hc : r.handleKnownProof = [(x.Hash E, v)])
    (hn : (others.map (fun m => m.Hash E)).Nodup)
    (hnot : x.Hash E ∉ others.map (fun m => m.Hash E))
    (hlen : others.length = routCacheSize) :
    (r.inbounds E (others.map RoutMsg.proof ++ [RoutMsg.proof x])).posted.count (RoutMsg.proof x)
        = r.posted.count (RoutMsg.proof x) + 1
      ∧ (r.inbounds E (others.map RoutMsg.proof ++ [RoutMsg.proof x])).routed.count
          (RoutMsg.proof x) = r.routed.count (RoutMsg.proof x) + 1 := by
  have habs : RoutMsg.proof x ∉ others.map RoutMsg.proof := by
    intro hm
    obtain ⟨m, hm1, he⟩ := List.mem_map.1 hm
    cases he
    exact hnot (List.mem_map_of_mem (fun m => m.Hash E) hm1)
  have hevict : mapLoad ((r.inbounds E (others.map RoutMsg.proof)).cacheOf (RoutMsg.proof x))
      ((RoutMsg.proof x).Hash E) = none := by
    show mapLoad (r.inbounds E (others.map RoutMsg.proof)).handleKnownProof (x.Hash E) = none
    rw [inbounds_proofs_cache, hc]
    exact foldl_knownStep_evicts _ (x.Hash E) v hn hnot (by rw [List.length_map]; exact hlen)
  obtain ⟨c1, c2⟩ := inbounds_count_absent E (RoutMsg.proof x) (others.map RoutMsg.proof) r habs
  obtain ⟨s3, s4⟩ := inbound_fresh E (r.inbounds E (others.map RoutMsg.proof))
    (RoutMsg.proof x) hevict
  rw [inbounds_append, inbounds_singleton, s3, s4, c1, c2]
  exact ⟨rfl, rfl⟩

/-- C8 (counterexample): a proof message arrives three times at a fresh router and is
broadcast three times and posted once; then 100000 other proof messages with distinct
hashes arrive, which evicts its entry from the 100000-entry cache; when it arrives once
more it is posted a second time and broadcast a fourth time. -/
theorem evicted_proof_is_posted_again :
    (demoProofFlood routCacheSize).length = 100000
      ∧ RoutMsg.proof (demoPlainProofMsg 0) ∉ demoProofFlood routCacheSize
      ∧ ((demoProofFlood routCacheSize).map (RoutMsg.Hash demoEnv)).Nodup
      ∧ (newRouter.inbounds demoEnv
          ([RoutMsg.proof (demoPlainProofMsg 0), RoutMsg.proof (demoPlainProofMsg 0),
            RoutMsg.proof (demoPlainProofMsg 0)] ++ demoProofFlood routCacheSize
            ++ [RoutMsg.proof (demoPlainProofMsg 0)])).routed.count
          (RoutMsg.proof (demoPlainProofMsg 0)) = 4
      ∧ (newRouter.inbounds demoEnv
          ([RoutMsg.proof (demoPlainProofMsg 0), RoutMsg.proof (demoPlainProofMsg 0),
            RoutMsg.proof (demoPlainProofMsg 0)] ++ demoProofFlood routCacheSize
            ++ [RoutMsg.proof (demoPlainProofMsg 0)])).posted.count
          (RoutMsg.proof (demoPlainProofMsg 0)) = 2 := by
  have hflood : demoProofFlood routCacheSize
      = ((List.range' 1 routCacheSize).map demoPlainProofMsg).map RoutMsg.proof := by
    unfold demoProofFlood
    rw [List.map_map]
    rfl
  have hhash : ((List.range' 1 routCacheSize).map demoPlainProofMsg).map
      (fun m => m.Hash demoEnv) = (List.range' 1 routCacheSize).map (fun i => i + 1800) := by
    rw [List.map_map]
    apply List.map_congr_left
    intro i _
    exact demoPlainProofMsg_hash i
  have hnd : ((List.range' 1 routCacheSize).map (fun i => i + 1800)).Nodup :=
    (List.nodup_range' 1 routCacheSize).map (fun a b hab => by simpa using hab)
  have hkey : (demoPlainProofMsg 0).Hash demoEnv = 1800 := demoPlainProofMsg_hash 0
  have hnot : (demoPlainProofMsg 0).Hash demoEnv
      ∉ (List.range' 1 routCacheSize).map (fun i => i + 1800) := by
    rw [hkey]
    intro hm
    obtain ⟨i, hi, he⟩ := List.mem_map.1 hm
    have h1 := (List.mem_range'_1.1 hi).1
    have h2 : i + 1800 = 1800 := he
    omega
  have hlen : ((List.range' 1 routCacheSize).map demoPlainProofMsg).length = routCacheSize := by
    rw [List.length_map, List.length_range']
  have hfl : (demoProofFlood routCacheSize).length = routCacheSize := by
    rw [hflood, List.length_map]
    exact hlen
  have h3 : (newRouter.inbounds demoEnv
      [RoutMsg.proof (demoPlainProofMsg 0), RoutMsg.proof (demoPlainProofMsg 0),
        RoutMsg.proof (demoPlainProofMsg 0)]).handleKnownProof
        = [((demoPlainProofMsg 0).Hash demoEnv, 0)]
      ∧ (newRouter.inbounds demoEnv
      [RoutMsg.proof (demoPlainProofMsg 0), RoutMsg.proof (demoPlainProofMsg 0),
        RoutMsg.proof (demoPlainProofMsg 0)]).posted.count (RoutMsg.proof (demoPlainProofMsg 0))
        = 1
      ∧ (newRouter.inbounds demoEnv
      [RoutMsg.proof (demoPlainProofMsg 0), RoutMsg.proof (demoPlainProofMsg 0),
        RoutMsg.proof (demoPlainProofMsg 0)]).routed.count (RoutMsg.proof (demoPlainProofMsg 0))
        = 3 := by
    decide
  obtain ⟨e1, e2⟩ := evicted_arrival demoEnv (newRouter.inbounds demoEnv
      [RoutMsg.proof (demoPlainProofMsg 0), RoutMsg.proof (demoPlainProofMsg 0),
        RoutMsg.proof (demoPlainProofMsg 0)]) (demoPlainProofMsg 0)
    ((List.range' 1 routCacheSize).map demoPlainProofMsg) 0 h3.1
    (by rw [hhash]; exact hnd) (by rw [hhash]; exact hnot) hlen
  rw [h3.2.1] at e1
  rw [h3.2.2] at e2
  refine ⟨hfl.trans rfl, ?_, ?_, ?_, ?_⟩
  · rw [hflood]
    intro hm
    obtain ⟨m, hm1, he⟩ := List.mem_map.1 hm
    cases he
    have := List.mem_map_of_mem (fun m => m.Hash demoEnv) hm1
    rw [hhash] at this
    exact hnot this
  · rw [hflood, List.map_map]
    have : (RoutMsg.Hash demoEnv ∘ RoutMsg.proof) = fun m => m.Hash demoEnv := rfl
    rw [this, hhash]
    exact hnd
  · rw [List.append_assoc, inbounds_append, hflood]
    exact e2
  · rw [List.append_assoc, inbounds_append, hflood]
    exact e1

end Sphinx
